import Mathlib

/-!
# Cellular homology resolvers of `NCellularData`

A shallow embedding of `engine/algebra/ncellulardata.cpp`: the locator-keyed
caches and the four resolvers `unmarkedGroup`, `markedGroup`, `homGroup` and
`bilinearForm`.

Conventions of the embedding.

* `unsigned long` values are natural numbers; where the source adds or
  subtracts them the arithmetic is reduced modulo `2 ^ 64`.
* A `std::vector` is a list; reading past its end is undefined behaviour in
  the source and is the fault `Fault.outOfRange` here.  Dereferencing a null
  pointer is the fault `Fault.nullDeref`.
* A pointer result is an `Option`: `none` is `NULL`.
* A `std::map` is an association list with the semantics of `find` and of
  `insert` (which never overwrites a key that is present).
* The caches are `mutable through const_cast` members of the object; they are
  threaded explicitly as a `Caches` value, the rest of the object
  (`NCellularData`) is read only.
* The integer linear algebra library (Smith normal form) and the
  triangulation are external: objects built by the library are recorded by the
  constructor and arguments that built them, and the queries that need the
  library or the triangulation are fields of `NCellularData`.
-/

namespace Regina

/-! ## Locators -/

/-- Modelled from the spec: the enum `homology_coordinate_system` of the header
`ncellulardata.h`, which is not among the sources; its nine values. -/
inductive homology_coordinate_system where
  | DUAL_coord | STD_coord | MIX_coord | STD_BDRY_coord | STD_REL_BDRY_coord
  | DUAL_BDRY_coord | DUAL_REL_BDRY_coord | MIX_BDRY_coord | MIX_REL_BDRY_coord
  deriving DecidableEq, Repr

/-- Modelled from the spec: the enum `variance_type` of the header: covariant
(homology) or contravariant (cohomology). -/
inductive variance_type where
  | coVariant | contraVariant
  deriving DecidableEq, Repr

/-- Modelled from the spec: the enum `form_type` of the header: the four kinds
of bilinear form, with the names the source uses. -/
inductive form_type where
  | intersectionForm | torsionlinkingForm | evaluationForm | cupproductForm
  deriving DecidableEq, Repr

open homology_coordinate_system variance_type form_type

/-- Modelled from the spec: the struct `GroupLocator` of the header: dimension
(`unsigned long`), variance, coordinate system and coefficient modulus
(`unsigned long`, 0 for the integers).  Two locators are the same key of a
cache exactly when their four fields agree. -/
structure GroupLocator where
  dim : Nat
  var : variance_type
  hcs : homology_coordinate_system
  cof : Nat
  deriving DecidableEq, Repr

/-- Modelled from the spec: the struct `HomLocator` of the header: the locators
of domain and range. -/
structure HomLocator where
  domain : GroupLocator
  range : GroupLocator
  deriving DecidableEq, Repr

/-- Modelled from the spec: the struct `FormLocator` of the header: the form
type and the locators of the left and right domain. -/
structure FormLocator where
  ft : form_type
  ldomain : GroupLocator
  rdomain : GroupLocator
  deriving DecidableEq, Repr

/-- The modulus of `unsigned long` arithmetic, `2 ^ 64`. -/
def ulongMod : Nat := 18446744073709551616

/-- Addition of `unsigned long` values. -/
def uadd (a b : Nat) : Nat := (a + b) % ulongMod

/-- Subtraction of `unsigned long` values. -/
def usub (a b : Nat) : Nat := (a + ulongMod - b % ulongMod) % ulongMod

/-! ## Integer matrices -/

/-- Modelled from the spec: the integer matrix class `NMatrixInt` of the
library: its dimensions and its entries, row by row. -/
structure NMatrixInt where
  rows : Nat
  columns : Nat
  data : List (List Int)
  deriving DecidableEq, Repr

namespace NMatrixInt

/-- The entry in row `i` and column `j`. -/
def entry (m : NMatrixInt) (i j : Nat) : Int := (m.data.getD i []).getD j 0

/-- A matrix of the given size filled entry by entry, as by the loops
`for i < rows() for j < columns() entry(i,j) = f i j`. -/
def fill (r c : Nat) (f : Nat → Nat → Int) : NMatrixInt :=
  ⟨r, c, (List.range r).map fun i => (List.range c).map fun j => f i j⟩

/-- Modelled from the spec: the constructor `NMatrixInt(r, c)` of the library:
every entry is zero. -/
def zero (r c : Nat) : NMatrixInt := fill r c fun _ _ => 0

/-- Modelled from the spec: `makeIdentity()` of the library, which makes a
matrix of any size identity-shaped: one on the diagonal and zero elsewhere. -/
def makeIdentity (m : NMatrixInt) : NMatrixInt :=
  fill m.rows m.columns fun i j => if i = j then 1 else 0

/-- The transposing loops of the source: a new matrix of size
`columns() x rows()` whose entry `(i, j)` is the entry `(j, i)` of `m`. -/
def transposed (m : NMatrixInt) : NMatrixInt :=
  fill m.columns m.rows fun i j => m.entry j i

end NMatrixInt

/-! ## Objects built by the algebra library -/

/-- Modelled from the spec: an `NAbelianGroup` of the library, an opaque object
recorded by the arguments of its constructor:
`NAbelianGroup(M, N)` or `NAbelianGroup(M, N, p)`. -/
structure NAbelianGroup where
  M : NMatrixInt
  N : NMatrixInt
  cof : Option Nat
  deriving DecidableEq, Repr

/-- Modelled from the spec: an `NMarkedAbelianGroup` of the library, an opaque
object recorded by the constructor that built it:
`NMarkedAbelianGroup(M, N)`, `NMarkedAbelianGroup(M, N, p)` or
`NMarkedAbelianGroup(rk, p)`. -/
inductive NMarkedAbelianGroup where
  | ofMatrices (M N : NMatrixInt) (cof : Option Nat)
  | ofRank (rk : Nat) (p : Int)
  deriving DecidableEq, Repr

/-- Modelled from the spec: `getRankCC()` of the algebra library, the rank of
the chain complex in the dimension of the group, that is the number of columns
of the first defining matrix (`rk` for the group `Z_p ^ rk`). -/
def NMarkedAbelianGroup.getRankCC : NMarkedAbelianGroup → Nat
  | .ofMatrices M _ _ => M.columns
  | .ofRank rk _ => rk

/-- Modelled from the spec: an `NHomMarkedAbelianGroup` of the library, an
opaque object recorded by the way it was built: the
constructor from domain, range and chain matrix, the product of two
homomorphisms, or `inverseHom()`. -/
inductive NHomMarkedAbelianGroup where
  | ofMatrix (dom ran : NMarkedAbelianGroup) (mat : NMatrixInt)
  | comp (f g : NHomMarkedAbelianGroup)
  | inverseHom (f : NHomMarkedAbelianGroup)
  deriving DecidableEq, Repr

namespace NHomMarkedAbelianGroup

/-- Modelled from the spec: domain and range of a homomorphism of the library,
`(getDomain(), getRange())`. -/
def ends : NHomMarkedAbelianGroup → NMarkedAbelianGroup × NMarkedAbelianGroup
  | .ofMatrix dom ran _ => (dom, ran)
  | .comp f g => ((ends g).1, (ends f).2)
  | .inverseHom f => ((ends f).2, (ends f).1)

/-- The domain `getDomain()`. -/
def getDomain (f : NHomMarkedAbelianGroup) : NMarkedAbelianGroup := (ends f).1

/-- The range `getRange()`. -/
def getRange (f : NHomMarkedAbelianGroup) : NMarkedAbelianGroup := (ends f).2

end NHomMarkedAbelianGroup

/-! ## Maps keyed by locators -/

/-- The member `find` of `std::map`: the value bound to `k`, if any. -/
def mapFind {K V : Type} [DecidableEq K] : List (K × V) → K → Option V
  | [], _ => none
  | (k0, v) :: rest, k => if k0 = k then some v else mapFind rest k

/-- The member `insert` of `std::map`: binds `k` to `v` unless `k` is already
bound, in which case the map is left as it is. -/
def mapInsert {K V : Type} [DecidableEq K] (m : List (K × V)) (k : K) (v : V) :
    List (K × V) :=
  match mapFind m k with
  | some _ => m
  | none => (k, v) :: m

/-- Modelled from the spec: the sparse rank 3 tensor
`NSparseGridRing<NLargeInteger>` of the library: the entries that were set,
keyed by their multi-index. -/
structure NSparseGridRing where
  grid : List (List Nat × Int)
  deriving DecidableEq, Repr

/-- Modelled from the spec: the member `setEntry` of the sparse tensor, which
binds the multi-index to the value, replacing an earlier value at the same
multi-index. -/
def NSparseGridRing.setEntry (g : NSparseGridRing) (x : List Nat) (v : Int) :
    NSparseGridRing :=
  ⟨(x, v) :: g.grid.filter fun e => decide (e.1 ≠ x)⟩

/-- Modelled from the spec: an `NBilinearForm` of the library, an opaque object
recorded by the way it was built: the constructor from
the two domains, the range and the tensor, or `lCompose` / `rCompose` with a
homomorphism. -/
inductive NBilinearForm where
  | ofTensor (lDom rDom rAng : NMarkedAbelianGroup) (intM : NSparseGridRing)
  | lCompose (b : NBilinearForm) (f : NHomMarkedAbelianGroup)
  | rCompose (b : NBilinearForm) (f : NHomMarkedAbelianGroup)
  deriving DecidableEq, Repr

/-! ## The object and its caches -/

/-- Modelled from the spec: the four memoising maps of `NCellularData`
(declared in the header), by the names the source uses. -/
structure Caches where
  abelianGroups : List (GroupLocator × NAbelianGroup)
  markedAbelianGroups : List (GroupLocator × NMarkedAbelianGroup)
  homMarkedAbelianGroups : List (HomLocator × NHomMarkedAbelianGroup)
  bilinearForms : List (FormLocator × NBilinearForm)
  deriving DecidableEq, Repr

/-- The caches of a freshly constructed object. -/
def Caches.empty : Caches := ⟨[], [], [], []⟩

/-- The ways in which the source leaves defined behaviour. -/
inductive Fault where
  | outOfRange
  | nullDeref
  | outOfFuel
  deriving DecidableEq, Repr

/-- What a call does: it returns a value and leaves the caches in a new state,
or it runs into a fault. -/
inductive Outcome (α : Type) where
  | ok (value : α) (caches : Caches)
  | fault (f : Fault)
  deriving DecidableEq, Repr

/-- A computation that reads and updates the caches. -/
def Eval (α : Type) : Type := Caches → Outcome α

/-- Sequencing of two computations; a fault ends the computation. -/
def Eval.bind {α β : Type} (m : Eval α) (f : α → Eval β) : Eval β := fun c =>
  match m c with
  | .ok a c1 => f a c1
  | .fault e => .fault e

instance : Monad Eval where
  pure a := fun c => .ok a c
  bind m f := Eval.bind m f

/-- The read `v[i]` of a `std::vector`. -/
def vecAt {α : Type} (v : List α) (i : Nat) : Eval α := fun c =>
  match v[i]? with
  | some x => .ok x c
  | none => .fault .outOfRange

/-- The dereference `p->` of a pointer. -/
def deref {α : Type} (p : Option α) : Eval α := fun c =>
  match p with
  | some x => .ok x c
  | none => .fault .nullDeref

/-- Modelled from the spec: the triangulation behind the object, of a 3- or a
4-manifold: exactly one of the members `tri3` and `tri4` is set, and the
triangulation answers `isOrientable()`. -/
inductive Triangulation where
  | tri3 (isOrientable : Bool)
  | tri4 (isOrientable : Bool)
  deriving DecidableEq, Repr

/-- Modelled from the spec: the members of `NCellularData` that the resolvers
read (the class is declared in the header): the
triangulation, the chain complexes and chain maps made by the constructor, the
cell counts, the external routine `correctRelOrMat` (declared in the source,
defined with the constructor), which rewrites a matrix in place, and the
queries that `bilinearForm` puts to the triangulation and to the algebra
library. -/
structure NCellularData where
  tri : Triangulation
  dCC : List NMatrixInt
  sCC : List NMatrixInt
  mCC : List NMatrixInt
  sbCC : List NMatrixInt
  srCC : List NMatrixInt
  smCM : List NMatrixInt
  dmCM : List NMatrixInt
  sbiCM : List NMatrixInt
  strCM : List NMatrixInt
  schCM : List NMatrixInt
  numRelativeCells : Nat → Nat
  numDualCells : Nat → Nat
  correctRelOrMat : NMatrixInt → Nat → NMatrixInt
  /-- The entries `(x, value)` that the loop over the relative cells sets in
  the intersection tensor for the dimension pair `(ldomain.dim, rdomain.dim)`,
  in the order in which the loop sets them. -/
  intersectionCells : Nat → Nat → List (List Nat × Int)
  /-- The sign `facinc.sign() * orientation()` read at the face `getFace(rIx[2][i])`. -/
  faceSign : Nat → Int
  /-- The sign `tetinc.sign() * orientation()` read at `getTetrahedron(rIx[1][i])`. -/
  tetSign : Nat → Int
  /-- The library query `getNumberOfInvariantFactors()`. -/
  getNumberOfInvariantFactors : NMarkedAbelianGroup → Nat
  /-- The library query `getInvariantFactor(i)`. -/
  getInvariantFactor : NMarkedAbelianGroup → Nat → Int
  /-- The library query `getTorsionRep(i)`. -/
  getTorsionRep : NMarkedAbelianGroup → Nat → List Int
  /-- The library query `writeAsBoundary(v)`. -/
  writeAsBoundary : NMarkedAbelianGroup → List Int → List Int
  /-- The library query `isTrivial()`. -/
  isTrivial : NMarkedAbelianGroup → Bool
  /-- The library query `snfRep(cycleProjection(j))`. -/
  snfRepCycleProjection : NMarkedAbelianGroup → Nat → List Int

/-- The ambient dimension `aDim = tri3 ? 3 : 4`. -/
def NCellularData.aDim (D : NCellularData) : Nat :=
  match D.tri with
  | .tri3 _ => 3
  | .tri4 _ => 4

/-- The flag `orientable` of the source: `isOrientable()` of the triangulation
that is set. -/
def NCellularData.orientable (D : NCellularData) : Bool :=
  match D.tri with
  | .tri3 o => o
  | .tri4 o => o

/-! ## The group resolvers -/

/-- The resolver `NCellularData::unmarkedGroup`. -/
def unmarkedGroup (D : NCellularData) (g_desc : GroupLocator) :
    Eval (Option NAbelianGroup) := fun c =>
  match mapFind c.abelianGroups g_desc with
  | some p => .ok (some p) c
  | none =>
    let CC : List NMatrixInt :=
      if g_desc.hcs = DUAL_coord then D.dCC else if g_desc.hcs = STD_coord then D.sCC else
      if g_desc.hcs = MIX_coord then D.mCC else if g_desc.hcs = STD_BDRY_coord then D.sbCC else
      if g_desc.hcs = STD_REL_BDRY_coord then D.srCC else []
    match CC[g_desc.dim]?, CC[uadd g_desc.dim 1]? with
    | some A, some B =>
      if g_desc.var = coVariant then
        let gptr : NAbelianGroup :=
          if g_desc.cof = 0 then ⟨A, B, none⟩ else ⟨A, B, some g_desc.cof⟩
        .ok (some gptr) { c with abelianGroups := mapInsert c.abelianGroups g_desc gptr }
      else
        let dCCN := A.transposed
        let dCCM := B.transposed
        let gptr : NAbelianGroup :=
          if g_desc.cof = 0 then ⟨dCCM, dCCN, none⟩ else ⟨dCCM, dCCN, some g_desc.cof⟩
        .ok (some gptr) { c with abelianGroups := mapInsert c.abelianGroups g_desc gptr }
    | _, _ => .fault .outOfRange

/-- The resolver `NCellularData::markedGroup`. -/
def markedGroup (D : NCellularData) (g_desc : GroupLocator) :
    Eval (Option NMarkedAbelianGroup) := fun c =>
  match mapFind c.markedAbelianGroups g_desc with
  | some p => .ok (some p) c
  | none =>
    let CC : List NMatrixInt :=
      if g_desc.hcs = DUAL_coord then D.dCC else if g_desc.hcs = STD_coord then D.sCC else
      if g_desc.hcs = MIX_coord then D.mCC else if g_desc.hcs = STD_BDRY_coord then D.sbCC else
      if g_desc.hcs = STD_REL_BDRY_coord then D.srCC else []
    match CC[g_desc.dim]?, CC[uadd g_desc.dim 1]? with
    | some A, some B =>
      if g_desc.var = coVariant then
        let mgptr : NMarkedAbelianGroup :=
          if g_desc.cof = 0 then .ofMatrices A B none else .ofMatrices A B (some g_desc.cof)
        .ok (some mgptr)
          { c with markedAbelianGroups := mapInsert c.markedAbelianGroups g_desc mgptr }
      else
        let dCCN := A.transposed
        let dCCM := B.transposed
        let mgptr : NMarkedAbelianGroup :=
          if g_desc.cof = 0 then .ofMatrices dCCM dCCN none
          else .ofMatrices dCCM dCCN (some g_desc.cof)
        .ok (some mgptr)
          { c with markedAbelianGroups := mapInsert c.markedAbelianGroups g_desc mgptr }
    | _, _ => .fault .outOfRange

/-! ## The homomorphism resolver -/

/-- The update of the hom cache:
`homMarkedAbelianGroups.insert(pair(h_desc, hmgptr))`. -/
def insertHom (h_desc : HomLocator) (hmgptr : NHomMarkedAbelianGroup) : Eval Unit := fun c =>
  .ok () { c with
    homMarkedAbelianGroups := mapInsert c.homMarkedAbelianGroups h_desc hmgptr }

/-- The chain matrix of a Poincare duality request, the same three statements
in both duality blocks of `homGroup`: `CM = new NMatrixInt(numRelativeCells[
range.dim], numDualCells[domain.dim])`, `CM->makeIdentity()`, and
`correctRelOrMat(*CM, domain.dim, ...)` if the manifold is orientable. -/
def dualityMatrix (D : NCellularData) (h_desc : HomLocator) : NMatrixInt :=
  let CM := (NMatrixInt.zero (D.numRelativeCells h_desc.range.dim)
    (D.numDualCells h_desc.domain.dim)).makeIdentity
  if D.orientable = true then D.correctRelOrMat CM h_desc.domain.dim else CM

/-- The part of `NCellularData::homGroup` that chooses the chain map `CM`
(from `NMatrixInt* CM(NULL)` to the end of the variance-reversing block).  The
successive `if` statements of the source each may overwrite `CM`; they are
the successive values `CM1`, `CM2`, `CM3` here.  The `return NULL` in the
variance-reversing block leaves with `CM` unset, as `none`: with `CM` unset
the rest of the function touches nothing and returns `NULL` as well. -/
def homGroup_chainMap (D : NCellularData) (h_desc : HomLocator) :
    Eval (Option NMatrixInt) :=
  if h_desc.domain.var = h_desc.range.var then do
    -- a pure change-of-coefficients map
    let CM1 : Option NMatrixInt ←
      (if h_desc.domain.dim = h_desc.range.dim ∧ h_desc.domain.hcs = h_desc.range.hcs then do
        let G ← deref (← markedGroup D h_desc.domain)
        pure (some (NMatrixInt.zero G.getRankCC G.getRankCC).makeIdentity)
      else pure none)
    -- a subdivision-induced map, covariant
    let CM2 : Option NMatrixInt ←
      (if (h_desc.domain.hcs = STD_coord ∨ h_desc.domain.hcs = DUAL_coord) ∧
          h_desc.domain.var = coVariant ∧ h_desc.range.hcs = MIX_coord then do
        let m ← (if h_desc.domain.hcs = STD_coord then vecAt D.smCM h_desc.domain.dim
                else vecAt D.dmCM h_desc.domain.dim)
        pure (some m)
      else pure CM1)
    -- a subdivision-induced map, contravariant
    let CM3 : Option NMatrixInt ←
      (if (h_desc.range.hcs = STD_coord ∨ h_desc.range.hcs = DUAL_coord) ∧
          h_desc.domain.var = contraVariant ∧ h_desc.domain.hcs = MIX_coord then do
        let tCMp ← (if h_desc.range.hcs = STD_coord then vecAt D.smCM h_desc.domain.dim
                   else vecAt D.dmCM h_desc.domain.dim)
        pure (some tCMp.transposed)
      else pure CM2)
    -- a map of the long exact sequence of the pair (M, boundary of M)
    if h_desc.domain.var = coVariant then
      if h_desc.domain.hcs = STD_BDRY_coord ∧ h_desc.range.hcs = STD_coord ∧
          h_desc.domain.dim = h_desc.range.dim ∧ h_desc.domain.dim < D.aDim then do
        let m ← vecAt D.sbiCM h_desc.domain.dim
        pure (some m)
      else if h_desc.domain.hcs = STD_coord ∧ h_desc.range.hcs = STD_REL_BDRY_coord ∧
          h_desc.domain.dim = h_desc.range.dim then do
        let m ← vecAt D.strCM h_desc.domain.dim
        pure (some m)
      else if h_desc.domain.hcs = STD_REL_BDRY_coord ∧ h_desc.range.hcs = STD_BDRY_coord ∧
          h_desc.domain.dim = uadd h_desc.range.dim 1 ∧ h_desc.range.dim < D.aDim then do
        let m ← vecAt D.schCM h_desc.range.dim
        pure (some m)
      else pure CM3
    else
      if h_desc.domain.hcs = STD_coord ∧ h_desc.range.hcs = STD_BDRY_coord ∧
          h_desc.domain.dim = h_desc.range.dim ∧ h_desc.range.dim < D.aDim then do
        let m ← vecAt D.sbiCM h_desc.domain.dim
        pure (some m.transposed)
      else if h_desc.domain.hcs = STD_REL_BDRY_coord ∧ h_desc.range.hcs = STD_coord ∧
          h_desc.domain.dim = h_desc.range.dim then do
        let m ← vecAt D.strCM h_desc.domain.dim
        pure (some m.transposed)
      else if h_desc.domain.hcs = STD_BDRY_coord ∧ h_desc.range.hcs = STD_REL_BDRY_coord ∧
          uadd h_desc.domain.dim 1 = h_desc.range.dim ∧ h_desc.domain.dim < D.aDim then do
        let m ← vecAt D.schCM h_desc.domain.dim
        pure (some m.transposed)
      else pure CM3
  else
    -- a variance-reversing map
    if D.orientable = false ∧ h_desc.domain.cof ≠ 2 ∧ h_desc.range.cof ≠ 2 then pure none
    else if h_desc.domain.var = coVariant ∧ h_desc.domain.hcs = DUAL_coord ∧
        h_desc.range.hcs = STD_REL_BDRY_coord ∧
        uadd h_desc.domain.dim h_desc.range.dim = D.aDim then
      pure (some (dualityMatrix D h_desc))
    else if h_desc.domain.var = contraVariant ∧ h_desc.domain.hcs = DUAL_coord ∧
        h_desc.range.hcs = STD_REL_BDRY_coord ∧
        uadd h_desc.domain.dim h_desc.range.dim = D.aDim then
      pure (some (dualityMatrix D h_desc))
    else pure none

/-- The end of `NCellularData::homGroup` (from `NHomMarkedAbelianGroup*
hmgptr(NULL)`): with a chain map at hand, resolve domain and range, build the
homomorphism and cache it. -/
def homGroup_wrap (D : NCellularData) (h_desc : HomLocator) (CM : Option NMatrixInt) :
    Eval (Option NHomMarkedAbelianGroup) :=
  match CM with
  | some CM => do
    let dom ← markedGroup D h_desc.domain
    let ran ← markedGroup D h_desc.range
    match dom, ran with
    | some dom, some ran => do
      let hmgptr := NHomMarkedAbelianGroup.ofMatrix dom ran CM
      insertHom h_desc hmgptr
      pure (some hmgptr)
    | _, _ => pure none
  | none => pure none

/-- The resolver `NCellularData::homGroup`. -/
def homGroup (D : NCellularData) (h_desc : HomLocator) :
    Eval (Option NHomMarkedAbelianGroup) := fun c =>
  match mapFind c.homMarkedAbelianGroups h_desc with
  | some p => .ok (some p) c
  | none =>
    -- out-of-bounds request
    if h_desc.domain.dim > D.aDim ∨ h_desc.range.dim > D.aDim then .ok none c
    -- inappropriate change of coefficients request
    else if h_desc.range.cof ≠ 0 ∧ h_desc.domain.cof % h_desc.range.cof ≠ 0 then .ok none c
    else (homGroup_chainMap D h_desc >>= homGroup_wrap D h_desc) c

/-! ## The bilinear form resolver -/

/-- The update of the forms cache: `bilinearForms.insert(pair(f_desc, bfptr))`. -/
def insertForm (f_desc : FormLocator) (bfptr : NBilinearForm) : Eval Unit := fun c =>
  .ok () { c with bilinearForms := mapInsert c.bilinearForms f_desc bfptr }

/-- A computation that does not touch the caches and may read a vector out of
range. -/
def liftRead {α : Type} (r : Option α) : Eval α := fun c =>
  match r with
  | some x => .ok x c
  | none => .fault .outOfRange

/-- The empty tensor `NSparseGridRing<NLargeInteger> intM(3)`. -/
def NSparseGridRing.empty : NSparseGridRing := ⟨[]⟩

/-- A loop of `setEntry` calls, in order. -/
def NSparseGridRing.setEntries (g : NSparseGridRing) (es : List (List Nat × Int)) :
    NSparseGridRing :=
  es.foldl (fun acc e => acc.setEntry e.1 e.2) g

/-- The tensor of the evaluation pairing: `setEntry((i, i, 0), 1)` for every
`i` below `getRankCC()` of the left domain. -/
def evaluationTensor (rankCC : Nat) : NSparseGridRing :=
  NSparseGridRing.empty.setEntries ((List.range rankCC).map fun i => ([i, i, 0], 1))

/-- The tensor of the canonical intersection product: the successive `if`
statements on the dimension pair, each running its loop over the relative
cells (ambient dimension 3, then ambient dimension 4). -/
def intersectionTensor (D : NCellularData) (ldim rdim : Nat) : NSparseGridRing :=
  let intM := NSparseGridRing.empty
  if D.aDim = 3 then
    let intM := if ldim = 2 ∧ rdim = 2 then intM.setEntries (D.intersectionCells 2 2) else intM
    let intM := if ldim = 2 ∧ rdim = 1 then intM.setEntries (D.intersectionCells 2 1) else intM
    let intM := if ldim = 1 ∧ rdim = 2 then intM.setEntries (D.intersectionCells 1 2) else intM
    intM
  else
    let intM := if ldim = 2 ∧ rdim = 2 then intM.setEntries (D.intersectionCells 2 2) else intM
    let intM := if ldim = 1 ∧ rdim = 3 then intM.setEntries (D.intersectionCells 1 3) else intM
    let intM := if ldim = 3 ∧ rdim = 1 then intM.setEntries (D.intersectionCells 3 1) else intM
    let intM := if ldim = 2 ∧ rdim = 3 then intM.setEntries (D.intersectionCells 2 3) else intM
    let intM := if ldim = 3 ∧ rdim = 2 then intM.setEntries (D.intersectionCells 3 2) else intM
    let intM := if ldim = 3 ∧ rdim = 3 then intM.setEntries (D.intersectionCells 3 3) else intM
    intM

/-- The diagonal presentation matrix of the torsion subgroup: `presL(n, n)`
with `presL.entry(i, i) = getInvariantFactor(i)`. -/
def torsionPresentation (D : NCellularData) (G : NMarkedAbelianGroup) : NMatrixInt :=
  let n := D.getNumberOfInvariantFactors G
  NMatrixInt.fill n n fun i j => if i = j then D.getInvariantFactor G i else 0

/-- The modulus `N` of the range of the torsion linking form. -/
def linkingModulus (D : NCellularData) (ld rd ldomain rdomain : NMarkedAbelianGroup) : Int :=
  if D.isTrivial ldomain = false ∧ D.isTrivial rdomain = false then
    Int.gcd (D.getInvariantFactor ld (usub (D.getNumberOfInvariantFactors ld) 1))
      (D.getInvariantFactor rd (usub (D.getNumberOfInvariantFactors rd) 1))
  else 1

/-- The body of the loops over `(i, j)` of the torsion linking form: the value
`sum` after rescaling and reduction, where `sign` is the orientation sign that
the body reads from the triangulation.  It is `none` when a vector is read out
of range. -/
def linkingNumber (D : NCellularData) (ld rd : NMarkedAbelianGroup) (N sign : Int)
    (i j : Nat) : Option Int := do
  let rFac := (D.getTorsionRep rd j).map fun x => x * D.getInvariantFactor rd j
  let std_rel_bdry_2vec := D.writeAsBoundary rd rFac
  let dual_1vec := D.getTorsionRep ld i
  let sum ← (List.range dual_1vec.length).foldlM (fun (sum : Int) k => do
      let a ← std_rel_bdry_2vec[k]?
      let b ← dual_1vec[k]?
      pure (sum + a * b * sign)) 0
  let sum := sum * Int.tdiv N (D.getInvariantFactor rd j)
  let sum := Int.tmod sum N
  pure (if sum < 0 then sum + N else sum)

/-- The loops over `(i, j)` of the torsion linking form, with the sign read at
index `i` by `signAt`: a value that is not zero is set at `(i, j, 0)`. -/
def linkingLoops (D : NCellularData) (ld rd : NMarkedAbelianGroup) (N : Int)
    (signAt : Nat → Int) (intM : NSparseGridRing) : Option NSparseGridRing :=
  (List.range (D.getNumberOfInvariantFactors ld)).foldlM (fun acc i =>
    (List.range (D.getNumberOfInvariantFactors rd)).foldlM (fun acc j => do
      let sum ← linkingNumber D ld rd N (signAt i) i j
      pure (if sum ≠ 0 then acc.setEntry [i, j, 0] sum else acc)) acc) intM

/-- The tensor of the canonical torsion linking form: the three successive
`if` statements on the ambient dimension and the left dimension. -/
def linkingTensor (D : NCellularData) (ld rd : NMarkedAbelianGroup) (N : Int) (ldim : Nat) :
    Option NSparseGridRing := do
  let intM := NSparseGridRing.empty
  let intM ← if D.aDim = 3 then linkingLoops D ld rd N D.faceSign intM else pure intM
  let intM ← if D.aDim = 4 ∧ ldim = 2 then linkingLoops D ld rd N D.faceSign intM else pure intM
  let intM ← if D.aDim = 4 ∧ ldim = 1 then linkingLoops D ld rd N D.tetSign intM else pure intM
  pure intM

/-- The matrix `rMap` of the inclusion of the torsion subgroup: column `j` is
`getTorsionRep(j)`. -/
def torsionInclusionMatrix (D : NCellularData) (G : NMarkedAbelianGroup) : Option NMatrixInt := do
  let r := G.getRankCC
  let n := D.getNumberOfInvariantFactors G
  let cols ← (List.range n).mapM fun j =>
    (List.range r).mapM fun i => (D.getTorsionRep G j)[i]?
  pure (NMatrixInt.fill r n fun i j => (cols.getD j []).getD i 0)

/-- The matrix `lMap` of the projection onto the torsion subgroup: column `j`
holds the first entries of `snfRep(cycleProjection(j))`. -/
def torsionProjectionMatrix (D : NCellularData) (G : NMarkedAbelianGroup) : Option NMatrixInt := do
  let n := D.getNumberOfInvariantFactors G
  let r := G.getRankCC
  let cols ← (List.range r).mapM fun j =>
    (List.range n).mapM fun i => (D.snfRepCycleProjection G j)[i]?
  pure (NMatrixInt.fill n r fun i j => (cols.getD j []).getD i 0)

/-- The guard shared by the intersection product cases: both covariant,
`dim_l + dim_r >= aDim`, `(dim_l + dim_r) - aDim < aDim - 1`, both dimensions
positive, equal coefficients. -/
def intersectionGuard (D : NCellularData) (f_desc : FormLocator) : Prop :=
  f_desc.ft = intersectionForm ∧
  f_desc.ldomain.var = coVariant ∧ f_desc.rdomain.var = coVariant ∧
  uadd f_desc.ldomain.dim f_desc.rdomain.dim ≥ D.aDim ∧
  usub (uadd f_desc.ldomain.dim f_desc.rdomain.dim) D.aDim < usub D.aDim 1 ∧
  f_desc.ldomain.dim > 0 ∧ f_desc.rdomain.dim > 0 ∧
  f_desc.ldomain.cof = f_desc.rdomain.cof

instance (D : NCellularData) (f_desc : FormLocator) : Decidable (intersectionGuard D f_desc) := by
  unfold intersectionGuard; infer_instance

/-- The guard shared by the torsion linking form cases: both covariant,
`dim_l + dim_r + 1 == aDim`, both dimensions positive, integer coefficients. -/
def linkingGuard (D : NCellularData) (f_desc : FormLocator) : Prop :=
  f_desc.ft = torsionlinkingForm ∧
  f_desc.ldomain.var = coVariant ∧ f_desc.rdomain.var = coVariant ∧
  uadd (uadd f_desc.ldomain.dim f_desc.rdomain.dim) 1 = D.aDim ∧
  f_desc.ldomain.dim > 0 ∧ f_desc.rdomain.dim > 0 ∧
  f_desc.ldomain.cof = 0 ∧ f_desc.rdomain.cof = 0

instance (D : NCellularData) (f_desc : FormLocator) : Decidable (linkingGuard D f_desc) := by
  unfold linkingGuard; infer_instance

/-- The resolver `NCellularData::bilinearForm`, with a bound `fuel` on the
depth of its calls to itself: the convenience cases call `bilinearForm` on the
canonical locator `prim`.  The cases of the source are `if` blocks that each
end in `return`; they are the branches of one chain here.  The ambient
dimension is 3 or 4, so that the block `if (aDim == 4)` of the canonical
intersection product is the alternative of the block `if (aDim == 3)`. -/
def bilinearFormFuel : Nat → NCellularData → FormLocator → Eval (Option NBilinearForm)
  | 0, _, _ => fun _ => .fault .outOfFuel
  | fuel + 1, D, f_desc => fun c =>
    match mapFind c.bilinearForms f_desc with
    | some p => .ok (some p) c
    | none =>
      -- case 1: homology-cohomology pairing
      (if f_desc.ft = evaluationForm ∧ f_desc.ldomain.dim = f_desc.rdomain.dim ∧
          f_desc.ldomain.var ≠ f_desc.rdomain.var ∧ f_desc.ldomain.cof = f_desc.rdomain.cof ∧
          f_desc.ldomain.hcs = f_desc.rdomain.hcs then do
        let lDom ← markedGroup D f_desc.ldomain
        let rDom ← markedGroup D f_desc.rdomain
        let rAng := NMarkedAbelianGroup.ofRank 1 f_desc.rdomain.cof
        let lDom ← deref lDom
        let intM := evaluationTensor lDom.getRankCC
        let rDom ← deref rDom
        let bfptr := NBilinearForm.ofTensor lDom rDom rAng intM
        insertForm f_desc bfptr
        pure (some bfptr)
      -- case 2: intersection products, DUAL x STD_REL_BDRY
      else if intersectionGuard D f_desc ∧ f_desc.ldomain.hcs = DUAL_coord ∧
          f_desc.rdomain.hcs = STD_REL_BDRY_coord then
        if f_desc.ldomain.cof ≠ 2 ∧ D.orientable = false then pure none
        else do
          let lDom ← markedGroup D f_desc.ldomain
          let rDom ← markedGroup D f_desc.rdomain
          let rAng ← markedGroup D
            ⟨usub (uadd f_desc.ldomain.dim f_desc.rdomain.dim) D.aDim, coVariant, MIX_coord,
              f_desc.ldomain.cof⟩
          let intM := intersectionTensor D f_desc.ldomain.dim f_desc.rdomain.dim
          let lDom ← deref lDom
          let rDom ← deref rDom
          let rAng ← deref rAng
          let bfptr := NBilinearForm.ofTensor lDom rDom rAng intM
          insertForm f_desc bfptr
          pure (some bfptr)
      -- convenience intersection product, DUAL x DUAL
      else if intersectionGuard D f_desc ∧ f_desc.ldomain.hcs = DUAL_coord ∧
          f_desc.rdomain.hcs = DUAL_coord then do
        let dc : GroupLocator := ⟨f_desc.rdomain.dim, coVariant, DUAL_coord, f_desc.rdomain.cof⟩
        let mc : GroupLocator := ⟨f_desc.rdomain.dim, coVariant, MIX_coord, f_desc.rdomain.cof⟩
        let sc : GroupLocator := ⟨f_desc.rdomain.dim, coVariant, STD_coord, f_desc.rdomain.cof⟩
        let sb : GroupLocator :=
          ⟨f_desc.rdomain.dim, coVariant, STD_REL_BDRY_coord, f_desc.rdomain.cof⟩
        let sc_sb ← homGroup D ⟨sc, sb⟩
        let sc_mc ← homGroup D ⟨sc, mc⟩
        let dc_mc ← homGroup D ⟨dc, mc⟩
        let sc_sb ← deref sc_sb
        let sc_mc ← deref sc_mc
        let dc_mc ← deref dc_mc
        let f := NHomMarkedAbelianGroup.comp (.comp sc_sb (.inverseHom sc_mc)) dc_mc
        let prim : FormLocator :=
          { f_desc with rdomain := { f_desc.rdomain with hcs := STD_REL_BDRY_coord } }
        let b ← deref (← bilinearFormFuel fuel D prim)
        let bfptr := NBilinearForm.rCompose b f
        insertForm f_desc bfptr
        pure (some bfptr)
      -- convenience intersection product, STD x STD_REL_BDRY
      else if intersectionGuard D f_desc ∧ f_desc.ldomain.hcs = STD_coord ∧
          f_desc.rdomain.hcs = STD_REL_BDRY_coord then do
        let dc : GroupLocator := ⟨f_desc.rdomain.dim, coVariant, DUAL_coord, f_desc.rdomain.cof⟩
        let mc : GroupLocator := ⟨f_desc.rdomain.dim, coVariant, MIX_coord, f_desc.rdomain.cof⟩
        let sc : GroupLocator := ⟨f_desc.rdomain.dim, coVariant, STD_coord, f_desc.rdomain.cof⟩
        let sc_mc ← homGroup D ⟨sc, mc⟩
        let dc_mc ← homGroup D ⟨dc, mc⟩
        let dc_mc ← deref dc_mc
        let sc_mc ← deref sc_mc
        let f := NHomMarkedAbelianGroup.comp (.inverseHom dc_mc) sc_mc
        let prim : FormLocator :=
          { f_desc with ldomain := { f_desc.ldomain with hcs := DUAL_coord } }
        let b ← deref (← bilinearFormFuel fuel D prim)
        let bfptr := NBilinearForm.lCompose b f
        insertForm f_desc bfptr
        pure (some bfptr)
      -- case 3: torsion linking form, DUAL x STD_REL_BDRY
      else if linkingGuard D f_desc ∧ f_desc.ldomain.hcs = DUAL_coord ∧
          f_desc.rdomain.hcs = STD_REL_BDRY_coord then do
        let ldd : GroupLocator :=
          ⟨f_desc.ldomain.dim, f_desc.ldomain.var, f_desc.ldomain.hcs, f_desc.ldomain.cof⟩
        let rdd : GroupLocator :=
          ⟨f_desc.rdomain.dim, f_desc.rdomain.var, f_desc.rdomain.hcs, f_desc.rdomain.cof⟩
        let ld ← markedGroup D ldd
        let rd ← markedGroup D rdd
        let ld ← deref ld
        let rd ← deref rd
        let presL := torsionPresentation D ld
        let presR := torsionPresentation D rd
        let lnull := NMatrixInt.zero 1 (D.getNumberOfInvariantFactors ld)
        let rnull := NMatrixInt.zero 1 (D.getNumberOfInvariantFactors rd)
        let ldomain := NMarkedAbelianGroup.ofMatrices lnull presL none
        let rdomain := NMarkedAbelianGroup.ofMatrices rnull presR none
        let N := linkingModulus D ld rd ldomain rdomain
        let range := NMarkedAbelianGroup.ofRank 1 N
        let intM ← liftRead (linkingTensor D ld rd N f_desc.ldomain.dim)
        let bfptr := NBilinearForm.ofTensor ldomain rdomain range intM
        insertForm f_desc bfptr
        pure (some bfptr)
      -- convenience torsion linking form, DUAL x DUAL
      else if linkingGuard D f_desc ∧ f_desc.ldomain.hcs = DUAL_coord ∧
          f_desc.rdomain.hcs = DUAL_coord then do
        let dc : GroupLocator := ⟨f_desc.rdomain.dim, coVariant, DUAL_coord, f_desc.rdomain.cof⟩
        let mc : GroupLocator := ⟨f_desc.rdomain.dim, coVariant, MIX_coord, f_desc.rdomain.cof⟩
        let sc : GroupLocator := ⟨f_desc.rdomain.dim, coVariant, STD_coord, f_desc.rdomain.cof⟩
        let sb : GroupLocator :=
          ⟨f_desc.rdomain.dim, coVariant, STD_REL_BDRY_coord, f_desc.rdomain.cof⟩
        let sc_sb ← homGroup D ⟨sc, sb⟩
        let sc_mc ← homGroup D ⟨sc, mc⟩
        let dc_mc ← homGroup D ⟨dc, mc⟩
        let dc_mc ← deref dc_mc
        let rnull := NMatrixInt.zero 1 (D.getNumberOfInvariantFactors dc_mc.getDomain)
        let rpres := torsionPresentation D dc_mc.getDomain
        let rtrivG := NMarkedAbelianGroup.ofMatrices rnull rpres none
        let rMap ← liftRead (torsionInclusionMatrix D dc_mc.getDomain)
        let rinc := NHomMarkedAbelianGroup.ofMatrix rtrivG dc_mc.getDomain rMap
        let sc_sb ← deref sc_sb
        let lnull := NMatrixInt.zero 1 (D.getNumberOfInvariantFactors sc_sb.getRange)
        let lpres := torsionPresentation D sc_sb.getRange
        let ltrivG := NMarkedAbelianGroup.ofMatrices lnull lpres none
        let lMap ← liftRead (torsionProjectionMatrix D sc_sb.getRange)
        let lproj := NHomMarkedAbelianGroup.ofMatrix sc_sb.getRange ltrivG lMap
        let sc_mc ← deref sc_mc
        let f := NHomMarkedAbelianGroup.comp
          (.comp (.comp (.comp lproj sc_sb) (.inverseHom sc_mc)) dc_mc) rinc
        let prim : FormLocator :=
          { f_desc with rdomain := { f_desc.rdomain with hcs := STD_REL_BDRY_coord } }
        let b ← deref (← bilinearFormFuel fuel D prim)
        let bfptr := NBilinearForm.rCompose b f
        insertForm f_desc bfptr
        pure (some bfptr)
      -- convenience torsion linking form, STD x STD
      else if linkingGuard D f_desc ∧ f_desc.ldomain.hcs = STD_coord ∧
          f_desc.rdomain.hcs = STD_coord then do
        let dc : GroupLocator := ⟨f_desc.rdomain.dim, coVariant, DUAL_coord, f_desc.rdomain.cof⟩
        let mc : GroupLocator := ⟨f_desc.rdomain.dim, coVariant, MIX_coord, f_desc.rdomain.cof⟩
        let sc : GroupLocator := ⟨f_desc.rdomain.dim, coVariant, STD_coord, f_desc.rdomain.cof⟩
        let sb : GroupLocator :=
          ⟨f_desc.rdomain.dim, coVariant, STD_REL_BDRY_coord, f_desc.rdomain.cof⟩
        let sc_sb ← homGroup D ⟨sc, sb⟩
        let sc_mc ← homGroup D ⟨sc, mc⟩
        let dc_mc ← homGroup D ⟨dc, mc⟩
        let sc_mc ← deref sc_mc
        let dc_mc ← deref dc_mc
        let fl := NHomMarkedAbelianGroup.comp (.inverseHom sc_mc) dc_mc
        let prim : FormLocator :=
          { f_desc with
            ldomain := { f_desc.ldomain with hcs := DUAL_coord }
            rdomain := { f_desc.rdomain with hcs := STD_REL_BDRY_coord } }
        let b ← deref (← bilinearFormFuel fuel D prim)
        let sc_sb ← deref sc_sb
        let bfptr := NBilinearForm.rCompose (.lCompose b fl) sc_sb
        insertForm f_desc bfptr
        pure (some bfptr)
      -- case 4: cup products are not implemented; every other request
      else pure none) c

/-- The resolver `NCellularData::bilinearForm`: a convenience case calls the
resolver on a canonical locator, which does not call it again. -/
def bilinearForm (D : NCellularData) (f_desc : FormLocator) : Eval (Option NBilinearForm) :=
  bilinearFormFuel 2 D f_desc

/-! ## What the claims speak about -/

/-- The chain complex that belongs to a coordinate system the group resolvers
support; the other coordinate systems have none. -/
def chainComplexOf (D : NCellularData) : homology_coordinate_system → Option (List NMatrixInt)
  | DUAL_coord => some D.dCC
  | STD_coord => some D.sCC
  | MIX_coord => some D.mCC
  | STD_BDRY_coord => some D.sbCC
  | STD_REL_BDRY_coord => some D.srCC
  | _ => none

/-- The pair `(CC[dim], CC[dim + 1])` of boundary matrices of a supported
coordinate system, when the chain complex has both (`dim + 1` is an
`unsigned long` sum). -/
def chainPair (D : NCellularData) (hcs : homology_coordinate_system) (dim : Nat) :
    Option (NMatrixInt × NMatrixInt) :=
  match chainComplexOf D hcs with
  | none => none
  | some CC =>
    match CC[dim]?, CC[uadd dim 1]? with
    | some A, some B => some (A, B)
    | _, _ => none

/-- The coefficient argument of a group constructor: the modulus is passed on
exactly when it is not zero. -/
def cofArg (cof : Nat) : Option Nat := if cof = 0 then none else some cof

/-- The matrix pair from which a group is built out of `(A, B) = (CC[dim],
CC[dim + 1])`: the pair itself for homology, the transposes in the opposite
order for cohomology. -/
def groupMatrices (var : variance_type) (A B : NMatrixInt) : NMatrixInt × NMatrixInt :=
  match var with
  | coVariant => (A, B)
  | contraVariant => (B.transposed, A.transposed)

/-- The unmarked group built from `(A, B) = (CC[dim], CC[dim + 1])` for a locator. -/
def builtUnmarked (g : GroupLocator) (A B : NMatrixInt) : NAbelianGroup :=
  ⟨(groupMatrices g.var A B).1, (groupMatrices g.var A B).2, cofArg g.cof⟩

/-- The marked group built from `(A, B) = (CC[dim], CC[dim + 1])` for a locator. -/
def builtMarked (g : GroupLocator) (A B : NMatrixInt) : NMarkedAbelianGroup :=
  .ofMatrices (groupMatrices g.var A B).1 (groupMatrices g.var A B).2 (cofArg g.cof)

/-- A matrix of size `r` by `c` that is one on the diagonal and zero elsewhere. -/
def IsIdentityShaped (m : NMatrixInt) (r c : Nat) : Prop :=
  m.rows = r ∧ m.columns = c ∧ ∀ i j, i < r → j < c → m.entry i j = if i = j then 1 else 0

/-- The matrix `t` is the transpose of `m`: rows and columns are exchanged and
the entry `(i, j)` of `t` is the entry `(j, i)` of `m`. -/
def IsTransposeOf (t m : NMatrixInt) : Prop :=
  t.rows = m.columns ∧ t.columns = m.rows ∧
    ∀ i j, i < m.columns → j < m.rows → t.entry i j = m.entry j i

/-- The subdivision matrix that a variance-preserving request between `STD` or
`DUAL` and `MIX` coordinates stands for, written from the claim: the vector of
matrices, the index into it, and whether the matrix is transposed.  Covariant
`STD -> MIX` is `smCM[domain.dim]`, covariant `DUAL -> MIX` is
`dmCM[domain.dim]`; contravariant `MIX -> STD` and `MIX -> DUAL` are their
transposes. -/
def subdivisionSelect (D : NCellularData) (h : HomLocator) :
    Option (List NMatrixInt × Nat × Bool) :=
  match h.domain.var, h.range.var, h.domain.hcs, h.range.hcs with
  | coVariant, coVariant, STD_coord, MIX_coord => some (D.smCM, h.domain.dim, false)
  | coVariant, coVariant, DUAL_coord, MIX_coord => some (D.dmCM, h.domain.dim, false)
  | contraVariant, contraVariant, MIX_coord, STD_coord => some (D.smCM, h.domain.dim, true)
  | contraVariant, contraVariant, MIX_coord, DUAL_coord => some (D.dmCM, h.domain.dim, true)
  | _, _, _, _ => none

/-- The matrix of the long exact sequence of the pair that a request stands
for, written from the claim: the vector of matrices, the index into it, and
whether the matrix is transposed.  Covariant: `sbiCM[d]` for `STD_BDRY(d) ->
STD(d)` with `d < aDim`, `strCM[d]` for `STD(d) -> STD_REL_BDRY(d)`, `schCM[d]`
for `STD_REL_BDRY(d+1) -> STD_BDRY(d)` with `d < aDim`.  Contravariant: the
transposes of the same matrices for `STD(d) -> STD_BDRY(d)`, `STD_REL_BDRY(d)
-> STD(d)` and `STD_BDRY(d) -> STD_REL_BDRY(d+1)`.  Every other request has
none. -/
def lesSelect (D : NCellularData) (h : HomLocator) : Option (List NMatrixInt × Nat × Bool) :=
  match h.domain.var, h.range.var, h.domain.hcs, h.range.hcs with
  | coVariant, coVariant, STD_BDRY_coord, STD_coord =>
    if h.domain.dim = h.range.dim ∧ h.domain.dim < D.aDim then
      some (D.sbiCM, h.domain.dim, false) else none
  | coVariant, coVariant, STD_coord, STD_REL_BDRY_coord =>
    if h.domain.dim = h.range.dim then some (D.strCM, h.domain.dim, false) else none
  | coVariant, coVariant, STD_REL_BDRY_coord, STD_BDRY_coord =>
    if h.domain.dim = h.range.dim + 1 ∧ h.range.dim < D.aDim then
      some (D.schCM, h.range.dim, false) else none
  | contraVariant, contraVariant, STD_coord, STD_BDRY_coord =>
    if h.domain.dim = h.range.dim ∧ h.domain.dim < D.aDim then
      some (D.sbiCM, h.domain.dim, true) else none
  | contraVariant, contraVariant, STD_REL_BDRY_coord, STD_coord =>
    if h.domain.dim = h.range.dim then some (D.strCM, h.domain.dim, true) else none
  | contraVariant, contraVariant, STD_BDRY_coord, STD_REL_BDRY_coord =>
    if h.domain.dim + 1 = h.range.dim ∧ h.domain.dim < D.aDim then
      some (D.schCM, h.domain.dim, true) else none
  | _, _, _, _ => none

/-- The chain matrix read off a selection: the matrix at the index, transposed
if the selection says so. -/
def selectedMatrix (m : NMatrixInt) (t : Bool) : NMatrixInt :=
  if t = true then m.transposed else m

/-- Every entry of `c` is still there in `c1` and bound to the same object, in
each of the four caches. -/
def Caches.Preserved (c c1 : Caches) : Prop :=
  (∀ g v, mapFind c.abelianGroups g = some v → mapFind c1.abelianGroups g = some v) ∧
  (∀ g v, mapFind c.markedAbelianGroups g = some v →
    mapFind c1.markedAbelianGroups g = some v) ∧
  (∀ h v, mapFind c.homMarkedAbelianGroups h = some v →
    mapFind c1.homMarkedAbelianGroups h = some v) ∧
  (∀ f v, mapFind c.bilinearForms f = some v → mapFind c1.bilinearForms f = some v)

/-- Each of the four caches holds at most one entry per locator. -/
def Caches.Unique (c : Caches) : Prop :=
  (c.abelianGroups.map Prod.fst).Nodup ∧ (c.markedAbelianGroups.map Prod.fst).Nodup ∧
  (c.homMarkedAbelianGroups.map Prod.fst).Nodup ∧ (c.bilinearForms.map Prod.fst).Nodup

/-- A computation keeps the caches: whenever it returns, every earlier entry is
preserved and uniqueness of the keys is maintained. -/
def Eval.Keeps {α : Type} (m : Eval α) : Prop :=
  ∀ c a c1, m c = .ok a c1 → c.Preserved c1 ∧ (c.Unique → c1.Unique)

/-- The matrix `CM` is the chain matrix that `homGroup` chooses for the
request `h` when `markedGroup` resolves the domain of `h` to `dom`. -/
def ChainMatrixFor (D : NCellularData) (h : HomLocator) (dom : NMarkedAbelianGroup)
    (CM : NMatrixInt) : Prop :=
  ∀ c, mapFind c.markedAbelianGroups h.domain = some dom →
    homGroup_chainMap D h c = .ok (some CM) c

/-- The hom cache is sound: every entry passed the dimension and coefficient
checks and was built from the cached groups of its two ends and the chain
matrix of its request. -/
def Caches.HomSound (D : NCellularData) (c : Caches) : Prop :=
  ∀ h f, mapFind c.homMarkedAbelianGroups h = some f →
    (h.domain.dim ≤ D.aDim ∧ h.range.dim ≤ D.aDim) ∧
    (h.range.cof = 0 ∨ h.domain.cof % h.range.cof = 0) ∧
    ∃ dom ran CM, f = .ofMatrix dom ran CM ∧
      mapFind c.markedAbelianGroups h.domain = some dom ∧
      mapFind c.markedAbelianGroups h.range = some ran ∧ ChainMatrixFor D h dom CM

/-- The states of the caches that the object can be in: the caches are empty
after construction and change only through calls of the four resolvers. -/
inductive Caches.Reachable (D : NCellularData) : Caches → Prop where
  | fresh : Caches.Reachable D Caches.empty
  | unmarkedGroup {c c1 : Caches} (g : GroupLocator) (r : Option NAbelianGroup) :
      Caches.Reachable D c → Regina.unmarkedGroup D g c = .ok r c1 → Caches.Reachable D c1
  | markedGroup {c c1 : Caches} (g : GroupLocator) (r : Option NMarkedAbelianGroup) :
      Caches.Reachable D c → Regina.markedGroup D g c = .ok r c1 → Caches.Reachable D c1
  | homGroup {c c1 : Caches} (h : HomLocator) (r : Option NHomMarkedAbelianGroup) :
      Caches.Reachable D c → Regina.homGroup D h c = .ok r c1 → Caches.Reachable D c1
  | bilinearForm {c c1 : Caches} (f : FormLocator) (r : Option NBilinearForm) :
      Caches.Reachable D c → Regina.bilinearForm D f c = .ok r c1 → Caches.Reachable D c1

/-- The group caches are sound: every entry is the group built from the pair
of boundary matrices of its locator. -/
def Caches.GroupSound (D : NCellularData) (c : Caches) : Prop :=
  (∀ g G, mapFind c.abelianGroups g = some G →
    ∃ A B, chainPair D g.hcs g.dim = some (A, B) ∧ G = builtUnmarked g A B) ∧
  (∀ g G, mapFind c.markedAbelianGroups g = some G →
    ∃ A B, chainPair D g.hcs g.dim = some (A, B) ∧ G = builtMarked g A B)

/-- A computation keeps the group caches sound. -/
def Eval.KeepsGroups {α : Type} (D : NCellularData) (m : Eval α) : Prop :=
  ∀ c a c1, m c = .ok a c1 → c.GroupSound D → c1.GroupSound D

/-- A computation that neither reads nor changes the caches: it returns the
same value, or runs into the same fault, whatever the caches. -/
def Eval.Const {α : Type} (m : Eval α) : Prop :=
  (∃ a, ∀ c, m c = .ok a c) ∨ (∃ e, ∀ c, m c = .fault e)

/-- A computation keeps the hom cache sound. -/
def Eval.KeepsSound {α : Type} (D : NCellularData) (m : Eval α) : Prop :=
  ∀ c a c1, m c = .ok a c1 → c.HomSound D → c1.HomSound D

/-- A computation never runs out of fuel. -/
def Eval.Fueled {α : Type} (m : Eval α) : Prop := ∀ c, m c ≠ .fault .outOfFuel

/-- Whether a call returned. -/
def Outcome.isOk {α : Type} : Outcome α → Bool
  | .ok _ _ => true
  | .fault _ => false

/-- The caches with the form `b` inserted under the locator `f`. -/
def Caches.withForm (c : Caches) (f : FormLocator) (b : NBilinearForm) : Caches :=
  { c with bilinearForms := mapInsert c.bilinearForms f b }

/-- The canonical locator behind a request: the request in `DUAL` coordinates
on the left and `STD_REL_BDRY` coordinates on the right. -/
def primOf (f : FormLocator) : FormLocator :=
  { f with
    ldomain := { f.ldomain with hcs := DUAL_coord }
    rdomain := { f.rdomain with hcs := STD_REL_BDRY_coord } }

/-- The forms cache is sound: every entry was returned by a call of the
resolver on its locator, in a state that the caches can be in and in which the
locator was not cached. -/
def Caches.FormSound (D : NCellularData) (c : Caches) : Prop :=
  ∀ f b, mapFind c.bilinearForms f = some b →
    ∃ n c0 c1, c0.Reachable D ∧ mapFind c0.bilinearForms f = none ∧
      bilinearFormFuel (n + 1) D f c0 = .ok (some b) c1


/-- The convenience shapes of the form resolver: the four cases that resolve a
request by composing the form of the canonical locator with changes of
coordinates. -/
def convenienceShape (D : NCellularData) (f : FormLocator) : Prop :=
  (intersectionGuard D f ∧ f.ldomain.hcs = DUAL_coord ∧ f.rdomain.hcs = DUAL_coord) ∨
  (intersectionGuard D f ∧ f.ldomain.hcs = STD_coord ∧ f.rdomain.hcs = STD_REL_BDRY_coord) ∨
  (linkingGuard D f ∧ f.ldomain.hcs = DUAL_coord ∧ f.rdomain.hcs = DUAL_coord) ∨
  (linkingGuard D f ∧ f.ldomain.hcs = STD_coord ∧ f.rdomain.hcs = STD_coord)


/-- The torsion subgroup of `G` as the canonical torsion linking form presents
it: `NMarkedAbelianGroup(null, pres)` with the zero matrix `null(1, n)` and the
diagonal matrix `pres` of the `n` invariant factors. -/
def torsionSubgroup (D : NCellularData) (G : NMarkedAbelianGroup) : NMarkedAbelianGroup :=
  .ofMatrices (NMatrixInt.zero 1 (D.getNumberOfInvariantFactors G)) (torsionPresentation D G) none

/-- The linking number of the torsion generators `i` and `j` as the
specification describes it: with `b = writeAsBoundary(r_j * torsionRep(j))` on
the right and `a = torsionRep(i)` on the left, the sum `S` over the cells `k`
of `b[k] * a[k] * s(k)`, where `s(k)` is the incidence sign of the `k`-th cell,
then `S * (N / r_j)` reduced modulo `N`. -/
def linkingNumberSpec (D : NCellularData) (ld rd : NMarkedAbelianGroup) (N : Int)
    (i j : Nat) : Option Int := do
  let r_j := D.getInvariantFactor rd j
  let b := D.writeAsBoundary rd ((D.getTorsionRep rd j).map fun x => x * r_j)
  let a := D.getTorsionRep ld i
  let S ← (List.range a.length).foldlM (fun (S : Int) k => do
      let bk ← b[k]?
      let ak ← a[k]?
      pure (S + bk * ak * D.faceSign k)) 0
  pure ((S * Int.tdiv N r_j) % N)


/-! ## The scalar queries -/

/-- Whether the member `tri3` is set. -/
def NCellularData.hasTri3 (D : NCellularData) : Bool :=
  match D.tri with
  | .tri3 _ => true
  | .tri4 _ => false

/-- Whether the member `tri4` is set. -/
def NCellularData.hasTri4 (D : NCellularData) : Bool :=
  match D.tri with
  | .tri3 _ => false
  | .tri4 _ => true

/-- Modelled from the spec: the arrays of cell counts of `NCellularData`
(declared in the header), by the names the source uses. -/
inductive CountArray where
  | numStandardCells
  | numDualCells
  | numMixCells
  | numMixRelCells
  | numRelativeCells
  | numDualRelCells
  | numStandardBdryCells
  | numMixBdryCells
  | numDualBdryCells
  deriving DecidableEq, Repr

/-- What `cellCount` returns: the constant 0, or the entry `array[index]` of
one of the arrays of cell counts. -/
inductive CellRead where
  | zero
  | entry (array : CountArray) (index : Nat)
  deriving DecidableEq, Repr

/-- The routine `NCellularData::cellCount`, up to the values that the arrays
hold: each `return` of the source, in order.  An argument `hcs` that is none of
the nine enumerators is `none`: it compares unequal to each of them. -/
def cellCountRead (D : NCellularData) (hcs : Option homology_coordinate_system)
    (dimension : Nat) : CellRead :=
  if dimension > 4 ∧ D.hasTri4 = true then .zero
  else if dimension > 3 ∧ D.hasTri3 = true then .zero
  else if hcs = some STD_coord then .entry .numStandardCells dimension
  else if hcs = some DUAL_coord then .entry .numDualCells dimension
  else if hcs = some MIX_coord then .entry .numMixCells dimension
  else if hcs = some MIX_REL_BDRY_coord then .entry .numMixRelCells dimension
  else if hcs = some STD_REL_BDRY_coord then .entry .numRelativeCells dimension
  else if hcs = some DUAL_REL_BDRY_coord then .entry .numDualRelCells dimension
  else if dimension > 3 ∧ D.hasTri4 = true then .zero
  else if dimension > 2 ∧ D.hasTri3 = true then .zero
  else if hcs = some STD_BDRY_coord then .entry .numStandardBdryCells dimension
  else if hcs = some MIX_BDRY_coord then .entry .numMixBdryCells dimension
  else if hcs = some DUAL_BDRY_coord then .entry .numDualBdryCells dimension
  else .zero

/-- The routine `NCellularData::cellCount`, the arrays of cell counts being
given by `counts`. -/
def cellCount (counts : CountArray → Nat → Nat) (D : NCellularData)
    (hcs : Option homology_coordinate_system) (dimension : Nat) : Nat :=
  match cellCountRead D hcs dimension with
  | .zero => 0
  | .entry a i => counts a i

/-- The conversion of an `unsigned long` value to `long int`. -/
def toLong (x : Nat) : Int :=
  if x % ulongMod < ulongMod / 2 then ((x % ulongMod : Nat) : Int)
  else ((x % ulongMod : Nat) : Int) - (ulongMod : Int)

/-- The routine `NCellularData::eulerChar`: the expression
`numDualCells[0]-numDualCells[1]+numDualCells[2]-numDualCells[3]+numDualCells[4]`
in `unsigned long` arithmetic, returned as `long int`. -/
def eulerChar (D : NCellularData) : Int :=
  toLong (uadd (usub (uadd (usub (D.numDualCells 0) (D.numDualCells 1)) (D.numDualCells 2))
    (D.numDualCells 3)) (D.numDualCells 4))

/-- The routine `NCellularData::signature`; the member `signature()` of the
form is the library query `formSignature`. -/
def signature (D : NCellularData) (formSignature : NBilinearForm → Int) : Eval Int := fun c =>
  match D.tri with
  | .tri3 _ => .ok 0 c
  | .tri4 isOrientable =>
    if isOrientable = false then .ok 0 c
    else (do
      let b ← bilinearForm D
        ⟨intersectionForm, ⟨2, coVariant, DUAL_coord, 0⟩, ⟨2, coVariant, DUAL_coord, 0⟩⟩
      let b ← deref b
      pure (formSignature b)) c

/-- Modelled from the spec: a polynomial `NSVPolynomialRing` of the library, in
one variable with integer coefficients, stored sparsely: the exponents with
their coefficients. -/
structure NSVPolynomialRing where
  cf : List (Nat × Int)
  deriving DecidableEq, Repr

/-- Modelled from the spec: the zero polynomial, the value of a default
constructed `NSVPolynomialRing`. -/
def NSVPolynomialRing.zero : NSVPolynomialRing := ⟨[]⟩

/-- Modelled from the spec: the coefficient of `t^i`. -/
def NSVPolynomialRing.coefficient (p : NSVPolynomialRing) (i : Nat) : Int :=
  (mapFind p.cf i).getD 0

/-- Modelled from the spec: `p += NSVPolynomialRing(a, i)`, the sum of `p` and
the monomial `a t^i`. -/
def NSVPolynomialRing.addMonomial (p : NSVPolynomialRing) (a : Int) (i : Nat) :
    NSVPolynomialRing :=
  ⟨(i, p.coefficient i + a) :: p.cf.filter fun e => decide (e.1 ≠ i)⟩

/-- The body of the loop of `poincarePolynomial`: `retval +=
NSVPolynomialRing(unmarkedGroup(GroupLocator(i, coVariant, DUAL_coord, 0))->getRank(), i)`. -/
def poincareStep (D : NCellularData) (getRank : NAbelianGroup → Int)
    (retval : NSVPolynomialRing) (i : Nat) : Eval NSVPolynomialRing := do
  let G ← unmarkedGroup D ⟨i, coVariant, DUAL_coord, 0⟩
  let G ← deref G
  pure (retval.addMonomial (getRank G) i)

/-- The routine `NCellularData::poincarePolynomial`, the loop over `i` from 0
to `aDim`; the member `getRank()` of the group is the library query `getRank`. -/
def poincarePolynomial (D : NCellularData) (getRank : NAbelianGroup → Int) :
    Eval NSVPolynomialRing :=
  (List.range (D.aDim + 1)).foldlM (poincareStep D getRank) NSVPolynomialRing.zero

/-- Modelled from the spec: the locator `ChainComplexLocator` of a chain
complex (declared in the header): dimension and coordinate system. -/
structure ChainComplexLocator where
  dim : Nat
  hcs : homology_coordinate_system
  deriving DecidableEq, Repr

/-- Modelled from the spec: the locator `ChainMapLocator` of a chain map
(declared in the header): the locators of domain and range. -/
structure ChainMapLocator where
  domain : ChainComplexLocator
  range : ChainComplexLocator
  deriving DecidableEq, Repr

/-- The routine `NCellularData::integerChainComplex`, with a bound on the
number of passes through the label `reloop_loop`: `none` when the bound is
used up.  A pass looks the locator up in `integerChainComplexes`; on a miss the
block holds comments only and jumps back to the label. -/
def integerChainComplexFuel :
    Nat → List (ChainComplexLocator × NMatrixInt) → ChainComplexLocator →
      Option (Option NMatrixInt)
  | 0, _, _ => none
  | fuel + 1, integerChainComplexes, c_desc =>
    match mapFind integerChainComplexes c_desc with
    | some p => some (some p)
    | none => integerChainComplexFuel fuel integerChainComplexes c_desc

/-- The routine `NCellularData::integerChainMap`, with a bound on the number
of passes through the label `reloop_loop`: `none` when the bound is used up. -/
def integerChainMapFuel :
    Nat → List (ChainMapLocator × NMatrixInt) → ChainMapLocator → Option (Option NMatrixInt)
  | 0, _, _ => none
  | fuel + 1, integerChainMaps, m_desc =>
    match mapFind integerChainMaps m_desc with
    | some p => some (some p)
    | none => integerChainMapFuel fuel integerChainMaps m_desc

/-- The array of cell counts that belongs to a coordinate system. -/
def countArrayOf : homology_coordinate_system → CountArray
  | STD_coord => .numStandardCells
  | DUAL_coord => .numDualCells
  | MIX_coord => .numMixCells
  | MIX_REL_BDRY_coord => .numMixRelCells
  | STD_REL_BDRY_coord => .numRelativeCells
  | DUAL_REL_BDRY_coord => .numDualRelCells
  | STD_BDRY_coord => .numStandardBdryCells
  | MIX_BDRY_coord => .numMixBdryCells
  | DUAL_BDRY_coord => .numDualBdryCells

/-- The three coordinate systems of the boundary. -/
def isBoundarySystem (h : homology_coordinate_system) : Bool :=
  h = STD_BDRY_coord || h = MIX_BDRY_coord || h = DUAL_BDRY_coord

/-- Modelled from the spec: `getRank()` of an `NAbelianGroup(M, N)` of the
library, the rank of the free part of the homology `ker M / im N`: the number
of columns of `M` minus the rank of `M` minus the rank of `N`, where `rank` is
the rank of an integer matrix. -/
def NAbelianGroup.getRank (rank : NMatrixInt → Nat) (G : NAbelianGroup) : Int :=
  (G.M.columns : Int) - (rank G.M : Int) - (rank G.N : Int)

/-- The signed alternating sum of the five counts of dual cells. -/
def alternatingSum (D : NCellularData) : Int :=
  (D.numDualCells 0 : Int) - D.numDualCells 1 + D.numDualCells 2 - D.numDualCells 3 +
    D.numDualCells 4


/-! ## Linear facets of the fixed point sets -/

/-- Modelled from the spec: the struct `centroid` (declared in the header): its
member `points`, a `std::set<unsigned long>`, as the increasing sequence of
its elements. -/
structure centroid where
  points : List Nat
  deriving DecidableEq, Repr

/-- Modelled from the spec: the struct `linearFacet` (declared in the header):
the dimension of the facet, the dimension and the index of the simplex that it
lies in, and the `std::set<centroid>` of its vertex classes as the sequence of
its elements in the order of `centroid::operator<`. -/
structure linearFacet where
  dim : Nat
  sdim : Nat
  sindx : Nat
  vCentres : List centroid
  deriving DecidableEq, Repr

/-- The loop of `centroid::operator<` over the two sets, and the returns that
follow it. -/
def centroidLtLoop : List Nat → List Nat → Bool
  | i :: is, j :: js => if i < j then true else if i > j then false else centroidLtLoop is js
  | [], _ :: _ => true
  | _, [] => false

/-- The comparison `centroid::operator<`. -/
def centroid.lt (a rhs : centroid) : Bool := centroidLtLoop a.points rhs.points

/-- The member `insert` of `std::set<unsigned long>`. -/
def insertPoint : List Nat → Nat → List Nat
  | [], x => [x]
  | y :: ys, x => if x < y then x :: y :: ys else if x = y then y :: ys else y :: insertPoint ys x

/-- The member `insert` of `std::set<centroid>`: the element is put in its
place in the order of `operator<` unless an equivalent element is there. -/
def insertCentroid : List centroid → centroid → List centroid
  | [], x => [x]
  | y :: ys, x =>
    if x.lt y then x :: y :: ys else if y.lt x then y :: insertCentroid ys x else y :: ys

/-- The routine `linearFacet::isValid`.  The set `pTest` is the sequence of its
elements; `count` counts elements of sets held in memory and does not wrap
around. -/
def linearFacet.isValid (F : linearFacet) : Bool :=
  if F.vCentres.length ≠ uadd F.dim 1 then false
  else if F.vCentres.any (fun i => i.points.any fun j => decide (j ≥ uadd F.sdim 1)) then false
  else if F.sdim > 4 then false
  else if F.dim > F.sdim then false
  else
    let pTest := (List.range (uadd F.sdim 1)).foldl insertPoint []
    let r := F.vCentres.foldl (fun acc i =>
      i.points.foldl (fun acc j => (acc.1.erase j, acc.2 + 1)) acc) (pTest, 0)
    if r.1 ≠ [] then false
    else if r.2 ≠ uadd F.sdim 1 then false
    else true

/-- Modelled from the spec: a permutation `NPerm4` of the library, given by
the images of 0, 1, 2, 3. -/
structure NPerm4 where
  images : List Nat
  deriving DecidableEq, Repr

/-- Modelled from the spec: the image `p[k]` of `k` under an `NPerm4`. -/
def NPerm4.image (p : NPerm4) (k : Nat) : Nat := p.images.getD k 0

/-- The elements `K` of `0..3` with `s.count(K) == 0`, inserted in turn into
an empty set: the loops `for (K=0; K<4; K++) if (s.count(K)==0) FP.insert(K)`. -/
def unusedPoints (s : List Nat) : List Nat :=
  (List.range 4).foldl (fun FP K => if s.count K = 0 then insertPoint FP K else FP) []

/-- The block of `NSimplicialAutGrp::fixedPoints` for a tetrahedron `domFac` of
a 3-manifold that the automorphism maps to itself with the vertex permutation
`mPerm4` (the case `d == 3` past the test on `ranSim`): the facet that it
inserts into `retval[M]`, if any. -/
def tetrahedronFacet (domFac : Nat) (mPerm4 : NPerm4) : Option linearFacet :=
  let fixedPts := (List.range 4).foldl
    (fun s k => if mPerm4.image k = k then insertPoint s k else s) []
  match fixedPts.length with
  | 0 =>
    if mPerm4.image (mPerm4.image 0) = 0 then
      let FP := insertPoint (insertPoint [] 0) (mPerm4.image 0)
      let vCentres := insertCentroid [] ⟨FP⟩
      let FP2 := unusedPoints FP
      some ⟨1, 3, domFac, insertCentroid vCentres ⟨FP2⟩⟩
    else
      let FP := insertPoint (insertPoint (insertPoint (insertPoint [] 0) 1) 2) 3
      some ⟨0, 3, domFac, insertCentroid [] ⟨FP⟩⟩
  | 1 =>
    let vCentres := insertCentroid [] ⟨fixedPts⟩
    let FP := unusedPoints fixedPts
    some ⟨1, 3, domFac, insertCentroid vCentres ⟨FP⟩⟩
  | 2 =>
    let vCentres := fixedPts.foldl (fun vc K => insertCentroid vc ⟨insertPoint [] K⟩) []
    let FP := unusedPoints fixedPts
    some ⟨2, 3, domFac, insertCentroid vCentres ⟨FP⟩⟩
  | 4 =>
    let vCentres := insertCentroid [] ⟨insertPoint [] 0⟩
    let vCentres := insertCentroid vCentres ⟨insertPoint [] 1⟩
    let vCentres := insertCentroid vCentres ⟨insertPoint [] 2⟩
    let vCentres := insertCentroid vCentres ⟨insertPoint [] 3⟩
    some ⟨0, 3, domFac, vCentres⟩
  | _ => none

/-- The case `d == 3` of the loop of `NSimplicialAutGrp::fixedPoints` over a
3-manifold, for the automorphism with the germ `germ` and the cell `domFac`:
the facet that the pass inserts into `retval[M]`, if any; the outer `none` is a
read of `germ` out of range.  The index `nicIndex(3, .)` of a cell in the
triangulation, the position `nicIxLookup(getSimplex(.))` of a tetrahedron among
the cells and the table `NPerm4::S4` are parameters. -/
def fixedPointsTetrahedron (nicIndex nicIxLookup : Nat → Nat) (S4 : Nat → NPerm4)
    (germ : List (Nat × Nat)) (domFac : Nat) : Option (Option linearFacet) := do
  let domSim := nicIxLookup (nicIndex domFac)
  let g ← germ[domSim]?
  let mPerm4 := S4 g.2
  let ranSim := g.1
  if domFac = nicIxLookup ranSim then pure (tetrahedronFacet domFac mPerm4) else pure none

/-- The orbit of the vertex `k` under a permutation of four vertices, as a set. -/
def orbitOf (p : NPerm4) (k : Nat) : List Nat :=
  insertPoint (insertPoint (insertPoint (insertPoint [] k) (p.image k)) (p.image (p.image k)))
    (p.image (p.image (p.image k)))

/-- The cycles of a permutation of four vertices: the set of the orbits of the
vertices 0, 1, 2 and 3. -/
def cyclesOf (p : NPerm4) : List centroid :=
  (List.range 4).foldl (fun vc k => insertCentroid vc ⟨orbitOf p k⟩) []

/-- The property that `isValid` is to decide, as the classes of a partition:
`dim <= sdim <= 4`, and the `dim + 1` classes are non-empty, pairwise disjoint,
hold only indices up to `sdim` and cover `0..sdim`. -/
def linearFacet.IsVertexPartition (F : linearFacet) : Prop :=
  F.dim ≤ F.sdim ∧ F.sdim ≤ 4 ∧ F.vCentres.length = F.dim + 1 ∧
  (∀ c ∈ F.vCentres, c.points ≠ []) ∧
  F.vCentres.Pairwise (fun a b => ∀ v, v ∈ a.points → v ∉ b.points) ∧
  (∀ c ∈ F.vCentres, ∀ v ∈ c.points, v ≤ F.sdim) ∧
  (∀ v, v ≤ F.sdim → ∃ c ∈ F.vCentres, v ∈ c.points)

instance (F : linearFacet) : Decidable F.IsVertexPartition := by
  unfold linearFacet.IsVertexPartition
  have : Decidable (∀ v, v ≤ F.sdim → ∃ c ∈ F.vCentres, v ∈ c.points) :=
    decidable_of_iff (∀ v, v < F.sdim + 1 → ∃ c ∈ F.vCentres, v ∈ c.points)
      ⟨fun h v hv => h v (Nat.lt_succ_of_le hv), fun h v hv => h v (Nat.le_of_lt_succ hv)⟩
  have : Decidable (F.vCentres.Pairwise (fun a b => ∀ v, v ∈ a.points → v ∉ b.points)) := by
    have : DecidableRel (fun a b : centroid => ∀ v, v ∈ a.points → v ∉ b.points) :=
      fun a b => List.decidableBAll _ _
    infer_instance
  infer_instance

/-! ## The group of simplicial automorphisms -/

/-- Modelled from the spec: the struct `isoStruct` (declared in the header):
the vector `germ` with the members `pen` (the image of the top cell) and `perm`
(the index of the vertex permutation) of each entry. -/
structure isoStruct where
  germ : List (Nat × Nat)
  deriving DecidableEq, Repr

/-- The loop of `isoStruct::operator<` over the entries of the two germs, which
have the same size when the loop is reached. -/
def isoLtLoop : List (Nat × Nat) → List (Nat × Nat) → Bool
  | a :: as, b :: bs =>
    if a.1 < b.1 then true
    else if a.1 > b.1 then false
    else if a.2 < b.2 then true
    else if a.2 > b.2 then false
    else isoLtLoop as bs
  | _, _ => false

/-- The comparison `isoStruct::operator<`. -/
def isoStruct.lt (a rhs : isoStruct) : Bool :=
  if a.germ.length < rhs.germ.length then true
  else if a.germ.length > rhs.germ.length then false
  else isoLtLoop a.germ rhs.germ

/-- The algorithm `std::lower_bound` on a sorted vector: the position of the
first element that is not less than the value, the end position if there is
none. -/
def lowerBound (v : List isoStruct) (value : isoStruct) : Nat :=
  (v.takeWhile fun x => x.lt value).length

/-- Modelled from the spec: an `NGroupExpression` of the library, a word in the
generators: the terms `(generator, exponent)` in order. -/
structure NGroupExpression where
  terms : List (Nat × Int)
  deriving DecidableEq, Repr

/-- Modelled from the spec: an `NGroupPresentation` of the library: the number
of generators and the relators in the order in which they were added. -/
structure NGroupPresentation where
  nGenerators : Nat
  relations : List NGroupExpression
  deriving DecidableEq, Repr

/-- The loop over the top cells `k` that fills `composite.germ` in
`NSimplicialAutGrp::groupPresentation`, for `fullMap[i]` and `fullMap[j]`; the
index `(S4[a] * S4[b]).S4Index()` (or the same for `S5`) of the product of two
permutations is the parameter `mulIndex`.  It is `none` when a germ is read out
of range. -/
def compositeLoop (mulIndex : Nat → Nat → Nat) (fi fj : isoStruct) :
    List Nat → Option (List (Nat × Nat))
  | [] => some []
  | k :: ks => do
    let gj ← fj.germ[k]?
    let gi ← fi.germ[gj.1]?
    let rest ← compositeLoop mulIndex fi fj ks
    pure ((gi.1, mulIndex gi.2 gj.2) :: rest)

/-- The `isoStruct composite` of `fullMap[i]` and `fullMap[j]`, with a germ of
the given size. -/
def compositeGerm (mulIndex : Nat → Nat → Nat) (fi fj : isoStruct) (size : Nat) :
    Option isoStruct :=
  (compositeLoop mulIndex fi fj (List.range size)).map isoStruct.mk

/-- The body of the loops over `i` and `j` of `groupPresentation`: the relator
`relij` is added to the relators so far.  It is `none` when the call does not
get past the body: a read out of range, or `exit(1)` when `lower_bound` gives
the end position. -/
def presentationStep (mulIndex : Nat → Nat → Nat) (fullMap : List isoStruct) (i : Nat)
    (rels : List NGroupExpression) (j : Nat) : Option (List NGroupExpression) := do
  let fi ← fullMap[i]?
  let fj ← fullMap[j]?
  let f0 ← fullMap[0]?
  let composite ← compositeGerm mulIndex fi fj f0.germ.length
  let CI := lowerBound fullMap composite
  if CI = fullMap.length then none
  else pure (rels ++ [⟨[(i, 1), (j, 1), (CI, -1)]⟩])

/-- The loop over `j` of `groupPresentation`. -/
def presentationRow (mulIndex : Nat → Nat → Nat) (fullMap : List isoStruct)
    (rels : List NGroupExpression) (i : Nat) : Option (List NGroupExpression) :=
  (List.range fullMap.length).foldlM (presentationStep mulIndex fullMap i) rels

/-- The routine `NSimplicialAutGrp::groupPresentation`. -/
def groupPresentation (mulIndex : Nat → Nat → Nat) (fullMap : List isoStruct) :
    Option NGroupPresentation :=
  ((List.range fullMap.length).foldlM (presentationRow mulIndex fullMap) []).map
    fun rels => ⟨fullMap.length, rels⟩

/-- The relator `g_i g_j g_k^-1`. -/
def relator (i j k : Nat) : NGroupExpression := ⟨[(i, 1), (j, 1), (k, -1)]⟩

/-- The position that `groupPresentation` finds for the pair `(i, j)`. -/
def productIndex (mulIndex : Nat → Nat → Nat) (fullMap : List isoStruct) (i j : Nat) : Nat :=
  match fullMap[i]?, fullMap[j]?, fullMap[0]? with
  | some fi, some fj, some f0 =>
    match compositeGerm mulIndex fi fj f0.germ.length with
    | some comp => lowerBound fullMap comp
    | none => 0
  | _, _, _ => 0


/-! ## Matrices over a field -/

/-- The class `NMatrixField<T>`: the numbers of rows and columns and the entries
`data[r][c]`, as a function of the two indices; only the entries with
`r < nRows` and `c < nCols` are entries of the matrix. -/
structure NMatrixField (T : Type) where
  nRows : Nat
  nCols : Nat
  data : Nat → Nat → T

/-- Modelled from the spec: the matrix that `new NMatrixField(n, n)` followed by
`makeIdentity()` gives (`makeIdentity` is a member of the base class in
nmatrix.h): one on the diagonal, zero elsewhere. -/
def NMatrixField.identity {T : Type} [Field T] (n : Nat) : NMatrixField T :=
  ⟨n, n, fun r c => if r = c then 1 else 0⟩

/-- Modelled from the spec: the member `swapRows(first, second)` of the base
class in nmatrix.h: the entries of the two rows are exchanged, column by
column. -/
def NMatrixField.swapRows {T : Type} (m : NMatrixField T) (first second : Nat) :
    NMatrixField T :=
  { m with data := fun r c =>
      if c < m.nCols then
        if r = first then m.data second c
        else if r = second then m.data first c
        else m.data r c
      else m.data r c }

/-- Modelled from the spec: the member `addRow(source, dest, copies)` of the
base class in nmatrix.h: `data[dest][i] += copies * data[source][i]` for every
column `i`. -/
def NMatrixField.addRow {T : Type} [Field T] (m : NMatrixField T) (source dest : Nat)
    (copies : T) : NMatrixField T :=
  { m with data := fun r c =>
      if r = dest ∧ c < m.nCols then m.data r c + copies * m.data source c
      else m.data r c }

/-- The member `divRow(row, factor)`: `data[row][i] /= factor` for every column
`i`; the factor is passed by value. -/
def NMatrixField.divRow {T : Type} [Field T] (m : NMatrixField T) (row : Nat) (factor : T) :
    NMatrixField T :=
  { m with data := fun r c =>
      if r = row ∧ c < m.nCols then m.data r c / factor else m.data r c }

/-- The product of two matrices, `a * b`, with the sum over the columns of
`a`. -/
def NMatrixField.mul {T : Type} [Field T] (a b : NMatrixField T) : NMatrixField T :=
  ⟨a.nRows, b.nCols, fun i j => ∑ k in Finset.range a.nCols, a.data i k * b.data k j⟩

/-- The variables of `diagonaliseRow` during its loop: the matrix `ans`, this
matrix, `doneRow` and `doneCol`.  The list `pivots` is not a variable of the
source: it records, in order, the columns `doneCol` at which the loop found a
non-zero entry and went on to `// Move the non-zero to the top`. -/
structure DiagState (T : Type) where
  ans : NMatrixField T
  cur : NMatrixField T
  doneRow : Nat
  doneCol : Nat
  pivots : List Nat

/-- The search `while (row < nRows && data[row][doneCol] == zero) row++`. -/
def findRow {T : Type} [Field T] [DecidableEq T] (m : NMatrixField T) (doneCol row : Nat) :
    Nat :=
  if row < m.nRows ∧ m.data row doneCol = 0 then findRow m doneCol (row + 1) else row
termination_by m.nRows - row
decreasing_by omega

/-- The step `// Move the non-zero to the top`. -/
def moveToTop {T : Type} (s : DiagState T) (row : Nat) : DiagState T :=
  if row ≠ s.doneRow then
    { s with ans := s.ans.swapRows row s.doneRow, cur := s.cur.swapRows row s.doneRow }
  else s

/-- The step `// Make the non-zero entry one`. -/
def makeOne {T : Type} [Field T] [DecidableEq T] (s : DiagState T) : DiagState T :=
  if ¬ (s.cur.data s.doneRow s.doneCol = 1) then
    { s with
      ans := s.ans.divRow s.doneRow (s.cur.data s.doneRow s.doneCol),
      cur := s.cur.divRow s.doneRow (s.cur.data s.doneRow s.doneCol) }
  else s

/-- The body of the loop `for (row = 0; row < nRows; row++)` of
`// Make every other entry in this column zero`. -/
def eliminateStep {T : Type} [Field T] [DecidableEq T] (s : DiagState T) (row : Nat) :
    DiagState T :=
  if row = s.doneRow then s
  else if ¬ (s.cur.data row s.doneCol = 0) then
    { s with
      ans := s.ans.addRow s.doneRow row (-(s.cur.data row s.doneCol)),
      cur := s.cur.addRow s.doneRow row (-(s.cur.data row s.doneCol)) }
  else s

/-- The outer loop `while (doneCol < nCols && doneRow < nRows)` of
`diagonaliseRow`, for the `nRows` and `nCols` of this matrix, which no step
changes. -/
def diagonaliseLoop {T : Type} [Field T] [DecidableEq T] (nRows nCols : Nat)
    (s : DiagState T) : DiagState T :=
  if s.doneCol < nCols ∧ s.doneRow < nRows then
    if findRow s.cur s.doneCol s.doneRow = nRows then
      diagonaliseLoop nRows nCols { s with doneCol := s.doneCol + 1 }
    else
      diagonaliseLoop nRows nCols
        { (List.range nRows).foldl eliminateStep
            (makeOne (moveToTop s (findRow s.cur s.doneCol s.doneRow))) with
          doneCol := s.doneCol + 1
          doneRow := s.doneRow + 1
          pivots := s.pivots ++ [s.doneCol] }
  else s
termination_by nCols - s.doneCol
decreasing_by all_goals simp_wf; all_goals omega

/-- The routine `NMatrixField<T>::diagonaliseRow()`: the field `ans` of the
result is the matrix returned, the field `cur` is this matrix after the
call. -/
def diagonaliseRow {T : Type} [Field T] [DecidableEq T] (m : NMatrixField T) : DiagState T :=
  diagonaliseLoop m.nRows m.nCols ⟨NMatrixField.identity m.nRows, m, 0, 0, []⟩

/-- The relation `ans * old = cur` between the matrices of a state of the loop
of `diagonaliseRow` and the matrix `old` before the call, with the sizes of the
matrices. -/
def DiagState.Product {T : Type} [Field T] (old : NMatrixField T) (s : DiagState T) : Prop :=
  s.ans.nRows = old.nRows ∧ s.ans.nCols = old.nRows ∧
  s.cur.nRows = old.nRows ∧ s.cur.nCols = old.nCols ∧
  ∀ i j, i < old.nRows → j < old.nCols →
    ∑ k in Finset.range old.nRows, s.ans.data i k * old.data k j = s.cur.data i j

/-- The column `p` of the matrix is done with its pivot in row `k`: the entry
in row `k` is one and every other entry of the column is zero. -/
def NMatrixField.ColumnDone {T : Type} [Field T] (m : NMatrixField T) (k p : Nat) : Prop :=
  m.data k p = 1 ∧ ∀ i, i < m.nRows → i ≠ k → m.data i p = 0

/-- The state of the pivots during the loop of `diagonaliseRow`: there is one
pivot for each of the rows `0 .. doneRow - 1`, in columns that increase and lie
before `doneCol`, and each of these columns is done. -/
def DiagState.Pivots {T : Type} [Field T] (nRows nCols : Nat) (s : DiagState T) : Prop :=
  s.cur.nRows = nRows ∧ s.cur.nCols = nCols ∧
  s.pivots.length = s.doneRow ∧ s.doneRow ≤ nRows ∧ s.doneCol ≤ nCols ∧
  (∀ p ∈ s.pivots, p < s.doneCol) ∧
  s.pivots.Pairwise (fun a b => a < b) ∧
  ∀ k p, s.pivots[k]? = some p → s.cur.ColumnDone k p

/-- The part of `DiagState.Pivots` that the steps of one pass of the loop keep:
the sizes, `doneRow` and `doneCol`, and the columns of the pivots `ps` found in
the earlier passes. -/
def DiagState.Keeps {T : Type} [Field T] (nRows nCols dr dc : Nat) (ps : List Nat)
    (s : DiagState T) : Prop :=
  s.cur.nRows = nRows ∧ s.cur.nCols = nCols ∧ s.doneRow = dr ∧ s.doneCol = dc ∧
  ps.length = dr ∧ ∀ k p, ps[k]? = some p → s.cur.ColumnDone k p


/-- The entries of a tensor lie at positions `(i, j, 0)` with `i < nl` and
`j < nr` and have values `v` with `0 < v < N`. -/
def NSparseGridRing.LinkingEntries (g : NSparseGridRing) (nl nr : Nat) (N : Int) : Prop :=
  ∀ e ∈ g.grid, ∃ i j, e.1 = [i, j, 0] ∧ i < nl ∧ j < nr ∧ 0 < e.2 ∧ e.2 < N

/-! ## The order of the linear facets -/

/-- The loop of `linearFacet::operator<` over the two sets of classes; when one
of the sets is used up the loop is left and the operator returns false. -/
def facetLtLoop : List centroid → List centroid → Bool
  | i :: is, j :: js =>
    if i.lt j then true
    else if j.lt i then false
    else facetLtLoop is js
  | _, _ => false

/-- The comparison `linearFacet::operator<`. -/
def linearFacet.lt (a rhs : linearFacet) : Bool :=
  if a.dim < rhs.dim then true
  else if a.dim > rhs.dim then false
  else if a.sdim < rhs.sdim then true
  else if a.sdim > rhs.sdim then false
  else if a.sindx < rhs.sindx then true
  else if a.sindx > rhs.sindx then false
  else facetLtLoop a.vCentres rhs.vCentres

/-- The member `insert` of `std::set<linearFacet>`: the element is put in its
place in the order of `operator<` unless an equivalent element (neither less
than the other) is there. -/
def insertFacet : List linearFacet → linearFacet → List linearFacet
  | [], x => [x]
  | y :: ys, x =>
    if x.lt y then x :: y :: ys else if y.lt x then y :: insertFacet ys x else y :: ys

/-! ## Face pairings -/

/-- Modelled from the spec: the struct `NTetFace` (declared in a header): a
face of a tetrahedron by the index `tet` of the tetrahedron and the number
`face` of the face, both of type `int`. -/
structure NTetFace where
  tet : Int
  face : Int
  deriving DecidableEq, Repr

/-- Modelled from the spec: the class `NFacePairing` (declared in a header):
the number of tetrahedra and the array `pairs`, as a function of the index;
`pairs[4 * t + f]` is the face that the face `f` of the tetrahedron `t` is
paired with. -/
structure NFacePairing where
  nTetrahedra : Nat
  pairs : Nat → NTetFace

/-- Modelled from the spec: the member `dest(tet, face)`, which is
`pairs[4 * tet + face]`. -/
def NFacePairing.dest (p : NFacePairing) (tet face : Nat) : NTetFace :=
  p.pairs (4 * tet + face)

/-- Modelled from the spec: the member `dest(const NTetFace&)`, which is
`pairs[4 * source.tet + source.face]`. -/
def NFacePairing.destOf (p : NFacePairing) (source : NTetFace) : NTetFace :=
  p.pairs (4 * source.tet.toNat + source.face.toNat)

/-- Modelled from the spec: the member `NTetFace::isBoundary(nTetrahedra)`:
the face is the boundary marker `(nTetrahedra, 0)`. -/
def NTetFace.isBoundary (f : NTetFace) (nTetrahedra : Nat) : Bool :=
  decide (f.tet = nTetrahedra ∧ f.face = 0)

/-- Modelled from the spec: the member `isUnmatched(tet, face)`, which is
`pairs[4 * tet + face].isBoundary(nTetrahedra)`. -/
def NFacePairing.isUnmatched (p : NFacePairing) (tet face : Nat) : Bool :=
  (p.dest tet face).isBoundary p.nTetrahedra

/-- The loop over `j` of `NFacePairing::hasTripleEdge`, from `j = i + 1`. -/
def tripleEdgeInner (p : NFacePairing) (tet i : Nat) (equal : Nat) : Nat :=
  (List.range' (i + 1) (4 - (i + 1))).foldl
    (fun equal j => if (p.dest tet i).tet = (p.dest tet j).tet then equal + 1 else equal) equal

/-- The loop over `i` of `NFacePairing::hasTripleEdge` for one tetrahedron: the
value of `equal` after it. -/
def tripleEdgeCount (p : NFacePairing) (tet : Nat) : Nat :=
  (List.range 4).foldl
    (fun equal i =>
      if p.isUnmatched tet i = false ∧ (p.dest tet i).tet > (tet : Int) then
        tripleEdgeInner p tet i equal
      else equal) 0

/-- The routine `NFacePairing::hasTripleEdge`: true as soon as a tetrahedron
has `equal >= 3`. -/
def NFacePairing.hasTripleEdge (p : NFacePairing) : Bool :=
  (List.range p.nTetrahedra).any fun tet => decide (tripleEdgeCount p tet ≥ 3)

/-- The number of faces of the tetrahedron `t` that are paired with faces of
the tetrahedron `u`. -/
def NFacePairing.facesTo (p : NFacePairing) (t : Nat) (u : Int) : Nat :=
  ((List.range 4).filter fun i => p.isUnmatched t i = false ∧ (p.dest t i).tet = u).length

/-- A face pairing in which every face is either unmatched, that is sent to
the boundary marker `(nTetrahedra, 0)`, or matched with a face of a
tetrahedron that is matched with it in turn. -/
def NFacePairing.WellFormed (p : NFacePairing) : Prop :=
  ∀ t, t < p.nTetrahedra → ∀ f, f < 4 →
    p.dest t f = ⟨p.nTetrahedra, 0⟩ ∨
    (0 ≤ (p.dest t f).tet ∧ (p.dest t f).tet < p.nTetrahedra ∧
      0 ≤ (p.dest t f).face ∧ (p.dest t f).face < 4 ∧
      p.destOf (p.dest t f) = ⟨t, f⟩)

/-- The face pairing with the given list as its array `pairs`. -/
def NFacePairing.ofList (n : Nat) (l : List NTetFace) : NFacePairing :=
  ⟨n, fun i => l.getD i ⟨0, 0⟩⟩

/-! ## The text representation of a face pairing -/

/-- The decimal digit `d` as a character. -/
def digitChar (d : Nat) : Char := Char.ofNat (48 + d)

/-- The decimal digits of `n` in front of `acc`, the most significant first;
`fuel` bounds the number of digits. -/
def putNatAux : Nat → Nat → List Char → List Char
  | 0, _, acc => acc
  | fuel + 1, n, acc =>
    if n < 10 then digitChar n :: acc
    else putNatAux fuel (n / 10) (digitChar (n % 10) :: acc)

/-- Modelled from the spec: the characters that `operator<<` of an output
stream writes for an `int`: a minus sign for a negative value, and the decimal
digits, the most significant first. -/
def putInt (v : Int) : List Char :=
  if v < 0 then '-' :: putNatAux (v.natAbs + 1) v.natAbs []
  else putNatAux (v.natAbs + 1) v.natAbs []

/-- Modelled from the spec: the white space characters, which separate the
tokens of `basicTokenise`. -/
def isSpace (c : Char) : Bool :=
  c = ' ' || c = Char.ofNat 9 || c = Char.ofNat 10 || c = Char.ofNat 11 || c = Char.ofNat 12 ||
    c = Char.ofNat 13

/-- The loop of `basicTokenise`: `cur` holds the characters of the token that
is being read. -/
def tokeniseAux : List Char → List Char → List (List Char)
  | [], cur => if cur = [] then [] else [cur]
  | c :: cs, cur =>
    if isSpace c then
      if cur = [] then tokeniseAux cs [] else cur :: tokeniseAux cs []
    else tokeniseAux cs (cur ++ [c])

/-- Modelled from the spec: the routine `basicTokenise` of the string
utilities: the maximal runs of characters other than white space, in order. -/
def basicTokenise (str : List Char) : List (List Char) := tokeniseAux str []

/-- The value of a sequence of decimal digits read after the value `acc`; it
is `none` if a character is not a digit. -/
def digitsValue (s : List Char) (acc : Nat) : Option Nat :=
  s.foldlM (fun acc c => if c.isDigit then some (10 * acc + (c.toNat - 48)) else none) acc

/-- Modelled from the spec: the routine `valueOf(str, dest)` of the string
utilities for a `long`: the whole string has to be a decimal number, with or
without a sign; `none` stands for the return value false. -/
def valueOf (str : List Char) : Option Int :=
  match str with
  | [] => none
  | c :: cs =>
    if c = '-' then
      if cs = [] then none else (digitsValue cs 0).map fun n => -(n : Int)
    else if c = '+' then
      if cs = [] then none else (digitsValue cs 0).map fun n => (n : Int)
    else (digitsValue (c :: cs) 0).map fun n => (n : Int)

/-- Modelled from the spec: the faces that the loop
`for (NTetFace f(0, 0); ! f.isPastEnd(n, true); f++)` runs through:
`operator++` goes to the next face of the tetrahedron and from the face 3 to
the face 0 of the next tetrahedron, and `isPastEnd(n, true)` holds at the
tetrahedron `n`. -/
def allFaces (n : Nat) : List NTetFace :=
  (List.range (4 * n)).map fun i => ⟨((i / 4 : Nat) : Int), ((i % 4 : Nat) : Int)⟩

/-- The body of the loop of `NFacePairing::toTextRep`. -/
def toTextRepStep (p : NFacePairing) (ans : List Char) (f : NTetFace) : List Char :=
  let ans := if f.tet ≠ 0 ∨ f.face ≠ 0 then ans ++ [' '] else ans
  ans ++ putInt (p.destOf f).tet ++ [' '] ++ putInt (p.destOf f).face

/-- The routine `NFacePairing::toTextRep`. -/
def NFacePairing.toTextRep (p : NFacePairing) : List Char :=
  (allFaces p.nTetrahedra).foldl (toTextRepStep p) []

/-- One pass of the loop `// Read the raw values` of `fromTextRep`: the entry
`pairs[i]`, or `none` for a return of 0. -/
def readPair (tokens : List (List Char)) (nTet : Nat) (i : Nat) : Option NTetFace := do
  let tok ← tokens[2 * i]?
  let val ← valueOf tok
  if val < 0 ∨ val > nTet then none
  else
    let tet := val
    let tok ← tokens[2 * i + 1]?
    let val ← valueOf tok
    if val < 0 ∨ val ≥ 4 then none
    else pure ⟨tet, val⟩

/-- The loop `// Read the raw values` of `fromTextRep` over the given indices:
the entries of `pairs` that it writes. -/
def readPairs (tokens : List (List Char)) (nTet : Nat) : List Nat → Option (List NTetFace)
  | [] => some []
  | i :: is => do
    let x ← readPair tokens nTet i
    let rest ← readPairs tokens nTet is
    pure (x :: rest)

/-- The body of the loop `// Run a sanity check` of `fromTextRep`: whether the
pass sets `broken`. -/
def brokenAt (ans : NFacePairing) (nTet : Nat) (f : NTetFace) : Bool :=
  let destFace := ans.destOf f
  if destFace.tet = nTet ∧ destFace.face ≠ 0 then true
  else if destFace.tet < nTet ∧ ¬ (ans.destOf destFace = f) then true
  else false

/-- The routine `NFacePairing::fromTextRep`; `none` is the return value 0. -/
def fromTextRep (rep : List Char) : Option NFacePairing :=
  let tokens := basicTokenise rep
  let nTokens := tokens.length
  if nTokens = 0 ∨ nTokens % 8 ≠ 0 then none
  else
    let nTet := nTokens / 8
    match readPairs tokens nTet (List.range (nTet * 4)) with
    | none => none
    | some pairs =>
      let ans := NFacePairing.ofList nTet pairs
      if (allFaces nTet).any (brokenAt ans nTet) then none
      else some ans

/-- The string of the tokens with one blank between two of them. -/
def joinTokens : List (List Char) → List Char
  | [] => []
  | [w] => w
  | w :: w2 :: ws => w ++ ' ' :: joinTokens (w2 :: ws)


/-- The tokens that `toTextRep` writes for the first `m` entries of `pairs`. -/
def pairTokens (p : NFacePairing) (m : Nat) : List (List Char) :=
  (List.range m).flatMap fun i => [putInt (p.pairs i).tet, putInt (p.pairs i).face]

/-! ## Gluings of tetrahedra -/

/-- Modelled from the spec: the inverse `inverse()` of an `NPerm4` of the
library: the image of `k` is the vertex that the permutation sends to `k`. -/
def NPerm4.inverse (p : NPerm4) : NPerm4 :=
  ⟨(List.range 4).map fun k => p.images.indexOf k⟩

/-- Modelled from the spec: the members of the class `NTetrahedron` (declared
in a header) that `joinTo` and `unjoin` use: the adjacent tetrahedron
`tetrahedra[f]` of each face (a pointer, `none` for 0), the gluing
`tetrahedronPerm[f]` of each face, and the triangulation `tri` that the
tetrahedron belongs to (a pointer). -/
structure NTetrahedron where
  tetrahedra : Nat → Option Nat
  tetrahedronPerm : Nat → NPerm4
  tri : Option Nat

/-- The tetrahedra in memory, by their addresses. -/
abbrev TetHeap := Nat → NTetrahedron

/-- The assignment `t->tetrahedra[f] = you` to an object in memory. -/
def TetHeap.setAdjacent (h : TetHeap) (t f : Nat) (you : Option Nat) : TetHeap :=
  fun x => if x = t then
    { h x with tetrahedra := fun k => if k = f then you else (h x).tetrahedra k }
  else h x

/-- The assignment `t->tetrahedronPerm[f] = gluing` to an object in memory. -/
def TetHeap.setPerm (h : TetHeap) (t f : Nat) (gluing : NPerm4) : TetHeap :=
  fun x => if x = t then
    { h x with tetrahedronPerm := fun k => if k = f then gluing else (h x).tetrahedronPerm k }
  else h x

/-- Modelled from the spec: what `tri->addTetrahedron(t)` of the class
`NTriangulation` does to the tetrahedron: it belongs to the triangulation
afterwards. -/
def TetHeap.addTetrahedron (h : TetHeap) (tri : Option Nat) (t : Nat) : TetHeap :=
  fun x => if x = t then { h x with tri := tri } else h x

/-- The routine `NTetrahedron::joinTo` on the tetrahedron at the address
`this`; `none` is a failed assertion.  The calls `clearAllProperties()` and
`fireChangedEvent()` on the triangulation touch no tetrahedron and are left
out. -/
def joinTo (h : TetHeap) (this myFace you : Nat) (gluing : NPerm4) : Option TetHeap :=
  if ¬ ((h this).tetrahedra myFace = none ∨
      ((h this).tetrahedra myFace = some you ∧ (h this).tetrahedronPerm myFace = gluing)) then
    none
  else
    let h1 :=
      if (h this).tri ≠ none ∧ (h you).tri = none then h.addTetrahedron (h this).tri you
      else if (h you).tri ≠ none ∧ (h this).tri = none then h.addTetrahedron (h you).tri this
      else h
    if ¬ ((h1 this).tri = (h1 you).tri) then none
    else
      let h2 := (h1.setAdjacent this myFace (some you)).setPerm this myFace gluing
      let yourFace := gluing.image myFace
      if ¬ ((h2 you).tetrahedra yourFace = none ∨
          ((h2 you).tetrahedra yourFace = some this ∧
            (h2 you).tetrahedronPerm yourFace = gluing.inverse)) then none
      else if you = this ∧ yourFace = myFace then none
      else
        some ((h2.setAdjacent you yourFace (some this)).setPerm you yourFace gluing.inverse)

/-- The routine `NTetrahedron::unjoin` on the tetrahedron at the address
`this`: the tetrahedron returned and the memory afterwards; `none` is a failed
assertion. -/
def unjoin (h : TetHeap) (this myFace : Nat) : Option (Nat × TetHeap) :=
  let you := (h this).tetrahedra myFace
  let yourFace := ((h this).tetrahedronPerm myFace).image myFace
  match you with
  | none => none
  | some you =>
    if (h you).tetrahedra yourFace = none then none
    else
      some (you, (h.setAdjacent you yourFace none).setAdjacent this myFace none)


/-! ## Fixtures -/

/-- The boundary matrix in dimension 2 of the demonstration complex. -/
def demoD2 : NMatrixInt := NMatrixInt.fill 2 2 (fun i j => if i = j then 2 else 0)

/-- The boundary matrix in dimension 3 of the demonstration complex. -/
def demoD3 : NMatrixInt := NMatrixInt.fill 2 1 (fun _ _ => 0)

/-- A small chain complex of a 3-dimensional object with cell counts 1, 2, 2, 1. -/
def demoCC : List NMatrixInt :=
  [NMatrixInt.zero 1 1, NMatrixInt.fill 1 2 (fun _ _ => 0), demoD2, demoD3, NMatrixInt.zero 1 0]

/-- A subdivision matrix of the demonstration data. -/
def demoSub : NMatrixInt := NMatrixInt.fill 3 2 (fun i j => i + 2 * j)

/-- A Poincare duality request of the demonstration data with coefficients mod 2. -/
def demoDuality : HomLocator :=
  ⟨⟨1, coVariant, DUAL_coord, 2⟩, ⟨2, contraVariant, STD_REL_BDRY_coord, 2⟩⟩

/-- A small instance of the read only data, over a triangulation of dimension 3. -/
def demoData (orientable : Bool) : NCellularData where
  tri := .tri3 orientable
  dCC := demoCC
  sCC := demoCC
  mCC := demoCC
  sbCC := demoCC
  srCC := demoCC
  smCM := [NMatrixInt.fill 1 1 (fun _ _ => 1), demoSub,
    NMatrixInt.fill 2 2 (fun _ _ => 1), NMatrixInt.fill 1 1 (fun _ _ => 1)]
  dmCM := [NMatrixInt.fill 1 1 (fun _ _ => 1), NMatrixInt.fill 2 2 (fun _ _ => 5),
    NMatrixInt.fill 2 2 (fun _ _ => 1), NMatrixInt.fill 1 1 (fun _ _ => 1)]
  sbiCM := [NMatrixInt.fill 1 1 (fun _ _ => 1), NMatrixInt.fill 2 1 (fun _ _ => 1),
    NMatrixInt.fill 2 2 (fun _ _ => 1)]
  strCM := [NMatrixInt.fill 1 1 (fun _ _ => 1), NMatrixInt.fill 1 2 (fun _ _ => 1),
    NMatrixInt.fill 2 2 (fun _ _ => 1), NMatrixInt.fill 1 1 (fun _ _ => 1)]
  schCM := [NMatrixInt.fill 1 2 (fun _ _ => 1), NMatrixInt.fill 2 2 (fun _ _ => 1),
    NMatrixInt.fill 2 1 (fun _ _ => 1)]
  numRelativeCells := fun d => [1, 2, 2, 1, 0].getD d 0
  numDualCells := fun d => [1, 2, 2, 1, 0].getD d 0
  correctRelOrMat := fun m _ => NMatrixInt.fill m.rows m.columns (fun i j => - m.entry i j)
  intersectionCells := fun _ _ => []
  faceSign := fun _ => 1
  tetSign := fun _ => 1
  getNumberOfInvariantFactors := fun _ => 0
  getInvariantFactor := fun _ _ => 1
  getTorsionRep := fun _ _ => []
  writeAsBoundary := fun _ v => v
  isTrivial := fun _ => true
  snfRepCycleProjection := fun _ _ => []

/-- A locator of the first homology group in the given coordinates. -/
def demoGroup (hcs : homology_coordinate_system) (cof : Nat) : GroupLocator :=
  ⟨1, coVariant, hcs, cof⟩

/-- A request for the homology-cohomology pairing in dimension 1 of the
demonstration data. -/
def demoEvaluation : FormLocator :=
  ⟨evaluationForm, ⟨1, coVariant, STD_coord, 0⟩, ⟨1, contraVariant, STD_coord, 0⟩⟩

/-- A request for a cup product on the demonstration data. -/
def demoCup : FormLocator :=
  ⟨cupproductForm, ⟨1, contraVariant, DUAL_coord, 0⟩, ⟨1, contraVariant, STD_REL_BDRY_coord, 0⟩⟩

/-- A request for the intersection product of the second homology groups of
the demonstration data, in the given coordinate systems and coefficients. -/
def demoIntersection (l r : homology_coordinate_system) (cof : Nat) : FormLocator :=
  ⟨intersectionForm, ⟨2, coVariant, l, cof⟩, ⟨2, coVariant, r, cof⟩⟩

/-- An instance of the read only data with torsion: every group has the one
invariant factor 5 with the torsion representative `(1, 1)`, every boundary is
written as `(1, 2)`, and the face behind the cell 0 has the sign 1, the faces
behind the other cells the sign -1. -/
def linkData : NCellularData :=
  { demoData true with
    getNumberOfInvariantFactors := fun _ => 1
    getInvariantFactor := fun _ _ => 5
    getTorsionRep := fun _ _ => [1, 1]
    writeAsBoundary := fun _ _ => [1, 2]
    isTrivial := fun _ => false
    faceSign := fun i => if i = 0 then 1 else -1 }

/-- The canonical request for the torsion linking form of a 3-manifold. -/
def linkRequest : FormLocator :=
  ⟨torsionlinkingForm, ⟨1, coVariant, DUAL_coord, 0⟩, ⟨1, coVariant, STD_REL_BDRY_coord, 0⟩⟩


/-- The demonstration data over a triangulation of dimension 4. -/
def demoData4 (orientable : Bool) : NCellularData :=
  { demoData true with tri := .tri4 orientable }

/-- The locator that `signature` asks for: the intersection form on the second
homology in `DUAL` coordinates with integer coefficients. -/
def signatureRequest : FormLocator :=
  ⟨intersectionForm, ⟨2, coVariant, DUAL_coord, 0⟩, ⟨2, coVariant, DUAL_coord, 0⟩⟩


/-- The two automorphisms of a triangulation with one top cell that form a
group of order 2: the identity and the one with the permutation of index 1. -/
def demoFullMap : List isoStruct := [⟨[(0, 0)]⟩, ⟨[(0, 1)]⟩]

/-- The multiplication table of the group of order 2 on the indices 0 and 1. -/
def demoMulIndex (a b : Nat) : Nat := (a + b) % 2


/-- A face pairing on two tetrahedra with a triple edge: the faces 0, 1, 2 of
the tetrahedron 0 are paired with the faces 0, 1, 2 of the tetrahedron 1, the
two faces 3 are unmatched. -/
def demoTriple : NFacePairing :=
  .ofList 2 [⟨1, 0⟩, ⟨1, 1⟩, ⟨1, 2⟩, ⟨2, 0⟩, ⟨0, 0⟩, ⟨0, 1⟩, ⟨0, 2⟩, ⟨2, 0⟩]

/-- A face pairing on two tetrahedra without a triple edge: two faces of the
tetrahedron 0 are paired with the tetrahedron 1, the other two with each
other. -/
def demoDouble : NFacePairing :=
  .ofList 2 [⟨1, 0⟩, ⟨1, 1⟩, ⟨0, 3⟩, ⟨0, 2⟩, ⟨0, 0⟩, ⟨0, 1⟩, ⟨2, 0⟩, ⟨2, 0⟩]

/-- Two tetrahedra at the addresses 0 and 1 with no face glued and no
triangulation. -/
def demoHeap : TetHeap :=
  fun _ => ⟨fun _ => none, fun _ => ⟨[0, 1, 2, 3]⟩, none⟩


/-! ## Facts about the maps -/

theorem mapFind_mapInsert_of_find {K V : Type} [DecidableEq K] (m : List (K × V)) (k k1 : K)
    (w v : V) (h : mapFind m k1 = some v) : mapFind (mapInsert m k w) k1 = some v := by
  unfold mapInsert
  cases hk : mapFind m k with
  | some _ => simpa using h
  | none =>
    have hne : k ≠ k1 := by
      intro e; subst e; rw [hk] at h; cases h
    simp [mapFind, hne, h]

theorem mapFind_mapInsert_self {K V : Type} [DecidableEq K] (m : List (K × V)) (k : K) (v : V)
    (h : mapFind m k = none) : mapFind (mapInsert m k v) k = some v := by
  unfold mapInsert
  simp [h, mapFind]

theorem mapInsert_of_find {K V : Type} [DecidableEq K] (m : List (K × V)) (k : K) (v w : V)
    (h : mapFind m k = some w) : mapInsert m k v = m := by
  unfold mapInsert
  simp [h]

theorem not_mem_keys_of_mapFind_none {K V : Type} [DecidableEq K] (m : List (K × V)) (k : K)
    (h : mapFind m k = none) : k ∉ m.map Prod.fst := by
  induction m with
  | nil => simp
  | cons e rest ih =>
    obtain ⟨k0, v⟩ := e
    by_cases hk : k0 = k
    · simp [mapFind, hk] at h
    · simp only [mapFind, hk, if_false] at h
      simp only [List.map_cons, List.mem_cons, not_or]
      exact ⟨fun e => hk e.symm, ih h⟩

theorem nodup_keys_mapInsert {K V : Type} [DecidableEq K] (m : List (K × V)) (k : K) (v : V)
    (h : (m.map Prod.fst).Nodup) : ((mapInsert m k v).map Prod.fst).Nodup := by
  unfold mapInsert
  cases hk : mapFind m k with
  | some _ => simpa using h
  | none =>
    simp only [List.map_cons, List.nodup_cons]
    exact ⟨not_mem_keys_of_mapFind_none m k hk, h⟩

/-! ## Facts about the group resolvers -/

theorem Eval.bind_apply {α β : Type} (m : Eval α) (f : α → Eval β) (c : Caches) :
    (m >>= f) c = match m c with
      | .ok a c1 => f a c1
      | .fault e => .fault e := rfl

theorem Eval.pure_apply {α : Type} (a : α) (c : Caches) :
    (pure a : Eval α) c = .ok a c := rfl

theorem chainPair_select (D : NCellularData) (hcs : homology_coordinate_system) (dim : Nat)
    (A B : NMatrixInt) (h : chainPair D hcs dim = some (A, B)) :
    (if hcs = DUAL_coord then D.dCC else if hcs = STD_coord then D.sCC else
      if hcs = MIX_coord then D.mCC else if hcs = STD_BDRY_coord then D.sbCC else
      if hcs = STD_REL_BDRY_coord then D.srCC else [])[dim]? = some A ∧
    (if hcs = DUAL_coord then D.dCC else if hcs = STD_coord then D.sCC else
      if hcs = MIX_coord then D.mCC else if hcs = STD_BDRY_coord then D.sbCC else
      if hcs = STD_REL_BDRY_coord then D.srCC else [])[uadd dim 1]? = some B := by
  unfold chainPair at h
  cases hcs <;> simp only [chainComplexOf] at h <;> try cases h
  all_goals
    simp only [reduceCtorEq, if_true, if_false]
    split at h <;> simp_all

/-- What `unmarkedGroup` does when the chain complex has the pair `(A, B)`:
it returns the cached group, or else the group built from the pair, and the
cache gains the entry if it was missing. -/
theorem unmarkedGroup_eval (D : NCellularData) (g : GroupLocator) (c : Caches)
    (A B : NMatrixInt) (h : chainPair D g.hcs g.dim = some (A, B)) :
    unmarkedGroup D g c =
      .ok (some ((mapFind c.abelianGroups g).getD (builtUnmarked g A B)))
        { c with abelianGroups := mapInsert c.abelianGroups g (builtUnmarked g A B) } := by
  obtain ⟨hA, hB⟩ := chainPair_select D g.hcs g.dim A B h
  unfold unmarkedGroup
  cases hf : mapFind c.abelianGroups g with
  | some p => simp [mapInsert, hf]
  | none =>
    simp only [hA, hB, Option.getD_none]
    cases hv : g.var <;> by_cases hc : g.cof = 0 <;>
      simp [builtUnmarked, groupMatrices, cofArg, hv, hc]

/-- What `markedGroup` does when the chain complex has the pair `(A, B)`. -/
theorem markedGroup_eval (D : NCellularData) (g : GroupLocator) (c : Caches)
    (A B : NMatrixInt) (h : chainPair D g.hcs g.dim = some (A, B)) :
    markedGroup D g c =
      .ok (some ((mapFind c.markedAbelianGroups g).getD (builtMarked g A B)))
        { c with
          markedAbelianGroups := mapInsert c.markedAbelianGroups g (builtMarked g A B) } := by
  obtain ⟨hA, hB⟩ := chainPair_select D g.hcs g.dim A B h
  unfold markedGroup
  cases hf : mapFind c.markedAbelianGroups g with
  | some p => simp [mapInsert, hf]
  | none =>
    simp only [hA, hB, Option.getD_none]
    cases hv : g.var <;> by_cases hc : g.cof = 0 <;>
      simp [builtMarked, groupMatrices, cofArg, hv, hc]

/-- Whenever `unmarkedGroup` returns, it returns a group, that group is the
entry of the locator afterwards, and the cache is the old one with that entry
inserted. -/
theorem unmarkedGroup_shape (D : NCellularData) (g : GroupLocator) (c c1 : Caches)
    (r : Option NAbelianGroup) (h : unmarkedGroup D g c = .ok r c1) :
    ∃ G, r = some G ∧ mapFind c1.abelianGroups g = some G ∧
      c1 = { c with abelianGroups := mapInsert c.abelianGroups g G } := by
  unfold unmarkedGroup at h
  cases hf : mapFind c.abelianGroups g with
  | some p =>
    simp only [hf, Outcome.ok.injEq] at h
    obtain ⟨rfl, rfl⟩ := h
    exact ⟨p, rfl, hf, by simp [mapInsert, hf]⟩
  | none =>
    simp only [hf] at h
    split at h
    · split at h <;>
      · simp only [Outcome.ok.injEq] at h
        obtain ⟨rfl, rfl⟩ := h
        exact ⟨_, rfl, mapFind_mapInsert_self _ _ _ hf, rfl⟩
    · cases h

/-- Whenever `markedGroup` returns, it returns a group, that group is the entry
of the locator afterwards, and the cache is the old one with that entry
inserted. -/
theorem markedGroup_shape (D : NCellularData) (g : GroupLocator) (c c1 : Caches)
    (r : Option NMarkedAbelianGroup) (h : markedGroup D g c = .ok r c1) :
    ∃ G, r = some G ∧ mapFind c1.markedAbelianGroups g = some G ∧
      c1 = { c with markedAbelianGroups := mapInsert c.markedAbelianGroups g G } := by
  unfold markedGroup at h
  cases hf : mapFind c.markedAbelianGroups g with
  | some p =>
    simp only [hf, Outcome.ok.injEq] at h
    obtain ⟨rfl, rfl⟩ := h
    exact ⟨p, rfl, hf, by simp [mapInsert, hf]⟩
  | none =>
    simp only [hf] at h
    split at h
    · split at h <;>
      · simp only [Outcome.ok.injEq] at h
        obtain ⟨rfl, rfl⟩ := h
        exact ⟨_, rfl, mapFind_mapInsert_self _ _ _ hf, rfl⟩
    · cases h

theorem unmarkedGroup_cached (D : NCellularData) (g : GroupLocator) (c : Caches)
    (G : NAbelianGroup) (h : mapFind c.abelianGroups g = some G) :
    unmarkedGroup D g c = .ok (some G) c := by
  unfold unmarkedGroup
  simp [h]

theorem markedGroup_cached (D : NCellularData) (g : GroupLocator) (c : Caches)
    (G : NMarkedAbelianGroup) (h : mapFind c.markedAbelianGroups g = some G) :
    markedGroup D g c = .ok (some G) c := by
  unfold markedGroup
  simp [h]

/-! ## Keeping the caches -/

theorem Caches.Preserved.refl (c : Caches) : c.Preserved c :=
  ⟨fun _ _ h => h, fun _ _ h => h, fun _ _ h => h, fun _ _ h => h⟩

theorem Caches.Preserved.trans {c c1 c2 : Caches} (h1 : c.Preserved c1) (h2 : c1.Preserved c2) :
    c.Preserved c2 :=
  ⟨fun g v h => h2.1 g v (h1.1 g v h), fun g v h => h2.2.1 g v (h1.2.1 g v h),
    fun g v h => h2.2.2.1 g v (h1.2.2.1 g v h), fun g v h => h2.2.2.2 g v (h1.2.2.2 g v h)⟩

theorem Eval.keeps_pure {α : Type} (a : α) : (Pure.pure a : Eval α).Keeps := by
  intro c b c1 h
  simp only [Eval.pure_apply, Outcome.ok.injEq] at h
  obtain ⟨_, rfl⟩ := h
  exact ⟨Caches.Preserved.refl c, id⟩

theorem Eval.keeps_bind {α β : Type} {m : Eval α} {f : α → Eval β} (hm : m.Keeps)
    (hf : ∀ a, (f a).Keeps) : (m >>= f).Keeps := by
  intro c b c2 h
  rw [Eval.bind_apply] at h
  cases hmc : m c with
  | fault e => simp [hmc] at h
  | ok a c1 =>
    simp only [hmc] at h
    obtain ⟨p1, u1⟩ := hm c a c1 hmc
    obtain ⟨p2, u2⟩ := hf a c1 b c2 h
    exact ⟨p1.trans p2, fun hu => u2 (u1 hu)⟩

theorem Eval.keeps_deref {α : Type} (p : Option α) : (Regina.deref p).Keeps := by
  intro c b c1 h
  unfold Regina.deref at h
  cases p with
  | none => cases h
  | some x =>
    simp only [Outcome.ok.injEq] at h
    obtain ⟨_, rfl⟩ := h
    exact ⟨Caches.Preserved.refl c, id⟩

theorem Eval.keeps_vecAt {α : Type} (v : List α) (i : Nat) : (Regina.vecAt v i).Keeps := by
  intro c b c1 h
  unfold Regina.vecAt at h
  cases hv : v[i]? with
  | none => simp [hv] at h
  | some x =>
    simp only [hv, Outcome.ok.injEq] at h
    obtain ⟨_, rfl⟩ := h
    exact ⟨Caches.Preserved.refl c, id⟩

theorem Eval.keeps_liftRead {α : Type} (p : Option α) : (Regina.liftRead p).Keeps := by
  intro c b c1 h
  unfold Regina.liftRead at h
  cases p with
  | none => cases h
  | some x =>
    simp only [Outcome.ok.injEq] at h
    obtain ⟨_, rfl⟩ := h
    exact ⟨Caches.Preserved.refl c, id⟩

theorem Eval.keeps_insertHom (h_desc : HomLocator) (f : NHomMarkedAbelianGroup) :
    (Regina.insertHom h_desc f).Keeps := by
  intro c b c1 h
  unfold Regina.insertHom at h
  simp only [Outcome.ok.injEq] at h
  obtain ⟨_, rfl⟩ := h
  exact ⟨⟨fun _ _ h => h, fun _ _ h => h,
      fun k v h => mapFind_mapInsert_of_find _ _ _ _ _ h, fun _ _ h => h⟩,
    fun hu => ⟨hu.1, hu.2.1, nodup_keys_mapInsert _ _ _ hu.2.2.1, hu.2.2.2⟩⟩

theorem Eval.keeps_insertForm (f_desc : FormLocator) (b : NBilinearForm) :
    (Regina.insertForm f_desc b).Keeps := by
  intro c a c1 h
  unfold Regina.insertForm at h
  simp only [Outcome.ok.injEq] at h
  obtain ⟨_, rfl⟩ := h
  exact ⟨⟨fun _ _ h => h, fun _ _ h => h, fun _ _ h => h,
      fun k v h => mapFind_mapInsert_of_find _ _ _ _ _ h⟩,
    fun hu => ⟨hu.1, hu.2.1, hu.2.2.1, nodup_keys_mapInsert _ _ _ hu.2.2.2⟩⟩

theorem Eval.keeps_unmarkedGroup (D : NCellularData) (g : GroupLocator) :
    (Regina.unmarkedGroup D g).Keeps := by
  intro c r c1 h
  obtain ⟨G, _, _, rfl⟩ := unmarkedGroup_shape D g c c1 r h
  exact ⟨⟨fun k v h => mapFind_mapInsert_of_find _ _ _ _ _ h, fun _ _ h => h,
      fun _ _ h => h, fun _ _ h => h⟩,
    fun hu => ⟨nodup_keys_mapInsert _ _ _ hu.1, hu.2.1, hu.2.2.1, hu.2.2.2⟩⟩

theorem Eval.keeps_markedGroup (D : NCellularData) (g : GroupLocator) :
    (Regina.markedGroup D g).Keeps := by
  intro c r c1 h
  obtain ⟨G, _, _, rfl⟩ := markedGroup_shape D g c c1 r h
  exact ⟨⟨fun _ _ h => h, fun k v h => mapFind_mapInsert_of_find _ _ _ _ _ h,
      fun _ _ h => h, fun _ _ h => h⟩,
    fun hu => ⟨hu.1, nodup_keys_mapInsert _ _ _ hu.2.1, hu.2.2.1, hu.2.2.2⟩⟩

theorem Eval.keeps_homGroup_chainMap (D : NCellularData) (h : HomLocator) :
    (Regina.homGroup_chainMap D h).Keeps := by
  unfold Regina.homGroup_chainMap
  repeat (first
    | exact Eval.keeps_pure _
    | exact Eval.keeps_deref _
    | exact Eval.keeps_vecAt _ _
    | exact Eval.keeps_markedGroup _ _
    | refine Eval.keeps_bind ?_ (fun _ => ?_)
    | split)

theorem Eval.keeps_homGroup_wrap (D : NCellularData) (h : HomLocator) (CM : Option NMatrixInt) :
    (Regina.homGroup_wrap D h CM).Keeps := by
  unfold Regina.homGroup_wrap
  repeat (first
    | exact Eval.keeps_pure _
    | exact Eval.keeps_insertHom _ _
    | exact Eval.keeps_markedGroup _ _
    | refine Eval.keeps_bind ?_ (fun _ => ?_)
    | split)

theorem Outcome.Keeps_of_ok_self {α : Type} {c c1 : Caches} {a b : α}
    (h : Outcome.ok a c = Outcome.ok b c1) : c.Preserved c1 ∧ (c.Unique → c1.Unique) := by
  simp only [Outcome.ok.injEq] at h
  obtain ⟨_, rfl⟩ := h
  exact ⟨Caches.Preserved.refl c, id⟩

theorem Eval.keeps_homGroup (D : NCellularData) (h : HomLocator) :
    (Regina.homGroup D h).Keeps := by
  intro c r c1 hr
  unfold Regina.homGroup at hr
  cases hf : mapFind c.homMarkedAbelianGroups h with
  | some p =>
    simp only [hf] at hr
    exact Outcome.Keeps_of_ok_self hr
  | none =>
    simp only [hf] at hr
    by_cases h1 : h.domain.dim > D.aDim ∨ h.range.dim > D.aDim
    · rw [if_pos h1] at hr
      exact Outcome.Keeps_of_ok_self hr
    · rw [if_neg h1] at hr
      by_cases h2 : h.range.cof ≠ 0 ∧ h.domain.cof % h.range.cof ≠ 0
      · rw [if_pos h2] at hr
        exact Outcome.Keeps_of_ok_self hr
      · rw [if_neg h2] at hr
        exact Eval.keeps_bind (Eval.keeps_homGroup_chainMap D h)
          (fun CM => Eval.keeps_homGroup_wrap D h CM) c r c1 hr

set_option maxRecDepth 8000 in
theorem Eval.keeps_bilinearFormFuel (fuel : Nat) (D : NCellularData) :
    ∀ f : FormLocator, (Regina.bilinearFormFuel fuel D f).Keeps := by
  induction fuel with
  | zero =>
    intro f c r c1 hr
    cases hr
  | succ n ih =>
    intro f c r c1 hr
    unfold Regina.bilinearFormFuel at hr
    cases hf : mapFind c.bilinearForms f with
    | some p =>
      simp only [hf] at hr
      exact Outcome.Keeps_of_ok_self hr
    | none =>
      simp only [hf] at hr
      refine (?_ : Eval.Keeps _) c r c1 hr
      repeat (first
        | exact Eval.keeps_pure _
        | exact Eval.keeps_deref _
        | exact Eval.keeps_liftRead _
        | exact Eval.keeps_insertForm _ _
        | exact Eval.keeps_markedGroup _ _
        | exact Eval.keeps_homGroup _ _
        | exact ih _
        | refine Eval.keeps_bind ?_ (fun _ => ?_)
        | split)

/-! ## The fuel of `bilinearForm` suffices -/

theorem Eval.fueled_pure {α : Type} (a : α) : (Pure.pure a : Eval α).Fueled := by
  intro c h
  cases h

theorem Eval.fueled_bind {α β : Type} {m : Eval α} {f : α → Eval β} (hm : m.Fueled)
    (hf : ∀ a, (f a).Fueled) : (m >>= f).Fueled := by
  intro c h
  rw [Eval.bind_apply] at h
  cases hmc : m c with
  | fault e =>
    simp only [hmc, Outcome.fault.injEq] at h
    exact hm c (by rw [hmc, h])
  | ok a c1 =>
    simp only [hmc] at h
    exact hf a c1 h

theorem Eval.fueled_deref {α : Type} (p : Option α) : (Regina.deref p).Fueled := by
  intro c h
  unfold Regina.deref at h
  cases p <;> simp at h

theorem Eval.fueled_vecAt {α : Type} (v : List α) (i : Nat) : (Regina.vecAt v i).Fueled := by
  intro c h
  unfold Regina.vecAt at h
  cases hv : v[i]? <;> simp [hv] at h

theorem Eval.fueled_liftRead {α : Type} (p : Option α) : (Regina.liftRead p).Fueled := by
  intro c h
  unfold Regina.liftRead at h
  cases p <;> simp at h

theorem Eval.fueled_insertHom (h_desc : HomLocator) (f : NHomMarkedAbelianGroup) :
    (Regina.insertHom h_desc f).Fueled := by
  intro c h
  cases h

theorem Eval.fueled_insertForm (f_desc : FormLocator) (b : NBilinearForm) :
    (Regina.insertForm f_desc b).Fueled := by
  intro c h
  cases h

theorem Eval.fueled_markedGroup (D : NCellularData) (g : GroupLocator) :
    (Regina.markedGroup D g).Fueled := by
  intro c h
  unfold Regina.markedGroup at h
  cases hf : mapFind c.markedAbelianGroups g with
  | some p => simp [hf] at h
  | none =>
    simp only [hf] at h
    generalize (if g.hcs = DUAL_coord then D.dCC else if g.hcs = STD_coord then D.sCC else
      if g.hcs = MIX_coord then D.mCC else if g.hcs = STD_BDRY_coord then D.sbCC else
      if g.hcs = STD_REL_BDRY_coord then D.srCC else []) = CC at h
    cases hA : CC[g.dim]? <;> cases hB : CC[uadd g.dim 1]? <;> simp only [hA, hB] at h <;>
      (try split_ifs at h) <;> cases h

theorem Eval.fueled_homGroup_chainMap (D : NCellularData) (h : HomLocator) :
    (Regina.homGroup_chainMap D h).Fueled := by
  unfold Regina.homGroup_chainMap
  repeat (first
    | exact Eval.fueled_pure _
    | exact Eval.fueled_deref _
    | exact Eval.fueled_vecAt _ _
    | exact Eval.fueled_markedGroup _ _
    | refine Eval.fueled_bind ?_ (fun _ => ?_)
    | split)

theorem Eval.fueled_homGroup_wrap (D : NCellularData) (h : HomLocator)
    (CM : Option NMatrixInt) : (Regina.homGroup_wrap D h CM).Fueled := by
  unfold Regina.homGroup_wrap
  repeat (first
    | exact Eval.fueled_pure _
    | exact Eval.fueled_insertHom _ _
    | exact Eval.fueled_markedGroup _ _
    | refine Eval.fueled_bind ?_ (fun _ => ?_)
    | split)

theorem Eval.fueled_homGroup (D : NCellularData) (h : HomLocator) :
    (Regina.homGroup D h).Fueled := by
  intro c hr
  unfold Regina.homGroup at hr
  cases hf : mapFind c.homMarkedAbelianGroups h with
  | some p =>
    simp only [hf] at hr
    cases hr
  | none =>
    simp only [hf] at hr
    by_cases h1 : h.domain.dim > D.aDim ∨ h.range.dim > D.aDim
    · rw [if_pos h1] at hr
      cases hr
    · rw [if_neg h1] at hr
      by_cases h2 : h.range.cof ≠ 0 ∧ h.domain.cof % h.range.cof ≠ 0
      · rw [if_pos h2] at hr
        cases hr
      · rw [if_neg h2] at hr
        exact Eval.fueled_bind (Eval.fueled_homGroup_chainMap D h)
          (fun CM => Eval.fueled_homGroup_wrap D h CM) c hr

set_option maxRecDepth 8000 in
/-- A canonical locator (`DUAL x STD_REL_BDRY` coordinates) is resolved without
a call of `bilinearForm` to itself. -/
theorem Eval.fueled_bilinearFormFuel_canonical (n : Nat) (D : NCellularData) (f : FormLocator)
    (hl : f.ldomain.hcs = DUAL_coord) (hr : f.rdomain.hcs = STD_REL_BDRY_coord) :
    (Regina.bilinearFormFuel (n + 1) D f).Fueled := by
  intro c hc
  unfold Regina.bilinearFormFuel at hc
  cases hf : mapFind c.bilinearForms f with
  | some p =>
    simp only [hf] at hc
    cases hc
  | none =>
    simp only [hf, hl, hr, reduceCtorEq, and_false, false_and, and_true, if_false] at hc
    refine (?_ : Eval.Fueled _) c hc
    repeat (first
      | exact Eval.fueled_pure _
      | exact Eval.fueled_deref _
      | exact Eval.fueled_liftRead _
      | exact Eval.fueled_insertForm _ _
      | exact Eval.fueled_markedGroup _ _
      | refine Eval.fueled_bind ?_ (fun _ => ?_)
      | split)

set_option maxRecDepth 8000 in
/-- With two units of fuel or more `bilinearFormFuel` never runs out of fuel. -/
theorem Eval.fueled_bilinearFormFuel (n : Nat) (D : NCellularData) (f : FormLocator) :
    (Regina.bilinearFormFuel (n + 2) D f).Fueled := by
  intro c hc
  unfold Regina.bilinearFormFuel at hc
  cases hf : mapFind c.bilinearForms f with
  | some p =>
    simp only [hf] at hc
    cases hc
  | none =>
    simp only [hf] at hc
    refine (?_ : Eval.Fueled _) c hc
    repeat (first
      | exact Eval.fueled_pure _
      | exact Eval.fueled_deref _
      | exact Eval.fueled_liftRead _
      | exact Eval.fueled_insertForm _ _
      | exact Eval.fueled_markedGroup _ _
      | exact Eval.fueled_homGroup _ _
      | exact Eval.fueled_bilinearFormFuel_canonical _ _ _ rfl rfl
      | exact Eval.fueled_bilinearFormFuel_canonical _ _ _
          (by assumption : _ ∧ f.ldomain.hcs = DUAL_coord ∧ _).2.1 rfl
      | exact Eval.fueled_bilinearFormFuel_canonical _ _ _ rfl
          (by assumption : _ ∧ _ ∧ f.rdomain.hcs = STD_REL_BDRY_coord).2.2
      | refine Eval.fueled_bind ?_ (fun _ => ?_)
      | split)

/-- The resolver `bilinearForm` returns or reads out of range or dereferences
a null pointer: the fuel of its model is never used up. -/
theorem bilinearForm_fueled (D : NCellularData) (f : FormLocator) (c : Caches) :
    bilinearForm D f c ≠ .fault .outOfFuel :=
  Eval.fueled_bilinearFormFuel 0 D f c

theorem Caches.unique_empty : Caches.empty.Unique := by
  simp [Caches.Unique, Caches.empty]

/-- In every state that the caches can be in, each cache holds at most one
entry per locator. -/
theorem Caches.Reachable.unique {D : NCellularData} {c : Caches} (hc : c.Reachable D) :
    c.Unique := by
  induction hc with
  | fresh => exact Caches.unique_empty
  | unmarkedGroup g r _ hr ih => exact (Eval.keeps_unmarkedGroup D g _ r _ hr).2 ih
  | markedGroup g r _ hr ih => exact (Eval.keeps_markedGroup D g _ r _ hr).2 ih
  | homGroup h r _ hr ih => exact (Eval.keeps_homGroup D h _ r _ hr).2 ih
  | bilinearForm f r _ hr ih => exact (Eval.keeps_bilinearFormFuel 2 D f _ r _ hr).2 ih

/-! ## Facts about matrices -/

theorem NMatrixInt.fill_entry (r c : Nat) (f : Nat → Nat → Int) (i j : Nat) (hi : i < r)
    (hj : j < c) : (NMatrixInt.fill r c f).entry i j = f i j := by
  simp [NMatrixInt.fill, NMatrixInt.entry, List.getD_eq_getElem?_getD, List.getElem?_map,
    List.getElem?_range, hi, hj]

theorem NMatrixInt.transposed_entry (m : NMatrixInt) (i j : Nat) (hi : i < m.columns)
    (hj : j < m.rows) : m.transposed.entry i j = m.entry j i :=
  NMatrixInt.fill_entry _ _ _ i j hi hj

theorem NMatrixInt.makeIdentity_entry (m : NMatrixInt) (i j : Nat) (hi : i < m.rows)
    (hj : j < m.columns) : m.makeIdentity.entry i j = if i = j then 1 else 0 :=
  NMatrixInt.fill_entry _ _ _ i j hi hj

/-! ## Facts about the homomorphism resolver -/

/-- With no chain map chosen, `homGroup` returns `NULL`. -/
theorem homGroup_of_chainMap_none (D : NCellularData) (h : HomLocator) (c c1 : Caches)
    (hc : mapFind c.homMarkedAbelianGroups h = none)
    (hdim : h.domain.dim ≤ D.aDim ∧ h.range.dim ≤ D.aDim)
    (hcof : h.range.cof = 0 ∨ h.domain.cof % h.range.cof = 0)
    (hCM : homGroup_chainMap D h c = .ok none c1) : homGroup D h c = .ok none c1 := by
  have h1 : ¬(h.domain.dim > D.aDim ∨ h.range.dim > D.aDim) := by omega
  have h2 : ¬(h.range.cof ≠ 0 ∧ h.domain.cof % h.range.cof ≠ 0) := by
    rcases hcof with e | e <;> simp [e]
  unfold homGroup
  simp only [hc]
  rw [if_neg h1, if_neg h2, Eval.bind_apply, hCM]
  rfl

/-- With a chain map chosen and the chain complexes of both ends at hand,
`homGroup` resolves both ends with `markedGroup`, builds the homomorphism from
them and the chain map, and caches it. -/
theorem homGroup_of_chainMap_some (D : NCellularData) (h : HomLocator) (c c1 : Caches)
    (CM A B A1 B1 : NMatrixInt)
    (hc : mapFind c.homMarkedAbelianGroups h = none)
    (hdim : h.domain.dim ≤ D.aDim ∧ h.range.dim ≤ D.aDim)
    (hcof : h.range.cof = 0 ∨ h.domain.cof % h.range.cof = 0)
    (hCM : homGroup_chainMap D h c = .ok (some CM) c1)
    (hd : chainPair D h.domain.hcs h.domain.dim = some (A, B))
    (hr : chainPair D h.range.hcs h.range.dim = some (A1, B1)) :
    ∃ dom ran c2 c3, markedGroup D h.domain c1 = .ok (some dom) c2 ∧
      markedGroup D h.range c2 = .ok (some ran) c3 ∧
      homGroup D h c = .ok (some (.ofMatrix dom ran CM))
        { c3 with
          homMarkedAbelianGroups :=
            mapInsert c3.homMarkedAbelianGroups h (.ofMatrix dom ran CM) } := by
  have h1 : ¬(h.domain.dim > D.aDim ∨ h.range.dim > D.aDim) := by omega
  have h2 : ¬(h.range.cof ≠ 0 ∧ h.domain.cof % h.range.cof ≠ 0) := by
    rcases hcof with e | e <;> simp [e]
  refine ⟨_, _, _, _, markedGroup_eval D h.domain c1 A B hd,
    markedGroup_eval D h.range _ A1 B1 hr, ?_⟩
  unfold homGroup
  simp only [hc]
  rw [if_neg h1, if_neg h2, Eval.bind_apply, hCM]
  simp only [homGroup_wrap, Eval.bind_apply, markedGroup_eval D h.domain c1 A B hd,
    markedGroup_eval D h.range _ A1 B1 hr, insertHom, Eval.pure_apply]

/-- The chain map of a change-of-coefficients request: the identity matrix of
size `getRankCC()` of the domain group, which `markedGroup` resolves. -/
theorem homGroup_chainMap_identity (D : NCellularData) (h : HomLocator) (c : Caches)
    (A B : NMatrixInt) (hvar : h.domain.var = h.range.var) (hdim : h.domain.dim = h.range.dim)
    (hhcs : h.domain.hcs = h.range.hcs)
    (hd : chainPair D h.domain.hcs h.domain.dim = some (A, B)) :
    ∃ dom c1, markedGroup D h.domain c = .ok (some dom) c1 ∧
      homGroup_chainMap D h c =
        .ok (some (NMatrixInt.zero dom.getRankCC dom.getRankCC).makeIdentity) c1 := by
  have hm := markedGroup_eval D h.domain c A B hd
  refine ⟨_, _, hm, ?_⟩
  unfold homGroup_chainMap
  simp only [← hvar, ← hhcs, ← hdim]
  cases hv : h.domain.var <;> cases hh : h.domain.hcs <;>
    simp [Eval.bind_apply, Eval.pure_apply, deref, hm]

theorem NCellularData.aDim_eq (D : NCellularData) : D.aDim = 3 ∨ D.aDim = 4 := by
  unfold NCellularData.aDim
  cases D.tri <;> simp

theorem uadd_small (a b : Nat) (ha : a ≤ 4) (hb : b ≤ 4) : uadd a b = a + b := by
  unfold uadd ulongMod
  omega

/-- The chain map of a variance-reversing request: the duality matrix for a
request `DUAL(d) -> STD_REL_BDRY(aDim - d)` on an orientable manifold or with
a coefficient 2, and none otherwise. -/
theorem homGroup_chainMap_reversing (D : NCellularData) (h : HomLocator) (c : Caches)
    (hvar : h.domain.var ≠ h.range.var) :
    homGroup_chainMap D h c =
      .ok (if (D.orientable = true ∨ h.domain.cof = 2 ∨ h.range.cof = 2) ∧
          h.domain.hcs = DUAL_coord ∧ h.range.hcs = STD_REL_BDRY_coord ∧
          uadd h.domain.dim h.range.dim = D.aDim
        then some (dualityMatrix D h) else none) c := by
  unfold homGroup_chainMap
  rw [if_neg hvar]
  by_cases ho : D.orientable = false ∧ h.domain.cof ≠ 2 ∧ h.range.cof ≠ 2
  · rw [if_pos ho]
    have : ¬(D.orientable = true ∨ h.domain.cof = 2 ∨ h.range.cof = 2) := by
      obtain ⟨h1, h2, h3⟩ := ho
      simp [h1, h2, h3]
    simp [this, Eval.pure_apply]
  · rw [if_neg ho]
    have ho2 : D.orientable = true ∨ h.domain.cof = 2 ∨ h.range.cof = 2 := by
      by_contra hn
      simp only [not_or, Bool.not_eq_true] at hn
      exact ho hn
    by_cases hp : h.domain.hcs = DUAL_coord ∧ h.range.hcs = STD_REL_BDRY_coord ∧
        uadd h.domain.dim h.range.dim = D.aDim
    · cases hv : h.domain.var <;> simp [ho2, hp, Eval.pure_apply]
    · have hq : ¬((D.orientable = true ∨ h.domain.cof = 2 ∨ h.range.cof = 2) ∧
          h.domain.hcs = DUAL_coord ∧ h.range.hcs = STD_REL_BDRY_coord ∧
          uadd h.domain.dim h.range.dim = D.aDim) := fun hh => hp hh.2
      rw [if_neg hq]
      have h3 : ¬(h.domain.var = coVariant ∧ h.domain.hcs = DUAL_coord ∧
          h.range.hcs = STD_REL_BDRY_coord ∧ uadd h.domain.dim h.range.dim = D.aDim) :=
        fun hh => hp hh.2
      have h4 : ¬(h.domain.var = contraVariant ∧ h.domain.hcs = DUAL_coord ∧
          h.range.hcs = STD_REL_BDRY_coord ∧ uadd h.domain.dim h.range.dim = D.aDim) :=
        fun hh => hp hh.2
      rw [if_neg h3, if_neg h4]
      rfl

/-- The chain map of a subdivision request is the matrix that
`subdivisionSelect` names. -/
theorem homGroup_chainMap_subdivision (D : NCellularData) (h : HomLocator) (c : Caches)
    (v : List NMatrixInt) (i : Nat) (t : Bool) (m : NMatrixInt)
    (hs : subdivisionSelect D h = some (v, i, t)) (hm : v[i]? = some m) :
    homGroup_chainMap D h c = .ok (some (selectedMatrix m t)) c := by
  unfold subdivisionSelect at hs
  unfold homGroup_chainMap
  cases hdv : h.domain.var <;> cases hrv : h.range.var <;> cases hdh : h.domain.hcs <;>
    cases hrh : h.range.hcs <;> simp only [hdv, hrv, hdh, hrh, reduceCtorEq] at hs <;>
    (cases hs; simp [Eval.bind_apply, Eval.pure_apply, vecAt, hm, selectedMatrix])

/-- The chain map of a variance-preserving request between two different
ones of the coordinate systems `STD`, `STD_BDRY` and `STD_REL_BDRY` is the
matrix that `lesSelect` names, and none if it names none. -/
theorem homGroup_chainMap_les (D : NCellularData) (h : HomLocator) (c : Caches)
    (hvar : h.domain.var = h.range.var)
    (hdim : h.domain.dim ≤ D.aDim ∧ h.range.dim ≤ D.aDim)
    (hd : h.domain.hcs = STD_coord ∨ h.domain.hcs = STD_BDRY_coord ∨
      h.domain.hcs = STD_REL_BDRY_coord)
    (hr : h.range.hcs = STD_coord ∨ h.range.hcs = STD_BDRY_coord ∨
      h.range.hcs = STD_REL_BDRY_coord)
    (hne : h.domain.hcs ≠ h.range.hcs) :
    homGroup_chainMap D h c =
      match lesSelect D h with
      | none => .ok none c
      | some (v, i, t) =>
        match v[i]? with
        | some m => .ok (some (selectedMatrix m t)) c
        | none => .fault .outOfRange := by
  have ha := D.aDim_eq
  have e1 : uadd h.range.dim 1 = h.range.dim + 1 := uadd_small _ _ (by omega) (by omega)
  have e2 : uadd h.domain.dim 1 = h.domain.dim + 1 := uadd_small _ _ (by omega) (by omega)
  unfold lesSelect homGroup_chainMap
  rw [e1, e2]
  cases hdv : h.domain.var <;> rw [hdv] at hvar <;>
    rcases hd with hd | hd | hd <;> rcases hr with hr | hr | hr <;>
    simp only [hd, hr, ← hvar, ne_eq, not_true_eq_false] at hne ⊢ <;>
    simp only [reduceCtorEq, false_and, and_false, true_and, and_true, if_false, if_true,
      false_or, or_false, Eval.bind_apply, Eval.pure_apply] <;>
    split_ifs <;> (try omega) <;>
    simp only [Eval.bind_apply, Eval.pure_apply, vecAt, selectedMatrix] <;>
    (try (cases D.sbiCM[h.domain.dim]?)) <;> (try (cases D.strCM[h.domain.dim]?)) <;>
    (try (cases D.schCM[h.domain.dim]?)) <;> (try (cases D.schCM[h.range.dim]?)) <;>
    simp_all

theorem isIdentityShaped_makeIdentity (r c : Nat) :
    IsIdentityShaped (NMatrixInt.zero r c).makeIdentity r c :=
  ⟨rfl, rfl, fun i j hi hj => NMatrixInt.makeIdentity_entry _ i j hi hj⟩

theorem isTransposeOf_transposed (m : NMatrixInt) : IsTransposeOf m.transposed m :=
  ⟨rfl, rfl, fun i j hi hj => NMatrixInt.transposed_entry m i j hi hj⟩

theorem chainPair_of_reads (D : NCellularData) (g : GroupLocator) (CC : List NMatrixInt)
    (A B : NMatrixInt) (hCC : chainComplexOf D g.hcs = some CC) (hA : CC[g.dim]? = some A)
    (hB : CC[uadd g.dim 1]? = some B) : chainPair D g.hcs g.dim = some (A, B) := by
  unfold chainPair
  simp [hCC, hA, hB]

/-! ## Soundness of the hom cache -/

theorem Eval.const_pure {α : Type} (a : α) : (Pure.pure a : Eval α).Const :=
  Or.inl ⟨a, fun _ => rfl⟩

theorem Eval.const_bind {α β : Type} {m : Eval α} {f : α → Eval β} (hm : m.Const)
    (hf : ∀ a, (f a).Const) : (m >>= f).Const := by
  rcases hm with ⟨a, ha⟩ | ⟨e, he⟩
  · rcases hf a with ⟨b, hb⟩ | ⟨e, he⟩
    · exact Or.inl ⟨b, fun c => by rw [Eval.bind_apply, ha]; exact hb c⟩
    · exact Or.inr ⟨e, fun c => by rw [Eval.bind_apply, ha]; exact he c⟩
  · exact Or.inr ⟨e, fun c => by rw [Eval.bind_apply, he]⟩

theorem Eval.const_vecAt {α : Type} (v : List α) (i : Nat) : (Regina.vecAt v i).Const := by
  unfold Regina.vecAt
  cases hv : v[i]? with
  | none => exact Or.inr ⟨_, fun _ => rfl⟩
  | some x => exact Or.inl ⟨x, fun _ => rfl⟩

/-- A request that is not a change-of-coefficients request gets its chain map
without a look at the caches. -/
theorem homGroup_chainMap_const (D : NCellularData) (h : HomLocator)
    (hn : ¬(h.domain.var = h.range.var ∧ h.domain.dim = h.range.dim ∧
      h.domain.hcs = h.range.hcs)) : (homGroup_chainMap D h).Const := by
  unfold homGroup_chainMap
  repeat (first
    | exact Eval.const_pure _
    | exact Eval.const_vecAt _ _
    | exact absurd (And.intro (by assumption) (by assumption)) hn
    | refine Eval.const_bind ?_ (fun _ => ?_)
    | split)

/-- The chain map of a change-of-coefficients request, in terms of what
`markedGroup` does on the domain. -/
theorem homGroup_chainMap_id_eval (D : NCellularData) (h : HomLocator) (c : Caches)
    (hvar : h.domain.var = h.range.var) (hdim : h.domain.dim = h.range.dim)
    (hhcs : h.domain.hcs = h.range.hcs) :
    homGroup_chainMap D h c =
      match markedGroup D h.domain c with
      | .ok (some G) c1 => .ok (some (NMatrixInt.zero G.getRankCC G.getRankCC).makeIdentity) c1
      | .ok none _ => .fault .nullDeref
      | .fault e => .fault e := by
  unfold homGroup_chainMap
  simp only [← hvar, ← hhcs, ← hdim]
  cases hm : markedGroup D h.domain c with
  | fault e =>
    cases hv : h.domain.var <;> simp [Eval.bind_apply, hm]
  | ok r c1 =>
    cases r with
    | none => cases hv : h.domain.var <;> simp [Eval.bind_apply, hm, deref]
    | some G =>
      cases hv : h.domain.var <;> cases hh : h.domain.hcs <;>
        simp [Eval.bind_apply, Eval.pure_apply, deref, hm]

/-- The chain map that `homGroup` chose in one state of the caches is the one
it chooses in every state in which the domain resolves to the same group. -/
theorem chainMatrixFor_of_chainMap (D : NCellularData) (h : HomLocator) (c c1 c2 : Caches)
    (CM : NMatrixInt) (dom : NMarkedAbelianGroup)
    (hCM : homGroup_chainMap D h c = .ok (some CM) c1)
    (hdom : markedGroup D h.domain c1 = .ok (some dom) c2) : ChainMatrixFor D h dom CM := by
  intro c3 h3
  by_cases hid : h.domain.var = h.range.var ∧ h.domain.dim = h.range.dim ∧
      h.domain.hcs = h.range.hcs
  · obtain ⟨hvar, hdim, hhcs⟩ := hid
    rw [homGroup_chainMap_id_eval D h c hvar hdim hhcs] at hCM
    rw [homGroup_chainMap_id_eval D h c3 hvar hdim hhcs, markedGroup_cached D h.domain c3 dom h3]
    cases hm : markedGroup D h.domain c with
    | fault e => simp [hm] at hCM
    | ok r c4 =>
      obtain ⟨G, rfl, hfind, _⟩ := markedGroup_shape D h.domain c c4 r hm
      simp only [hm, Outcome.ok.injEq, Option.some.injEq] at hCM
      obtain ⟨rfl, rfl⟩ := hCM
      rw [markedGroup_cached D h.domain c4 G hfind] at hdom
      simp only [Outcome.ok.injEq, Option.some.injEq] at hdom
      obtain ⟨rfl, _⟩ := hdom
      rfl
  · rcases homGroup_chainMap_const D h hid with ⟨a, ha⟩ | ⟨e, he⟩
    · rw [ha] at hCM
      simp only [Outcome.ok.injEq] at hCM
      rw [ha, hCM.1]
    · rw [he] at hCM
      cases hCM

/-- The chain map leaves the caches as they are or as `markedGroup` on the
domain leaves them. -/
theorem homGroup_chainMap_caches (D : NCellularData) (h : HomLocator) (c c1 : Caches)
    (r : Option NMatrixInt) (hCM : homGroup_chainMap D h c = .ok r c1) :
    c1 = c ∨ ∃ G, markedGroup D h.domain c = .ok (some G) c1 := by
  by_cases hid : h.domain.var = h.range.var ∧ h.domain.dim = h.range.dim ∧
      h.domain.hcs = h.range.hcs
  · obtain ⟨hvar, hdim, hhcs⟩ := hid
    rw [homGroup_chainMap_id_eval D h c hvar hdim hhcs] at hCM
    cases hm : markedGroup D h.domain c with
    | fault e => simp [hm] at hCM
    | ok r1 c4 =>
      obtain ⟨G, rfl, _, _⟩ := markedGroup_shape D h.domain c c4 r1 hm
      simp only [hm, Outcome.ok.injEq] at hCM
      exact Or.inr ⟨G, by rw [hCM.2]⟩
  · rcases homGroup_chainMap_const D h hid with ⟨a, ha⟩ | ⟨e, he⟩
    · rw [ha] at hCM
      simp only [Outcome.ok.injEq] at hCM
      exact Or.inl hCM.2.symm
    · rw [he] at hCM
      cases hCM

/-- The ways in which `homGroup` returns: with the cached homomorphism; with
`NULL` from one of the two checks; with `NULL` for want of a chain map; or with
the homomorphism that it builds from the chain map and the two groups that
`markedGroup` resolves, and caches. -/
theorem homGroup_inv (D : NCellularData) (h : HomLocator) (c c4 : Caches)
    (r : Option NHomMarkedAbelianGroup) (hr : homGroup D h c = .ok r c4) :
    (∃ f, mapFind c.homMarkedAbelianGroups h = some f ∧ r = some f ∧ c4 = c) ∨
    (mapFind c.homMarkedAbelianGroups h = none ∧ r = none ∧ c4 = c ∧
      ¬((h.domain.dim ≤ D.aDim ∧ h.range.dim ≤ D.aDim) ∧
        (h.range.cof = 0 ∨ h.domain.cof % h.range.cof = 0))) ∨
    (mapFind c.homMarkedAbelianGroups h = none ∧ r = none ∧
      (h.domain.dim ≤ D.aDim ∧ h.range.dim ≤ D.aDim) ∧
      (h.range.cof = 0 ∨ h.domain.cof % h.range.cof = 0) ∧
      homGroup_chainMap D h c = .ok none c4) ∨
    (mapFind c.homMarkedAbelianGroups h = none ∧
      (h.domain.dim ≤ D.aDim ∧ h.range.dim ≤ D.aDim) ∧
      (h.range.cof = 0 ∨ h.domain.cof % h.range.cof = 0) ∧
      ∃ CM c1 dom c2 ran c3, homGroup_chainMap D h c = .ok (some CM) c1 ∧
        markedGroup D h.domain c1 = .ok (some dom) c2 ∧
        markedGroup D h.range c2 = .ok (some ran) c3 ∧
        r = some (.ofMatrix dom ran CM) ∧
        c4 = { c3 with
          homMarkedAbelianGroups :=
            mapInsert c3.homMarkedAbelianGroups h (.ofMatrix dom ran CM) }) := by
  unfold homGroup at hr
  cases hf : mapFind c.homMarkedAbelianGroups h with
  | some p =>
    simp only [hf, Outcome.ok.injEq] at hr
    exact Or.inl ⟨p, rfl, hr.1.symm, hr.2.symm⟩
  | none =>
    simp only [hf] at hr
    by_cases h1 : h.domain.dim > D.aDim ∨ h.range.dim > D.aDim
    · rw [if_pos h1] at hr
      simp only [Outcome.ok.injEq] at hr
      exact Or.inr (Or.inl ⟨rfl, hr.1.symm, hr.2.symm, fun hh => by omega⟩)
    · rw [if_neg h1] at hr
      have hd : h.domain.dim ≤ D.aDim ∧ h.range.dim ≤ D.aDim := by omega
      by_cases h2 : h.range.cof ≠ 0 ∧ h.domain.cof % h.range.cof ≠ 0
      · rw [if_pos h2] at hr
        simp only [Outcome.ok.injEq] at hr
        refine Or.inr (Or.inl ⟨rfl, hr.1.symm, hr.2.symm, fun hh => ?_⟩)
        rcases hh.2 with e | e
        · exact h2.1 e
        · exact h2.2 e
      · rw [if_neg h2] at hr
        have hcof : h.range.cof = 0 ∨ h.domain.cof % h.range.cof = 0 := by
          by_cases e : h.range.cof = 0
          · exact Or.inl e
          · exact Or.inr (by by_contra e2; exact h2 ⟨e, e2⟩)
        rw [Eval.bind_apply] at hr
        cases hcm : homGroup_chainMap D h c with
        | fault e => simp [hcm] at hr
        | ok CM c1 =>
          simp only [hcm] at hr
          cases CM with
          | none =>
            simp only [homGroup_wrap, Eval.pure_apply, Outcome.ok.injEq] at hr
            exact Or.inr (Or.inr (Or.inl ⟨rfl, hr.1.symm, hd, hcof, by rw [hr.2]⟩))
          | some CM =>
            simp only [homGroup_wrap, Eval.bind_apply] at hr
            cases hm1 : markedGroup D h.domain c1 with
            | fault e => simp [hm1] at hr
            | ok dom c2 =>
              obtain ⟨G1, rfl, _, _⟩ := markedGroup_shape D h.domain c1 c2 dom hm1
              simp only [hm1] at hr
              cases hm2 : markedGroup D h.range c2 with
              | fault e => simp [hm2] at hr
              | ok ran c3 =>
                obtain ⟨G2, rfl, _, _⟩ := markedGroup_shape D h.range c2 c3 ran hm2
                simp only [hm2, Eval.bind_apply, insertHom, Eval.pure_apply,
                  Outcome.ok.injEq] at hr
                exact Or.inr (Or.inr (Or.inr ⟨rfl, hd, hcof, CM, c1, G1, c2, G2, c3, rfl, hm1,
                  hm2, hr.1.symm, hr.2.symm⟩))

theorem Eval.keepsSound_pure {α : Type} (D : NCellularData) (a : α) :
    (Pure.pure a : Eval α).KeepsSound D := by
  intro c b c1 h hs
  simp only [Eval.pure_apply, Outcome.ok.injEq] at h
  obtain ⟨_, rfl⟩ := h
  exact hs

theorem Eval.keepsSound_bind {α β : Type} {D : NCellularData} {m : Eval α} {f : α → Eval β}
    (hm : m.KeepsSound D) (hf : ∀ a, (f a).KeepsSound D) : (m >>= f).KeepsSound D := by
  intro c b c2 h hs
  rw [Eval.bind_apply] at h
  cases hmc : m c with
  | fault e => simp [hmc] at h
  | ok a c1 =>
    simp only [hmc] at h
    exact hf a c1 b c2 h (hm c a c1 hmc hs)

theorem Eval.keepsSound_deref {α : Type} (D : NCellularData) (p : Option α) :
    (Regina.deref p).KeepsSound D := by
  intro c b c1 h hs
  unfold Regina.deref at h
  cases p with
  | none => cases h
  | some x =>
    simp only [Outcome.ok.injEq] at h
    obtain ⟨_, rfl⟩ := h
    exact hs

theorem Eval.keepsSound_liftRead {α : Type} (D : NCellularData) (p : Option α) :
    (Regina.liftRead p).KeepsSound D := by
  intro c b c1 h hs
  unfold Regina.liftRead at h
  cases p with
  | none => cases h
  | some x =>
    simp only [Outcome.ok.injEq] at h
    obtain ⟨_, rfl⟩ := h
    exact hs

theorem Eval.keepsSound_insertForm (D : NCellularData) (f_desc : FormLocator)
    (b : NBilinearForm) : (Regina.insertForm f_desc b).KeepsSound D := by
  intro c a c1 h hs
  unfold Regina.insertForm at h
  simp only [Outcome.ok.injEq] at h
  obtain ⟨_, rfl⟩ := h
  exact hs

theorem Eval.keepsSound_unmarkedGroup (D : NCellularData) (g : GroupLocator) :
    (Regina.unmarkedGroup D g).KeepsSound D := by
  intro c r c1 h hs
  obtain ⟨G, _, _, rfl⟩ := unmarkedGroup_shape D g c c1 r h
  exact hs

theorem Eval.keepsSound_markedGroup (D : NCellularData) (g : GroupLocator) :
    (Regina.markedGroup D g).KeepsSound D := by
  intro c r c1 h hs
  obtain ⟨G, _, _, rfl⟩ := markedGroup_shape D g c c1 r h
  intro k f hk
  obtain ⟨hd, hc, dom, ran, CM, e, h1, h2, h3⟩ := hs k f hk
  exact ⟨hd, hc, dom, ran, CM, e, mapFind_mapInsert_of_find _ _ _ _ _ h1,
    mapFind_mapInsert_of_find _ _ _ _ _ h2, h3⟩

theorem Eval.keepsSound_homGroup_chainMap (D : NCellularData) (h : HomLocator) :
    (Regina.homGroup_chainMap D h).KeepsSound D := by
  intro c r c1 hr hs
  rcases homGroup_chainMap_caches D h c c1 r hr with rfl | ⟨G, hG⟩
  · exact hs
  · exact Eval.keepsSound_markedGroup D h.domain c _ c1 hG hs

theorem markedGroup_find (D : NCellularData) (g : GroupLocator) (c c1 : Caches)
    (G : NMarkedAbelianGroup) (h : markedGroup D g c = .ok (some G) c1) :
    mapFind c1.markedAbelianGroups g = some G := by
  obtain ⟨G1, hG1, hf, _⟩ := markedGroup_shape D g c c1 _ h
  simp only [Option.some.injEq] at hG1
  subst hG1
  exact hf

theorem markedGroup_homs (D : NCellularData) (g : GroupLocator) (c c1 : Caches)
    (r : Option NMarkedAbelianGroup) (h : markedGroup D g c = .ok r c1) :
    c1.homMarkedAbelianGroups = c.homMarkedAbelianGroups := by
  obtain ⟨_, _, _, rfl⟩ := markedGroup_shape D g c c1 _ h
  rfl

theorem homGroup_chainMap_homs (D : NCellularData) (h : HomLocator) (c c1 : Caches)
    (r : Option NMatrixInt) (hr : homGroup_chainMap D h c = .ok r c1) :
    c1.homMarkedAbelianGroups = c.homMarkedAbelianGroups := by
  rcases homGroup_chainMap_caches D h c c1 r hr with rfl | ⟨G, hG⟩
  · rfl
  · exact markedGroup_homs D h.domain c c1 _ hG

theorem Eval.keepsSound_homGroup (D : NCellularData) (h : HomLocator) :
    (Regina.homGroup D h).KeepsSound D := by
  intro c r c4 hr hs
  rcases homGroup_inv D h c c4 r hr with ⟨f, _, _, rfl⟩ | ⟨_, _, rfl, _⟩ | ⟨_, _, _, _, hcm⟩ |
    ⟨hunc, hd, hcof, CM, c1, dom, c2, ran, c3, hcm, hm1, hm2, rfl, rfl⟩
  · exact hs
  · exact hs
  · exact Eval.keepsSound_homGroup_chainMap D h c _ c4 hcm hs
  · have s1 := Eval.keepsSound_homGroup_chainMap D h c _ c1 hcm hs
    have s2 := Eval.keepsSound_markedGroup D h.domain c1 _ c2 hm1 s1
    have s3 := Eval.keepsSound_markedGroup D h.range c2 _ c3 hm2 s2
    have hf1 := markedGroup_find D h.domain c1 c2 dom hm1
    have hf2 := markedGroup_find D h.range c2 c3 ran hm2
    have hf1b : mapFind c3.markedAbelianGroups h.domain = some dom :=
      (Eval.keeps_markedGroup D h.range c2 _ c3 hm2).1.2.1 _ _ hf1
    have hcmf := chainMatrixFor_of_chainMap D h c c1 c2 CM dom hcm hm1
    have hc3 : mapFind c3.homMarkedAbelianGroups h = none := by
      rw [markedGroup_homs D h.range c2 c3 _ hm2, markedGroup_homs D h.domain c1 c2 _ hm1,
        homGroup_chainMap_homs D h c c1 _ hcm]
      exact hunc
    intro k f hk
    have hk2 : mapFind (mapInsert c3.homMarkedAbelianGroups h
        (NHomMarkedAbelianGroup.ofMatrix dom ran CM)) k = some f := hk
    by_cases hkh : k = h
    · subst hkh
      rw [mapFind_mapInsert_self _ _ _ hc3] at hk2
      simp only [Option.some.injEq] at hk2
      exact ⟨hd, hcof, dom, ran, CM, hk2.symm, hf1b, hf2, hcmf⟩
    · have hk3 : mapFind c3.homMarkedAbelianGroups k = some f := by
        unfold mapInsert at hk2
        rw [hc3] at hk2
        simpa [mapFind, Ne.symm hkh] using hk2
      exact s3 k f hk3

set_option maxRecDepth 8000 in
theorem Eval.keepsSound_bilinearFormFuel (fuel : Nat) (D : NCellularData) :
    ∀ f : FormLocator, (Regina.bilinearFormFuel fuel D f).KeepsSound D := by
  induction fuel with
  | zero =>
    intro f c r c1 hr
    cases hr
  | succ n ih =>
    intro f c r c1 hr
    unfold Regina.bilinearFormFuel at hr
    cases hf : mapFind c.bilinearForms f with
    | some p =>
      simp only [hf, Outcome.ok.injEq] at hr
      obtain ⟨_, rfl⟩ := hr
      exact id
    | none =>
      simp only [hf] at hr
      refine (?_ : Eval.KeepsSound D _) c r c1 hr
      repeat (first
        | exact Eval.keepsSound_pure _ _
        | exact Eval.keepsSound_deref _ _
        | exact Eval.keepsSound_liftRead _ _
        | exact Eval.keepsSound_insertForm _ _ _
        | exact Eval.keepsSound_markedGroup _ _
        | exact Eval.keepsSound_homGroup _ _
        | exact ih _
        | refine Eval.keepsSound_bind ?_ (fun _ => ?_)
        | split)

/-- In every state that the caches can be in, the hom cache is sound. -/
theorem Caches.Reachable.homSound {D : NCellularData} {c : Caches} (hc : c.Reachable D) :
    c.HomSound D := by
  induction hc with
  | fresh =>
    intro h f hf
    simp [Caches.empty, mapFind] at hf
  | unmarkedGroup g r _ hr ih => exact Eval.keepsSound_unmarkedGroup D g _ r _ hr ih
  | markedGroup g r _ hr ih => exact Eval.keepsSound_markedGroup D g _ r _ hr ih
  | homGroup h r _ hr ih => exact Eval.keepsSound_homGroup D h _ r _ hr ih
  | bilinearForm f r _ hr ih => exact Eval.keepsSound_bilinearFormFuel 2 D f _ r _ hr ih

/-! ## Soundness of the group caches -/

theorem unmarkedGroup_fault (D : NCellularData) (g : GroupLocator) (c : Caches)
    (hu : mapFind c.abelianGroups g = none) (hp : chainPair D g.hcs g.dim = none) :
    unmarkedGroup D g c = .fault .outOfRange := by
  unfold unmarkedGroup
  simp only [hu]
  unfold chainPair at hp
  cases hh : g.hcs <;> simp only [hh, chainComplexOf, reduceCtorEq, if_true, if_false] at hp ⊢ <;>
    first
    | rfl
    | (split at hp <;> first | rfl | cases hp)

theorem markedGroup_fault (D : NCellularData) (g : GroupLocator) (c : Caches)
    (hu : mapFind c.markedAbelianGroups g = none) (hp : chainPair D g.hcs g.dim = none) :
    markedGroup D g c = .fault .outOfRange := by
  unfold markedGroup
  simp only [hu]
  unfold chainPair at hp
  cases hh : g.hcs <;> simp only [hh, chainComplexOf, reduceCtorEq, if_true, if_false] at hp ⊢ <;>
    first
    | rfl
    | (split at hp <;> first | rfl | cases hp)

theorem Eval.keepsGroups_pure {α : Type} (D : NCellularData) (a : α) :
    (Pure.pure a : Eval α).KeepsGroups D := by
  intro c b c1 h hs
  simp only [Eval.pure_apply, Outcome.ok.injEq] at h
  obtain ⟨_, rfl⟩ := h
  exact hs

theorem Eval.keepsGroups_bind {α β : Type} {D : NCellularData} {m : Eval α} {f : α → Eval β}
    (hm : m.KeepsGroups D) (hf : ∀ a, (f a).KeepsGroups D) : (m >>= f).KeepsGroups D := by
  intro c b c2 h hs
  rw [Eval.bind_apply] at h
  cases hmc : m c with
  | fault e => simp [hmc] at h
  | ok a c1 =>
    simp only [hmc] at h
    exact hf a c1 b c2 h (hm c a c1 hmc hs)

theorem Eval.keepsGroups_deref {α : Type} (D : NCellularData) (p : Option α) :
    (Regina.deref p).KeepsGroups D := by
  intro c b c1 h hs
  unfold Regina.deref at h
  cases p with
  | none => cases h
  | some x =>
    simp only [Outcome.ok.injEq] at h
    obtain ⟨_, rfl⟩ := h
    exact hs

theorem Eval.keepsGroups_vecAt {α : Type} (D : NCellularData) (v : List α) (i : Nat) :
    (Regina.vecAt v i).KeepsGroups D := by
  intro c b c1 h hs
  unfold Regina.vecAt at h
  cases hv : v[i]? with
  | none => simp [hv] at h
  | some x =>
    simp only [hv, Outcome.ok.injEq] at h
    obtain ⟨_, rfl⟩ := h
    exact hs

theorem Eval.keepsGroups_liftRead {α : Type} (D : NCellularData) (p : Option α) :
    (Regina.liftRead p).KeepsGroups D := by
  intro c b c1 h hs
  unfold Regina.liftRead at h
  cases p with
  | none => cases h
  | some x =>
    simp only [Outcome.ok.injEq] at h
    obtain ⟨_, rfl⟩ := h
    exact hs

theorem Eval.keepsGroups_insertHom (D : NCellularData) (h_desc : HomLocator)
    (f : NHomMarkedAbelianGroup) : (Regina.insertHom h_desc f).KeepsGroups D := by
  intro c a c1 h hs
  unfold Regina.insertHom at h
  simp only [Outcome.ok.injEq] at h
  obtain ⟨_, rfl⟩ := h
  exact hs

theorem Eval.keepsGroups_insertForm (D : NCellularData) (f_desc : FormLocator)
    (b : NBilinearForm) : (Regina.insertForm f_desc b).KeepsGroups D := by
  intro c a c1 h hs
  unfold Regina.insertForm at h
  simp only [Outcome.ok.injEq] at h
  obtain ⟨_, rfl⟩ := h
  exact hs

theorem Eval.keepsGroups_unmarkedGroup (D : NCellularData) (g : GroupLocator) :
    (Regina.unmarkedGroup D g).KeepsGroups D := by
  intro c r c1 h hs
  cases hu : mapFind c.abelianGroups g with
  | some G =>
    rw [unmarkedGroup_cached D g c G hu] at h
    simp only [Outcome.ok.injEq] at h
    obtain ⟨_, rfl⟩ := h
    exact hs
  | none =>
    cases hp : chainPair D g.hcs g.dim with
    | none =>
      rw [unmarkedGroup_fault D g c hu hp] at h
      cases h
    | some AB =>
      obtain ⟨A, B⟩ := AB
      rw [unmarkedGroup_eval D g c A B hp] at h
      simp only [Outcome.ok.injEq] at h
      obtain ⟨_, rfl⟩ := h
      refine ⟨fun k G hk => ?_, hs.2⟩
      have hk2 : mapFind (mapInsert c.abelianGroups g (builtUnmarked g A B)) k = some G := hk
      by_cases hkg : k = g
      · subst hkg
        rw [mapFind_mapInsert_self _ _ _ hu] at hk2
        simp only [Option.some.injEq] at hk2
        exact ⟨A, B, hp, hk2.symm⟩
      · unfold mapInsert at hk2
        rw [hu] at hk2
        exact hs.1 k G (by simpa [mapFind, Ne.symm hkg] using hk2)

theorem Eval.keepsGroups_markedGroup (D : NCellularData) (g : GroupLocator) :
    (Regina.markedGroup D g).KeepsGroups D := by
  intro c r c1 h hs
  cases hu : mapFind c.markedAbelianGroups g with
  | some G =>
    rw [markedGroup_cached D g c G hu] at h
    simp only [Outcome.ok.injEq] at h
    obtain ⟨_, rfl⟩ := h
    exact hs
  | none =>
    cases hp : chainPair D g.hcs g.dim with
    | none =>
      rw [markedGroup_fault D g c hu hp] at h
      cases h
    | some AB =>
      obtain ⟨A, B⟩ := AB
      rw [markedGroup_eval D g c A B hp] at h
      simp only [Outcome.ok.injEq] at h
      obtain ⟨_, rfl⟩ := h
      refine ⟨hs.1, fun k G hk => ?_⟩
      have hk2 : mapFind (mapInsert c.markedAbelianGroups g (builtMarked g A B)) k = some G := hk
      by_cases hkg : k = g
      · subst hkg
        rw [mapFind_mapInsert_self _ _ _ hu] at hk2
        simp only [Option.some.injEq] at hk2
        exact ⟨A, B, hp, hk2.symm⟩
      · unfold mapInsert at hk2
        rw [hu] at hk2
        exact hs.2 k G (by simpa [mapFind, Ne.symm hkg] using hk2)

theorem Eval.keepsGroups_homGroup (D : NCellularData) (h : HomLocator) :
    (Regina.homGroup D h).KeepsGroups D := by
  intro c r c4 hr hs
  rcases homGroup_inv D h c c4 r hr with ⟨f, _, _, rfl⟩ | ⟨_, _, rfl, _⟩ | ⟨_, _, _, _, hcm⟩ |
    ⟨_, _, _, CM, c1, dom, c2, ran, c3, hcm, hm1, hm2, rfl, rfl⟩
  · exact hs
  · exact hs
  · rcases homGroup_chainMap_caches D h c c4 _ hcm with rfl | ⟨G, hG⟩
    · exact hs
    · exact Eval.keepsGroups_markedGroup D h.domain c _ c4 hG hs
  · have s1 : c1.GroupSound D := by
      rcases homGroup_chainMap_caches D h c c1 _ hcm with rfl | ⟨G, hG⟩
      · exact hs
      · exact Eval.keepsGroups_markedGroup D h.domain c _ c1 hG hs
    have s2 := Eval.keepsGroups_markedGroup D h.domain c1 _ c2 hm1 s1
    exact Eval.keepsGroups_markedGroup D h.range c2 _ c3 hm2 s2

set_option maxRecDepth 8000 in
theorem Eval.keepsGroups_bilinearFormFuel (fuel : Nat) (D : NCellularData) :
    ∀ f : FormLocator, (Regina.bilinearFormFuel fuel D f).KeepsGroups D := by
  induction fuel with
  | zero =>
    intro f c r c1 hr
    cases hr
  | succ n ih =>
    intro f c r c1 hr
    unfold Regina.bilinearFormFuel at hr
    cases hf : mapFind c.bilinearForms f with
    | some p =>
      simp only [hf, Outcome.ok.injEq] at hr
      obtain ⟨_, rfl⟩ := hr
      exact id
    | none =>
      simp only [hf] at hr
      refine (?_ : Eval.KeepsGroups D _) c r c1 hr
      repeat (first
        | exact Eval.keepsGroups_pure _ _
        | exact Eval.keepsGroups_deref _ _
        | exact Eval.keepsGroups_liftRead _ _
        | exact Eval.keepsGroups_insertForm _ _ _
        | exact Eval.keepsGroups_markedGroup _ _
        | exact Eval.keepsGroups_homGroup _ _
        | exact ih _
        | refine Eval.keepsGroups_bind ?_ (fun _ => ?_)
        | split)

/-- In every state that the caches can be in, the group caches are sound. -/
theorem Caches.Reachable.groupSound {D : NCellularData} {c : Caches} (hc : c.Reachable D) :
    c.GroupSound D := by
  induction hc with
  | fresh =>
    constructor <;>
    · intro g G hg
      simp [Caches.empty, mapFind] at hg
  | unmarkedGroup g r _ hr ih => exact Eval.keepsGroups_unmarkedGroup D g _ r _ hr ih
  | markedGroup g r _ hr ih => exact Eval.keepsGroups_markedGroup D g _ r _ hr ih
  | homGroup h r _ hr ih => exact Eval.keepsGroups_homGroup D h _ r _ hr ih
  | bilinearForm f r _ hr ih => exact Eval.keepsGroups_bilinearFormFuel 2 D f _ r _ hr ih

/-- In every state that the caches can be in, `unmarkedGroup` returns the group
built from the pair of boundary matrices, which is then the cached entry. -/
theorem unmarkedGroup_reachable (D : NCellularData) (g : GroupLocator) (c : Caches)
    (A B : NMatrixInt) (hreach : c.Reachable D) (hp : chainPair D g.hcs g.dim = some (A, B)) :
    ∃ cu, unmarkedGroup D g c = .ok (some (builtUnmarked g A B)) cu ∧
      mapFind cu.abelianGroups g = some (builtUnmarked g A B) := by
  have e := unmarkedGroup_eval D g c A B hp
  have hv : (mapFind c.abelianGroups g).getD (builtUnmarked g A B) = builtUnmarked g A B := by
    cases hf : mapFind c.abelianGroups g with
    | none => rfl
    | some G =>
      obtain ⟨A1, B1, hp1, rfl⟩ := hreach.groupSound.1 g G hf
      rw [hp] at hp1
      simp only [Option.some.injEq, Prod.mk.injEq] at hp1
      obtain ⟨rfl, rfl⟩ := hp1
      rfl
  rw [hv] at e
  obtain ⟨G, hG, hfind, _⟩ := unmarkedGroup_shape D g c _ _ e
  simp only [Option.some.injEq] at hG
  subst hG
  exact ⟨_, e, hfind⟩

/-- In every state that the caches can be in, `markedGroup` returns the group
built from the pair of boundary matrices, which is then the cached entry. -/
theorem markedGroup_reachable (D : NCellularData) (g : GroupLocator) (c : Caches)
    (A B : NMatrixInt) (hreach : c.Reachable D) (hp : chainPair D g.hcs g.dim = some (A, B)) :
    ∃ cm, markedGroup D g c = .ok (some (builtMarked g A B)) cm ∧
      mapFind cm.markedAbelianGroups g = some (builtMarked g A B) := by
  have e := markedGroup_eval D g c A B hp
  have hv : (mapFind c.markedAbelianGroups g).getD (builtMarked g A B) = builtMarked g A B := by
    cases hf : mapFind c.markedAbelianGroups g with
    | none => rfl
    | some G =>
      obtain ⟨A1, B1, hp1, rfl⟩ := hreach.groupSound.2 g G hf
      rw [hp] at hp1
      simp only [Option.some.injEq, Prod.mk.injEq] at hp1
      obtain ⟨rfl, rfl⟩ := hp1
      rfl
  rw [hv] at e
  exact ⟨_, e, markedGroup_find D g c _ _ e⟩

/-- In every state that the caches can be in, a request that passes the checks
and has a chain map is resolved, from the cache or afresh, to the homomorphism
built from that chain map and the groups that `markedGroup` resolves. -/
theorem homGroup_resolved (D : NCellularData) (h : HomLocator) (c c1 : Caches)
    (CM A B A1 B1 : NMatrixInt) (hreach : c.Reachable D)
    (hdim : h.domain.dim ≤ D.aDim ∧ h.range.dim ≤ D.aDim)
    (hcof : h.range.cof = 0 ∨ h.domain.cof % h.range.cof = 0)
    (hCM : homGroup_chainMap D h c = .ok (some CM) c1)
    (hd : chainPair D h.domain.hcs h.domain.dim = some (A, B))
    (hr : chainPair D h.range.hcs h.range.dim = some (A1, B1)) :
    ∃ dom ran c2 c3 c4, markedGroup D h.domain c1 = .ok (some dom) c2 ∧
      markedGroup D h.range c2 = .ok (some ran) c3 ∧
      homGroup D h c = .ok (some (.ofMatrix dom ran CM)) c4 := by
  cases hf : mapFind c.homMarkedAbelianGroups h with
  | none =>
    obtain ⟨dom, ran, c2, c3, h1, h2, h3⟩ :=
      homGroup_of_chainMap_some D h c c1 CM A B A1 B1 hf hdim hcof hCM hd hr
    exact ⟨dom, ran, c2, c3, _, h1, h2, h3⟩
  | some f =>
    obtain ⟨_, _, dom, ran, CM1, rfl, h1, h2, h3⟩ := hreach.homSound h f hf
    have h4 := h3 c h1
    rw [hCM] at h4
    simp only [Outcome.ok.injEq, Option.some.injEq] at h4
    obtain ⟨rfl, rfl⟩ := h4
    refine ⟨dom, ran, c1, c1, c1, markedGroup_cached D h.domain c1 dom h1,
      markedGroup_cached D h.range c1 ran h2, ?_⟩
    unfold homGroup
    simp [hf]

/-- In every state that the caches can be in, a request that passes the checks
and has no chain map is not in the cache and returns `NULL`. -/
theorem homGroup_unresolved (D : NCellularData) (h : HomLocator) (c c1 : Caches)
    (hreach : c.Reachable D)
    (hdim : h.domain.dim ≤ D.aDim ∧ h.range.dim ≤ D.aDim)
    (hcof : h.range.cof = 0 ∨ h.domain.cof % h.range.cof = 0)
    (hCM : homGroup_chainMap D h c = .ok none c1) : homGroup D h c = .ok none c1 := by
  cases hf : mapFind c.homMarkedAbelianGroups h with
  | none => exact homGroup_of_chainMap_none D h c c1 hf hdim hcof hCM
  | some f =>
    obtain ⟨_, _, dom, ran, CM1, rfl, h1, h2, h3⟩ := hreach.homSound h f hf
    have h4 := h3 c h1
    rw [hCM] at h4
    simp at h4

/-! ## Atomicity of the homomorphism resolver -/

/-- A chain map search that ends without a chain map has left the caches as
they were. -/
theorem homGroup_chainMap_none_caches (D : NCellularData) (h : HomLocator) (c c1 : Caches)
    (hCM : homGroup_chainMap D h c = .ok none c1) : c1 = c := by
  by_cases hid : h.domain.var = h.range.var ∧ h.domain.dim = h.range.dim ∧
      h.domain.hcs = h.range.hcs
  · obtain ⟨hvar, hdim, hhcs⟩ := hid
    rw [homGroup_chainMap_id_eval D h c hvar hdim hhcs] at hCM
    cases hm : markedGroup D h.domain c with
    | fault e => simp [hm] at hCM
    | ok r1 c4 =>
      obtain ⟨G, rfl, _, _⟩ := markedGroup_shape D h.domain c c4 r1 hm
      simp [hm] at hCM
  · rcases homGroup_chainMap_const D h hid with ⟨a, ha⟩ | ⟨e, he⟩
    · rw [ha] at hCM
      simp only [Outcome.ok.injEq] at hCM
      exact hCM.2.symm
    · rw [he] at hCM
      cases hCM

theorem markedGroup_others (D : NCellularData) (g : GroupLocator) (c c1 : Caches)
    (r : Option NMarkedAbelianGroup) (h : markedGroup D g c = .ok r c1) :
    c1.abelianGroups = c.abelianGroups ∧ c1.bilinearForms = c.bilinearForms := by
  obtain ⟨_, _, _, rfl⟩ := markedGroup_shape D g c c1 _ h
  exact ⟨rfl, rfl⟩

theorem homGroup_chainMap_others (D : NCellularData) (h : HomLocator) (c c1 : Caches)
    (r : Option NMatrixInt) (hr : homGroup_chainMap D h c = .ok r c1) :
    c1.abelianGroups = c.abelianGroups ∧ c1.bilinearForms = c.bilinearForms := by
  rcases homGroup_chainMap_caches D h c c1 r hr with rfl | ⟨G, hG⟩
  · exact ⟨rfl, rfl⟩
  · exact markedGroup_others D h.domain c c1 _ hG

/-! ## Returning calls of the form resolver -/

theorem Eval.bind_ok {α β : Type} (m : Eval α) (k : α → Eval β) (c c1 : Caches) (r : β) :
    (m >>= k) c = .ok r c1 ↔ ∃ a c2, m c = .ok a c2 ∧ k a c2 = .ok r c1 := by
  rw [Eval.bind_apply]
  cases h : m c with
  | ok a c2 =>
    constructor
    · intro hk
      exact ⟨a, c2, rfl, hk⟩
    · rintro ⟨a1, c3, he, hk⟩
      simp only [Outcome.ok.injEq] at he
      obtain ⟨rfl, rfl⟩ := he
      exact hk
  | fault e => simp

theorem Eval.pure_ok {α : Type} (a r : α) (c c1 : Caches) :
    (pure a : Eval α) c = .ok r c1 ↔ r = a ∧ c = c1 := by
  rw [Eval.pure_apply]
  simp only [Outcome.ok.injEq]
  constructor <;> rintro ⟨rfl, rfl⟩ <;> exact ⟨rfl, rfl⟩

theorem deref_ok {α : Type} (p : Option α) (a : α) (c c1 : Caches) :
    deref p c = .ok a c1 ↔ p = some a ∧ c = c1 := by
  cases p with
  | none => simp [deref]
  | some x => simp only [deref, Outcome.ok.injEq, Option.some.injEq]

theorem liftRead_ok {α : Type} (p : Option α) (a : α) (c c1 : Caches) :
    liftRead p c = .ok a c1 ↔ p = some a ∧ c = c1 := by
  cases p with
  | none => simp [liftRead]
  | some x => simp only [liftRead, Outcome.ok.injEq, Option.some.injEq]

theorem insertForm_ok (f : FormLocator) (b : NBilinearForm) (u : Unit) (c c1 : Caches) :
    insertForm f b c = .ok u c1 ↔ c1 = c.withForm f b := by
  simp only [insertForm, Caches.withForm, Outcome.ok.injEq, true_and]
  constructor <;> intro h <;> exact h.symm

theorem unmarkedGroup_forms (D : NCellularData) (g : GroupLocator) (c c1 : Caches)
    (r : Option NAbelianGroup) (h : unmarkedGroup D g c = .ok r c1) :
    c1.bilinearForms = c.bilinearForms := by
  obtain ⟨G, _, _, rfl⟩ := unmarkedGroup_shape D g c c1 r h
  rfl

theorem homGroup_forms (D : NCellularData) (h : HomLocator) (c c1 : Caches)
    (r : Option NHomMarkedAbelianGroup) (hr : homGroup D h c = .ok r c1) :
    c1.bilinearForms = c.bilinearForms := by
  rcases homGroup_inv D h c c1 r hr with ⟨f, _, _, rfl⟩ | ⟨_, _, rfl, _⟩ |
    ⟨_, _, _, _, hcm⟩ | ⟨_, _, _, CM, c2, dom, c3, ran, c4, hcm, hm1, hm2, _, rfl⟩
  · rfl
  · rfl
  · rw [homGroup_chainMap_none_caches D h c c1 hcm]
  · show c4.bilinearForms = c.bilinearForms
    rw [(markedGroup_others D h.range c3 c4 _ hm2).2, (markedGroup_others D h.domain c2 c3 _ hm1).2,
      (homGroup_chainMap_others D h c c2 _ hcm).2]

theorem primOf_of_left (f : FormLocator) (h : f.ldomain.hcs = DUAL_coord) :
    ({ f with rdomain := { f.rdomain with hcs := STD_REL_BDRY_coord } } : FormLocator) =
      primOf f := by
  obtain ⟨ft, ⟨d, v, s, k⟩, rd⟩ := f
  simp only at h
  subst h
  rfl

theorem primOf_of_right (f : FormLocator) (h : f.rdomain.hcs = STD_REL_BDRY_coord) :
    ({ f with ldomain := { f.ldomain with hcs := DUAL_coord } } : FormLocator) = primOf f := by
  obtain ⟨ft, ld, ⟨d, v, s, k⟩⟩ := f
  simp only at h
  subst h
  rfl

theorem primOf_of_canonical (f : FormLocator) (hl : f.ldomain.hcs = DUAL_coord)
    (hr : f.rdomain.hcs = STD_REL_BDRY_coord) : primOf f = f := by
  obtain ⟨ft, ⟨d, v, s, k⟩, ⟨d1, v1, s1, k1⟩⟩ := f
  simp only at hl hr
  subst hl hr
  rfl

theorem primOf_ne (f : FormLocator)
    (h : ¬(f.ldomain.hcs = DUAL_coord ∧ f.rdomain.hcs = STD_REL_BDRY_coord)) : primOf f ≠ f := by
  intro he
  apply h
  rw [← he]
  exact ⟨rfl, rfl⟩

theorem not_convenience_of_evaluation (D : NCellularData) (f : FormLocator)
    (h : f.ft = evaluationForm) : ¬convenienceShape D f := by
  rintro (h1 | h1 | h1 | h1) <;> (have e := h1.1.1; rw [h] at e; cases e)

theorem not_convenience_of_canonical (D : NCellularData) (f : FormLocator)
    (hl : f.ldomain.hcs = DUAL_coord) (hr : f.rdomain.hcs = STD_REL_BDRY_coord) :
    ¬convenienceShape D f := by
  rintro (h1 | h1 | h1 | h1)
  · have e := h1.2.2
    rw [hr] at e
    cases e
  · have e := h1.2.1
    rw [hl] at e
    cases e
  · have e := h1.2.2
    rw [hr] at e
    cases e
  · have e := h1.2.1
    rw [hl] at e
    cases e

set_option maxRecDepth 8000 in
/-- The ways in which the form resolver returns on a locator that is not
cached: with `NULL` and the caches untouched; with a form built directly and
inserted under the locator, the forms cache being untouched before that; or,
in a convenience case, with a form composed from the form that the resolver
returns on the canonical locator, inserted after that call.  The third way is
the way of the convenience shapes, and of no other request. -/
theorem bilinearFormFuel_inv (n : Nat) (D : NCellularData) (f : FormLocator) (c c1 : Caches)
    (r : Option NBilinearForm) (hu : mapFind c.bilinearForms f = none)
    (hr : bilinearFormFuel (n + 1) D f c = .ok r c1) :
    (r = none ∧ c1 = c ∧ ¬convenienceShape D f) ∨
    (∃ (b : NBilinearForm) (c2 : Caches), r = some b ∧ ¬convenienceShape D f ∧
      c2.bilinearForms = c.bilinearForms ∧
      (c.Reachable D → c2.Reachable D) ∧ c1 = c2.withForm f b) ∨
    (∃ (b bp : NBilinearForm) (c2 c3 : Caches), r = some b ∧ convenienceShape D f ∧
      ¬(f.ldomain.hcs = DUAL_coord ∧ f.rdomain.hcs = STD_REL_BDRY_coord) ∧
      c2.bilinearForms = c.bilinearForms ∧ (c.Reachable D → c2.Reachable D) ∧
      bilinearFormFuel n D (primOf f) c2 = .ok (some bp) c3 ∧ c1 = c3.withForm f b) := by
  unfold bilinearFormFuel at hr
  simp only [hu] at hr
  split_ifs at hr with h1 h2 h3 h4 h5 h6 h7 h8
  · simp only [Eval.bind_ok, Eval.pure_ok, deref_ok, liftRead_ok, insertForm_ok] at hr
    obtain ⟨a, c2, hm1, a1, c3, hm2, x, _, ⟨rfl, rfl⟩, y, _, ⟨rfl, rfl⟩, u, _, rfl, rfl, rfl⟩ := hr
    refine Or.inr (Or.inl ⟨_, c3, rfl, not_convenience_of_evaluation D f h1.1, ?_, ?_, rfl⟩)
    · rw [(markedGroup_others D _ _ _ _ hm2).2, (markedGroup_others D _ _ _ _ hm1).2]
    · exact fun hc => .markedGroup _ _ (.markedGroup _ _ hc hm1) hm2
  · simp only [Eval.pure_ok] at hr
    exact Or.inl ⟨hr.1, hr.2.symm, not_convenience_of_canonical D f h2.2.1 h2.2.2⟩
  · simp only [Eval.bind_ok, Eval.pure_ok, deref_ok, liftRead_ok, insertForm_ok] at hr
    obtain ⟨a, c2, hm1, a1, c3, hm2, a2, c4, hm3, x, _, ⟨rfl, rfl⟩, y, _, ⟨rfl, rfl⟩,
      z, _, ⟨rfl, rfl⟩, u, _, rfl, rfl, rfl⟩ := hr
    refine Or.inr (Or.inl ⟨_, c4, rfl, not_convenience_of_canonical D f h2.2.1 h2.2.2, ?_, ?_, rfl⟩)
    · rw [(markedGroup_others D _ _ _ _ hm3).2, (markedGroup_others D _ _ _ _ hm2).2,
        (markedGroup_others D _ _ _ _ hm1).2]
    · exact fun hc => .markedGroup _ _ (.markedGroup _ _ (.markedGroup _ _ hc hm1) hm2) hm3
  · simp only [Eval.bind_ok, Eval.pure_ok, deref_ok, liftRead_ok, insertForm_ok,
      primOf_of_left f h4.2.1] at hr
    obtain ⟨a, c2, hm1, a1, c3, hm2, a2, c4, hm3, x, _, ⟨rfl, rfl⟩, y, _, ⟨rfl, rfl⟩,
      z, _, ⟨rfl, rfl⟩, bo, c5, hrec, b, _, ⟨rfl, rfl⟩, u, _, rfl, rfl, rfl⟩ := hr
    refine Or.inr (Or.inr ⟨_, b, c4, c5, rfl, Or.inl h4, ?_, ?_, ?_, hrec, rfl⟩)
    · rw [h4.2.2]
      exact fun hh => absurd hh.2 (by decide)
    · rw [homGroup_forms D _ _ _ _ hm3, homGroup_forms D _ _ _ _ hm2,
        homGroup_forms D _ _ _ _ hm1]
    · exact fun hc => .homGroup _ _ (.homGroup _ _ (.homGroup _ _ hc hm1) hm2) hm3
  · simp only [Eval.bind_ok, Eval.pure_ok, deref_ok, liftRead_ok, insertForm_ok,
      primOf_of_right f h5.2.2] at hr
    obtain ⟨a, c2, hm1, a1, c3, hm2, x, _, ⟨rfl, rfl⟩, y, _, ⟨rfl, rfl⟩,
      bo, c5, hrec, b, _, ⟨rfl, rfl⟩, u, _, rfl, rfl, rfl⟩ := hr
    refine Or.inr (Or.inr ⟨_, b, c3, c5, rfl, Or.inr (Or.inl h5), ?_, ?_, ?_, hrec, rfl⟩)
    · rw [h5.2.1]
      exact fun hh => absurd hh.1 (by decide)
    · rw [homGroup_forms D _ _ _ _ hm2, homGroup_forms D _ _ _ _ hm1]
    · exact fun hc => .homGroup _ _ (.homGroup _ _ hc hm1) hm2
  · simp only [Eval.bind_ok, Eval.pure_ok, deref_ok, liftRead_ok, insertForm_ok] at hr
    obtain ⟨a, c2, hm1, a1, c3, hm2, x, _, ⟨rfl, rfl⟩, y, _, ⟨rfl, rfl⟩,
      T, _, ⟨hT, rfl⟩, u, _, rfl, rfl, rfl⟩ := hr
    refine Or.inr (Or.inl ⟨_, c3, rfl, not_convenience_of_canonical D f h6.2.1 h6.2.2, ?_, ?_, rfl⟩)
    · rw [(markedGroup_others D _ _ _ _ hm2).2, (markedGroup_others D _ _ _ _ hm1).2]
    · exact fun hc => .markedGroup _ _ (.markedGroup _ _ hc hm1) hm2
  · simp only [Eval.bind_ok, Eval.pure_ok, deref_ok, liftRead_ok, insertForm_ok,
      primOf_of_left f h7.2.1] at hr
    obtain ⟨a, c2, hm1, a1, c3, hm2, a2, c4, hm3, x, _, ⟨rfl, rfl⟩, M1, _, ⟨hM1, rfl⟩,
      y, _, ⟨rfl, rfl⟩, M2, _, ⟨hM2, rfl⟩, z, _, ⟨rfl, rfl⟩,
      bo, c5, hrec, b, _, ⟨rfl, rfl⟩, u, _, rfl, rfl, rfl⟩ := hr
    refine Or.inr (Or.inr ⟨_, b, c4, c5, rfl, Or.inr (Or.inr (Or.inl h7)), ?_, ?_, ?_, hrec, rfl⟩)
    · rw [h7.2.2]
      exact fun hh => absurd hh.2 (by decide)
    · rw [homGroup_forms D _ _ _ _ hm3, homGroup_forms D _ _ _ _ hm2,
        homGroup_forms D _ _ _ _ hm1]
    · exact fun hc => .homGroup _ _ (.homGroup _ _ (.homGroup _ _ hc hm1) hm2) hm3
  · simp only [Eval.bind_ok, Eval.pure_ok, deref_ok, liftRead_ok, insertForm_ok] at hr
    obtain ⟨a, c2, hm1, a1, c3, hm2, a2, c4, hm3, x, _, ⟨rfl, rfl⟩, y, _, ⟨rfl, rfl⟩,
      bo, c5, hrec, b, _, ⟨rfl, rfl⟩, z, _, ⟨rfl, rfl⟩, u, _, rfl, rfl, rfl⟩ := hr
    refine Or.inr (Or.inr ⟨_, b, c4, c5, rfl, Or.inr (Or.inr (Or.inr h8)), ?_, ?_, ?_, hrec, rfl⟩)
    · rw [h8.2.1]
      exact fun hh => absurd hh.1 (by decide)
    · rw [homGroup_forms D _ _ _ _ hm3, homGroup_forms D _ _ _ _ hm2,
        homGroup_forms D _ _ _ _ hm1]
    · exact fun hc => .homGroup _ _ (.homGroup _ _ (.homGroup _ _ hc hm1) hm2) hm3
  · simp only [Eval.pure_ok] at hr
    exact Or.inl ⟨hr.1, hr.2.symm, fun h => h.elim h4 fun h => h.elim h5 fun h => h.elim h7 h8⟩

theorem mapFind_mapInsert_inv {K V : Type} [DecidableEq K] (m : List (K × V)) (k k1 : K)
    (v w : V) (h : mapFind (mapInsert m k v) k1 = some w) :
    mapFind m k1 = some w ∨ (k1 = k ∧ w = v ∧ mapFind m k = none) := by
  unfold mapInsert at h
  cases hk : mapFind m k with
  | some x =>
    simp only [hk] at h
    exact Or.inl h
  | none =>
    simp only [hk] at h
    unfold mapFind at h
    by_cases e : k = k1
    · simp only [e, if_true, Option.some.injEq] at h
      exact Or.inr ⟨e.symm, h.symm, rfl⟩
    · simp only [e, if_false] at h
      exact Or.inl h

theorem bilinearFormFuel_cached (n : Nat) (D : NCellularData) (f : FormLocator) (c : Caches)
    (b : NBilinearForm) (h : mapFind c.bilinearForms f = some b) :
    bilinearFormFuel (n + 1) D f c = .ok (some b) c := by
  unfold bilinearFormFuel
  simp only [h]

/-- A call of the form resolver on a canonical locator that returns a form
leaves the forms cache as the old one with this form inserted under the
locator, where it is found afterwards. -/
theorem bilinearFormFuel_canonical (n : Nat) (D : NCellularData) (f : FormLocator)
    (c c1 : Caches) (b : NBilinearForm) (hl : f.ldomain.hcs = DUAL_coord)
    (hrd : f.rdomain.hcs = STD_REL_BDRY_coord)
    (hr : bilinearFormFuel n D f c = .ok (some b) c1) :
    c1.bilinearForms = mapInsert c.bilinearForms f b ∧ mapFind c1.bilinearForms f = some b := by
  cases n with
  | zero => cases hr
  | succ n =>
    cases hu : mapFind c.bilinearForms f with
    | some p =>
      rw [bilinearFormFuel_cached n D f c p hu] at hr
      simp only [Outcome.ok.injEq, Option.some.injEq] at hr
      obtain ⟨rfl, rfl⟩ := hr
      exact ⟨(mapInsert_of_find _ _ _ _ hu).symm, hu⟩
    | none =>
      rcases bilinearFormFuel_inv n D f c c1 _ hu hr with ⟨h, _⟩ | ⟨b1, c2, h, _, hb, _, rfl⟩ |
        ⟨_, _, _, _, _, _, hn, _⟩
      · cases h
      · simp only [Option.some.injEq] at h
        subst h
        refine ⟨?_, ?_⟩
        · show mapInsert c2.bilinearForms f b = _
          rw [hb]
        · show mapFind (mapInsert c2.bilinearForms f b) f = _
          rw [hb]
          exact mapFind_mapInsert_self _ _ _ hu
      · exact absurd ⟨hl, hrd⟩ hn

/-- What a returning call of the form resolver does to the forms cache, on a
locator that is not cached: the form that it returns is inserted under the
locator; in a convenience case the form of the canonical locator is inserted
before (it has no effect if this locator is cached already). -/
theorem bilinearFormFuel_forms (n : Nat) (D : NCellularData) (f : FormLocator) (c c1 : Caches)
    (b : NBilinearForm) (hu : mapFind c.bilinearForms f = none)
    (hr : bilinearFormFuel (n + 1) D f c = .ok (some b) c1) :
    (¬convenienceShape D f ∧ c1.bilinearForms = mapInsert c.bilinearForms f b) ∨
    (convenienceShape D f ∧ primOf f ≠ f ∧ ∃ (bp : NBilinearForm) (c2 c3 : Caches),
      c2.bilinearForms = c.bilinearForms ∧ (c.Reachable D → c2.Reachable D) ∧
      bilinearFormFuel n D (primOf f) c2 = .ok (some bp) c3 ∧
      mapFind c1.bilinearForms (primOf f) = some bp ∧
      c1.bilinearForms = mapInsert (mapInsert c.bilinearForms (primOf f) bp) f b) := by
  rcases bilinearFormFuel_inv n D f c c1 _ hu hr with ⟨h, _⟩ | ⟨b1, c2, h, hnc, hb, _, rfl⟩ |
    ⟨b1, bp, c2, c3, h, hcv, hn, hb, hreach, hrec, rfl⟩
  · cases h
  · simp only [Option.some.injEq] at h
    subst h
    refine Or.inl ⟨hnc, ?_⟩
    show mapInsert c2.bilinearForms f b = _
    rw [hb]
  · simp only [Option.some.injEq] at h
    subst h
    have hp := bilinearFormFuel_canonical n D (primOf f) c2 c3 bp rfl rfl hrec
    refine Or.inr ⟨hcv, primOf_ne f hn, bp, c2, c3, hb, hreach, hrec, ?_, ?_⟩
    · show mapFind (mapInsert c3.bilinearForms f b) (primOf f) = _
      exact mapFind_mapInsert_of_find _ _ _ _ _ hp.2
    · show mapInsert c3.bilinearForms f b = _
      rw [hp.1, hb]

/-- After a returning call of the form resolver, the form that it returned is
the entry of the locator in the forms cache. -/
theorem bilinearFormFuel_find (n : Nat) (D : NCellularData) (f : FormLocator) (c c1 : Caches)
    (b : NBilinearForm) (hr : bilinearFormFuel n D f c = .ok (some b) c1) :
    mapFind c1.bilinearForms f = some b := by
  cases n with
  | zero => cases hr
  | succ n =>
    cases hu : mapFind c.bilinearForms f with
    | some p =>
      rw [bilinearFormFuel_cached n D f c p hu] at hr
      simp only [Outcome.ok.injEq, Option.some.injEq] at hr
      obtain ⟨rfl, rfl⟩ := hr
      exact hu
    | none =>
      rcases bilinearFormFuel_forms n D f c c1 b hu hr with ⟨_, h⟩ |
        ⟨_, hne, bp, _, _, _, _, _, _, h⟩
      · rw [h]
        exact mapFind_mapInsert_self _ _ _ hu
      · rw [h]
        apply mapFind_mapInsert_self
        cases hq : mapFind (mapInsert c.bilinearForms (primOf f) bp) f with
        | none => rfl
        | some w =>
          rcases mapFind_mapInsert_inv _ _ _ _ _ hq with h1 | ⟨h1, _, _⟩
          · rw [hu] at h1
            cases h1
          · exact absurd h1.symm hne

theorem Caches.Reachable.formSound {D : NCellularData} {c : Caches} (hc : c.Reachable D) :
    c.FormSound D := by
  induction hc with
  | fresh =>
    intro f b h
    cases h
  | unmarkedGroup g r _ h ih =>
    intro f b hf
    rw [unmarkedGroup_forms D g _ _ r h] at hf
    exact ih f b hf
  | markedGroup g r _ h ih =>
    intro f b hf
    rw [(markedGroup_others D g _ _ r h).2] at hf
    exact ih f b hf
  | homGroup g r _ h ih =>
    intro f b hf
    rw [homGroup_forms D g _ _ r h] at hf
    exact ih f b hf
  | @bilinearForm c c1 g r hreach h ih =>
    intro f b hf
    unfold Regina.bilinearForm at h
    cases hu : mapFind c.bilinearForms g with
    | some p =>
      rw [bilinearFormFuel_cached 1 D g c p hu] at h
      simp only [Outcome.ok.injEq] at h
      obtain ⟨_, rfl⟩ := h
      exact ih f b hf
    | none =>
      cases r with
      | none =>
        rcases bilinearFormFuel_inv 1 D g c c1 _ hu h with ⟨_, rfl, _⟩ | ⟨_, _, h1, _⟩ |
          ⟨_, _, _, _, h1, _⟩
        · exact ih f b hf
        · cases h1
        · cases h1
      | some bg =>
        rcases bilinearFormFuel_forms 1 D g c c1 bg hu h with ⟨_, e⟩ |
          ⟨_, _, bp, c2, c3, hb, hr2, hrec, _, e⟩
        · rw [e] at hf
          rcases mapFind_mapInsert_inv _ _ _ _ _ hf with h1 | ⟨rfl, rfl, _⟩
          · exact ih f b h1
          · exact ⟨1, c, c1, hreach, hu, h⟩
        · rw [e] at hf
          rcases mapFind_mapInsert_inv _ _ _ _ _ hf with h1 | ⟨rfl, rfl, _⟩
          · rcases mapFind_mapInsert_inv _ _ _ _ _ h1 with h2 | ⟨rfl, rfl, h2⟩
            · exact ih f b h2
            · rw [← hb] at h2
              exact ⟨0, c2, c3, hr2 hreach, h2, hrec⟩
          · exact ⟨1, c, c1, hreach, hu, h⟩

/-! ## The cases of the form resolver -/

/-- A request that is not cached and matches none of the cases is answered
with `NULL`, the caches being left as they are. -/
theorem bilinearFormFuel_unmatched (n : Nat) (D : NCellularData) (f : FormLocator) (c : Caches)
    (hu : mapFind c.bilinearForms f = none)
    (he : ¬(f.ft = evaluationForm ∧ f.ldomain.dim = f.rdomain.dim ∧
      f.ldomain.var ≠ f.rdomain.var ∧ f.ldomain.cof = f.rdomain.cof ∧
      f.ldomain.hcs = f.rdomain.hcs))
    (hi : ¬intersectionGuard D f) (hl : ¬linkingGuard D f) :
    bilinearFormFuel (n + 1) D f c = .ok none c := by
  unfold bilinearFormFuel
  simp only [hu]
  rw [if_neg he, if_neg (fun h => hi h.1), if_neg (fun h => hi h.1), if_neg (fun h => hi h.1),
    if_neg (fun h => hl h.1), if_neg (fun h => hl h.1), if_neg (fun h => hl h.1)]
  rfl

/-- The case of the homology-cohomology pairing, on a locator that is not
cached, both groups being at hand. -/
theorem bilinearFormFuel_evaluation (n : Nat) (D : NCellularData) (f : FormLocator) (c : Caches)
    (A B : NMatrixInt) (hreach : c.Reachable D) (hu : mapFind c.bilinearForms f = none)
    (he : f.ft = evaluationForm ∧ f.ldomain.dim = f.rdomain.dim ∧
      f.ldomain.var ≠ f.rdomain.var ∧ f.ldomain.cof = f.rdomain.cof ∧
      f.ldomain.hcs = f.rdomain.hcs)
    (hp : chainPair D f.ldomain.hcs f.ldomain.dim = some (A, B)) :
    ∃ c1, bilinearFormFuel (n + 1) D f c =
      .ok (some (.ofTensor (builtMarked f.ldomain A B) (builtMarked f.rdomain A B)
        (.ofRank 1 f.rdomain.cof) (evaluationTensor (builtMarked f.ldomain A B).getRankCC))) c1 := by
  obtain ⟨c2, hm1, _⟩ := markedGroup_reachable D f.ldomain c A B hreach hp
  have hp2 : chainPair D f.rdomain.hcs f.rdomain.dim = some (A, B) := by
    rw [← he.2.2.2.2, ← he.2.1]
    exact hp
  obtain ⟨c3, hm2, _⟩ := markedGroup_reachable D f.rdomain c2 A B (.markedGroup _ _ hreach hm1) hp2
  refine ⟨c3.withForm f (.ofTensor (builtMarked f.ldomain A B) (builtMarked f.rdomain A B)
    (.ofRank 1 f.rdomain.cof) (evaluationTensor (builtMarked f.ldomain A B).getRankCC)), ?_⟩
  unfold bilinearFormFuel
  simp only [hu]
  rw [if_pos he]
  simp only [Eval.bind_apply, hm1, hm2, deref, insertForm, Eval.pure_apply, Caches.withForm]

theorem mapFind_filter_ne {K V : Type} [DecidableEq K] (m : List (K × V)) (x y : K) :
    mapFind (m.filter fun e => decide (e.1 ≠ x)) y = if y = x then none else mapFind m y := by
  induction m with
  | nil => simp [mapFind]
  | cons e m ih =>
    obtain ⟨k, v⟩ := e
    by_cases hk : k = x
    · subst hk
      simp only [List.filter, ne_eq, not_true_eq_false, decide_False, mapFind]
      rw [ih]
      by_cases hy : y = k
      · simp [hy]
      · have : ¬k = y := fun h => hy h.symm
        simp [hy, this]
    · simp only [List.filter, ne_eq, hk, not_false_eq_true, decide_True, mapFind]
      rw [ih]
      by_cases hy : k = y
      · subst hy
        simp [hk]
      · simp [hy]

/-- The entry of a multi-index after `setEntry`. -/
theorem setEntry_find (g : NSparseGridRing) (x y : List Nat) (v : Int) :
    mapFind (g.setEntry x v).grid y = if x = y then some v else mapFind g.grid y := by
  unfold NSparseGridRing.setEntry
  simp only [mapFind]
  by_cases h : x = y
  · simp [h]
  · have h1 : ¬y = x := fun e => h e.symm
    simp only [h, if_false]
    rw [mapFind_filter_ne, if_neg h1]

theorem evaluationTensor_succ (n : Nat) :
    evaluationTensor (n + 1) = (evaluationTensor n).setEntry [n, n, 0] 1 := by
  unfold evaluationTensor NSparseGridRing.setEntries
  rw [List.range_succ, List.map_append, List.foldl_append]
  rfl

/-- The tensor of the evaluation pairing has exactly the entries
`(i, i, 0) = 1` for `i` below the rank. -/
theorem evaluationTensor_entry (n : Nat) (x : List Nat) (v : Int) :
    mapFind (evaluationTensor n).grid x = some v ↔ ∃ i, i < n ∧ x = [i, i, 0] ∧ v = 1 := by
  induction n with
  | zero =>
    constructor
    · intro h
      cases h
    · rintro ⟨i, hi, _⟩
      exact absurd hi (Nat.not_lt_zero i)
  | succ n ih =>
    rw [evaluationTensor_succ, setEntry_find]
    by_cases h : [n, n, 0] = x
    · simp only [h, if_true, Option.some.injEq]
      constructor
      · intro hv
        exact ⟨n, Nat.lt_succ_self n, h.symm, hv.symm⟩
      · rintro ⟨i, _, _, hv⟩
        exact hv.symm
    · simp only [h, if_false]
      rw [ih]
      constructor
      · rintro ⟨i, hi, hx, hv⟩
        exact ⟨i, Nat.lt_succ_of_lt hi, hx, hv⟩
      · rintro ⟨i, hi, hx, hv⟩
        refine ⟨i, ?_, hx, hv⟩
        rcases Nat.lt_succ_iff_lt_or_eq.mp hi with h1 | h1
        · exact h1
        · subst h1
          exact absurd hx.symm h

/-- The guard of the intersection product holds under the conditions on the
dimensions read as conditions on natural numbers; the dimension of the range
is then the difference `dim_l + dim_r - aDim`. -/
theorem intersectionGuard_of (D : NCellularData) (f : FormLocator)
    (hft : f.ft = intersectionForm) (hvl : f.ldomain.var = coVariant)
    (hvr : f.rdomain.var = coVariant) (hcof : f.ldomain.cof = f.rdomain.cof)
    (hl0 : 0 < f.ldomain.dim) (hr0 : 0 < f.rdomain.dim)
    (h1 : D.aDim ≤ f.ldomain.dim + f.rdomain.dim)
    (h2 : f.ldomain.dim + f.rdomain.dim - D.aDim < D.aDim - 1) :
    intersectionGuard D f ∧
    usub (uadd f.ldomain.dim f.rdomain.dim) D.aDim = f.ldomain.dim + f.rdomain.dim - D.aDim := by
  unfold intersectionGuard uadd usub ulongMod
  rcases D.aDim_eq with e | e <;> rw [e] at h1 h2 ⊢ <;>
    refine ⟨⟨hft, hvl, hvr, ?_, ?_, hl0, hr0, hcof⟩, ?_⟩ <;> omega

theorem not_evaluation_of_intersectionGuard (D : NCellularData) (f : FormLocator)
    (hg : intersectionGuard D f) :
    ¬(f.ft = evaluationForm ∧ f.ldomain.dim = f.rdomain.dim ∧
      f.ldomain.var ≠ f.rdomain.var ∧ f.ldomain.cof = f.rdomain.cof ∧
      f.ldomain.hcs = f.rdomain.hcs) := fun h => by
  have e := h.1
  rw [hg.1] at e
  cases e

/-- The canonical intersection product on a non-orientable manifold with
coefficients other than 2, on a locator that is not cached: `NULL`. -/
theorem bilinearFormFuel_intersection_none (n : Nat) (D : NCellularData) (f : FormLocator)
    (c : Caches) (hu : mapFind c.bilinearForms f = none) (hg : intersectionGuard D f)
    (hl : f.ldomain.hcs = DUAL_coord) (hr : f.rdomain.hcs = STD_REL_BDRY_coord)
    (hcof : f.ldomain.cof ≠ 2) (ho : D.orientable = false) :
    bilinearFormFuel (n + 1) D f c = .ok none c := by
  unfold bilinearFormFuel
  simp only [hu]
  rw [if_neg (not_evaluation_of_intersectionGuard D f hg), if_pos ⟨hg, hl, hr⟩,
    if_pos ⟨hcof, ho⟩]
  rfl

/-- On a non-orientable manifold and with coefficients other than 2 the
resolver returns no form on a canonical intersection locator, whatever the
state of the caches. -/
theorem intersection_canonical_no_form (n : Nat) (D : NCellularData) (f : FormLocator)
    (c c1 : Caches) (b : NBilinearForm) (hreach : c.Reachable D) (hg : intersectionGuard D f)
    (hl : f.ldomain.hcs = DUAL_coord) (hr : f.rdomain.hcs = STD_REL_BDRY_coord)
    (hcof : f.ldomain.cof ≠ 2) (ho : D.orientable = false) :
    bilinearFormFuel n D f c ≠ .ok (some b) c1 := by
  intro h
  cases n with
  | zero => cases h
  | succ n =>
    cases hu : mapFind c.bilinearForms f with
    | none =>
      rw [bilinearFormFuel_intersection_none n D f c hu hg hl hr hcof ho] at h
      simp only [Outcome.ok.injEq] at h
      cases h.1
    | some b0 =>
      obtain ⟨m, c0, c2, _, hu0, h0⟩ := hreach.formSound f b0 hu
      rw [bilinearFormFuel_intersection_none m D f c0 hu0 hg hl hr hcof ho] at h0
      simp only [Outcome.ok.injEq] at h0
      cases h0.1

/-- The canonical intersection product past the orientability check, on a
locator that is not cached, the three groups being at hand. -/
theorem bilinearFormFuel_intersection (n : Nat) (D : NCellularData) (f : FormLocator)
    (c : Caches) (A B A1 B1 A2 B2 : NMatrixInt) (hreach : c.Reachable D)
    (hu : mapFind c.bilinearForms f = none) (hg : intersectionGuard D f)
    (hl : f.ldomain.hcs = DUAL_coord) (hr : f.rdomain.hcs = STD_REL_BDRY_coord)
    (hgate : ¬(f.ldomain.cof ≠ 2 ∧ D.orientable = false))
    (hpl : chainPair D f.ldomain.hcs f.ldomain.dim = some (A, B))
    (hpr : chainPair D f.rdomain.hcs f.rdomain.dim = some (A1, B1))
    (hpm : chainPair D MIX_coord (usub (uadd f.ldomain.dim f.rdomain.dim) D.aDim) =
      some (A2, B2)) :
    ∃ c1, bilinearFormFuel (n + 1) D f c =
      .ok (some (.ofTensor (builtMarked f.ldomain A B) (builtMarked f.rdomain A1 B1)
        (builtMarked ⟨usub (uadd f.ldomain.dim f.rdomain.dim) D.aDim, coVariant, MIX_coord,
          f.ldomain.cof⟩ A2 B2)
        (intersectionTensor D f.ldomain.dim f.rdomain.dim))) c1 := by
  obtain ⟨c2, hm1, _⟩ := markedGroup_reachable D f.ldomain c A B hreach hpl
  have hreach2 := Caches.Reachable.markedGroup _ _ hreach hm1
  obtain ⟨c3, hm2, _⟩ := markedGroup_reachable D f.rdomain c2 A1 B1 hreach2 hpr
  have hreach3 := Caches.Reachable.markedGroup _ _ hreach2 hm2
  obtain ⟨c4, hm3, _⟩ := markedGroup_reachable D
    ⟨usub (uadd f.ldomain.dim f.rdomain.dim) D.aDim, coVariant, MIX_coord, f.ldomain.cof⟩
    c3 A2 B2 hreach3 hpm
  refine ⟨c4.withForm f (.ofTensor (builtMarked f.ldomain A B) (builtMarked f.rdomain A1 B1)
    (builtMarked ⟨usub (uadd f.ldomain.dim f.rdomain.dim) D.aDim, coVariant, MIX_coord,
      f.ldomain.cof⟩ A2 B2) (intersectionTensor D f.ldomain.dim f.rdomain.dim)), ?_⟩
  unfold bilinearFormFuel
  simp only [hu]
  rw [if_neg (not_evaluation_of_intersectionGuard D f hg), if_pos ⟨hg, hl, hr⟩, if_neg hgate]
  simp only [Eval.bind_apply, hm1, hm2, hm3, deref, insertForm, Eval.pure_apply, Caches.withForm]

/-- The canonical intersection product past the orientability check, in every
state that the caches can be in. -/
theorem bilinearForm_intersection (D : NCellularData) (f : FormLocator)
    (c : Caches) (A B A1 B1 A2 B2 : NMatrixInt) (hreach : c.Reachable D)
    (hg : intersectionGuard D f)
    (hl : f.ldomain.hcs = DUAL_coord) (hr : f.rdomain.hcs = STD_REL_BDRY_coord)
    (hgate : ¬(f.ldomain.cof ≠ 2 ∧ D.orientable = false))
    (hpl : chainPair D f.ldomain.hcs f.ldomain.dim = some (A, B))
    (hpr : chainPair D f.rdomain.hcs f.rdomain.dim = some (A1, B1))
    (hpm : chainPair D MIX_coord (usub (uadd f.ldomain.dim f.rdomain.dim) D.aDim) =
      some (A2, B2)) :
    ∃ c1, bilinearForm D f c =
        .ok (some (.ofTensor (builtMarked f.ldomain A B) (builtMarked f.rdomain A1 B1)
          (builtMarked ⟨usub (uadd f.ldomain.dim f.rdomain.dim) D.aDim, coVariant, MIX_coord,
            f.ldomain.cof⟩ A2 B2)
          (intersectionTensor D f.ldomain.dim f.rdomain.dim))) c1 ∧
      mapFind c1.bilinearForms f =
        some (.ofTensor (builtMarked f.ldomain A B) (builtMarked f.rdomain A1 B1)
          (builtMarked ⟨usub (uadd f.ldomain.dim f.rdomain.dim) D.aDim, coVariant, MIX_coord,
            f.ldomain.cof⟩ A2 B2)
          (intersectionTensor D f.ldomain.dim f.rdomain.dim)) := by
  cases hu : mapFind c.bilinearForms f with
  | none =>
    obtain ⟨c1, h⟩ := bilinearFormFuel_intersection 1 D f c A B A1 B1 A2 B2 hreach hu hg hl hr
      hgate hpl hpr hpm
    exact ⟨c1, h, bilinearFormFuel_find 2 D f c c1 _ h⟩
  | some b =>
    obtain ⟨n, c0, c1, hr0, hu0, h0⟩ := hreach.formSound f b hu
    obtain ⟨c2, h⟩ := bilinearFormFuel_intersection n D f c0 A B A1 B1 A2 B2 hr0 hu0 hg hl hr
      hgate hpl hpr hpm
    rw [h] at h0
    simp only [Outcome.ok.injEq, Option.some.injEq] at h0
    have hb := bilinearFormFuel_cached 1 D f c b hu
    rw [← h0.1] at hb hu
    exact ⟨c, hb, hu⟩

theorem usub_one (n : Nat) (h0 : 0 < n) (h1 : n < ulongMod) : usub n 1 = n - 1 := by
  unfold usub ulongMod at *
  omega

theorem not_evaluation_of_linkingGuard (D : NCellularData) (f : FormLocator)
    (hg : linkingGuard D f) :
    ¬(f.ft = evaluationForm ∧ f.ldomain.dim = f.rdomain.dim ∧
      f.ldomain.var ≠ f.rdomain.var ∧ f.ldomain.cof = f.rdomain.cof ∧
      f.ldomain.hcs = f.rdomain.hcs) := fun h => by
  have e := h.1
  rw [hg.1] at e
  cases e

theorem not_intersectionGuard_of_linkingGuard (D : NCellularData) (f : FormLocator)
    (hg : linkingGuard D f) : ¬intersectionGuard D f := fun h => by
  have e := h.1
  rw [hg.1] at e
  cases e

/-- The guard of the torsion linking form holds under the conditions on the
dimensions read as conditions on natural numbers. -/
theorem linkingGuard_of (D : NCellularData) (f : FormLocator)
    (hft : f.ft = torsionlinkingForm) (hvl : f.ldomain.var = coVariant)
    (hvr : f.rdomain.var = coVariant) (hcl : f.ldomain.cof = 0) (hcr : f.rdomain.cof = 0)
    (hl0 : 0 < f.ldomain.dim) (hr0 : 0 < f.rdomain.dim)
    (hdim : f.ldomain.dim + f.rdomain.dim + 1 = D.aDim) : linkingGuard D f := by
  unfold linkingGuard uadd ulongMod
  rcases D.aDim_eq with e | e <;> rw [e] at hdim ⊢ <;>
    refine ⟨hft, hvl, hvr, ?_, hl0, hr0, hcl, hcr⟩ <;> omega

/-- The canonical torsion linking form, on a locator that is not cached, both
groups being at hand and the loops reading their vectors within range. -/
theorem bilinearFormFuel_linking (n : Nat) (D : NCellularData) (f : FormLocator)
    (c : Caches) (A B A1 B1 : NMatrixInt) (T : NSparseGridRing) (hreach : c.Reachable D)
    (hu : mapFind c.bilinearForms f = none) (hg : linkingGuard D f)
    (hl : f.ldomain.hcs = DUAL_coord) (hr : f.rdomain.hcs = STD_REL_BDRY_coord)
    (hpl : chainPair D f.ldomain.hcs f.ldomain.dim = some (A, B))
    (hpr : chainPair D f.rdomain.hcs f.rdomain.dim = some (A1, B1))
    (hT : linkingTensor D (builtMarked f.ldomain A B) (builtMarked f.rdomain A1 B1)
      (linkingModulus D (builtMarked f.ldomain A B) (builtMarked f.rdomain A1 B1)
        (torsionSubgroup D (builtMarked f.ldomain A B))
        (torsionSubgroup D (builtMarked f.rdomain A1 B1))) f.ldomain.dim = some T) :
    ∃ c1, bilinearFormFuel (n + 1) D f c =
      .ok (some (.ofTensor (torsionSubgroup D (builtMarked f.ldomain A B))
        (torsionSubgroup D (builtMarked f.rdomain A1 B1))
        (.ofRank 1 (linkingModulus D (builtMarked f.ldomain A B) (builtMarked f.rdomain A1 B1)
          (torsionSubgroup D (builtMarked f.ldomain A B))
          (torsionSubgroup D (builtMarked f.rdomain A1 B1)))) T)) c1 := by
  obtain ⟨c2, hm1, _⟩ := markedGroup_reachable D f.ldomain c A B hreach hpl
  have hreach2 := Caches.Reachable.markedGroup _ _ hreach hm1
  obtain ⟨c3, hm2, _⟩ := markedGroup_reachable D f.rdomain c2 A1 B1 hreach2 hpr
  have hm1e : markedGroup D ⟨f.ldomain.dim, f.ldomain.var, f.ldomain.hcs, f.ldomain.cof⟩ c =
    .ok (some (builtMarked f.ldomain A B)) c2 := hm1
  have hm2e : markedGroup D ⟨f.rdomain.dim, f.rdomain.var, f.rdomain.hcs, f.rdomain.cof⟩ c2 =
    .ok (some (builtMarked f.rdomain A1 B1)) c3 := hm2
  refine ⟨c3.withForm f (.ofTensor (torsionSubgroup D (builtMarked f.ldomain A B))
    (torsionSubgroup D (builtMarked f.rdomain A1 B1))
    (.ofRank 1 (linkingModulus D (builtMarked f.ldomain A B) (builtMarked f.rdomain A1 B1)
      (torsionSubgroup D (builtMarked f.ldomain A B))
      (torsionSubgroup D (builtMarked f.rdomain A1 B1)))) T), ?_⟩
  unfold torsionSubgroup at hT ⊢
  unfold bilinearFormFuel
  simp only [hu]
  rw [if_neg (not_evaluation_of_linkingGuard D f hg),
    if_neg (fun h => not_intersectionGuard_of_linkingGuard D f hg h.1),
    if_neg (fun h => not_intersectionGuard_of_linkingGuard D f hg h.1),
    if_neg (fun h => not_intersectionGuard_of_linkingGuard D f hg h.1), if_pos ⟨hg, hl, hr⟩]
  simp only [Eval.bind_apply, hm1e, hm2e, hT, deref, liftRead, insertForm, Eval.pure_apply,
    Caches.withForm]


/-! ## The convenience case of the intersection product -/

/-- The canonical intersection product past the orientability check, with any
fuel and in every state that the caches can be in. -/
theorem bilinearFormFuel_intersection_any (n : Nat) (D : NCellularData) (f : FormLocator)
    (c : Caches) (A B A1 B1 A2 B2 : NMatrixInt) (hreach : c.Reachable D)
    (hg : intersectionGuard D f)
    (hl : f.ldomain.hcs = DUAL_coord) (hr : f.rdomain.hcs = STD_REL_BDRY_coord)
    (hgate : ¬(f.ldomain.cof ≠ 2 ∧ D.orientable = false))
    (hpl : chainPair D f.ldomain.hcs f.ldomain.dim = some (A, B))
    (hpr : chainPair D f.rdomain.hcs f.rdomain.dim = some (A1, B1))
    (hpm : chainPair D MIX_coord (usub (uadd f.ldomain.dim f.rdomain.dim) D.aDim) =
      some (A2, B2)) :
    ∃ b c1, bilinearFormFuel (n + 1) D f c = .ok (some b) c1 := by
  cases hu : mapFind c.bilinearForms f with
  | none =>
    obtain ⟨c1, h⟩ := bilinearFormFuel_intersection n D f c A B A1 B1 A2 B2 hreach hu hg hl hr
      hgate hpl hpr hpm
    exact ⟨_, c1, h⟩
  | some b => exact ⟨b, c, bilinearFormFuel_cached n D f c b hu⟩

/-- A change of coordinates by a subdivision matrix is resolved in every state
that the caches can be in: `STD -> MIX` and `DUAL -> MIX` in one dimension,
with equal coefficients. -/
theorem homGroup_subdivision_resolved (D : NCellularData) (c : Caches) (r k : Nat)
    (s : homology_coordinate_system) (v : List NMatrixInt) (m A B A1 B1 : NMatrixInt)
    (hreach : c.Reachable D) (hdim : r ≤ D.aDim)
    (hs : subdivisionSelect D ⟨⟨r, coVariant, s, k⟩, ⟨r, coVariant, MIX_coord, k⟩⟩ =
      some (v, r, false))
    (hm : v[r]? = some m)
    (hd : chainPair D s r = some (A, B)) (hr : chainPair D MIX_coord r = some (A1, B1)) :
    ∃ g c1, homGroup D ⟨⟨r, coVariant, s, k⟩, ⟨r, coVariant, MIX_coord, k⟩⟩ c =
      .ok (some g) c1 := by
  have hCM := homGroup_chainMap_subdivision D
    ⟨⟨r, coVariant, s, k⟩, ⟨r, coVariant, MIX_coord, k⟩⟩ c v r false m hs hm
  obtain ⟨dom, ran, c2, c3, c4, _, _, h⟩ := homGroup_resolved D
    ⟨⟨r, coVariant, s, k⟩, ⟨r, coVariant, MIX_coord, k⟩⟩ c c _ A B A1 B1 hreach ⟨hdim, hdim⟩
    (by
      by_cases hk : k = 0
      · exact Or.inl hk
      · exact Or.inr (Nat.mod_self k)) hCM hd hr
  exact ⟨_, c4, h⟩

/-- The map `STD -> STD_REL_BDRY` of the long exact sequence of the pair is
resolved in every state that the caches can be in. -/
theorem homGroup_relative_resolved (D : NCellularData) (c : Caches) (r k : Nat)
    (m A B A1 B1 : NMatrixInt) (hreach : c.Reachable D) (hdim : r ≤ D.aDim)
    (hm : D.strCM[r]? = some m)
    (hd : chainPair D STD_coord r = some (A, B))
    (hr : chainPair D STD_REL_BDRY_coord r = some (A1, B1)) :
    ∃ g c1, homGroup D ⟨⟨r, coVariant, STD_coord, k⟩, ⟨r, coVariant, STD_REL_BDRY_coord, k⟩⟩ c =
      .ok (some g) c1 := by
  have hCM := homGroup_chainMap_les D
    ⟨⟨r, coVariant, STD_coord, k⟩, ⟨r, coVariant, STD_REL_BDRY_coord, k⟩⟩ c rfl ⟨hdim, hdim⟩
    (Or.inl rfl) (Or.inr (Or.inr rfl)) (by intro h; cases h)
  have hsel : lesSelect D ⟨⟨r, coVariant, STD_coord, k⟩, ⟨r, coVariant, STD_REL_BDRY_coord, k⟩⟩ =
      some (D.strCM, r, false) := by
    simp [lesSelect]
  rw [hsel] at hCM
  simp only [hm] at hCM
  obtain ⟨dom, ran, c2, c3, c4, _, _, h⟩ := homGroup_resolved D
    ⟨⟨r, coVariant, STD_coord, k⟩, ⟨r, coVariant, STD_REL_BDRY_coord, k⟩⟩ c c _ A B A1 B1 hreach
    ⟨hdim, hdim⟩
    (by
      by_cases hk : k = 0
      · exact Or.inl hk
      · exact Or.inr (Nat.mod_self k)) hCM hd hr
  exact ⟨_, c4, h⟩

set_option maxRecDepth 8000 in
/-- The convenience case `DUAL` x `DUAL` of the intersection product returns a
form in every state that the caches can be in, on an orientable manifold or
with coefficients mod 2, the chain complexes and the chain maps being at hand
in the dimensions of the request. -/
theorem bilinearForm_dual_dual (D : NCellularData) (f : FormLocator) (c : Caches)
    (m1 m2 m3 A B A1 B1 A2 B2 A3 B3 A4 B4 A5 B5 : NMatrixInt) (hreach : c.Reachable D)
    (hg : intersectionGuard D f)
    (hl : f.ldomain.hcs = DUAL_coord) (hr : f.rdomain.hcs = DUAL_coord)
    (hgate : ¬(f.ldomain.cof ≠ 2 ∧ D.orientable = false))
    (hdim : f.rdomain.dim ≤ D.aDim)
    (hm1 : D.strCM[f.rdomain.dim]? = some m1) (hm2 : D.smCM[f.rdomain.dim]? = some m2)
    (hm3 : D.dmCM[f.rdomain.dim]? = some m3)
    (hps : chainPair D STD_coord f.rdomain.dim = some (A, B))
    (hpb : chainPair D STD_REL_BDRY_coord f.rdomain.dim = some (A1, B1))
    (hpx : chainPair D MIX_coord f.rdomain.dim = some (A2, B2))
    (hpd : chainPair D DUAL_coord f.rdomain.dim = some (A3, B3))
    (hpl : chainPair D DUAL_coord f.ldomain.dim = some (A4, B4))
    (hpm : chainPair D MIX_coord (usub (uadd f.ldomain.dim f.rdomain.dim) D.aDim) =
      some (A5, B5)) :
    ∃ b c1, bilinearForm D f c = .ok (some b) c1 := by
  cases hu : mapFind c.bilinearForms f with
  | some b => exact ⟨b, c, bilinearFormFuel_cached 1 D f c b hu⟩
  | none =>
    obtain ⟨g1, c2, h1⟩ := homGroup_relative_resolved D c f.rdomain.dim f.rdomain.cof m1 A B A1 B1
      hreach hdim hm1 hps hpb
    have hreach2 := Caches.Reachable.homGroup _ _ hreach h1
    obtain ⟨g2, c3, h2⟩ := homGroup_subdivision_resolved D c2 f.rdomain.dim f.rdomain.cof
      STD_coord D.smCM m2 A B A2 B2 hreach2 hdim rfl hm2 hps hpx
    have hreach3 := Caches.Reachable.homGroup _ _ hreach2 h2
    obtain ⟨g3, c4, h3⟩ := homGroup_subdivision_resolved D c3 f.rdomain.dim f.rdomain.cof
      DUAL_coord D.dmCM m3 A3 B3 A2 B2 hreach3 hdim rfl hm3 hpd hpx
    have hreach4 := Caches.Reachable.homGroup _ _ hreach3 h3
    obtain ⟨bp, c5, h4⟩ := bilinearFormFuel_intersection_any 0 D (primOf f) c4 A4 B4 A1 B1 A5 B5
      hreach4 hg rfl rfl hgate hpl hpb hpm
    refine ⟨.rCompose bp (.comp (.comp g1 (.inverseHom g2)) g3),
      c5.withForm f (.rCompose bp (.comp (.comp g1 (.inverseHom g2)) g3)), ?_⟩
    unfold bilinearForm bilinearFormFuel
    simp only [hu]
    rw [if_neg (not_evaluation_of_intersectionGuard D f hg),
      if_neg (fun h => by
        have e := h.2.2
        rw [hr] at e
        cases e),
      if_pos ⟨hg, hl, hr⟩]
    simp only [Eval.bind_apply, h1, h2, h3, deref, primOf_of_left f hl, h4, insertForm,
      Eval.pure_apply, Caches.withForm]

/-! ## The Poincare polynomial -/

/-- The coefficients of a polynomial after a monomial has been added. -/
theorem coefficient_addMonomial (p : NSVPolynomialRing) (a : Int) (i j : Nat) :
    (p.addMonomial a i).coefficient j = p.coefficient j + if j = i then a else 0 := by
  unfold NSVPolynomialRing.addMonomial NSVPolynomialRing.coefficient
  simp only [mapFind]
  by_cases h : i = j
  · subst h
    simp
  · have h1 : ¬j = i := fun e => h e.symm
    simp only [h, if_false, h1, add_zero]
    rw [mapFind_filter_ne, if_neg h1]

/-- The loop of `poincarePolynomial` over a list of dimensions, in a state that
the caches can be in: it ends, and every pass adds the rank of the group of its
dimension to the coefficient of this degree. -/
theorem poincareLoop (D : NCellularData) (getRank : NAbelianGroup → Int)
    (A B : Nat → NMatrixInt) (l : List Nat)
    (hp : ∀ i, i ∈ l → chainPair D DUAL_coord i = some (A i, B i)) :
    ∀ (p : NSVPolynomialRing) (c : Caches), c.Reachable D →
      ∃ (p1 : NSVPolynomialRing) (c1 : Caches),
        (l.foldlM (poincareStep D getRank) p : Eval NSVPolynomialRing) c = .ok p1 c1 ∧
        c1.Reachable D ∧
        ∀ j, p1.coefficient j = p.coefficient j + l.count j * getRank ⟨A j, B j, none⟩ := by
  induction l with
  | nil =>
    intro p c hreach
    exact ⟨p, c, rfl, hreach, fun j => by simp⟩
  | cons i l ih =>
    intro p c hreach
    obtain ⟨cu, hu, _⟩ := unmarkedGroup_reachable D ⟨i, coVariant, DUAL_coord, 0⟩ c (A i) (B i)
      hreach (hp i (List.mem_cons_self i l))
    have hreach1 := Caches.Reachable.unmarkedGroup _ _ hreach hu
    obtain ⟨p1, c1, h1, hr1, hc1⟩ := ih (fun k hk => hp k (List.mem_cons_of_mem i hk))
      (p.addMonomial (getRank ⟨A i, B i, none⟩) i) cu hreach1
    refine ⟨p1, c1, ?_, hr1, fun j => ?_⟩
    · rw [List.foldlM_cons, Eval.bind_apply]
      unfold poincareStep
      simp only [Eval.bind_apply, hu, deref, Eval.pure_apply]
      exact h1
    · rw [hc1 j, coefficient_addMonomial, List.count_cons]
      by_cases hji : j = i
      · subst hji
        simp
        ring
      · have hij : ¬i = j := fun e => hji e.symm
        simp [hji, hij]

/-! ## The Euler characteristic -/

/-- The `unsigned long` arithmetic of `eulerChar` followed by the conversion
to `long int` gives the signed alternating sum whenever this sum is a value of
`long int`. -/
theorem eulerChar_eq_alternatingSum (D : NCellularData)
    (hlo : -(9223372036854775808 : Int) ≤ alternatingSum D)
    (hhi : alternatingSum D < 9223372036854775808) : eulerChar D = alternatingSum D := by
  unfold eulerChar toLong uadd usub ulongMod
  unfold alternatingSum at hlo hhi ⊢
  split_ifs <;> omega


/-! ## Facts about the linear facets -/

/-- The index of the tetrahedron enters the facet as `sindx` and nowhere else. -/
theorem tetrahedronFacet_sindx (domFac : Nat) (p : NPerm4) :
    tetrahedronFacet domFac p =
      (tetrahedronFacet 0 p).map fun F => { F with sindx := domFac } := by
  unfold tetrahedronFacet
  dsimp only
  generalize (List.foldl (fun s k => if p.image k = k then insertPoint s k else s) []
    (List.range 4)) = s
  generalize s.length = n
  rcases n with _ | _ | _ | _ | _ | n
  · dsimp only
    split <;> rfl
  · rfl
  · rfl
  · rfl
  · rfl
  · rfl

set_option maxRecDepth 100000 in
/-- The facets of the tetrahedron with index 0, for the 24 permutations: the
classes are the cycles, and `dim + 1` is the number of cycles for every
permutation but the identity, where it is 1. -/
theorem tetrahedronFacet_zero_cases :
    ∀ a ∈ List.range 4, ∀ b ∈ List.range 4, ∀ c ∈ List.range 4, ∀ d ∈ List.range 4,
      [a, b, c, d].Nodup →
      (tetrahedronFacet 0 ⟨[a, b, c, d]⟩).map
          (fun F => (F.sdim, F.sindx, F.vCentres, F.dim + 1)) =
        some (3, 0, cyclesOf ⟨[a, b, c, d]⟩,
          if [a, b, c, d] = [0, 1, 2, 3] then 1 else (cyclesOf ⟨[a, b, c, d]⟩).length) := by
  decide

/-- Inserting an element above all elements of an increasing sequence puts it
at the end. -/
theorem insertPoint_above (l : List Nat) (x : Nat) (h : ∀ y ∈ l, y < x) :
    insertPoint l x = l ++ [x] := by
  induction l with
  | nil => rfl
  | cons y ys ih =>
    have hy : y < x := h y (List.mem_cons_self y ys)
    have h1 : ¬x < y := by omega
    have h2 : ¬x = y := by omega
    simp only [insertPoint, h1, h2, if_false, List.cons_append]
    rw [ih fun z hz => h z (List.mem_cons_of_mem y hz)]

/-- The set `pTest` that `isValid` starts from holds `0..n-1`. -/
theorem foldl_insertPoint_range (n : Nat) :
    (List.range n).foldl insertPoint [] = List.range n := by
  induction n with
  | zero => rfl
  | succ n ih =>
    rw [List.range_succ, List.foldl_append, ih]
    simp only [List.foldl_cons, List.foldl_nil]
    exact insertPoint_above _ _ fun y hy => List.mem_range.mp hy

/-- The inner loop of `isValid`: the points of one class are erased from
`pTest` and counted. -/
theorem eraseCount_points (l : List Nat) :
    ∀ (P : List Nat) (n : Nat),
      l.foldl (fun (acc : List Nat × Nat) j => (acc.1.erase j, acc.2 + 1)) (P, n) =
        (P.diff l, n + l.length) := by
  induction l with
  | nil =>
    intro P n
    rfl
  | cons j l ih =>
    intro P n
    rw [List.foldl_cons, ih, List.diff_cons, List.length_cons]
    congr 1
    omega

/-- The two nested loops of `isValid`: all points of all classes are erased
from `pTest` and counted. -/
theorem eraseCount_classes (vc : List centroid) :
    ∀ (P : List Nat) (n : Nat),
      vc.foldl (fun (acc : List Nat × Nat) i =>
        i.points.foldl (fun (acc : List Nat × Nat) j => (acc.1.erase j, acc.2 + 1)) acc) (P, n) =
        (P.diff (vc.flatMap centroid.points), n + (vc.flatMap centroid.points).length) := by
  induction vc with
  | nil =>
    intro P n
    rfl
  | cons i vc ih =>
    intro P n
    rw [List.foldl_cons, eraseCount_points, ih, List.flatMap_cons, List.diff_append,
      List.length_append]
    congr 1
    omega

/-- A sequence of `n` numbers below `n` in which every number below `n`
occurs has no repetition, and conversely a sequence without repetition of
numbers below `n` in which every number below `n` occurs has length `n`. -/
theorem length_eq_iff_nodup (L : List Nat) (n : Nat) (hb : ∀ x ∈ L, x < n)
    (hc : ∀ x, x < n → x ∈ L) : L.length = n ↔ L.Nodup := by
  have hf : L.toFinset = Finset.range n := by
    ext x
    simp only [List.mem_toFinset, Finset.mem_range]
    exact ⟨hb x, hc x⟩
  have hcard : L.dedup.length = n := by
    rw [← List.card_toFinset, hf, Finset.card_range]
  constructor
  · intro h
    rw [← List.dedup_eq_self]
    exact (List.dedup_sublist L).eq_of_length (by rw [hcard, h])
  · intro h
    rw [← hcard, List.dedup_eq_self.mpr h]

/-- The checks of `isValid` one by one, when `dim <= sdim <= 4`. -/
theorem isValid_checks (F : linearFacet) (hs4 : F.sdim ≤ 4) (hds : F.dim ≤ F.sdim) :
    F.isValid = true ↔
      F.vCentres.length = F.dim + 1 ∧
      (F.vCentres.any fun i => i.points.any fun j => decide (j ≥ F.sdim + 1)) = false ∧
      (List.range (F.sdim + 1)).diff (F.vCentres.flatMap centroid.points) = [] ∧
      (F.vCentres.flatMap centroid.points).length = F.sdim + 1 := by
  have e1 : uadd F.dim 1 = F.dim + 1 := uadd_small _ _ (by omega) (by decide)
  have e2 : uadd F.sdim 1 = F.sdim + 1 := uadd_small _ _ hs4 (by decide)
  unfold linearFacet.isValid
  rw [e1, e2, foldl_insertPoint_range]
  dsimp only
  rw [eraseCount_classes]
  simp only [Nat.zero_add]
  split_ifs with h1 h2 h3 h4 h5 h6
  · exact ⟨False.elim, fun h => h1 h.1⟩
  · refine ⟨False.elim, fun h => ?_⟩
    rw [h.2.1] at h2
    cases h2
  · omega
  · omega
  · exact ⟨False.elim, fun h => h5 h.2.2.1⟩
  · exact ⟨False.elim, fun h => h6 h.2.2.2⟩
  · refine ⟨fun _ => ⟨not_not.mp h1, ?_, not_not.mp h5, not_not.mp h6⟩, fun _ => rfl⟩
    cases hb : F.vCentres.any fun i => i.points.any fun j => decide (j ≥ F.sdim + 1) with
    | false => rfl
    | true => exact absurd hb h2

/-- What `isValid` decides, for a facet whose classes are sets (no point
occurs twice in one class): everything that makes the classes a partition of
`0..sdim` except that a class may be empty. -/
theorem isValid_iff (F : linearFacet) (hwf : ∀ c ∈ F.vCentres, c.points.Nodup) :
    F.isValid = true ↔
      F.dim ≤ F.sdim ∧ F.sdim ≤ 4 ∧ F.vCentres.length = F.dim + 1 ∧
      F.vCentres.Pairwise (fun a b => ∀ v, v ∈ a.points → v ∉ b.points) ∧
      (∀ c ∈ F.vCentres, ∀ v ∈ c.points, v ≤ F.sdim) ∧
      (∀ v, v ≤ F.sdim → ∃ c ∈ F.vCentres, v ∈ c.points) := by
  by_cases hs : F.sdim ≤ 4 ∧ F.dim ≤ F.sdim
  · obtain ⟨hs4, hds⟩ := hs
    have hnd : (F.vCentres.flatMap centroid.points).Nodup ↔
        F.vCentres.Pairwise (fun a b => ∀ v, v ∈ a.points → v ∉ b.points) := by
      rw [List.nodup_flatMap]
      constructor
      · intro h
        exact h.2.imp fun hd v hv hv2 => hd hv hv2
      · intro h
        exact ⟨hwf, h.imp fun hd v hv hv2 => hd v hv hv2⟩
    have hany : (F.vCentres.any fun i => i.points.any fun j => decide (j ≥ F.sdim + 1)) =
        false ↔ ∀ c ∈ F.vCentres, ∀ v ∈ c.points, v ≤ F.sdim := by
      rw [Bool.eq_false_iff]
      simp only [ne_eq, List.any_eq_true, decide_eq_true_eq, not_exists, not_and]
      constructor
      · intro h c hc v hv
        have := h c hc v hv
        omega
      · intro h c hc v hv
        have := h c hc v hv
        omega
    have hdiff : (List.range (F.sdim + 1)).diff (F.vCentres.flatMap centroid.points) = [] ↔
        ∀ v, v ≤ F.sdim → ∃ c ∈ F.vCentres, v ∈ c.points := by
      rw [List.eq_nil_iff_forall_not_mem]
      constructor
      · intro h v hv
        by_contra hn
        apply h v
        rw [(List.nodup_range _).mem_diff_iff]
        exact ⟨List.mem_range.mpr (Nat.lt_succ_of_le hv), fun hx => hn (List.mem_flatMap.mp hx)⟩
      · intro h a ha
        rw [(List.nodup_range _).mem_diff_iff] at ha
        exact ha.2 (List.mem_flatMap.mpr (h a (Nat.le_of_lt_succ (List.mem_range.mp ha.1))))
    rw [isValid_checks F hs4 hds, hany, hdiff]
    constructor
    · rintro ⟨hlen, hb, hcov, hL⟩
      have hiff := length_eq_iff_nodup (F.vCentres.flatMap centroid.points) (F.sdim + 1)
        (fun x hx => by
          obtain ⟨c, hc, hxc⟩ := List.mem_flatMap.mp hx
          exact Nat.lt_succ_of_le (hb c hc x hxc))
        (fun x hx => List.mem_flatMap.mpr (hcov x (Nat.le_of_lt_succ hx)))
      exact ⟨hds, hs4, hlen, hnd.mp (hiff.mp hL), hb, hcov⟩
    · rintro ⟨_, _, hlen, hpw, hb, hcov⟩
      have hiff := length_eq_iff_nodup (F.vCentres.flatMap centroid.points) (F.sdim + 1)
        (fun x hx => by
          obtain ⟨c, hc, hxc⟩ := List.mem_flatMap.mp hx
          exact Nat.lt_succ_of_le (hb c hc x hxc))
        (fun x hx => List.mem_flatMap.mpr (hcov x (Nat.le_of_lt_succ hx)))
      exact ⟨hlen, hb, hcov, hiff.mpr (hnd.mpr hpw)⟩
  · have hf : F.isValid = false := by
      unfold linearFacet.isValid
      split_ifs <;> first | rfl | (exfalso; apply hs; constructor <;> omega)
    rw [hf]
    simp only [Bool.false_eq_true, false_iff]
    exact fun h => hs ⟨h.2.1, h.1⟩

/-! ### The comparison of automorphisms and the lookup -/

theorem isoLtLoop_irrefl (a : List (Nat × Nat)) : isoLtLoop a a = false := by
  induction a with
  | nil => rfl
  | cons x xs ih => simp [isoLtLoop, ih]

theorem isoLtLoop_trichotomy : ∀ (a b : List (Nat × Nat)), a.length = b.length →
    isoLtLoop a b = false → isoLtLoop b a = false → a = b
  | [], [], _, _, _ => rfl
  | [], _ :: _, h, _, _ => by simp at h
  | _ :: _, [], h, _, _ => by simp at h
  | x :: xs, y :: ys, h, hab, hba => by
    simp only [isoLtLoop] at hab hba
    have hl : xs.length = ys.length := by simpa using h
    by_cases h1 : x.1 < y.1
    · simp [h1] at hab
    by_cases h2 : y.1 < x.1
    · simp [h2] at hba
    by_cases h3 : x.2 < y.2
    · simp [h1, h2, h3] at hab
    by_cases h4 : y.2 < x.2
    · simp [h1, h2, h4] at hba
    have e1 : x.1 = y.1 := by omega
    have e2 : x.2 = y.2 := by omega
    have hxy : x = y := Prod.ext e1 e2
    simp only [h1, h2, h3, h4, gt_iff_lt, if_false] at hab hba
    rw [hxy, isoLtLoop_trichotomy xs ys hl hab hba]

theorem isoStruct.lt_irrefl (a : isoStruct) : a.lt a = false := by
  simp [isoStruct.lt, isoLtLoop_irrefl]

theorem isoStruct.lt_trichotomy (a b : isoStruct) (hab : a.lt b = false)
    (hba : b.lt a = false) : a = b := by
  unfold isoStruct.lt at hab hba
  by_cases h1 : a.germ.length < b.germ.length
  · simp [h1] at hab
  by_cases h2 : b.germ.length < a.germ.length
  · simp [h2] at hba
  simp only [h1, h2, gt_iff_lt, if_false] at hab hba
  have hl : a.germ.length = b.germ.length := by omega
  have := isoLtLoop_trichotomy a.germ b.germ hl hab hba
  cases a; cases b; simp_all

/-- On a sorted vector that holds the value, `lower_bound` gives a position of
the value. -/
theorem lowerBound_mem : ∀ (v : List isoStruct) (x : isoStruct), x ∈ v →
    v.Pairwise (fun a b => b.lt a = false) →
    lowerBound v x < v.length ∧ v[lowerBound v x]? = some x
  | [], x, hx, _ => by simp at hx
  | a :: t, x, hx, hs => by
    have hs2 := List.pairwise_cons.mp hs
    by_cases hlt : a.lt x = true
    · have hne : x ≠ a := by
        intro h
        rw [h, isoStruct.lt_irrefl] at hlt
        cases hlt
      have hxt : x ∈ t := by
        rcases List.mem_cons.mp hx with h | h
        · exact absurd h hne
        · exact h
      have ih := lowerBound_mem t x hxt hs2.2
      have e : lowerBound (a :: t) x = lowerBound t x + 1 := by
        simp [lowerBound, List.takeWhile_cons, hlt]
      rw [e]
      exact ⟨by simpa using ih.1, by simpa using ih.2⟩
    · have hf : a.lt x = false := by simpa using hlt
      have e : lowerBound (a :: t) x = 0 := by
        simp [lowerBound, List.takeWhile_cons, hf]
      have hax : a = x := by
        rcases List.mem_cons.mp hx with h | h
        · exact h.symm
        · exact isoStruct.lt_trichotomy a x hf (hs2.1 x h)
      rw [e]
      exact ⟨by simp, by simp [hax]⟩

/-! ### The composite and the loops of `groupPresentation` -/

theorem compositeLoop_entry (mulIndex : Nat → Nat → Nat) (fi fj : isoStruct) :
    ∀ (l : List Nat) (r : List (Nat × Nat)), compositeLoop mulIndex fi fj l = some r →
      r.length = l.length ∧
      ∀ (n k : Nat), l[n]? = some k → ∃ gj gi, fj.germ[k]? = some gj ∧
        fi.germ[gj.1]? = some gi ∧ r[n]? = some (gi.1, mulIndex gi.2 gj.2)
  | [], r, h => by
    simp only [compositeLoop, Option.some.injEq] at h
    subst h
    exact ⟨rfl, fun n k hn => by simp at hn⟩
  | k0 :: ks, r, h => by
    simp only [compositeLoop, Option.bind_eq_bind, Option.bind_eq_some, Option.pure_def,
      Option.some.injEq] at h
    obtain ⟨gj, hgj, gi, hgi, rest, hrest, rfl⟩ := h
    have ih := compositeLoop_entry mulIndex fi fj ks rest hrest
    refine ⟨by simp [ih.1], ?_⟩
    intro n k hn
    cases n with
    | zero =>
      simp only [List.getElem?_cons_zero, Option.some.injEq] at hn
      subst hn
      exact ⟨gj, gi, hgj, hgi, by simp⟩
    | succ n =>
      simp only [List.getElem?_cons_succ] at hn
      obtain ⟨gj2, gi2, h1, h2, h3⟩ := ih.2 n k hn
      exact ⟨gj2, gi2, h1, h2, by simpa using h3⟩

/-- The entries of a composite that was formed. -/
theorem compositeGerm_entry (mulIndex : Nat → Nat → Nat) (fi fj comp : isoStruct)
    (size : Nat) (h : compositeGerm mulIndex fi fj size = some comp) :
    comp.germ.length = size ∧
    ∀ c, c < size → ∃ gj gi, fj.germ[c]? = some gj ∧ fi.germ[gj.1]? = some gi ∧
      comp.germ[c]? = some (gi.1, mulIndex gi.2 gj.2) := by
  simp only [compositeGerm, Option.map_eq_some'] at h
  obtain ⟨r, hr, rfl⟩ := h
  have := compositeLoop_entry mulIndex fi fj (List.range size) r hr
  refine ⟨by simpa using this.1, ?_⟩
  intro c hc
  exact this.2 c c (by simp [hc])

theorem flatMap_rows_length {α β : Type} (n : Nat) (g : α → Nat → β) :
    ∀ l : List α, (l.flatMap fun a => (List.range n).map (g a)).length = l.length * n
  | [] => by simp
  | a :: t => by
    simp only [List.flatMap_cons, List.length_append, List.length_map, List.length_range,
      flatMap_rows_length n g t, List.length_cons]
    ring

theorem flatMap_rows_entry {α β : Type} (n : Nat) (g : α → Nat → β) (j : Nat) (hj : j < n) :
    ∀ (l : List α) (i : Nat),
      (l.flatMap fun a => (List.range n).map (g a))[i * n + j]? = l[i]?.map fun a => g a j
  | [], i => by simp
  | a :: t, 0 => by
    simp only [List.flatMap_cons, Nat.zero_mul, Nat.zero_add, List.getElem?_cons_zero,
      Option.map_some']
    rw [List.getElem?_append_left (by simpa using hj)]
    simp [List.getElem?_range hj]
  | a :: t, i + 1 => by
    simp only [List.flatMap_cons, List.getElem?_cons_succ]
    rw [List.getElem?_append_right (by simp; nlinarith)]
    have e : (i + 1) * n + j - ((List.range n).map (g a)).length = i * n + j := by
      simp only [List.length_map, List.length_range]
      rw [Nat.add_mul, Nat.one_mul]
      omega
    rw [e]
    exact flatMap_rows_entry n g j hj t i

/-- One pass of the body of the loops of `groupPresentation`, on a sorted vector
that is closed under composition. -/
theorem presentationStep_eval (mulIndex : Nat → Nat → Nat) (fullMap : List isoStruct)
    (hsorted : fullMap.Pairwise (fun a b => b.lt a = false))
    (hclosed : ∀ fi ∈ fullMap, ∀ fj ∈ fullMap, ∀ f0, fullMap[0]? = some f0 →
      ∃ comp ∈ fullMap, compositeGerm mulIndex fi fj f0.germ.length = some comp)
    (i j : Nat) (hi : i < fullMap.length) (hj : j < fullMap.length)
    (rels : List NGroupExpression) :
    presentationStep mulIndex fullMap i rels j
        = some (rels ++ [relator i j (productIndex mulIndex fullMap i j)]) ∧
      productIndex mulIndex fullMap i j < fullMap.length ∧
      ∃ fi fj f0, fullMap[i]? = some fi ∧ fullMap[j]? = some fj ∧ fullMap[0]? = some f0 ∧
        compositeGerm mulIndex fi fj f0.germ.length
          = fullMap[productIndex mulIndex fullMap i j]? := by
  have h0 : 0 < fullMap.length := by omega
  have ei : fullMap[i]? = some fullMap[i] := List.getElem?_eq_getElem hi
  have ej : fullMap[j]? = some fullMap[j] := List.getElem?_eq_getElem hj
  have e0 : fullMap[0]? = some fullMap[0] := List.getElem?_eq_getElem h0
  obtain ⟨comp, hmem, hcomp⟩ := hclosed fullMap[i] (List.getElem_mem hi) fullMap[j]
    (List.getElem_mem hj) fullMap[0] e0
  have hlb := lowerBound_mem fullMap comp hmem hsorted
  have hp : productIndex mulIndex fullMap i j = lowerBound fullMap comp := by
    simp only [productIndex, ei, ej, e0, hcomp]
  refine ⟨?_, by rw [hp]; exact hlb.1, fullMap[i], fullMap[j], fullMap[0], ei, ej, e0, ?_⟩
  · simp only [presentationStep, ei, ej, e0, hcomp, Option.bind_eq_bind, Option.some_bind,
      Nat.ne_of_lt hlb.1, if_false, hp, relator, Option.pure_def]
  · rw [hp, hcomp, hlb.2]

theorem presentationRow_loop (mulIndex : Nat → Nat → Nat) (fullMap : List isoStruct)
    (hsorted : fullMap.Pairwise (fun a b => b.lt a = false))
    (hclosed : ∀ fi ∈ fullMap, ∀ fj ∈ fullMap, ∀ f0, fullMap[0]? = some f0 →
      ∃ comp ∈ fullMap, compositeGerm mulIndex fi fj f0.germ.length = some comp)
    (i : Nat) (hi : i < fullMap.length) :
    ∀ (l : List Nat) (rels : List NGroupExpression), (∀ j ∈ l, j < fullMap.length) →
      l.foldlM (presentationStep mulIndex fullMap i) rels
        = some (rels ++ l.map fun j => relator i j (productIndex mulIndex fullMap i j))
  | [], rels, _ => by simp
  | j :: t, rels, hl => by
    have hj : j < fullMap.length := hl j (List.mem_cons_self _ _)
    have hstep := (presentationStep_eval mulIndex fullMap hsorted hclosed i j hi hj rels).1
    rw [List.foldlM_cons, hstep]
    simp only [Option.bind_eq_bind, Option.some_bind]
    rw [presentationRow_loop mulIndex fullMap hsorted hclosed i hi t _
      (fun x hx => hl x (List.mem_cons_of_mem _ hx))]
    simp

theorem presentation_loop (mulIndex : Nat → Nat → Nat) (fullMap : List isoStruct)
    (hsorted : fullMap.Pairwise (fun a b => b.lt a = false))
    (hclosed : ∀ fi ∈ fullMap, ∀ fj ∈ fullMap, ∀ f0, fullMap[0]? = some f0 →
      ∃ comp ∈ fullMap, compositeGerm mulIndex fi fj f0.germ.length = some comp) :
    ∀ (l : List Nat) (rels : List NGroupExpression), (∀ i ∈ l, i < fullMap.length) →
      l.foldlM (presentationRow mulIndex fullMap) rels
        = some (rels ++ l.flatMap fun i => (List.range fullMap.length).map
            fun j => relator i j (productIndex mulIndex fullMap i j))
  | [], rels, _ => by simp
  | i :: t, rels, hl => by
    have hi : i < fullMap.length := hl i (List.mem_cons_self _ _)
    have hrow : presentationRow mulIndex fullMap rels i = _ :=
      presentationRow_loop mulIndex fullMap hsorted hclosed i hi (List.range fullMap.length)
        rels (fun j hj => List.mem_range.mp hj)
    rw [List.foldlM_cons, hrow]
    simp only [Option.bind_eq_bind, Option.some_bind]
    rw [presentation_loop mulIndex fullMap hsorted hclosed t _
      (fun x hx => hl x (List.mem_cons_of_mem _ hx))]
    simp


/-! ### The loops of `diagonaliseRow` -/

theorem findRow_spec {T : Type} [Field T] [DecidableEq T] (m : NMatrixField T) (c row : Nat)
    (h : row ≤ m.nRows) :
    row ≤ findRow m c row ∧ findRow m c row ≤ m.nRows ∧
      (findRow m c row ≠ m.nRows → m.data (findRow m c row) c ≠ 0) := by
  rw [findRow]
  split_ifs with hc
  · have ih := findRow_spec m c (row + 1) (by omega)
    exact ⟨by omega, ih.2.1, ih.2.2⟩
  · refine ⟨le_refl _, h, fun hne hz => hc ⟨by omega, hz⟩⟩
termination_by m.nRows - row
decreasing_by omega

/-- A property that both branches of the body of the outer loop keep holds
when the loop of `diagonaliseRow` is left. -/
theorem diagonaliseLoop_inv {T : Type} [Field T] [DecidableEq T] (P : DiagState T → Prop)
    (nRows nCols : Nat)
    (hskip : ∀ s, P s → s.doneCol < nCols → s.doneRow < nRows →
      findRow s.cur s.doneCol s.doneRow = nRows → P { s with doneCol := s.doneCol + 1 })
    (hpivot : ∀ s, P s → s.doneCol < nCols → s.doneRow < nRows →
      findRow s.cur s.doneCol s.doneRow ≠ nRows →
      P { (List.range nRows).foldl eliminateStep
            (makeOne (moveToTop s (findRow s.cur s.doneCol s.doneRow))) with
          doneCol := s.doneCol + 1
          doneRow := s.doneRow + 1
          pivots := s.pivots ++ [s.doneCol] })
    (s : DiagState T) (hs : P s) : P (diagonaliseLoop nRows nCols s) := by
  rw [diagonaliseLoop]
  split_ifs with h1 h2
  · exact diagonaliseLoop_inv P nRows nCols hskip hpivot _ (hskip s hs h1.1 h1.2 h2)
  · exact diagonaliseLoop_inv P nRows nCols hskip hpivot _ (hpivot s hs h1.1 h1.2 h2)
  · exact hs
termination_by nCols - s.doneCol
decreasing_by all_goals simp_wf; all_goals omega

/-- A property indexed by the number of passes holds after a loop over
`0 .. n - 1`. -/
theorem foldl_range_inv {σ : Type} (f : σ → Nat → σ) (Q : Nat → σ → Prop) (s : σ)
    (h0 : Q 0 s) :
    ∀ n, (∀ r t, r < n → Q r t → Q (r + 1) (f t r)) → Q n ((List.range n).foldl f s)
  | 0, _ => by simpa using h0
  | n + 1, hstep => by
    rw [List.range_succ, List.foldl_append]
    exact hstep n _ (Nat.lt_succ_self n)
      (foldl_range_inv f Q s h0 n (fun r t hr => hstep r t (Nat.lt_succ_of_lt hr)))

theorem eliminateStep_fields {T : Type} [Field T] [DecidableEq T] (s : DiagState T) (row : Nat) :
    (eliminateStep s row).doneRow = s.doneRow ∧ (eliminateStep s row).doneCol = s.doneCol ∧
      (eliminateStep s row).pivots = s.pivots := by
  unfold eliminateStep
  split_ifs <;> exact ⟨rfl, rfl, rfl⟩

theorem makeOne_fields {T : Type} [Field T] [DecidableEq T] (s : DiagState T) :
    (makeOne s).doneRow = s.doneRow ∧ (makeOne s).doneCol = s.doneCol ∧
      (makeOne s).pivots = s.pivots := by
  unfold makeOne
  split_ifs <;> exact ⟨rfl, rfl, rfl⟩

theorem moveToTop_fields {T : Type} (s : DiagState T) (row : Nat) :
    (moveToTop s row).doneRow = s.doneRow ∧ (moveToTop s row).doneCol = s.doneCol ∧
      (moveToTop s row).pivots = s.pivots := by
  unfold moveToTop
  split_ifs <;> exact ⟨rfl, rfl, rfl⟩

/-! ### The product `ans * old` under the row operations -/

theorem product_swapRows {T : Type} [Field T] (old : NMatrixField T) (s : DiagState T)
    (a b : Nat) (ha : a < old.nRows) (hb : b < old.nRows) (h : s.Product old) :
    DiagState.Product old
      { s with ans := s.ans.swapRows a b, cur := s.cur.swapRows a b } := by
  obtain ⟨h1, h2, h3, h4, h5⟩ := h
  refine ⟨h1, h2, h3, h4, ?_⟩
  intro i j hi hj
  have e : ∀ k ∈ Finset.range old.nRows,
      (s.ans.swapRows a b).data i k * old.data k j
        = (if i = a then s.ans.data b k else if i = b then s.ans.data a k
            else s.ans.data i k) * old.data k j := by
    intro k hk
    have hk2 : k < s.ans.nCols := by rw [h2]; exact Finset.mem_range.mp hk
    simp only [NMatrixField.swapRows, hk2, if_true]
  show ∑ k in Finset.range old.nRows, (s.ans.swapRows a b).data i k * old.data k j
    = (s.cur.swapRows a b).data i j
  rw [Finset.sum_congr rfl e]
  have hj2 : j < s.cur.nCols := by rw [h4]; exact hj
  simp only [NMatrixField.swapRows, hj2, if_true]
  by_cases hia : i = a
  · simp only [hia, if_true]
    exact h5 b j hb hj
  · by_cases hib : i = b
    · subst hib
      simp only [hia, if_true, if_false, eq_self_iff_true]
      exact h5 a j ha hj
    · simp only [hia, hib, if_false]
      exact h5 i j hi hj

theorem product_divRow {T : Type} [Field T] (old : NMatrixField T) (s : DiagState T)
    (r : Nat) (f : T) (h : s.Product old) :
    DiagState.Product old { s with ans := s.ans.divRow r f, cur := s.cur.divRow r f } := by
  obtain ⟨h1, h2, h3, h4, h5⟩ := h
  refine ⟨h1, h2, h3, h4, ?_⟩
  intro i j hi hj
  show ∑ k in Finset.range old.nRows, (s.ans.divRow r f).data i k * old.data k j
    = (s.cur.divRow r f).data i j
  have hj2 : j < s.cur.nCols := by rw [h4]; exact hj
  by_cases hir : i = r
  · have e : ∀ k ∈ Finset.range old.nRows,
        (s.ans.divRow r f).data i k * old.data k j
          = (s.ans.data i k * old.data k j) / f := by
      intro k hk
      have hk2 : k < s.ans.nCols := by rw [h2]; exact Finset.mem_range.mp hk
      simp only [NMatrixField.divRow, hir, hk2, and_self, if_true]
      ring
    rw [Finset.sum_congr rfl e, ← Finset.sum_div, h5 i j hi hj]
    simp only [NMatrixField.divRow, hir, hj2, and_self, if_true]
  · have e : ∀ k ∈ Finset.range old.nRows,
        (s.ans.divRow r f).data i k * old.data k j = s.ans.data i k * old.data k j := by
      intro k _
      simp only [NMatrixField.divRow, hir, false_and, if_false]
    rw [Finset.sum_congr rfl e, h5 i j hi hj]
    simp only [NMatrixField.divRow, hir, false_and, if_false]

theorem product_addRow {T : Type} [Field T] (old : NMatrixField T) (s : DiagState T)
    (src d : Nat) (c : T) (hsrc : src < old.nRows) (h : s.Product old) :
    DiagState.Product old
      { s with ans := s.ans.addRow src d c, cur := s.cur.addRow src d c } := by
  obtain ⟨h1, h2, h3, h4, h5⟩ := h
  refine ⟨h1, h2, h3, h4, ?_⟩
  intro i j hi hj
  show ∑ k in Finset.range old.nRows, (s.ans.addRow src d c).data i k * old.data k j
    = (s.cur.addRow src d c).data i j
  have hj2 : j < s.cur.nCols := by rw [h4]; exact hj
  by_cases hid : i = d
  · have e : ∀ k ∈ Finset.range old.nRows,
        (s.ans.addRow src d c).data i k * old.data k j
          = s.ans.data i k * old.data k j + c * (s.ans.data src k * old.data k j) := by
      intro k hk
      have hk2 : k < s.ans.nCols := by rw [h2]; exact Finset.mem_range.mp hk
      simp only [NMatrixField.addRow, hid, hk2, and_self, if_true]
      ring
    rw [Finset.sum_congr rfl e, Finset.sum_add_distrib, ← Finset.mul_sum, h5 i j hi hj,
      h5 src j hsrc hj]
    simp only [NMatrixField.addRow, hid, hj2, and_self, if_true]
  · have e : ∀ k ∈ Finset.range old.nRows,
        (s.ans.addRow src d c).data i k * old.data k j = s.ans.data i k * old.data k j := by
      intro k _
      simp only [NMatrixField.addRow, hid, false_and, if_false]
    rw [Finset.sum_congr rfl e, h5 i j hi hj]
    simp only [NMatrixField.addRow, hid, false_and, if_false]

theorem product_eliminateStep {T : Type} [Field T] [DecidableEq T] (old : NMatrixField T)
    (s : DiagState T) (row : Nat) (hd : s.doneRow < old.nRows) (h : s.Product old) :
    (eliminateStep s row).Product old := by
  unfold eliminateStep
  split_ifs
  · exact h
  · exact h
  · exact product_addRow old s s.doneRow row _ hd h

theorem product_makeOne {T : Type} [Field T] [DecidableEq T] (old : NMatrixField T)
    (s : DiagState T) (h : s.Product old) : (makeOne s).Product old := by
  unfold makeOne
  split_ifs
  · exact h
  · exact product_divRow old s s.doneRow _ h

theorem product_moveToTop {T : Type} [Field T] (old : NMatrixField T)
    (s : DiagState T) (row : Nat) (hr : row < old.nRows) (hd : s.doneRow < old.nRows)
    (h : s.Product old) : (moveToTop s row).Product old := by
  unfold moveToTop
  split_ifs
  · exact product_swapRows old s row s.doneRow hr hd h
  · exact h

theorem product_clearColumn {T : Type} [Field T] [DecidableEq T] (old : NMatrixField T)
    (s : DiagState T) (hd : s.doneRow < old.nRows) (h : s.Product old) (n : Nat) :
    ((List.range n).foldl eliminateStep s).Product old ∧
      ((List.range n).foldl eliminateStep s).doneRow = s.doneRow :=
  foldl_range_inv eliminateStep (fun _ t => t.Product old ∧ t.doneRow = s.doneRow) s ⟨h, rfl⟩ n
    (fun r t _ ht =>
      ⟨product_eliminateStep old t r (by rw [ht.2]; exact hd) ht.1,
        (eliminateStep_fields t r).1.trans ht.2⟩)

/-- The relation `ans * old = cur` holds when the loop of `diagonaliseRow` is
left. -/
theorem product_diagonaliseLoop {T : Type} [Field T] [DecidableEq T] (old : NMatrixField T)
    (s : DiagState T) (h : s.Product old) :
    (diagonaliseLoop old.nRows old.nCols s).Product old := by
  refine diagonaliseLoop_inv (fun t => t.Product old) old.nRows old.nCols ?_ ?_ s h
  · intro t ht _ _ _
    exact ht
  · intro t ht _ hr hf
    have hfind := findRow_spec t.cur t.doneCol t.doneRow (by rw [ht.2.2.1]; omega)
    have hlt : findRow t.cur t.doneCol t.doneRow < old.nRows := by
      have := hfind.2.1
      rw [ht.2.2.1] at this
      omega
    have h1 := product_moveToTop old t _ hlt hr ht
    have h2 := product_makeOne old _ h1
    have hd2 : (makeOne (moveToTop t (findRow t.cur t.doneCol t.doneRow))).doneRow
        < old.nRows := by
      rw [(makeOne_fields _).1, (moveToTop_fields _ _).1]
      exact hr
    exact (product_clearColumn old _ hd2 h2 old.nRows).1

theorem product_identity {T : Type} [Field T] (m : NMatrixField T) :
    DiagState.Product m ⟨NMatrixField.identity m.nRows, m, 0, 0, []⟩ := by
  refine ⟨rfl, rfl, rfl, rfl, ?_⟩
  intro i j hi _
  show ∑ k in Finset.range m.nRows, (if i = k then (1 : T) else 0) * m.data k j = m.data i j
  simp only [ite_mul, one_mul, zero_mul]
  rw [Finset.sum_ite_eq (Finset.range m.nRows) i (fun k => m.data k j)]
  simp [hi]

/-! ### The columns of the pivots under the row operations -/

theorem columnDone_swapRows {T : Type} [Field T] (m : NMatrixField T) (a b k p : Nat)
    (ha : a < m.nRows) (hb : b < m.nRows) (hak : a ≠ k) (hbk : b ≠ k)
    (h : m.ColumnDone k p) : (m.swapRows a b).ColumnDone k p := by
  obtain ⟨h1, h2⟩ := h
  have hka : ¬ k = a := fun e => hak e.symm
  have hkb : ¬ k = b := fun e => hbk e.symm
  refine ⟨?_, ?_⟩
  · show (if p < m.nCols then
        if k = a then m.data b p else if k = b then m.data a p else m.data k p
      else m.data k p) = 1
    rw [if_neg hka, if_neg hkb]
    simpa using h1
  · intro i hi hik
    show (if p < m.nCols then
        if i = a then m.data b p else if i = b then m.data a p else m.data i p
      else m.data i p) = 0
    split_ifs
    · exact h2 b hb hbk
    · exact h2 a ha hak
    · exact h2 i hi hik
    · exact h2 i hi hik

theorem columnDone_divRow {T : Type} [Field T] (m : NMatrixField T) (r k p : Nat) (f : T)
    (hrk : r ≠ k) (h : m.ColumnDone k p) :
    (m.divRow r f).ColumnDone k p := by
  obtain ⟨h1, h2⟩ := h
  have hkr : ¬ k = r := fun e => hrk e.symm
  refine ⟨?_, ?_⟩
  · show (if k = r ∧ p < m.nCols then m.data k p / f else m.data k p) = 1
    rw [if_neg (fun e => hkr e.1)]
    exact h1
  · intro i hi hik
    show (if i = r ∧ p < m.nCols then m.data i p / f else m.data i p) = 0
    split_ifs
    · rw [h2 i hi hik, zero_div]
    · exact h2 i hi hik

theorem columnDone_addRow {T : Type} [Field T] (m : NMatrixField T) (src d k p : Nat) (c : T)
    (hsrc : src < m.nRows) (hsk : src ≠ k) (h : m.ColumnDone k p) :
    (m.addRow src d c).ColumnDone k p := by
  obtain ⟨h1, h2⟩ := h
  refine ⟨?_, ?_⟩
  · show (if k = d ∧ p < m.nCols then m.data k p + c * m.data src p else m.data k p) = 1
    split_ifs
    · rw [h2 src hsrc hsk, mul_zero, add_zero, h1]
    · exact h1
  · intro i hi hik
    show (if i = d ∧ p < m.nCols then m.data i p + c * m.data src p else m.data i p) = 0
    split_ifs
    · rw [h2 src hsrc hsk, mul_zero, add_zero, h2 i hi hik]
    · exact h2 i hi hik

theorem keeps_index {T : Type} [Field T] {nRows nCols dr dc : Nat} {ps : List Nat}
    {s : DiagState T} (h : s.Keeps nRows nCols dr dc ps) {k p : Nat}
    (hk : ps[k]? = some p) : k < dr := by
  have := (List.getElem?_eq_some.mp hk).1
  rw [h.2.2.2.2.1] at this
  exact this

theorem keeps_moveToTop {T : Type} [Field T] (nRows nCols dr dc : Nat) (ps : List Nat)
    (s : DiagState T) (row : Nat) (hrow : row < nRows) (hle : dr ≤ row) (hdr : dr < nRows)
    (h : s.Keeps nRows nCols dr dc ps) : (moveToTop s row).Keeps nRows nCols dr dc ps := by
  unfold moveToTop
  split_ifs
  · refine ⟨h.1, h.2.1, h.2.2.1, h.2.2.2.1, h.2.2.2.2.1, ?_⟩
    intro k p hk
    have hkd := keeps_index h hk
    exact columnDone_swapRows s.cur row s.doneRow k p (by rw [h.1]; exact hrow)
      (by rw [h.1, h.2.2.1]; exact hdr) (by omega) (by rw [h.2.2.1]; omega)
      (h.2.2.2.2.2 k p hk)
  · exact h

theorem keeps_makeOne {T : Type} [Field T] [DecidableEq T] (nRows nCols dr dc : Nat)
    (ps : List Nat) (s : DiagState T)
    (h : s.Keeps nRows nCols dr dc ps) : (makeOne s).Keeps nRows nCols dr dc ps := by
  unfold makeOne
  split_ifs
  · exact h
  · refine ⟨h.1, h.2.1, h.2.2.1, h.2.2.2.1, h.2.2.2.2.1, ?_⟩
    intro k p hk
    have hkd := keeps_index h hk
    exact columnDone_divRow s.cur s.doneRow k p _ (by rw [h.2.2.1]; omega)
      (h.2.2.2.2.2 k p hk)

theorem keeps_eliminateStep {T : Type} [Field T] [DecidableEq T] (nRows nCols dr dc : Nat)
    (ps : List Nat) (s : DiagState T) (row : Nat) (hdr : dr < nRows)
    (h : s.Keeps nRows nCols dr dc ps) : (eliminateStep s row).Keeps nRows nCols dr dc ps := by
  unfold eliminateStep
  split_ifs
  · exact h
  · exact h
  · refine ⟨h.1, h.2.1, h.2.2.1, h.2.2.2.1, h.2.2.2.2.1, ?_⟩
    intro k p hk
    have hkd := keeps_index h hk
    exact columnDone_addRow s.cur s.doneRow row k p _ (by rw [h.1, h.2.2.1]; exact hdr)
      (by rw [h.2.2.1]; omega) (h.2.2.2.2.2 k p hk)

/-! ### The entry of the pivot -/

theorem moveToTop_entry {T : Type} [Field T] (s : DiagState T) (row : Nat)
    (hc : s.doneCol < s.cur.nCols) (hne : s.cur.data row s.doneCol ≠ 0) :
    (moveToTop s row).cur.data s.doneRow s.doneCol ≠ 0 := by
  unfold moveToTop
  split_ifs with h
  · show (if s.doneCol < s.cur.nCols then
        if s.doneRow = row then s.cur.data s.doneRow s.doneCol
        else if s.doneRow = s.doneRow then s.cur.data row s.doneCol
        else s.cur.data s.doneRow s.doneCol
      else s.cur.data s.doneRow s.doneCol) ≠ 0
    rw [if_pos hc, if_neg (fun e => h e.symm), if_pos rfl]
    exact hne
  · have e : row = s.doneRow := by simpa using h
    rw [← e]
    exact hne

theorem makeOne_entry {T : Type} [Field T] [DecidableEq T] (s : DiagState T)
    (hc : s.doneCol < s.cur.nCols) (hne : s.cur.data s.doneRow s.doneCol ≠ 0) :
    (makeOne s).cur.data s.doneRow s.doneCol = 1 := by
  unfold makeOne
  split_ifs with h
  · exact h
  · show (if s.doneRow = s.doneRow ∧ s.doneCol < s.cur.nCols then
        s.cur.data s.doneRow s.doneCol / s.cur.data s.doneRow s.doneCol
      else s.cur.data s.doneRow s.doneCol) = 1
    rw [if_pos ⟨rfl, hc⟩]
    exact div_self hne

/-- One pass of the loop that clears the column: the pivot stays one, the row
of the pass has zero in the column of the pivot afterwards, and the entries of
the column in the other rows are as before. -/
theorem eliminateStep_entry {T : Type} [Field T] [DecidableEq T] (s : DiagState T) (row : Nat)
    (hc : s.doneCol < s.cur.nCols) (hone : s.cur.data s.doneRow s.doneCol = 1) :
    (eliminateStep s row).cur.data s.doneRow s.doneCol = 1 ∧
      (row ≠ s.doneRow → (eliminateStep s row).cur.data row s.doneCol = 0) ∧
      ∀ i, i ≠ row → (eliminateStep s row).cur.data i s.doneCol = s.cur.data i s.doneCol := by
  unfold eliminateStep
  split_ifs with h1 h2
  · exact ⟨hone, fun h => absurd h1 h, fun _ _ => rfl⟩
  · exact ⟨hone, fun _ => h2, fun _ _ => rfl⟩
  · have hd : ¬ s.doneRow = row := fun e => h1 e.symm
    refine ⟨?_, ?_, ?_⟩
    · show (if s.doneRow = row ∧ s.doneCol < s.cur.nCols then _ else
        s.cur.data s.doneRow s.doneCol) = 1
      rw [if_neg (fun e => hd e.1)]
      exact hone
    · intro _
      show (if row = row ∧ s.doneCol < s.cur.nCols then
          s.cur.data row s.doneCol
            + -(s.cur.data row s.doneCol) * s.cur.data s.doneRow s.doneCol
        else s.cur.data row s.doneCol) = 0
      rw [if_pos ⟨rfl, hc⟩, hone]
      ring
    · intro i hi
      show (if i = row ∧ s.doneCol < s.cur.nCols then _ else s.cur.data i s.doneCol)
        = s.cur.data i s.doneCol
      rw [if_neg (fun e => hi e.1)]

/-- After the loop that clears the column, the column of the new pivot is
done and the columns of the earlier pivots are as before. -/
theorem keeps_clearColumn {T : Type} [Field T] [DecidableEq T] (nRows nCols dr dc : Nat)
    (ps : List Nat) (s : DiagState T) (hdr : dr < nRows) (hdc : dc < nCols)
    (h : s.Keeps nRows nCols dr dc ps) (hone : s.cur.data dr dc = 1) :
    ((List.range nRows).foldl eliminateStep s).Keeps nRows nCols dr dc ps ∧
      ((List.range nRows).foldl eliminateStep s).cur.ColumnDone dr dc := by
  have key := foldl_range_inv eliminateStep
    (fun r t => t.Keeps nRows nCols dr dc ps ∧ t.cur.data dr dc = 1 ∧
      ∀ i, i < r → i ≠ dr → t.cur.data i dc = 0) s
    ⟨h, hone, fun i hi => absurd hi (Nat.not_lt_zero i)⟩ nRows
    (fun r t _ ht => by
      obtain ⟨hk, h1, hz⟩ := ht
      have e1 : t.doneRow = dr := hk.2.2.1
      have e2 : t.doneCol = dc := hk.2.2.2.1
      have hent := eliminateStep_entry t r (by rw [e2, hk.2.1]; exact hdc)
        (by rw [e1, e2]; exact h1)
      rw [e1, e2] at hent
      refine ⟨keeps_eliminateStep nRows nCols dr dc ps t r hdr hk, hent.1, ?_⟩
      intro i hi hid
      by_cases hir : i = r
      · rw [hir]
        exact hent.2.1 (by rw [← hir]; exact hid)
      · rw [hent.2.2 i hir]
        exact hz i (by omega) hid)
  refine ⟨key.1, key.2.1, ?_⟩
  intro i hi hid
  rw [key.1.1] at hi
  exact key.2.2 i hi hid

/-- The state of the pivots holds when the loop of `diagonaliseRow` is left. -/
theorem pivots_diagonaliseLoop {T : Type} [Field T] [DecidableEq T] (nRows nCols : Nat)
    (s : DiagState T) (h : s.Pivots nRows nCols) :
    (diagonaliseLoop nRows nCols s).Pivots nRows nCols := by
  refine diagonaliseLoop_inv (fun t => t.Pivots nRows nCols) nRows nCols ?_ ?_ s h
  · intro t ht hc _ _
    obtain ⟨h1, h2, h3, h4, _, h6, h7, h8⟩ := ht
    exact ⟨h1, h2, h3, h4, hc, fun p hp => Nat.lt_succ_of_lt (h6 p hp), h7, h8⟩
  · intro t ht hc hr hf
    obtain ⟨h1, h2, h3, h4, _, h6, h7, h8⟩ := ht
    have hfind := findRow_spec t.cur t.doneCol t.doneRow (by rw [h1]; omega)
    rw [h1] at hfind
    have hlt : findRow t.cur t.doneCol t.doneRow < nRows :=
      lt_of_le_of_ne hfind.2.1 hf
    have hk0 : t.Keeps nRows nCols t.doneRow t.doneCol t.pivots :=
      ⟨h1, h2, rfl, rfl, h3, h8⟩
    have hk1 := keeps_moveToTop nRows nCols _ _ _ t _ hlt hfind.1 hr hk0
    have he1 := moveToTop_entry t (findRow t.cur t.doneCol t.doneRow)
      (by rw [h2]; exact hc) (hfind.2.2 hf)
    have hk2 := keeps_makeOne nRows nCols _ _ _ _ hk1
    have he2 := makeOne_entry (moveToTop t (findRow t.cur t.doneCol t.doneRow))
      (by rw [hk1.2.2.2.1, hk1.2.1]; exact hc)
      (by rw [hk1.2.2.1, hk1.2.2.2.1]; exact he1)
    rw [hk1.2.2.1, hk1.2.2.2.1] at he2
    obtain ⟨hk3, hdone⟩ := keeps_clearColumn nRows nCols _ _ _ _ hr hc hk2 he2
    refine ⟨hk3.1, hk3.2.1, ?_, hr, hc, ?_, ?_, ?_⟩
    · show (t.pivots ++ [t.doneCol]).length = t.doneRow + 1
      rw [List.length_append, h3]
      rfl
    · intro p hp
      show p < t.doneCol + 1
      rcases List.mem_append.mp hp with hp | hp
      · exact Nat.lt_succ_of_lt (h6 p hp)
      · rw [List.mem_singleton.mp hp]
        exact Nat.lt_succ_self _
    · show (t.pivots ++ [t.doneCol]).Pairwise (fun a b => a < b)
      rw [List.pairwise_append]
      refine ⟨h7, List.pairwise_singleton _ _, ?_⟩
      intro a ha b hb
      rw [List.mem_singleton.mp hb]
      exact h6 a ha
    · intro k p hk
      have hk : (t.pivots ++ [t.doneCol])[k]? = some p := hk
      by_cases hkl : k < t.pivots.length
      · rw [List.getElem?_append_left hkl] at hk
        exact hk3.2.2.2.2.2 k p hk
      · rw [List.getElem?_append_right (by omega)] at hk
        have hk0 : k - t.pivots.length = 0 := by
          by_contra hne
          rw [List.getElem?_eq_none (by simp; omega)] at hk
          cases hk
        rw [hk0] at hk
        simp only [List.getElem?_cons_zero, Option.some.injEq] at hk
        have hkd : k = t.doneRow := by omega
        rw [hkd, ← hk]
        exact hdone

theorem pivots_identity {T : Type} [Field T] (m : NMatrixField T) :
    DiagState.Pivots m.nRows m.nCols ⟨NMatrixField.identity m.nRows, m, 0, 0, []⟩ :=
  ⟨rfl, rfl, rfl, Nat.zero_le _, Nat.zero_le _, fun _ hp => absurd hp (List.not_mem_nil _),
    List.Pairwise.nil, fun k p hk => absurd hk (by simp)⟩

/-- The pivots recorded in a state stay the first pivots when the loop of
`diagonaliseRow` is left. -/
theorem pivots_prefix {T : Type} [Field T] [DecidableEq T] (nRows nCols : Nat)
    (s : DiagState T) : s.pivots <+: (diagonaliseLoop nRows nCols s).pivots := by
  refine diagonaliseLoop_inv (fun t => s.pivots <+: t.pivots) nRows nCols ?_ ?_ s
    (List.prefix_refl _)
  · intro t ht _ _ _
    exact ht
  · intro t ht _ _ _
    exact ht.trans (List.prefix_append _ _)

/-- A matrix with a non-zero entry in its first row and column has its first
pivot in the column 0. -/
theorem diagonaliseRow_first_pivot {T : Type} [Field T] [DecidableEq T] (old : NMatrixField T)
    (hr : 0 < old.nRows) (hc : 0 < old.nCols) (hne : old.data 0 0 ≠ 0) :
    [0] <+: (diagonaliseRow old).pivots := by
  have hf : findRow old 0 0 = 0 := by
    rw [findRow, if_neg (fun h => hne h.2)]
  unfold diagonaliseRow
  rw [diagonaliseLoop]
  simp only [hr, hc, and_self, if_true, hf]
  rw [if_neg (Nat.ne_of_lt hr)]
  have key : ∀ (s : DiagState T) (l : List Nat), l = s.pivots →
      l <+: (diagonaliseLoop old.nRows old.nCols s).pivots :=
    fun s l h => h ▸ pivots_prefix old.nRows old.nCols s
  exact key _ _ rfl


/-! ### The dimensions of a variance-preserving request -/

/-- A variance-preserving request for which a chain map is chosen is a
subdivision request, or relates equal dimensions, or is the connecting map of
the pair. -/
theorem homGroup_chainMap_dims (D : NCellularData) (h : HomLocator) (c c1 : Caches)
    (CM : NMatrixInt) (hv : h.domain.var = h.range.var)
    (hCM : homGroup_chainMap D h c = .ok (some CM) c1) :
    (subdivisionSelect D h).isSome = true ∨ h.domain.dim = h.range.dim ∨
      (h.domain.var = coVariant ∧ h.domain.hcs = STD_REL_BDRY_coord ∧
        h.range.hcs = STD_BDRY_coord ∧ h.domain.dim = uadd h.range.dim 1) ∨
      (h.domain.var = contraVariant ∧ h.domain.hcs = STD_BDRY_coord ∧
        h.range.hcs = STD_REL_BDRY_coord ∧ uadd h.domain.dim 1 = h.range.dim) := by
  by_contra hn
  simp only [not_or, not_and] at hn
  obtain ⟨hs, hd, hc1, hc2⟩ := hn
  unfold subdivisionSelect at hs
  unfold homGroup_chainMap at hCM
  rw [if_pos hv] at hCM
  cases hdv : h.domain.var <;> cases hdh : h.domain.hcs <;> cases hrh : h.range.hcs <;>
    simp [← hv, hdv, hdh, hrh, hd, Eval.bind_apply, Eval.pure_apply] at hs hc1 hc2 hCM <;>
    first
      | done
      | (rw [if_neg (fun e => hc1 e.1), Eval.pure_apply] at hCM; cases hCM)
      | (rw [if_neg (fun e => hc2 e.1), Eval.pure_apply] at hCM; cases hCM)

/-! ### The entries of the torsion linking form -/

theorem neg_lt_tmod (a : Int) {b : Int} (H : 0 < b) : -b < Int.tmod a b := by
  rcases Int.le_total 0 a with h | h
  · have := Int.tmod_nonneg b h
    omega
  · have h2 := Int.tmod_lt_of_pos (-a) H
    have h3 : Int.tmod (-a) b = -Int.tmod a b := by
      rw [Int.tmod_def, Int.tmod_def, Int.neg_tdiv]
      ring
    omega

/-- The value that the body of the loops of the torsion linking form computes
lies in `[0, N)` for a positive modulus `N`. -/
theorem linkingNumber_range (D : NCellularData) (ld rd : NMarkedAbelianGroup) (N sign : Int)
    (i j : Nat) (v : Int) (hN : 0 < N) (h : linkingNumber D ld rd N sign i j = some v) :
    0 ≤ v ∧ v < N := by
  unfold linkingNumber at h
  simp only [Option.bind_eq_bind, Option.bind_eq_some, Option.pure_def, Option.some.injEq] at h
  obtain ⟨s, _, rfl⟩ := h
  have h1 := Int.tmod_lt_of_pos (s * Int.tdiv N (D.getInvariantFactor rd j)) hN
  have h2 := neg_lt_tmod (s * Int.tdiv N (D.getInvariantFactor rd j)) hN
  split_ifs with hneg <;> omega

/-- A property that every pass of a loop keeps, when the pass does not fail,
holds after the loop. -/
theorem foldlM_option_inv {α β : Type} (P : β → Prop) (f : β → α → Option β) :
    ∀ (l : List α) (b r : β), (∀ b a b1, a ∈ l → P b → f b a = some b1 → P b1) →
      P b → l.foldlM f b = some r → P r
  | [], b, r, _, hb, h => by
    simp only [List.foldlM_nil, Option.pure_def, Option.some.injEq] at h
    exact h ▸ hb
  | a :: t, b, r, hstep, hb, h => by
    rw [List.foldlM_cons] at h
    simp only [Option.bind_eq_bind, Option.bind_eq_some] at h
    obtain ⟨b1, h1, h2⟩ := h
    exact foldlM_option_inv P f t b1 r
      (fun b a b1 ha => hstep b a b1 (List.mem_cons_of_mem _ ha))
      (hstep b a b1 (List.mem_cons_self _ _) hb h1) h2

theorem linkingEntries_setEntry (g : NSparseGridRing) (nl nr : Nat) (N : Int) (i j : Nat)
    (v : Int) (hg : g.LinkingEntries nl nr N) (hi : i < nl) (hj : j < nr) (h0 : 0 < v)
    (hN : v < N) : (g.setEntry [i, j, 0] v).LinkingEntries nl nr N := by
  intro e he
  rcases List.mem_cons.mp he with rfl | he
  · exact ⟨i, j, rfl, hi, hj, h0, hN⟩
  · exact hg e (List.mem_filter.mp he).1

theorem linkingLoops_entries (D : NCellularData) (ld rd : NMarkedAbelianGroup) (N : Int)
    (signAt : Nat → Int) (g r : NSparseGridRing) (hN : 0 < N)
    (hg : g.LinkingEntries (D.getNumberOfInvariantFactors ld)
      (D.getNumberOfInvariantFactors rd) N)
    (h : linkingLoops D ld rd N signAt g = some r) :
    r.LinkingEntries (D.getNumberOfInvariantFactors ld) (D.getNumberOfInvariantFactors rd) N := by
  unfold linkingLoops at h
  refine foldlM_option_inv
    (fun t => t.LinkingEntries (D.getNumberOfInvariantFactors ld)
        (D.getNumberOfInvariantFactors rd) N) _ _ g r ?_ hg h
  intro b i b1 hi hb hrow
  refine foldlM_option_inv
    (fun t => t.LinkingEntries (D.getNumberOfInvariantFactors ld)
        (D.getNumberOfInvariantFactors rd) N) _ _ b b1 ?_ hb hrow
  intro acc j acc1 hj hacc hstep
  simp only [Option.bind_eq_bind, Option.bind_eq_some, Option.pure_def, Option.some.injEq]
    at hstep
  obtain ⟨sum, hsum, rfl⟩ := hstep
  have hrange := linkingNumber_range D ld rd N (signAt i) i j sum hN hsum
  split_ifs with hz
  · exact linkingEntries_setEntry acc _ _ N i j sum hacc (List.mem_range.mp hi)
      (List.mem_range.mp hj) (by omega) hrange.2
  · exact hacc

theorem linkingTensor_entries (D : NCellularData) (ld rd : NMarkedAbelianGroup) (N : Int)
    (ldim : Nat) (T : NSparseGridRing) (hN : 0 < N)
    (h : linkingTensor D ld rd N ldim = some T) :
    T.LinkingEntries (D.getNumberOfInvariantFactors ld) (D.getNumberOfInvariantFactors rd) N := by
  have h0 : NSparseGridRing.empty.LinkingEntries (D.getNumberOfInvariantFactors ld)
      (D.getNumberOfInvariantFactors rd) N := by
    intro e he
    simp [NSparseGridRing.empty] at he
  unfold linkingTensor at h
  split_ifs at h <;>
    simp only [Option.bind_eq_bind, Option.bind_eq_some, Option.some_bind, Option.pure_def,
      Option.some.injEq] at h
  all_goals first
    | exact h ▸ h0
    | (obtain ⟨a, h1, rfl⟩ := h
       exact linkingLoops_entries D ld rd N _ _ _ hN h0 h1)
    | (obtain ⟨a, h1, b, h2, rfl⟩ := h
       exact linkingLoops_entries D ld rd N _ _ _ hN
        (linkingLoops_entries D ld rd N _ _ _ hN h0 h1) h2)
    | (obtain ⟨a, h1, b, h2, c, h3, rfl⟩ := h
       exact linkingLoops_entries D ld rd N _ _ _ hN
        (linkingLoops_entries D ld rd N _ _ _ hN
          (linkingLoops_entries D ld rd N _ _ _ hN h0 h1) h2) h3)

theorem linkingModulus_pos (D : NCellularData) (ld rd ldomain rdomain : NMarkedAbelianGroup)
    (hpos : ∀ G i, 0 < D.getInvariantFactor G i) :
    0 < linkingModulus D ld rd ldomain rdomain := by
  unfold linkingModulus
  split_ifs
  · have := Int.gcd_pos_of_ne_zero_left
      (D.getInvariantFactor rd (usub (D.getNumberOfInvariantFactors rd) 1))
      (ne_of_gt (hpos ld (usub (D.getNumberOfInvariantFactors ld) 1)))
    exact_mod_cast this
  · decide

/-- The canonical torsion linking form in every state that the caches can be
in, both groups being at hand and the loops reading their vectors within
range. -/
theorem bilinearForm_linking_any (D : NCellularData) (f : FormLocator) (c : Caches)
    (A B A1 B1 : NMatrixInt) (T : NSparseGridRing) (hreach : c.Reachable D)
    (hg : linkingGuard D f)
    (hl : f.ldomain.hcs = DUAL_coord) (hr : f.rdomain.hcs = STD_REL_BDRY_coord)
    (hpl : chainPair D f.ldomain.hcs f.ldomain.dim = some (A, B))
    (hpr : chainPair D f.rdomain.hcs f.rdomain.dim = some (A1, B1))
    (hT : linkingTensor D (builtMarked f.ldomain A B) (builtMarked f.rdomain A1 B1)
      (linkingModulus D (builtMarked f.ldomain A B) (builtMarked f.rdomain A1 B1)
        (torsionSubgroup D (builtMarked f.ldomain A B))
        (torsionSubgroup D (builtMarked f.rdomain A1 B1))) f.ldomain.dim = some T) :
    ∃ c1, bilinearForm D f c =
      .ok (some (.ofTensor (torsionSubgroup D (builtMarked f.ldomain A B))
        (torsionSubgroup D (builtMarked f.rdomain A1 B1))
        (.ofRank 1 (linkingModulus D (builtMarked f.ldomain A B) (builtMarked f.rdomain A1 B1)
          (torsionSubgroup D (builtMarked f.ldomain A B))
          (torsionSubgroup D (builtMarked f.rdomain A1 B1)))) T)) c1 := by
  cases hu : mapFind c.bilinearForms f with
  | none => exact bilinearFormFuel_linking 1 D f c A B A1 B1 T hreach hu hg hl hr hpl hpr hT
  | some b =>
    obtain ⟨n, c0, c1, hr0, hu0, h0⟩ := hreach.formSound f b hu
    obtain ⟨c2, h⟩ := bilinearFormFuel_linking n D f c0 A B A1 B1 T hr0 hu0 hg hl hr hpl hpr hT
    rw [h] at h0
    simp only [Outcome.ok.injEq, Option.some.injEq] at h0
    have hb := bilinearFormFuel_cached 1 D f c b hu
    rw [← h0.1] at hb
    exact ⟨c, hb⟩

/-! ### Triple edges of a face pairing -/

/-- The count of `hasTripleEdge` for one tetrahedron, on the four destinations:
if it is at least 3 then three of the destinations are one later tetrahedron,
the first or the second destination among them. -/
theorem tripleEdge_count_triple (d0 d1 d2 d3 t n : Int)
    (h : 3 ≤ (if t < d0 ∧ d0 < n then
          (if d0 = d1 then 1 else 0) + (if d0 = d2 then 1 else 0) +
            (if d0 = d3 then (1 : Nat) else 0)
        else 0) +
        (if t < d1 ∧ d1 < n then (if d1 = d2 then 1 else 0) + (if d1 = d3 then 1 else 0)
          else 0) +
        (if t < d2 ∧ d2 < n then (if d2 = d3 then 1 else 0) else 0)) :
    (t < d0 ∧ d0 < n ∧ ((d0 = d1 ∧ d0 = d2) ∨ (d0 = d1 ∧ d0 = d3) ∨ (d0 = d2 ∧ d0 = d3))) ∨
      (t < d1 ∧ d1 < n ∧ d1 = d2 ∧ d1 = d3) := by
  by_cases L0 : t < d0 ∧ d0 < n
  · by_cases e01 : d0 = d1
    · subst e01
      by_cases e02 : d0 = d2
      · exact Or.inl ⟨L0.1, L0.2, Or.inl ⟨rfl, e02⟩⟩
      · by_cases e03 : d0 = d3
        · exact Or.inl ⟨L0.1, L0.2, Or.inr (Or.inl ⟨rfl, e03⟩)⟩
        · simp only [L0, e02, e03, and_self, if_true, if_false] at h
          split_ifs at h <;> omega
    · by_cases e02 : d0 = d2
      · subst e02
        by_cases e03 : d0 = d3
        · exact Or.inl ⟨L0.1, L0.2, Or.inr (Or.inr ⟨rfl, e03⟩)⟩
        · simp only [L0, e01, e03, and_self, if_true, if_false] at h
          split_ifs at h <;> omega
      · simp only [L0, e01, e02, and_self, if_true, if_false] at h
        split_ifs at h <;> omega
  · rw [if_neg L0] at h
    split_ifs at h <;> omega

/-- The count of `hasTripleEdge` for one tetrahedron is at least 3 exactly if
three of the four destinations are one later tetrahedron. -/
theorem tripleEdge_pure (d0 d1 d2 d3 t n : Int) :
    3 ≤ (if t < d0 ∧ d0 < n then
          (if d0 = d1 then 1 else 0) + (if d0 = d2 then 1 else 0) +
            (if d0 = d3 then (1 : Nat) else 0)
        else 0) +
        (if t < d1 ∧ d1 < n then (if d1 = d2 then 1 else 0) + (if d1 = d3 then 1 else 0)
          else 0) +
        (if t < d2 ∧ d2 < n then (if d2 = d3 then 1 else 0) else 0) ↔
      ∃ u, t < u ∧ u < n ∧
        3 ≤ (if d0 = u then 1 else 0) + (if d1 = u then 1 else 0) + (if d2 = u then 1 else 0) +
          (if d3 = u then (1 : Nat) else 0) := by
  constructor
  · intro h
    rcases tripleEdge_count_triple d0 d1 d2 d3 t n h with
      ⟨h1, h2, ⟨e1, e2⟩ | ⟨e1, e2⟩ | ⟨e1, e2⟩⟩ | ⟨h1, h2, e1, e2⟩
    · exact ⟨d0, h1, h2, by rw [if_pos rfl, if_pos e1.symm, if_pos e2.symm]; omega⟩
    · exact ⟨d0, h1, h2, by rw [if_pos rfl, if_pos e1.symm, if_pos e2.symm]; omega⟩
    · exact ⟨d0, h1, h2, by rw [if_pos rfl, if_pos e1.symm, if_pos e2.symm]; omega⟩
    · exact ⟨d1, h1, h2, by rw [if_pos rfl, if_pos e1.symm, if_pos e2.symm]; omega⟩
  · rintro ⟨u, h1, h2, h3⟩
    by_cases e0 : d0 = u
    · subst e0
      by_cases e1 : d1 = d0
      · subst e1
        by_cases e2 : d2 = d1
        · subst e2
          simp only [h1, h2, and_self, if_true]
          omega
        · by_cases e3 : d3 = d1
          · subst e3
            simp only [h1, h2, and_self, if_true]
            omega
          · simp only [e2, e3, if_false, if_true] at h3
            omega
      · by_cases e2 : d2 = d0
        · subst e2
          by_cases e3 : d3 = d2
          · subst e3
            simp only [h1, h2, and_self, if_true]
            omega
          · simp only [e1, e3, if_false, if_true] at h3
            omega
        · simp only [e1, e2, if_false, if_true] at h3
          split_ifs at h3 <;> omega
    · by_cases e1 : d1 = u
      · subst e1
        by_cases e2 : d2 = d1
        · subst e2
          by_cases e3 : d3 = d2
          · subst e3
            simp only [h1, h2, and_self, if_true]
            split_ifs <;> omega
          · simp only [e0, e3, if_false, if_true] at h3
            omega
        · simp only [e0, e2, if_false, if_true] at h3
          split_ifs at h3 <;> omega
      · simp only [e0, e1, if_false, if_true] at h3
        split_ifs at h3 <;> omega

theorem foldl_count_add (c : Nat → Prop) [DecidablePred c] :
    ∀ (l : List Nat) (e : Nat),
      l.foldl (fun e j => if c j then e + 1 else e) e = e + l.countP (fun j => decide (c j))
  | [], e => by simp
  | j :: t, e => by
    rw [List.foldl_cons, foldl_count_add c t, List.countP_cons]
    by_cases h : c j
    · simp [h]
      omega
    · simp [h]

/-- The value of `equal` after the loops over `i` and `j` for one tetrahedron,
as a sum over the pairs `i < j`. -/
theorem tripleEdgeCount_eq (p : NFacePairing) (tet : Nat) :
    tripleEdgeCount p tet =
      (if p.isUnmatched tet 0 = false ∧ (p.dest tet 0).tet > (tet : Int) then
          (if (p.dest tet 0).tet = (p.dest tet 1).tet then 1 else 0) +
            (if (p.dest tet 0).tet = (p.dest tet 2).tet then 1 else 0) +
            (if (p.dest tet 0).tet = (p.dest tet 3).tet then 1 else 0)
        else 0) +
      (if p.isUnmatched tet 1 = false ∧ (p.dest tet 1).tet > (tet : Int) then
          (if (p.dest tet 1).tet = (p.dest tet 2).tet then 1 else 0) +
            (if (p.dest tet 1).tet = (p.dest tet 3).tet then 1 else 0)
        else 0) +
      (if p.isUnmatched tet 2 = false ∧ (p.dest tet 2).tet > (tet : Int) then
          (if (p.dest tet 2).tet = (p.dest tet 3).tet then 1 else 0)
        else 0) := by
  have r4 : List.range 4 = [0, 1, 2, 3] := rfl
  have r1 : List.range' (0 + 1) (4 - (0 + 1)) = [1, 2, 3] := rfl
  have r2 : List.range' (1 + 1) (4 - (1 + 1)) = [2, 3] := rfl
  have r3 : List.range' (2 + 1) (4 - (2 + 1)) = [3] := rfl
  have r0 : List.range' (3 + 1) (4 - (3 + 1)) = [] := rfl
  unfold tripleEdgeCount tripleEdgeInner
  simp only [r4, List.foldl_cons, List.foldl_nil, foldl_count_add, r0, r1, r2, r3,
    List.countP_cons, List.countP_nil, decide_eq_true_eq]
  generalize (if (p.dest tet 0).tet = (p.dest tet 1).tet then 1 else 0) = a01
  generalize (if (p.dest tet 0).tet = (p.dest tet 2).tet then 1 else 0) = a02
  generalize (if (p.dest tet 0).tet = (p.dest tet 3).tet then 1 else 0) = a03
  generalize (if (p.dest tet 1).tet = (p.dest tet 2).tet then 1 else 0) = a12
  generalize (if (p.dest tet 1).tet = (p.dest tet 3).tet then 1 else 0) = a13
  generalize (if (p.dest tet 2).tet = (p.dest tet 3).tet then 1 else 0) = a23
  split_ifs <;> omega

/-- The number of faces of a tetrahedron that are paired with faces of a
tetrahedron `u`, as a sum over the four faces. -/
theorem facesTo_eq (p : NFacePairing) (t : Nat) (u : Int) (hu : u < p.nTetrahedra) :
    p.facesTo t u =
      (if (p.dest t 0).tet = u then 1 else 0) + (if (p.dest t 1).tet = u then 1 else 0) +
      (if (p.dest t 2).tet = u then 1 else 0) + (if (p.dest t 3).tet = u then 1 else 0) := by
  have r4 : List.range 4 = [0, 1, 2, 3] := rfl
  have key : ∀ i, (p.isUnmatched t i = false ∧ (p.dest t i).tet = u) ↔ (p.dest t i).tet = u := by
    intro i
    refine ⟨fun h => h.2, fun h => ⟨?_, h⟩⟩
    unfold NFacePairing.isUnmatched NTetFace.isBoundary
    rw [decide_eq_false_iff_not]
    intro hb
    omega
  unfold NFacePairing.facesTo
  rw [← List.countP_eq_length_filter, r4]
  simp only [List.countP_cons, List.countP_nil, decide_eq_true_eq, key]
  omega

/-- In a well formed face pairing a face leads to a later tetrahedron exactly
if the index of its destination lies between the tetrahedron and the number
of tetrahedra. -/
theorem wellFormed_later (p : NFacePairing) (hwf : p.WellFormed) (t f : Nat)
    (ht : t < p.nTetrahedra) (hf : f < 4) :
    (p.isUnmatched t f = false ∧ (p.dest t f).tet > (t : Int)) ↔
      ((t : Int) < (p.dest t f).tet ∧ (p.dest t f).tet < p.nTetrahedra) := by
  unfold NFacePairing.isUnmatched NTetFace.isBoundary
  rw [decide_eq_false_iff_not]
  rcases hwf t ht f hf with h | h
  · rw [h]
    simp
  · constructor
    · intro h1
      exact ⟨h1.2, h.2.1⟩
    · intro h1
      exact ⟨fun hb => by omega, h1.1⟩

/-! ### Writing and reading decimal numbers -/

theorem digitChar_spec (d : Nat) (hd : d < 10) :
    (digitChar d).isDigit = true ∧ (digitChar d).toNat - 48 = d ∧
      isSpace (digitChar d) = false ∧ digitChar d ≠ '-' ∧ digitChar d ≠ '+' := by
  interval_cases d <;> decide

theorem digitsValue_cons (c : Char) (cs : List Char) (acc : Nat) :
    digitsValue (c :: cs) acc =
      if c.isDigit then digitsValue cs (10 * acc + (c.toNat - 48)) else none := by
  unfold digitsValue
  rw [List.foldlM_cons]
  split_ifs <;> rfl

theorem digitsValue_putNatAux : ∀ (fuel n : Nat) (acc : List Char), n < fuel →
    digitsValue (putNatAux fuel n acc) 0 = digitsValue acc n
  | 0, _, _, h => absurd h (Nat.not_lt_zero _)
  | fuel + 1, n, acc, h => by
    unfold putNatAux
    split_ifs with h10
    · rw [digitsValue_cons, if_pos (digitChar_spec n h10).1, (digitChar_spec n h10).2.1]
      simp
    · have hm : n % 10 < 10 := Nat.mod_lt _ (by decide)
      rw [digitsValue_putNatAux fuel (n / 10) _ (by omega), digitsValue_cons,
        if_pos (digitChar_spec _ hm).1, (digitChar_spec _ hm).2.1]
      congr 1
      omega

theorem putNatAux_head : ∀ (fuel n : Nat) (acc : List Char), n < fuel →
    ∃ d cs, d < 10 ∧ putNatAux fuel n acc = digitChar d :: cs
  | 0, _, _, h => absurd h (Nat.not_lt_zero _)
  | fuel + 1, n, acc, h => by
    unfold putNatAux
    split_ifs with h10
    · exact ⟨n, acc, h10, rfl⟩
    · exact putNatAux_head fuel (n / 10) _ (by omega)

theorem putNatAux_plain : ∀ (fuel n : Nat) (acc : List Char),
    (∀ c ∈ acc, isSpace c = false) → ∀ c ∈ putNatAux fuel n acc, isSpace c = false
  | 0, _, _, h => h
  | fuel + 1, n, acc, h => by
    unfold putNatAux
    split_ifs with h10
    · intro c hc
      rcases List.mem_cons.mp hc with rfl | hc
      · exact (digitChar_spec n h10).2.2.1
      · exact h c hc
    · refine putNatAux_plain fuel (n / 10) _ ?_
      intro c hc
      rcases List.mem_cons.mp hc with rfl | hc
      · exact (digitChar_spec _ (Nat.mod_lt _ (by decide))).2.2.1
      · exact h c hc

/-- A value that is not negative is read back from the characters written for
it, and these characters are a token: not empty, without white space. -/
theorem valueOf_putInt (v : Int) (hv : 0 ≤ v) :
    valueOf (putInt v) = some v ∧ putInt v ≠ [] ∧ ∀ c ∈ putInt v, isSpace c = false := by
  have e : putInt v = putNatAux (v.natAbs + 1) v.natAbs [] := by
    unfold putInt
    rw [if_neg (by omega)]
  obtain ⟨d, cs, hd, hcs⟩ := putNatAux_head (v.natAbs + 1) v.natAbs [] (Nat.lt_succ_self _)
  have hval := digitsValue_putNatAux (v.natAbs + 1) v.natAbs [] (Nat.lt_succ_self _)
  rw [e]
  refine ⟨?_, ?_, putNatAux_plain _ _ [] (fun c hc => absurd hc (List.not_mem_nil _))⟩
  · rw [hcs] at hval ⊢
    unfold valueOf
    simp only
    rw [if_neg (digitChar_spec d hd).2.2.2.1, if_neg (digitChar_spec d hd).2.2.2.2, hval]
    show Option.map (fun n : Nat => (n : Int)) (some v.natAbs) = some v
    rw [Option.map_some']
    congr 1
    omega
  · rw [hcs]
    exact List.cons_ne_nil _ _

/-! ### Tokens -/

theorem tokeniseAux_plain : ∀ (w rest cur : List Char), (∀ c ∈ w, isSpace c = false) →
    tokeniseAux (w ++ rest) cur = tokeniseAux rest (cur ++ w)
  | [], rest, cur, _ => by simp
  | c :: w, rest, cur, h => by
    have hc : isSpace c = false := h c (List.mem_cons_self _ _)
    rw [List.cons_append, tokeniseAux, hc]
    simp only [Bool.false_eq_true, if_false]
    rw [tokeniseAux_plain w rest (cur ++ [c]) (fun x hx => h x (List.mem_cons_of_mem _ hx))]
    simp

theorem basicTokenise_joinTokens : ∀ ws : List (List Char),
    (∀ w ∈ ws, w ≠ [] ∧ ∀ c ∈ w, isSpace c = false) → basicTokenise (joinTokens ws) = ws
  | [], _ => rfl
  | [w], h => by
    have hw := h w (List.mem_singleton_self _)
    have := tokeniseAux_plain w [] [] hw.2
    rw [List.append_nil, List.nil_append] at this
    show tokeniseAux w [] = [w]
    rw [this, tokeniseAux, if_neg hw.1]
  | w :: w2 :: ws, h => by
    have hw := h w (List.mem_cons_self _ _)
    have ih := basicTokenise_joinTokens (w2 :: ws) (fun x hx => h x (List.mem_cons_of_mem _ hx))
    show tokeniseAux (w ++ ' ' :: joinTokens (w2 :: ws)) [] = _
    rw [tokeniseAux_plain w _ [] hw.2, List.nil_append, tokeniseAux]
    have hsp : isSpace ' ' = true := by decide
    rw [hsp]
    simp only [if_true]
    rw [if_neg hw.1]
    exact congrArg _ ih

theorem joinTokens_append_pair : ∀ (ws : List (List Char)) (a b : List Char),
    joinTokens (ws ++ [a, b]) =
      (if ws = [] then [] else joinTokens ws ++ [' ']) ++ a ++ ' ' :: b
  | [], a, b => by simp [joinTokens]
  | [w], a, b => by simp [joinTokens]
  | w :: w2 :: ws, a, b => by
    have ih := joinTokens_append_pair (w2 :: ws) a b
    rw [if_neg (List.cons_ne_nil _ _)] at ih
    rw [if_neg (List.cons_ne_nil _ _)]
    show w ++ ' ' :: joinTokens ((w2 :: ws) ++ [a, b]) = _
    rw [ih]
    simp [joinTokens]

theorem pairTokens_succ (p : NFacePairing) (m : Nat) :
    pairTokens p (m + 1) =
      pairTokens p m ++ [putInt (p.pairs m).tet, putInt (p.pairs m).face] := by
  unfold pairTokens
  rw [List.range_succ, List.flatMap_append]
  simp

theorem pairTokens_length (p : NFacePairing) : ∀ m, (pairTokens p m).length = 2 * m
  | 0 => rfl
  | m + 1 => by
    rw [pairTokens_succ, List.length_append, pairTokens_length p m]
    simp
    omega

theorem pairTokens_entry (p : NFacePairing) : ∀ m i, i < m →
    (pairTokens p m)[2 * i]? = some (putInt (p.pairs i).tet) ∧
      (pairTokens p m)[2 * i + 1]? = some (putInt (p.pairs i).face)
  | 0, _, h => absurd h (Nat.not_lt_zero _)
  | m + 1, i, h => by
    rw [pairTokens_succ]
    have hl := pairTokens_length p m
    by_cases hi : i < m
    · have ih := pairTokens_entry p m i hi
      rw [List.getElem?_append_left (by omega), List.getElem?_append_left (by omega)]
      exact ih
    · have e : i = m := by omega
      subst e
      rw [List.getElem?_append_right (by omega), List.getElem?_append_right (by omega)]
      have e0 : 2 * i - (pairTokens p i).length = 0 := by omega
      have e1 : 2 * i + 1 - (pairTokens p i).length = 1 := by omega
      rw [e0, e1]
      exact ⟨rfl, rfl⟩

theorem pairTokens_tokens (p : NFacePairing) (m : Nat)
    (h : ∀ i, i < m → 0 ≤ (p.pairs i).tet ∧ 0 ≤ (p.pairs i).face) :
    ∀ w ∈ pairTokens p m, w ≠ [] ∧ ∀ c ∈ w, isSpace c = false := by
  intro w hw
  unfold pairTokens at hw
  rw [List.mem_flatMap] at hw
  obtain ⟨i, hi, hwi⟩ := hw
  have hb := h i (List.mem_range.mp hi)
  simp only [List.mem_cons, List.mem_singleton, List.not_mem_nil, or_false] at hwi
  rcases hwi with rfl | rfl
  · exact (valueOf_putInt _ hb.1).2
  · exact (valueOf_putInt _ hb.2).2

theorem destOf_face (p : NFacePairing) (i : Nat) :
    p.destOf ⟨((i / 4 : Nat) : Int), ((i % 4 : Nat) : Int)⟩ = p.pairs i := by
  unfold NFacePairing.destOf
  simp only [Int.toNat_ofNat]
  congr 1
  omega

/-- The text that `toTextRep` writes is the string of its tokens with one
blank between two of them. -/
theorem toTextRep_eq (p : NFacePairing) :
    p.toTextRep = joinTokens (pairTokens p (4 * p.nTetrahedra)) := by
  unfold NFacePairing.toTextRep allFaces
  rw [List.foldl_map]
  generalize 4 * p.nTetrahedra = m
  induction m with
  | zero => rfl
  | succ m ih =>
    rw [List.range_succ, List.foldl_append, ih, pairTokens_succ, joinTokens_append_pair]
    simp only [List.foldl_cons, List.foldl_nil, toTextRepStep, destOf_face]
    have hl := pairTokens_length p m
    by_cases hm : m = 0
    · subst hm
      simp [pairTokens, joinTokens]
    · have hne : pairTokens p m ≠ [] := by
        intro e
        rw [e] at hl
        simp at hl
        omega
      have hc : ((m / 4 : Nat) : Int) ≠ 0 ∨ ((m % 4 : Nat) : Int) ≠ 0 := by omega
      rw [if_pos hc, if_neg hne]
      simp

/-! ### Reading the text of a face pairing -/

/-- In a well formed face pairing every entry of `pairs` is in the ranges that
`fromTextRep` checks. -/
theorem wellFormed_ranges (p : NFacePairing) (hwf : p.WellFormed) (i : Nat)
    (hi : i < 4 * p.nTetrahedra) :
    0 ≤ (p.pairs i).tet ∧ (p.pairs i).tet ≤ p.nTetrahedra ∧
      0 ≤ (p.pairs i).face ∧ (p.pairs i).face < 4 := by
  have e : p.dest (i / 4) (i % 4) = p.pairs i := by
    unfold NFacePairing.dest
    congr 1
    omega
  have h := hwf (i / 4) (by omega) (i % 4) (Nat.mod_lt _ (by decide))
  rw [e] at h
  rcases h with h | h
  · rw [h]
    simp
  · omega

theorem readPair_pairTokens (p : NFacePairing) (m n i : Nat) (hi : i < m)
    (hr : 0 ≤ (p.pairs i).tet ∧ (p.pairs i).tet ≤ n ∧
      0 ≤ (p.pairs i).face ∧ (p.pairs i).face < 4) :
    readPair (pairTokens p m) n i = some (p.pairs i) := by
  have ht := pairTokens_entry p m i hi
  unfold readPair
  simp only [ht.1, ht.2, (valueOf_putInt _ hr.1).1, (valueOf_putInt _ hr.2.2.1).1,
    Option.bind_eq_bind, Option.some_bind, Option.pure_def]
  rw [if_neg (by omega), if_neg (by omega)]

theorem readPairs_pairTokens (p : NFacePairing) (m n : Nat)
    (hr : ∀ i, i < m → 0 ≤ (p.pairs i).tet ∧ (p.pairs i).tet ≤ n ∧
      0 ≤ (p.pairs i).face ∧ (p.pairs i).face < 4) :
    ∀ l : List Nat, (∀ i ∈ l, i < m) →
      readPairs (pairTokens p m) n l = some (l.map p.pairs)
  | [], _ => rfl
  | i :: t, h => by
    have hi := h i (List.mem_cons_self _ _)
    unfold readPairs
    rw [readPair_pairTokens p m n i hi (hr i hi),
      readPairs_pairTokens p m n hr t (fun x hx => h x (List.mem_cons_of_mem _ hx))]
    rfl

theorem ofList_pairs (n m : Nat) (f : Nat → NTetFace) (i : Nat) (hi : i < m) :
    (NFacePairing.ofList n ((List.range m).map f)).pairs i = f i := by
  unfold NFacePairing.ofList
  simp [List.getD, hi]

/-! ### Reading the memory of the tetrahedra after an assignment -/

theorem setAdjacent_tetrahedra (h : TetHeap) (t f : Nat) (y : Option Nat) (x k : Nat) :
    ((h.setAdjacent t f y) x).tetrahedra k =
      if x = t ∧ k = f then y else (h x).tetrahedra k := by
  unfold TetHeap.setAdjacent
  by_cases hx : x = t
  · by_cases hk : k = f <;> simp [hx, hk]
  · simp [hx]

theorem setAdjacent_perm (h : TetHeap) (t f : Nat) (y : Option Nat) (x k : Nat) :
    ((h.setAdjacent t f y) x).tetrahedronPerm k = (h x).tetrahedronPerm k := by
  unfold TetHeap.setAdjacent
  by_cases hx : x = t <;> simp [hx]

theorem setPerm_tetrahedra (h : TetHeap) (t f : Nat) (g : NPerm4) (x k : Nat) :
    ((h.setPerm t f g) x).tetrahedra k = (h x).tetrahedra k := by
  unfold TetHeap.setPerm
  by_cases hx : x = t <;> simp [hx]

theorem setPerm_perm (h : TetHeap) (t f : Nat) (g : NPerm4) (x k : Nat) :
    ((h.setPerm t f g) x).tetrahedronPerm k =
      if x = t ∧ k = f then g else (h x).tetrahedronPerm k := by
  unfold TetHeap.setPerm
  by_cases hx : x = t
  · by_cases hk : k = f <;> simp [hx, hk]
  · simp [hx]

theorem addTetrahedron_tetrahedra (h : TetHeap) (tri : Option Nat) (t x : Nat) :
    ((h.addTetrahedron tri t) x).tetrahedra = (h x).tetrahedra := by
  unfold TetHeap.addTetrahedron
  by_cases hx : x = t <;> simp [hx]

theorem addTetrahedron_perm (h : TetHeap) (tri : Option Nat) (t x : Nat) :
    ((h.addTetrahedron tri t) x).tetrahedronPerm = (h x).tetrahedronPerm := by
  unfold TetHeap.addTetrahedron
  by_cases hx : x = t <;> simp [hx]

theorem addTetrahedron_tri (h : TetHeap) (tri : Option Nat) (t x : Nat) :
    ((h.addTetrahedron tri t) x).tri = if x = t then tri else (h x).tri := by
  unfold TetHeap.addTetrahedron
  by_cases hx : x = t <;> simp [hx]

/-- The step of `joinTo` that puts the two tetrahedra into one triangulation:
it changes no gluing, and afterwards the two triangulations are equal under
the asserted precondition. -/
theorem joinTo_triangulation (h : TetHeap) (a b : Nat)
    (h2 : (h a).tri = (h b).tri ∨ (h a).tri = none ∨ (h b).tri = none) :
    ∃ s : TetHeap,
      (if (h a).tri ≠ none ∧ (h b).tri = none then h.addTetrahedron (h a).tri b
        else if (h b).tri ≠ none ∧ (h a).tri = none then h.addTetrahedron (h b).tri a
        else h) = s ∧
      (s a).tri = (s b).tri ∧
      ∀ x, (s x).tetrahedra = (h x).tetrahedra ∧ (s x).tetrahedronPerm = (h x).tetrahedronPerm := by
  refine ⟨_, rfl, ?_, ?_⟩
  · split_ifs with c1 c2
    · rw [addTetrahedron_tri, addTetrahedron_tri]
      by_cases hab : a = b
      · simp [hab]
      · simp [hab]
    · rw [addTetrahedron_tri, addTetrahedron_tri]
      by_cases hab : b = a
      · simp [hab]
      · simp [hab]
    · rcases h2 with e | e | e
      · exact e
      · rw [e]
        by_cases hb : (h b).tri = none
        · exact hb.symm
        · exact absurd ⟨hb, e⟩ c2
      · rw [e]
        by_cases ha : (h a).tri = none
        · exact ha
        · exact absurd ⟨ha, e⟩ c1
  · intro x
    split_ifs
    · exact ⟨addTetrahedron_tetrahedra _ _ _ _, addTetrahedron_perm _ _ _ _⟩
    · exact ⟨addTetrahedron_tetrahedra _ _ _ _, addTetrahedron_perm _ _ _ _⟩
    · exact ⟨rfl, rfl⟩

/-! ### The order of the automorphisms -/

theorem isoLtLoop_trans : ∀ (a b c : List (Nat × Nat)), a.length = b.length →
    b.length = c.length → isoLtLoop a b = true → isoLtLoop b c = true → isoLtLoop a c = true
  | [], _, _, _, _, hab, _ => by simp [isoLtLoop] at hab
  | _ :: _, [], _, _, _, hab, _ => by simp [isoLtLoop] at hab
  | _ :: _, _ :: _, [], _, _, _, hbc => by simp [isoLtLoop] at hbc
  | x :: xs, y :: ys, z :: zs, h1, h2, hab, hbc => by
    have l1 : xs.length = ys.length := by simpa using h1
    have l2 : ys.length = zs.length := by simpa using h2
    simp only [isoLtLoop] at hab hbc ⊢
    by_cases a1 : x.1 < y.1
    · by_cases b1 : y.1 < z.1
      · rw [if_pos (by omega)]
      · by_cases b2 : y.1 > z.1
        · simp [b1, b2] at hbc
        · have e : y.1 = z.1 := by omega
          rw [if_pos (by omega)]
    · by_cases a2 : x.1 > y.1
      · simp [a1, a2] at hab
      · have e1 : x.1 = y.1 := by omega
        by_cases b1 : y.1 < z.1
        · rw [if_pos (by omega)]
        · by_cases b2 : y.1 > z.1
          · simp [b1, b2] at hbc
          · have e2 : y.1 = z.1 := by omega
            have c1 : ¬ x.1 < z.1 := by omega
            have c2 : ¬ x.1 > z.1 := by omega
            simp only [a1, a2, b1, b2, c1, c2, if_false] at hab hbc ⊢
            by_cases a3 : x.2 < y.2
            · by_cases b3 : y.2 < z.2
              · rw [if_pos (by omega)]
              · by_cases b4 : y.2 > z.2
                · simp [b3, b4] at hbc
                · rw [if_pos (by omega)]
            · by_cases a4 : x.2 > y.2
              · simp [a3, a4] at hab
              · by_cases b3 : y.2 < z.2
                · rw [if_pos (by omega)]
                · by_cases b4 : y.2 > z.2
                  · simp [b3, b4] at hbc
                  · have c3 : ¬ x.2 < z.2 := by omega
                    have c4 : ¬ x.2 > z.2 := by omega
                    simp only [a3, a4, b3, b4, c3, c4, if_false] at hab hbc ⊢
                    exact isoLtLoop_trans xs ys zs l1 l2 hab hbc

theorem isoStruct_lt_trans (a b c : isoStruct) (hab : a.lt b = true) (hbc : b.lt c = true) :
    a.lt c = true := by
  unfold isoStruct.lt at hab hbc ⊢
  by_cases a1 : a.germ.length < b.germ.length
  · by_cases b1 : b.germ.length < c.germ.length
    · rw [if_pos (by omega)]
    · by_cases b2 : b.germ.length > c.germ.length
      · simp [b1, b2] at hbc
      · rw [if_pos (by omega)]
  · by_cases a2 : a.germ.length > b.germ.length
    · simp [a1, a2] at hab
    · by_cases b1 : b.germ.length < c.germ.length
      · rw [if_pos (by omega)]
      · by_cases b2 : b.germ.length > c.germ.length
        · simp [b1, b2] at hbc
        · have c1 : ¬ a.germ.length < c.germ.length := by omega
          have c2 : ¬ a.germ.length > c.germ.length := by omega
          simp only [a1, a2, b1, b2, c1, c2, if_false] at hab hbc ⊢
          exact isoLtLoop_trans _ _ _ (by omega) (by omega) hab hbc

theorem isoStruct_lt_asymm (a b : isoStruct) (hab : a.lt b = true) : b.lt a = false := by
  cases h : b.lt a with
  | false => rfl
  | true =>
    have := isoStruct_lt_trans a b a hab h
    rw [isoStruct.lt_irrefl] at this
    cases this

/-- On a sorted vector no element from the position that `lower_bound` gives
onwards is less than the value. -/
theorem lowerBound_drop : ∀ (v : List isoStruct) (x : isoStruct),
    v.Pairwise (fun a b => b.lt a = false) → ∀ e ∈ v.drop (lowerBound v x), e.lt x = false
  | [], _, _ => by simp
  | a :: t, x, hs => by
    have hs2 := List.pairwise_cons.mp hs
    by_cases hlt : a.lt x = true
    · have e : lowerBound (a :: t) x = lowerBound t x + 1 := by
        simp [lowerBound, List.takeWhile_cons, hlt]
      rw [e]
      exact lowerBound_drop t x hs2.2
    · have hf : a.lt x = false := by simpa using hlt
      have e : lowerBound (a :: t) x = 0 := by
        simp [lowerBound, List.takeWhile_cons, hf]
      rw [e]
      intro y hy
      rcases List.mem_cons.mp hy with rfl | hy
      · exact hf
      · cases hyx : y.lt x with
        | false => rfl
        | true =>
          have hya : y.lt a = false := hs2.1 y hy
          cases hay : a.lt y with
          | true =>
            rw [isoStruct_lt_trans a y x hay hyx] at hf
            cases hf
          | false =>
            rw [isoStruct.lt_trichotomy a y hay hya, hyx] at hf
            cases hf

theorem take_length_takeWhile {α : Type} (p : α → Bool) :
    ∀ l : List α, l.take (l.takeWhile p).length = l.takeWhile p
  | [] => rfl
  | a :: t => by
    by_cases h : p a = true
    · simp [List.takeWhile_cons, h, take_length_takeWhile p t]
    · simp [List.takeWhile_cons, h]

theorem lowerBound_take (v : List isoStruct) (x : isoStruct) :
    ∀ e ∈ v.take (lowerBound v x), e.lt x = true := by
  intro e he
  unfold lowerBound at he
  rw [take_length_takeWhile] at he
  exact @List.mem_takeWhile_imp _ (fun y => y.lt x) v e he

/-! ### The order of the classes and of the linear facets -/

theorem centroidLtLoop_irrefl : ∀ a : List Nat, centroidLtLoop a a = false
  | [] => rfl
  | x :: xs => by simp [centroidLtLoop, centroidLtLoop_irrefl xs]

theorem centroidLtLoop_trichotomy : ∀ a b : List Nat,
    centroidLtLoop a b = false → centroidLtLoop b a = false → a = b
  | [], [], _, _ => rfl
  | [], _ :: _, hab, _ => by simp [centroidLtLoop] at hab
  | _ :: _, [], _, hba => by simp [centroidLtLoop] at hba
  | x :: xs, y :: ys, hab, hba => by
    simp only [centroidLtLoop] at hab hba
    by_cases h1 : x < y
    · simp [h1] at hab
    by_cases h2 : y < x
    · simp [h2] at hba
    have e : x = y := by omega
    simp only [h1, h2, gt_iff_lt, if_false] at hab hba
    rw [e, centroidLtLoop_trichotomy xs ys hab hba]

theorem centroidLtLoop_trans : ∀ a b c : List Nat,
    centroidLtLoop a b = true → centroidLtLoop b c = true → centroidLtLoop a c = true
  | _, [], _, hab, _ => by
    cases ‹List Nat› <;> simp [centroidLtLoop] at hab
  | _, _ :: _, [], _, hbc => by simp [centroidLtLoop] at hbc
  | [], _ :: _, _ :: _, _, _ => by simp [centroidLtLoop]
  | x :: xs, y :: ys, z :: zs, hab, hbc => by
    simp only [centroidLtLoop] at hab hbc ⊢
    by_cases a1 : x < y
    · by_cases b1 : y < z
      · rw [if_pos (by omega)]
      · by_cases b2 : y > z
        · simp [b1, b2] at hbc
        · rw [if_pos (by omega)]
    · by_cases a2 : x > y
      · simp [a1, a2] at hab
      · by_cases b1 : y < z
        · rw [if_pos (by omega)]
        · by_cases b2 : y > z
          · simp [b1, b2] at hbc
          · have c1 : ¬ x < z := by omega
            have c2 : ¬ x > z := by omega
            simp only [a1, a2, b1, b2, c1, c2, if_false] at hab hbc ⊢
            exact centroidLtLoop_trans xs ys zs hab hbc

theorem centroid_lt_irrefl (a : centroid) : a.lt a = false := centroidLtLoop_irrefl _

theorem centroid_lt_trichotomy (a b : centroid) (hab : a.lt b = false) (hba : b.lt a = false) :
    a = b := by
  have := centroidLtLoop_trichotomy a.points b.points hab hba
  cases a
  cases b
  simp_all

theorem centroid_lt_trans (a b c : centroid) (hab : a.lt b = true) (hbc : b.lt c = true) :
    a.lt c = true := centroidLtLoop_trans _ _ _ hab hbc

theorem centroid_lt_asymm (a b : centroid) (hab : a.lt b = true) : b.lt a = false := by
  cases h : b.lt a with
  | false => rfl
  | true =>
    have := centroid_lt_trans a b a hab h
    rw [centroid_lt_irrefl] at this
    cases this

theorem facetLtLoop_irrefl : ∀ a : List centroid, facetLtLoop a a = false
  | [] => rfl
  | x :: xs => by simp [facetLtLoop, centroid_lt_irrefl, facetLtLoop_irrefl xs]

theorem facetLtLoop_trans : ∀ a b c : List centroid,
    facetLtLoop a b = true → facetLtLoop b c = true → facetLtLoop a c = true
  | [], _, _, hab, _ => by simp [facetLtLoop] at hab
  | _ :: _, [], _, hab, _ => by simp [facetLtLoop] at hab
  | _ :: _, _ :: _, [], _, hbc => by simp [facetLtLoop] at hbc
  | x :: xs, y :: ys, z :: zs, hab, hbc => by
    simp only [facetLtLoop] at hab hbc ⊢
    cases a1 : x.lt y with
    | true =>
      cases b1 : y.lt z with
      | true => simp [centroid_lt_trans x y z a1 b1]
      | false =>
        cases b2 : z.lt y with
        | true => simp [b1, b2] at hbc
        | false =>
          have e := centroid_lt_trichotomy y z b1 b2
          subst e
          simp [a1]
    | false =>
      cases a2 : y.lt x with
      | true => simp [a1, a2] at hab
      | false =>
        have e := centroid_lt_trichotomy x y a1 a2
        subst e
        cases b1 : x.lt z with
        | true => simp
        | false =>
          cases b2 : z.lt x with
          | true => simp [b1, b2] at hbc
          | false =>
            simp only [a1, b1, b2, if_false, Bool.false_eq_true] at hab hbc ⊢
            exact facetLtLoop_trans xs ys zs hab hbc

theorem facetLtLoop_trichotomy : ∀ a b : List centroid, a.length = b.length →
    facetLtLoop a b = false → facetLtLoop b a = false → a = b
  | [], [], _, _, _ => rfl
  | [], _ :: _, h, _, _ => by simp at h
  | _ :: _, [], h, _, _ => by simp at h
  | x :: xs, y :: ys, h, hab, hba => by
    simp only [facetLtLoop] at hab hba
    have hl : xs.length = ys.length := by simpa using h
    cases a1 : x.lt y with
    | true => simp [a1] at hab
    | false =>
      cases a2 : y.lt x with
      | true => simp [a2] at hba
      | false =>
        simp only [a1, a2, if_false, Bool.false_eq_true] at hab hba
        rw [centroid_lt_trichotomy x y a1 a2, facetLtLoop_trichotomy xs ys hl hab hba]

theorem linearFacet_lt_irrefl (a : linearFacet) : a.lt a = false := by
  simp [linearFacet.lt, facetLtLoop_irrefl]

theorem linearFacet_lt_trans (a b c : linearFacet) (hab : a.lt b = true)
    (hbc : b.lt c = true) : a.lt c = true := by
  unfold linearFacet.lt at hab hbc ⊢
  by_cases a1 : a.dim < b.dim
  · by_cases b1 : b.dim < c.dim
    · rw [if_pos (by omega)]
    · by_cases b2 : b.dim > c.dim
      · simp [b1, b2] at hbc
      · rw [if_pos (by omega)]
  by_cases a2 : a.dim > b.dim
  · simp [a1, a2] at hab
  by_cases b1 : b.dim < c.dim
  · rw [if_pos (by omega)]
  by_cases b2 : b.dim > c.dim
  · simp [b1, b2] at hbc
  have c1 : ¬ a.dim < c.dim := by omega
  have c2 : ¬ a.dim > c.dim := by omega
  simp only [a1, a2, b1, b2, c1, c2, if_false] at hab hbc ⊢
  by_cases a3 : a.sdim < b.sdim
  · by_cases b3 : b.sdim < c.sdim
    · rw [if_pos (by omega)]
    · by_cases b4 : b.sdim > c.sdim
      · simp [b3, b4] at hbc
      · rw [if_pos (by omega)]
  by_cases a4 : a.sdim > b.sdim
  · simp [a3, a4] at hab
  by_cases b3 : b.sdim < c.sdim
  · rw [if_pos (by omega)]
  by_cases b4 : b.sdim > c.sdim
  · simp [b3, b4] at hbc
  have c3 : ¬ a.sdim < c.sdim := by omega
  have c4 : ¬ a.sdim > c.sdim := by omega
  simp only [a3, a4, b3, b4, c3, c4, if_false] at hab hbc ⊢
  by_cases a5 : a.sindx < b.sindx
  · by_cases b5 : b.sindx < c.sindx
    · rw [if_pos (by omega)]
    · by_cases b6 : b.sindx > c.sindx
      · simp [b5, b6] at hbc
      · rw [if_pos (by omega)]
  by_cases a6 : a.sindx > b.sindx
  · simp [a5, a6] at hab
  by_cases b5 : b.sindx < c.sindx
  · rw [if_pos (by omega)]
  by_cases b6 : b.sindx > c.sindx
  · simp [b5, b6] at hbc
  have c5 : ¬ a.sindx < c.sindx := by omega
  have c6 : ¬ a.sindx > c.sindx := by omega
  simp only [a5, a6, b5, b6, c5, c6, if_false] at hab hbc ⊢
  exact facetLtLoop_trans _ _ _ hab hbc

/-- Two facets with the same number of classes of which neither is less than
the other are equal. -/
theorem linearFacet_lt_trichotomy (a b : linearFacet)
    (hl : a.vCentres.length = b.vCentres.length) (hab : a.lt b = false)
    (hba : b.lt a = false) : a = b := by
  unfold linearFacet.lt at hab hba
  by_cases a1 : a.dim < b.dim
  · simp [a1] at hab
  by_cases a2 : b.dim < a.dim
  · simp [a2] at hba
  simp only [a1, a2, gt_iff_lt, if_false] at hab hba
  by_cases a3 : a.sdim < b.sdim
  · simp [a3] at hab
  by_cases a4 : b.sdim < a.sdim
  · simp [a4] at hba
  simp only [a3, a4, gt_iff_lt, if_false] at hab hba
  by_cases a5 : a.sindx < b.sindx
  · simp [a5] at hab
  by_cases a6 : b.sindx < a.sindx
  · simp [a6] at hba
  simp only [a5, a6, gt_iff_lt, if_false] at hab hba
  have hv := facetLtLoop_trichotomy _ _ hl hab hba
  cases a
  cases b
  simp only [linearFacet.mk.injEq]
  simp only at a1 a2 a3 a4 a5 a6 hv
  exact ⟨by omega, by omega, by omega, hv⟩

theorem facetLtLoop_initial : ∀ l r : List centroid,
    facetLtLoop l (l ++ r) = false ∧ facetLtLoop (l ++ r) l = false
  | [], r => ⟨by cases r <;> rfl, by cases r <;> rfl⟩
  | x :: xs, r => by
    have ih := facetLtLoop_initial xs r
    simp [facetLtLoop, centroid_lt_irrefl, ih.1, ih.2]

set_option maxRecDepth 100000 in
/-- The facets of the tetrahedron with index 0, for the 24 permutations:
`isValid` accepts the facet of every permutation but the identity. -/
theorem tetrahedronFacet_zero_valid :
    ∀ a ∈ List.range 4, ∀ b ∈ List.range 4, ∀ c ∈ List.range 4, ∀ d ∈ List.range 4,
      [a, b, c, d].Nodup →
      (tetrahedronFacet 0 ⟨[a, b, c, d]⟩).map linearFacet.isValid =
        some (decide ([a, b, c, d] ≠ [0, 1, 2, 3])) := by
  decide

theorem isValid_sindx (F : linearFacet) (k : Nat) :
    linearFacet.isValid { F with sindx := k } = F.isValid := rfl


/-! ## The claims -/

/-- C1: a request that is not in the hom cache and whose domain or range
dimension exceeds the ambient dimension, or whose range coefficient is not zero
and does not divide the domain coefficient, returns `NULL`, and the caches are
left as they are. -/
theorem homGroup_rejects (D : NCellularData) (h : HomLocator) (c : Caches)
    (hc : mapFind c.homMarkedAbelianGroups h = none)
    (hbad : h.domain.dim > D.aDim ∨ h.range.dim > D.aDim ∨
      (h.range.cof ≠ 0 ∧ h.domain.cof % h.range.cof ≠ 0)) :
    homGroup D h c = .ok none c := by
  unfold homGroup
  simp only [hc]
  rcases hbad with h1 | h1 | h1
  · simp [h1]
  · simp [h1]
  · by_cases h2 : h.domain.dim > D.aDim ∨ h.range.dim > D.aDim
    · simp [h2]
    · simp [h2, h1]

/-- Witness for `homGroup_rejects`: the request with `domain.cof = 4` and
`range.cof = 3` returns `NULL`. -/
theorem homGroup_rejects_witness :
    ((demoGroup STD_coord 3).cof ≠ 0 ∧
      (demoGroup STD_coord 4).cof % (demoGroup STD_coord 3).cof ≠ 0) ∧
    homGroup (demoData true) ⟨demoGroup STD_coord 4, demoGroup STD_coord 3⟩ Caches.empty =
      .ok none Caches.empty :=
  ⟨by decide,
    homGroup_rejects (demoData true) ⟨demoGroup STD_coord 4, demoGroup STD_coord 3⟩
      Caches.empty (by decide) (by decide)⟩

/-- C3: caching is idempotent for the group resolvers.  Whenever
`unmarkedGroup` (respectively `markedGroup`) returns for a locator, it returns
a group which is then the entry of the locator in the cache, and a second call
with a locator built afresh from the same field values returns that same group
and leaves the caches unchanged.  The first call does return whenever the chain
complex of the coordinate system has the two boundary matrices. -/
theorem group_caching_idempotent (D : NCellularData) (g : GroupLocator) (c : Caches) :
    (∀ r c1, unmarkedGroup D g c = .ok r c1 →
      (∃ G, r = some G ∧ mapFind c1.abelianGroups g = some G) ∧
      unmarkedGroup D ⟨g.dim, g.var, g.hcs, g.cof⟩ c1 = .ok r c1) ∧
    (∀ r c1, markedGroup D g c = .ok r c1 →
      (∃ G, r = some G ∧ mapFind c1.markedAbelianGroups g = some G) ∧
      markedGroup D ⟨g.dim, g.var, g.hcs, g.cof⟩ c1 = .ok r c1) ∧
    (∀ A B, chainPair D g.hcs g.dim = some (A, B) →
      (∃ r c1, unmarkedGroup D g c = .ok r c1) ∧ (∃ r c1, markedGroup D g c = .ok r c1)) := by
  refine ⟨?_, ?_, ?_⟩
  · intro r c1 h
    obtain ⟨G, rfl, hG, _⟩ := unmarkedGroup_shape D g c c1 r h
    exact ⟨⟨G, rfl, hG⟩, unmarkedGroup_cached D g c1 G hG⟩
  · intro r c1 h
    obtain ⟨G, rfl, hG, _⟩ := markedGroup_shape D g c c1 r h
    exact ⟨⟨G, rfl, hG⟩, markedGroup_cached D g c1 G hG⟩
  · intro A B h
    exact ⟨⟨_, _, unmarkedGroup_eval D g c A B h⟩, ⟨_, _, markedGroup_eval D g c A B h⟩⟩

/-- Witness for `group_caching_idempotent`: on the demonstration data the
first call on fresh caches returns and the second call returns the same group
with the same caches. -/
theorem group_caching_idempotent_witness :
    ∃ r c1, markedGroup (demoData true) (demoGroup DUAL_coord 0) Caches.empty = .ok r c1 ∧
      markedGroup (demoData true) ⟨1, coVariant, DUAL_coord, 0⟩ c1 = .ok r c1 := by
  obtain ⟨r, c1, h⟩ :=
    ((group_caching_idempotent (demoData true) (demoGroup DUAL_coord 0) Caches.empty).2.2
      _ _ rfl).2
  exact ⟨r, c1, h,
    ((group_caching_idempotent (demoData true) (demoGroup DUAL_coord 0) Caches.empty).2.1
      r c1 h).2⟩

/-- C4: cache monotonicity.  Whenever `unmarkedGroup`, `markedGroup`,
`homGroup` or `bilinearForm` returns, every entry that was in one of the four
caches before the call is in that cache afterwards, bound to the same object,
and if each cache held at most one entry per locator before the call then so
it does afterwards; the caches of a fresh object hold no entry, so that in
every state that the caches can be in each cache holds at most one entry per
locator. -/
theorem caches_monotone (D : NCellularData) (c c1 : Caches) :
    (∀ g r, unmarkedGroup D g c = .ok r c1 → c.Preserved c1 ∧ (c.Unique → c1.Unique)) ∧
    (∀ g r, markedGroup D g c = .ok r c1 → c.Preserved c1 ∧ (c.Unique → c1.Unique)) ∧
    (∀ h r, homGroup D h c = .ok r c1 → c.Preserved c1 ∧ (c.Unique → c1.Unique)) ∧
    (∀ f r, bilinearForm D f c = .ok r c1 → c.Preserved c1 ∧ (c.Unique → c1.Unique)) ∧
    Caches.empty.Unique ∧ (c.Reachable D → c.Unique) :=
  ⟨fun g r h => Eval.keeps_unmarkedGroup D g c r c1 h,
    fun g r h => Eval.keeps_markedGroup D g c r c1 h,
    fun h r hh => Eval.keeps_homGroup D h c r c1 hh,
    fun f r h => Eval.keeps_bilinearFormFuel 2 D f c r c1 h,
    Caches.unique_empty, fun hc => hc.unique⟩

/-- Witness for `caches_monotone`: a call of `homGroup` on the demonstration
data returns, and the entry that `markedGroup` had cached before is preserved. -/
theorem caches_monotone_witness :
    ∃ c r c1, Caches.empty.Preserved c ∧ c.Unique ∧
      homGroup (demoData true) ⟨demoGroup STD_coord 6, demoGroup STD_coord 3⟩ c = .ok r c1 ∧
      c.Preserved c1 ∧ c1.Unique := by
  obtain ⟨r0, c, h0⟩ : ∃ r c, markedGroup (demoData true) (demoGroup DUAL_coord 0)
      Caches.empty = .ok r c := ⟨_, _, markedGroup_eval _ _ _ _ _ rfl⟩
  have k0 := (caches_monotone (demoData true) Caches.empty c).2.1 _ r0 h0
  have u0 := k0.2 (caches_monotone (demoData true) Caches.empty c).2.2.2.2.1
  cases hh : homGroup (demoData true) ⟨demoGroup STD_coord 6, demoGroup STD_coord 3⟩ c with
  | ok r c1 =>
    have k1 := (caches_monotone (demoData true) c c1).2.2.1 _ r hh
    exact ⟨c, r, c1, k0.1, u0, hh, k1.1, k1.2 u0⟩
  | fault e =>
    exfalso
    obtain ⟨G, rfl, _, rfl⟩ := markedGroup_shape _ _ _ _ _ h0
    have hok : (homGroup (demoData true) ⟨demoGroup STD_coord 6, demoGroup STD_coord 3⟩
        { Caches.empty with
          markedAbelianGroups :=
            mapInsert Caches.empty.markedAbelianGroups (demoGroup DUAL_coord 0) G }).isOk
        = true := by
      have hG : markedGroup (demoData true) (demoGroup DUAL_coord 0) Caches.empty =
          .ok (some (builtMarked (demoGroup DUAL_coord 0) _ _)) _ :=
        markedGroup_eval _ _ _ _ _ rfl
      rw [hG] at h0
      simp only [Outcome.ok.injEq, Option.some.injEq] at h0
      rw [← h0.1]
      decide
    rw [hh] at hok
    cases hok

/-- C5: in every state that the caches can be in, for a locator in a supported
coordinate system with chain complex `CC`, `unmarkedGroup` and `markedGroup`
return the group built from `(CC[dim], CC[dim + 1])` if the locator is
covariant and from the transposes `(transpose(CC[dim + 1]),
transpose(CC[dim]))` if it is contravariant; the coefficient modulus is passed
on exactly when it is not zero; both resolvers use the same matrix pair, and
the group is the entry of the locator afterwards. -/
theorem group_matrix_pair (D : NCellularData) (g : GroupLocator) (c : Caches)
    (CC : List NMatrixInt) (A B : NMatrixInt) (hreach : c.Reachable D)
    (hCC : chainComplexOf D g.hcs = some CC) (hA : CC[g.dim]? = some A)
    (hB : CC[uadd g.dim 1]? = some B) :
    (g.var = coVariant → ∃ cu cm,
      unmarkedGroup D g c = .ok (some ⟨A, B, if g.cof = 0 then none else some g.cof⟩) cu ∧
      mapFind cu.abelianGroups g = some ⟨A, B, if g.cof = 0 then none else some g.cof⟩ ∧
      markedGroup D g c =
        .ok (some (.ofMatrices A B (if g.cof = 0 then none else some g.cof))) cm ∧
      mapFind cm.markedAbelianGroups g =
        some (.ofMatrices A B (if g.cof = 0 then none else some g.cof))) ∧
    (g.var = contraVariant → ∃ cu cm,
      unmarkedGroup D g c =
        .ok (some ⟨B.transposed, A.transposed, if g.cof = 0 then none else some g.cof⟩) cu ∧
      mapFind cu.abelianGroups g =
        some ⟨B.transposed, A.transposed, if g.cof = 0 then none else some g.cof⟩ ∧
      markedGroup D g c =
        .ok (some (.ofMatrices B.transposed A.transposed
          (if g.cof = 0 then none else some g.cof))) cm ∧
      mapFind cm.markedAbelianGroups g =
        some (.ofMatrices B.transposed A.transposed
          (if g.cof = 0 then none else some g.cof))) ∧
    IsTransposeOf A.transposed A ∧ IsTransposeOf B.transposed B := by
  have hp := chainPair_of_reads D g CC A B hCC hA hB
  obtain ⟨cu, eu, fu⟩ := unmarkedGroup_reachable D g c A B hreach hp
  obtain ⟨cm, em, fm⟩ := markedGroup_reachable D g c A B hreach hp
  refine ⟨fun hv => ⟨cu, cm, ?_, ?_, ?_, ?_⟩, fun hv => ⟨cu, cm, ?_, ?_, ?_, ?_⟩,
    isTransposeOf_transposed A, isTransposeOf_transposed B⟩
  · simpa [builtUnmarked, groupMatrices, cofArg, hv] using eu
  · simpa [builtUnmarked, groupMatrices, cofArg, hv] using fu
  · simpa [builtMarked, groupMatrices, cofArg, hv] using em
  · simpa [builtMarked, groupMatrices, cofArg, hv] using fm
  · simpa [builtUnmarked, groupMatrices, cofArg, hv] using eu
  · simpa [builtUnmarked, groupMatrices, cofArg, hv] using fu
  · simpa [builtMarked, groupMatrices, cofArg, hv] using em
  · simpa [builtMarked, groupMatrices, cofArg, hv] using fm

/-- Witness for `group_matrix_pair`: the second cohomology group mod 5 in
`STD_REL_BDRY` coordinates is built from the transposes, in the opposite order. -/
theorem group_matrix_pair_witness :
    ∃ cu, unmarkedGroup (demoData true) ⟨2, contraVariant, STD_REL_BDRY_coord, 5⟩
      Caches.empty = .ok (some ⟨demoD3.transposed, demoD2.transposed, some 5⟩) cu := by
  obtain ⟨cu, _, h, _⟩ := (group_matrix_pair (demoData true)
    ⟨2, contraVariant, STD_REL_BDRY_coord, 5⟩ Caches.empty demoCC demoD2 demoD3
    Caches.Reachable.fresh rfl rfl rfl).2.1 rfl
  exact ⟨cu, by simpa using h⟩

/-- C6, at the failing input: for a locator in `DUAL_BDRY` coordinates, one of
the four coordinate systems that the selection of the chain complex leaves out,
both group resolvers read the empty vector `CC` out of range, whatever the
object. -/
theorem group_resolvers_fault_on_DUAL_BDRY (D : NCellularData) :
    unmarkedGroup D ⟨0, coVariant, DUAL_BDRY_coord, 0⟩ Caches.empty = .fault .outOfRange ∧
    markedGroup D ⟨0, coVariant, DUAL_BDRY_coord, 0⟩ Caches.empty = .fault .outOfRange := by
  constructor <;> rfl

/-- C2: in every state that the caches can be in, a variance-preserving
request with equal dimensions within the ambient dimension, equal coordinate
systems (supported, with the chain complex at hand) and compatible coefficients
succeeds: `homGroup` returns the homomorphism from `markedGroup(domain)` to
`markedGroup(range)` whose chain matrix is the square identity matrix of size
`getRankCC()` of the domain group. -/
theorem homGroup_identity (D : NCellularData) (h : HomLocator) (c : Caches) (A B : NMatrixInt)
    (hreach : c.Reachable D)
    (hvar : h.domain.var = h.range.var) (hdim : h.domain.dim = h.range.dim)
    (hle : h.domain.dim ≤ D.aDim) (hhcs : h.domain.hcs = h.range.hcs)
    (hcof : h.range.cof = 0 ∨ h.domain.cof % h.range.cof = 0)
    (hd : chainPair D h.domain.hcs h.domain.dim = some (A, B)) :
    ∃ dom ran c1 c2 c3 CM, markedGroup D h.domain c = .ok (some dom) c1 ∧
      markedGroup D h.range c1 = .ok (some ran) c2 ∧
      homGroup D h c = .ok (some (.ofMatrix dom ran CM)) c3 ∧
      IsIdentityShaped CM dom.getRankCC dom.getRankCC := by
  obtain ⟨dom, c1, hdom, hCM⟩ := homGroup_chainMap_identity D h c A B hvar hdim hhcs hd
  have hr : chainPair D h.range.hcs h.range.dim = some (A, B) := by rw [← hhcs, ← hdim]; exact hd
  obtain ⟨dom1, ran, c2, c3, c4, h1, h2, h3⟩ := homGroup_resolved D h c c1 _ A B A B hreach
    ⟨hle, hdim ▸ hle⟩ hcof hCM hd hr
  have hfind := markedGroup_find D h.domain c c1 dom hdom
  have h1b := markedGroup_cached D h.domain c1 dom hfind
  rw [h1b] at h1
  simp only [Outcome.ok.injEq, Option.some.injEq] at h1
  obtain ⟨rfl, rfl⟩ := h1
  exact ⟨dom, ran, c1, c3, _, _, hdom, h2, h3, isIdentityShaped_makeIdentity _ _⟩

/-- Witness for `homGroup_identity`: the request with `domain.cof = 6` and
`range.cof = 3` succeeds. -/
theorem homGroup_identity_witness :
    (demoGroup STD_coord 6).cof % (demoGroup STD_coord 3).cof = 0 ∧
    ∃ f c3, homGroup (demoData true) ⟨demoGroup STD_coord 6, demoGroup STD_coord 3⟩
      Caches.empty = .ok (some f) c3 := by
  obtain ⟨dom, ran, _, _, c3, CM, _, _, h, _⟩ := homGroup_identity (demoData true)
    ⟨demoGroup STD_coord 6, demoGroup STD_coord 3⟩ Caches.empty _ _ Caches.Reachable.fresh
    rfl rfl (by decide) rfl (Or.inr (by decide)) rfl
  exact ⟨by decide, _, c3, h⟩

/-- C7: a variance-reversing request that is not cached and passes the
dimension and coefficient checks (the chain complexes of the `DUAL` and
`STD_REL_BDRY` coordinates being at hand in the dimensions of the request)
returns a homomorphism if and only if the domain is in `DUAL` coordinates, the
range in `STD_REL_BDRY` coordinates, the dimensions add up to the ambient
dimension, and the manifold is orientable or one of the two coefficients is 2;
in every other case it returns `NULL` and leaves the caches as they are. -/
theorem homGroup_reversing (D : NCellularData) (h : HomLocator) (c : Caches)
    (A B A1 B1 : NMatrixInt)
    (hc : mapFind c.homMarkedAbelianGroups h = none)
    (hvar : h.domain.var ≠ h.range.var)
    (hdim : h.domain.dim ≤ D.aDim ∧ h.range.dim ≤ D.aDim)
    (hcof : h.range.cof = 0 ∨ h.domain.cof % h.range.cof = 0)
    (hd : chainPair D DUAL_coord h.domain.dim = some (A, B))
    (hr : chainPair D STD_REL_BDRY_coord h.range.dim = some (A1, B1)) :
    ((∃ f c1, homGroup D h c = .ok (some f) c1) ↔
      (h.domain.hcs = DUAL_coord ∧ h.range.hcs = STD_REL_BDRY_coord ∧
        h.domain.dim + h.range.dim = D.aDim ∧
        (D.orientable = true ∨ h.domain.cof = 2 ∨ h.range.cof = 2))) ∧
    (¬(h.domain.hcs = DUAL_coord ∧ h.range.hcs = STD_REL_BDRY_coord ∧
        h.domain.dim + h.range.dim = D.aDim ∧
        (D.orientable = true ∨ h.domain.cof = 2 ∨ h.range.cof = 2)) →
      homGroup D h c = .ok none c) := by
  have ha := D.aDim_eq
  have e : uadd h.domain.dim h.range.dim = h.domain.dim + h.range.dim :=
    uadd_small _ _ (by omega) (by omega)
  have hcm := homGroup_chainMap_reversing D h c hvar
  rw [e] at hcm
  by_cases hp : h.domain.hcs = DUAL_coord ∧ h.range.hcs = STD_REL_BDRY_coord ∧
      h.domain.dim + h.range.dim = D.aDim ∧
      (D.orientable = true ∨ h.domain.cof = 2 ∨ h.range.cof = 2)
  · obtain ⟨p1, p2, p3, p4⟩ := hp
    rw [if_pos ⟨p4, p1, p2, p3⟩] at hcm
    obtain ⟨dom, ran, c2, c3, _, _, h3⟩ := homGroup_of_chainMap_some D h c c _ A B A1 B1 hc
      hdim hcof hcm (p1 ▸ hd) (p2 ▸ hr)
    exact ⟨⟨fun _ => ⟨p1, p2, p3, p4⟩, fun _ => ⟨_, _, h3⟩⟩, fun hn => absurd ⟨p1, p2, p3, p4⟩ hn⟩
  · have hq : ¬((D.orientable = true ∨ h.domain.cof = 2 ∨ h.range.cof = 2) ∧
        h.domain.hcs = DUAL_coord ∧ h.range.hcs = STD_REL_BDRY_coord ∧
        h.domain.dim + h.range.dim = D.aDim) := fun hh => hp ⟨hh.2.1, hh.2.2.1, hh.2.2.2, hh.1⟩
    rw [if_neg hq] at hcm
    have hn := homGroup_of_chainMap_none D h c c hc hdim hcof hcm
    refine ⟨⟨fun hex => ?_, fun hh => absurd hh hp⟩, fun _ => hn⟩
    obtain ⟨f, c1, hf⟩ := hex
    rw [hn] at hf
    simp at hf

/-- Witness for `homGroup_reversing`: on a non-orientable manifold the duality
request with coefficients mod 2 returns a homomorphism. -/
theorem homGroup_reversing_witness :
    ∃ f c1, homGroup (demoData false) demoDuality Caches.empty = .ok (some f) c1 :=
  (homGroup_reversing (demoData false) demoDuality Caches.empty _ _ _ _ rfl (by decide)
    (by decide) (Or.inr (by decide)) rfl rfl).1.2 (by decide)

/-- C8: in every state that the caches can be in, a Poincare duality request
`DUAL(d) -> STD_REL_BDRY(aDim - d)` (on an orientable manifold or with a
coefficient 2, the chain complexes of both ends at hand) is resolved with the
identity-shaped matrix with `numRelativeCells[aDim - d]` rows and
`numDualCells[d]` columns, to which `correctRelOrMat` is applied exactly when
the manifold is orientable; on a non-orientable manifold it is the
identity-shaped matrix itself. -/
theorem homGroup_duality_matrix (D : NCellularData) (h : HomLocator) (c : Caches)
    (A B A1 B1 : NMatrixInt)
    (hreach : c.Reachable D)
    (hvar : h.domain.var ≠ h.range.var)
    (hdh : h.domain.hcs = DUAL_coord) (hrh : h.range.hcs = STD_REL_BDRY_coord)
    (hsum : h.domain.dim + h.range.dim = D.aDim)
    (hor : D.orientable = true ∨ h.domain.cof = 2 ∨ h.range.cof = 2)
    (hcof : h.range.cof = 0 ∨ h.domain.cof % h.range.cof = 0)
    (hd : chainPair D DUAL_coord h.domain.dim = some (A, B))
    (hr : chainPair D STD_REL_BDRY_coord h.range.dim = some (A1, B1)) :
    ∃ dom ran c1 I,
      homGroup D h c = .ok (some (.ofMatrix dom ran
        (if D.orientable = true then D.correctRelOrMat I h.domain.dim else I))) c1 ∧
      IsIdentityShaped I (D.numRelativeCells (D.aDim - h.domain.dim))
        (D.numDualCells h.domain.dim) := by
  have ha := D.aDim_eq
  have hdim : h.domain.dim ≤ D.aDim ∧ h.range.dim ≤ D.aDim := by omega
  have e : uadd h.domain.dim h.range.dim = h.domain.dim + h.range.dim :=
    uadd_small _ _ (by omega) (by omega)
  have hcm := homGroup_chainMap_reversing D h c hvar
  rw [e, if_pos ⟨hor, hdh, hrh, hsum⟩] at hcm
  obtain ⟨dom, ran, c2, c3, c4, _, _, h3⟩ := homGroup_resolved D h c c _ A B A1 B1 hreach
    hdim hcof hcm (hdh ▸ hd) (hrh ▸ hr)
  have hrd : D.aDim - h.domain.dim = h.range.dim := by omega
  refine ⟨dom, ran, _, _, h3, ?_⟩
  rw [hrd]
  exact isIdentityShaped_makeIdentity _ _

/-- Witness for `homGroup_duality_matrix`: on a non-orientable manifold, with
coefficients mod 2, the chain matrix is the identity-shaped matrix of size 2
by 2, not corrected. -/
theorem homGroup_duality_matrix_witness :
    ∃ dom ran c1 I, homGroup (demoData false) demoDuality Caches.empty =
      .ok (some (.ofMatrix dom ran I)) c1 ∧ IsIdentityShaped I 2 2 := by
  obtain ⟨dom, ran, c1, I, h, hI⟩ := homGroup_duality_matrix (demoData false) demoDuality
    Caches.empty _ _ _ _ Caches.Reachable.fresh (by decide) rfl rfl rfl (Or.inr (Or.inl rfl))
    (Or.inr (by decide)) rfl rfl
  exact ⟨dom, ran, c1, I, h, hI⟩

/-- C9: in every state that the caches can be in, a request that passes the
dimension and coefficient checks and is a subdivision request (covariant `STD
-> MIX` or `DUAL -> MIX`, contravariant `MIX -> STD` or `MIX -> DUAL`), with
the chain complexes of both ends at hand, is resolved with the chain matrix
`smCM[domain.dim]` (respectively `dmCM[domain.dim]`) itself in the covariant
case and with its transpose in the contravariant case. -/
theorem homGroup_subdivision (D : NCellularData) (h : HomLocator) (c : Caches)
    (v : List NMatrixInt) (i : Nat) (t : Bool) (m A B A1 B1 : NMatrixInt)
    (hreach : c.Reachable D)
    (hdim : h.domain.dim ≤ D.aDim ∧ h.range.dim ≤ D.aDim)
    (hcof : h.range.cof = 0 ∨ h.domain.cof % h.range.cof = 0)
    (hs : subdivisionSelect D h = some (v, i, t)) (hm : v[i]? = some m)
    (hd : chainPair D h.domain.hcs h.domain.dim = some (A, B))
    (hr : chainPair D h.range.hcs h.range.dim = some (A1, B1)) :
    ∃ dom ran c1 CM, homGroup D h c = .ok (some (.ofMatrix dom ran CM)) c1 ∧
      (t = false → CM = m) ∧ (t = true → IsTransposeOf CM m) := by
  have hcm := homGroup_chainMap_subdivision D h c v i t m hs hm
  obtain ⟨dom, ran, c2, c3, c4, _, _, h3⟩ := homGroup_resolved D h c c _ A B A1 B1 hreach
    hdim hcof hcm hd hr
  refine ⟨dom, ran, _, _, h3, fun ht => ?_, fun ht => ?_⟩
  · simp [selectedMatrix, ht]
  · simpa [selectedMatrix, ht] using isTransposeOf_transposed m

/-- Witness for `homGroup_subdivision`: the contravariant request `MIX(1) ->
STD(1)` is resolved with the transpose of `smCM[1]`. -/
theorem homGroup_subdivision_witness :
    ∃ dom ran c1 CM, homGroup (demoData true)
        ⟨⟨1, contraVariant, MIX_coord, 0⟩, ⟨1, contraVariant, STD_coord, 0⟩⟩ Caches.empty =
        .ok (some (.ofMatrix dom ran CM)) c1 ∧ IsTransposeOf CM demoSub := by
  obtain ⟨dom, ran, c1, CM, h, _, ht⟩ := homGroup_subdivision (demoData true)
    ⟨⟨1, contraVariant, MIX_coord, 0⟩, ⟨1, contraVariant, STD_coord, 0⟩⟩ Caches.empty
    (demoData true).smCM 1 true demoSub _ _ _ _ Caches.Reachable.fresh (by decide)
    (Or.inl rfl) rfl rfl rfl rfl
  exact ⟨dom, ran, c1, CM, h, ht rfl⟩

/-- C10: in every state that the caches can be in, a variance-preserving
request between two different ones of the coordinate systems `STD`, `STD_BDRY`
and `STD_REL_BDRY` that passes the dimension and coefficient checks.  If it is
one of the maps of the long exact sequence of the pair named by `lesSelect`
(with the chain complexes of both ends at hand) it is resolved with the matrix
`sbiCM[d]`, `strCM[d]` or `schCM[d]` itself for a covariant request and with
its transpose for a contravariant one; if it does not fit the pattern,
`homGroup` returns `NULL`. -/
theorem homGroup_les (D : NCellularData) (h : HomLocator) (c : Caches)
    (hreach : c.Reachable D)
    (hdim : h.domain.dim ≤ D.aDim ∧ h.range.dim ≤ D.aDim)
    (hcof : h.range.cof = 0 ∨ h.domain.cof % h.range.cof = 0)
    (hvar : h.domain.var = h.range.var)
    (hd : h.domain.hcs = STD_coord ∨ h.domain.hcs = STD_BDRY_coord ∨
      h.domain.hcs = STD_REL_BDRY_coord)
    (hr : h.range.hcs = STD_coord ∨ h.range.hcs = STD_BDRY_coord ∨
      h.range.hcs = STD_REL_BDRY_coord)
    (hne : h.domain.hcs ≠ h.range.hcs) :
    (lesSelect D h = none → homGroup D h c = .ok none c) ∧
    (∀ v i t m A B A1 B1, lesSelect D h = some (v, i, t) → v[i]? = some m →
      chainPair D h.domain.hcs h.domain.dim = some (A, B) →
      chainPair D h.range.hcs h.range.dim = some (A1, B1) →
      ∃ dom ran c1 CM, homGroup D h c = .ok (some (.ofMatrix dom ran CM)) c1 ∧
        (t = false → CM = m) ∧ (t = true → IsTransposeOf CM m)) := by
  have hcm := homGroup_chainMap_les D h c hvar hdim hd hr hne
  constructor
  · intro hs
    rw [hs] at hcm
    exact homGroup_unresolved D h c c hreach hdim hcof hcm
  · intro v i t m A B A1 B1 hs hm hcd hcr
    rw [hs] at hcm
    simp only [hm] at hcm
    obtain ⟨dom, ran, c2, c3, c4, _, _, h3⟩ := homGroup_resolved D h c c _ A B A1 B1 hreach
      hdim hcof hcm hcd hcr
    refine ⟨dom, ran, _, _, h3, fun ht => ?_, fun ht => ?_⟩
    · simp [selectedMatrix, ht]
    · simpa [selectedMatrix, ht] using isTransposeOf_transposed m

/-- Witness for `homGroup_les`: the covariant request `STD_REL_BDRY(1) ->
STD_BDRY(1)`, whose dimensions do not fit the connecting map, returns `NULL`. -/
theorem homGroup_les_witness :
    homGroup (demoData true)
      ⟨⟨1, coVariant, STD_REL_BDRY_coord, 0⟩, ⟨1, coVariant, STD_BDRY_coord, 0⟩⟩ Caches.empty =
      .ok none Caches.empty :=
  (homGroup_les (demoData true)
    ⟨⟨1, coVariant, STD_REL_BDRY_coord, 0⟩, ⟨1, coVariant, STD_BDRY_coord, 0⟩⟩ Caches.empty
    Caches.Reachable.fresh (by decide) (Or.inl rfl) rfl (Or.inr (Or.inr rfl))
    (Or.inr (Or.inl rfl)) (by decide)).1 (by decide)

/-- C11: `homGroup` is atomic on failure.  Whenever it returns `NULL`, the
caches are as they were before the call; the caches change only when a
homomorphism is returned, and then the caches of the unmarked groups and of
the forms are as before, no entry of the cache of the marked groups is lost,
and the hom cache is the old one with the returned homomorphism inserted
under the locator `h`, where it is found afterwards. -/
theorem homGroup_atomic (D : NCellularData) (h : HomLocator) (c c1 : Caches)
    (r : Option NHomMarkedAbelianGroup) (hr : homGroup D h c = .ok r c1) :
    (r = none → c1 = c) ∧ (c1 ≠ c → ∃ f, r = some f) ∧
    (∀ f, r = some f →
      c1.abelianGroups = c.abelianGroups ∧ c1.bilinearForms = c.bilinearForms ∧
      c.Preserved c1 ∧
      c1.homMarkedAbelianGroups = mapInsert c.homMarkedAbelianGroups h f ∧
      mapFind c1.homMarkedAbelianGroups h = some f) := by
  have hk := (Eval.keeps_homGroup D h c r c1 hr).1
  rcases homGroup_inv D h c c1 r hr with ⟨f, hf, rfl, rfl⟩ | ⟨_, rfl, rfl, _⟩ |
    ⟨_, rfl, _, _, hcm⟩ |
    ⟨hunc, _, _, CM, c2, dom, c3, ran, c4, hcm, hm1, hm2, rfl, rfl⟩
  · refine ⟨fun hn => rfl, fun hn => absurd rfl hn, fun f1 hf1 => ?_⟩
    simp only [Option.some.injEq] at hf1
    subst hf1
    exact ⟨rfl, rfl, hk, (mapInsert_of_find _ _ _ _ hf).symm, hf⟩
  · exact ⟨fun _ => rfl, fun hn => absurd rfl hn, fun f hf => (by cases hf)⟩
  · have e := homGroup_chainMap_none_caches D h c c1 hcm
    subst e
    exact ⟨fun _ => rfl, fun hn => absurd rfl hn, fun f hf => (by cases hf)⟩
  · have o1 := homGroup_chainMap_others D h c c2 _ hcm
    have o2 := markedGroup_others D h.domain c2 c3 _ hm1
    have o3 := markedGroup_others D h.range c3 c4 _ hm2
    have e4 : c4.homMarkedAbelianGroups = c.homMarkedAbelianGroups := by
      rw [markedGroup_homs D h.range c3 c4 _ hm2, markedGroup_homs D h.domain c2 c3 _ hm1,
        homGroup_chainMap_homs D h c c2 _ hcm]
    refine ⟨fun hn => (by cases hn), fun _ => ⟨_, rfl⟩, fun f hf => ?_⟩
    simp only [Option.some.injEq] at hf
    subst hf
    refine ⟨?_, ?_, hk, ?_, ?_⟩
    · show c4.abelianGroups = c.abelianGroups
      rw [o3.1, o2.1, o1.1]
    · show c4.bilinearForms = c.bilinearForms
      rw [o3.2, o2.2, o1.2]
    · show mapInsert c4.homMarkedAbelianGroups h _ = _
      rw [e4]
    · show mapFind (mapInsert c4.homMarkedAbelianGroups h _) h = _
      rw [e4]
      exact mapFind_mapInsert_self _ _ _ hunc

/-- Witness for `homGroup_atomic`: on empty caches the request with
`domain.cof = 6` and `range.cof = 3` returns a homomorphism, the hom cache
holds exactly this entry afterwards, and the caches of the unmarked groups and
of the forms are still empty. -/
theorem homGroup_atomic_witness :
    ∃ f c1, homGroup (demoData true) ⟨demoGroup STD_coord 6, demoGroup STD_coord 3⟩
        Caches.empty = .ok (some f) c1 ∧
      c1.homMarkedAbelianGroups = [(⟨demoGroup STD_coord 6, demoGroup STD_coord 3⟩, f)] ∧
      c1.abelianGroups = [] ∧ c1.bilinearForms = [] :=
  have h := (homGroup_atomic (demoData true) ⟨demoGroup STD_coord 6, demoGroup STD_coord 3⟩
    Caches.empty _ _ rfl).2.2 _ rfl
  ⟨_, _, rfl, h.2.2.2.1, h.1, h.2.1⟩

/-- C12: in every state that the caches can be in, a request for the
evaluation form with equal dimensions, opposite variances, equal coefficients
and equal coordinate systems (the chain complex being at hand in the
dimension) returns the form on `markedGroup(f.ldomain)` and
`markedGroup(f.rdomain)` whose range is the group of rank 1 with coefficient
`f.rdomain.cof` and whose tensor has exactly the entries `(i, i, 0) = 1` for
`i` below `getRankCC()` of the left domain. -/
theorem evaluationForm_result (D : NCellularData) (f : FormLocator) (c : Caches)
    (A B : NMatrixInt) (hreach : c.Reachable D) (hft : f.ft = evaluationForm)
    (hdim : f.ldomain.dim = f.rdomain.dim) (hvar : f.ldomain.var ≠ f.rdomain.var)
    (hcof : f.ldomain.cof = f.rdomain.cof) (hhcs : f.ldomain.hcs = f.rdomain.hcs)
    (hp : chainPair D f.ldomain.hcs f.ldomain.dim = some (A, B)) :
    ∃ lDom rDom T cl cr c1,
      markedGroup D f.ldomain c = .ok (some lDom) cl ∧
      markedGroup D f.rdomain c = .ok (some rDom) cr ∧
      bilinearForm D f c = .ok (some (.ofTensor lDom rDom (.ofRank 1 f.rdomain.cof) T)) c1 ∧
      ∀ x v, mapFind T.grid x = some v ↔ ∃ i, i < lDom.getRankCC ∧ x = [i, i, 0] ∧ v = 1 := by
  have hp2 : chainPair D f.rdomain.hcs f.rdomain.dim = some (A, B) := by
    rw [← hhcs, ← hdim]
    exact hp
  obtain ⟨cl, hl, _⟩ := markedGroup_reachable D f.ldomain c A B hreach hp
  obtain ⟨cr, hr, _⟩ := markedGroup_reachable D f.rdomain c A B hreach hp2
  cases hu : mapFind c.bilinearForms f with
  | none =>
    obtain ⟨c1, h⟩ := bilinearFormFuel_evaluation 1 D f c A B hreach hu
      ⟨hft, hdim, hvar, hcof, hhcs⟩ hp
    exact ⟨_, _, _, cl, cr, c1, hl, hr, h, evaluationTensor_entry _⟩
  | some b =>
    obtain ⟨n, c0, c1, hr0, hu0, h0⟩ := hreach.formSound f b hu
    obtain ⟨c2, h⟩ := bilinearFormFuel_evaluation n D f c0 A B hr0 hu0
      ⟨hft, hdim, hvar, hcof, hhcs⟩ hp
    rw [h] at h0
    simp only [Outcome.ok.injEq, Option.some.injEq] at h0
    have hb := bilinearFormFuel_cached 1 D f c b hu
    rw [← h0.1] at hb
    exact ⟨_, _, _, cl, cr, c, hl, hr, hb, evaluationTensor_entry _⟩

/-- Witness for `evaluationForm_result`: the pairing of the first homology
with the first cohomology of the demonstration data is resolved on empty
caches; its tensor has the entry `(1, 1, 0) = 1`. -/
theorem evaluationForm_result_witness :
    ∃ lDom rDom T c1,
      bilinearForm (demoData true) demoEvaluation Caches.empty =
        .ok (some (.ofTensor lDom rDom (.ofRank 1 0) T)) c1 ∧
      mapFind T.grid [1, 1, 0] = some 1 := by
  obtain ⟨lDom, rDom, T, _, _, c1, h1, _, h, hT⟩ := evaluationForm_result (demoData true)
    demoEvaluation Caches.empty _ _ Caches.Reachable.fresh rfl rfl (by decide) rfl rfl rfl
  have e : lDom = builtMarked demoEvaluation.ldomain (NMatrixInt.fill 1 2 (fun _ _ => 0)) demoD2 := by
    have h2 : markedGroup (demoData true) demoEvaluation.ldomain Caches.empty =
      .ok (some (builtMarked demoEvaluation.ldomain (NMatrixInt.fill 1 2 (fun _ _ => 0)) demoD2))
        _ := rfl
    rw [h2] at h1
    simp only [Outcome.ok.injEq, Option.some.injEq] at h1
    exact h1.1.symm
  exact ⟨lDom, rDom, T, c1, h, (hT _ _).mpr ⟨1, by rw [e]; decide, rfl, rfl⟩⟩

/-- C13: a request for the evaluation form that is not cached is answered with
`NULL` if and only if the dimensions differ, or the variances are equal, or
the coefficients differ, or the coordinate systems differ; the caches are then
as they were. -/
theorem evaluationForm_not_found_iff (D : NCellularData) (f : FormLocator) (c : Caches)
    (hft : f.ft = evaluationForm) (hu : mapFind c.bilinearForms f = none) :
    ((∃ c1, bilinearForm D f c = .ok none c1) ↔
      (f.ldomain.dim ≠ f.rdomain.dim ∨ f.ldomain.var = f.rdomain.var ∨
        f.ldomain.cof ≠ f.rdomain.cof ∨ f.ldomain.hcs ≠ f.rdomain.hcs)) ∧
    (∀ c1, bilinearForm D f c = .ok none c1 → c1 = c) := by
  have hi : ¬intersectionGuard D f := fun h => by
    have e := h.1
    rw [hft] at e
    cases e
  have hl : ¬linkingGuard D f := fun h => by
    have e := h.1
    rw [hft] at e
    cases e
  refine ⟨⟨?_, ?_⟩, ?_⟩
  · rintro ⟨c1, h⟩
    by_contra hn
    simp only [not_or, ne_eq, not_not] at hn
    unfold bilinearForm bilinearFormFuel at h
    simp only [hu] at h
    rw [if_pos ⟨hft, hn.1, hn.2.1, hn.2.2.1, hn.2.2.2⟩] at h
    simp only [Eval.bind_ok, Eval.pure_ok, deref_ok, insertForm_ok] at h
    obtain ⟨_, _, _, _, _, _, _, _, _, _, _, _, _, _, _, h, _⟩ := h
    cases h
  · intro hn
    refine ⟨c, bilinearFormFuel_unmatched 1 D f c hu (fun h => ?_) hi hl⟩
    rcases hn with h1 | h1 | h1 | h1
    · exact h1 h.2.1
    · exact h.2.2.1 h1
    · exact h1 h.2.2.2.1
    · exact h1 h.2.2.2.2
  · intro c1 h
    rcases bilinearFormFuel_inv 1 D f c c1 _ hu h with ⟨_, e, _⟩ | ⟨_, _, e, _⟩ |
      ⟨_, _, _, _, e, _⟩
    · exact e
    · cases e
    · cases e

/-- Witness for `evaluationForm_not_found_iff`: on empty caches the evaluation
request between dimension 1 and dimension 2 of the demonstration data is
answered with `NULL`. -/
theorem evaluationForm_not_found_iff_witness :
    ∃ c1, bilinearForm (demoData true)
      ⟨evaluationForm, ⟨1, coVariant, STD_coord, 0⟩, ⟨2, contraVariant, STD_coord, 0⟩⟩
      Caches.empty = .ok none c1 :=
  (evaluationForm_not_found_iff (demoData true)
    ⟨evaluationForm, ⟨1, coVariant, STD_coord, 0⟩, ⟨2, contraVariant, STD_coord, 0⟩⟩
    Caches.empty rfl rfl).1.mpr (Or.inl (by decide))

/-- C14: in every state that the caches can be in, for a request in the
canonical intersection shape (intersection form, both covariant, `DUAL` and
`STD_REL_BDRY` coordinates, equal coefficients, positive dimensions with
`aDim <= dim_l + dim_r` and `dim_l + dim_r - aDim < aDim - 1`): on a
non-orientable manifold and with `f.ldomain.cof != 2` the resolver returns
`NULL` and leaves the caches as they are; with `f.ldomain.cof = 2` it returns a
form, which is cached under the locator, on every manifold (the three chain
complexes being at hand in the dimensions of the request). -/
theorem intersectionForm_orientability (D : NCellularData) (f : FormLocator) (c : Caches)
    (hreach : c.Reachable D) (hft : f.ft = intersectionForm)
    (hvl : f.ldomain.var = coVariant) (hvr : f.rdomain.var = coVariant)
    (hl : f.ldomain.hcs = DUAL_coord) (hr : f.rdomain.hcs = STD_REL_BDRY_coord)
    (hcof : f.ldomain.cof = f.rdomain.cof)
    (hl0 : 0 < f.ldomain.dim) (hr0 : 0 < f.rdomain.dim)
    (h1 : D.aDim ≤ f.ldomain.dim + f.rdomain.dim)
    (h2 : f.ldomain.dim + f.rdomain.dim - D.aDim < D.aDim - 1) :
    (D.orientable = false → f.ldomain.cof ≠ 2 → bilinearForm D f c = .ok none c) ∧
    (f.ldomain.cof = 2 → ∀ A B A1 B1 A2 B2 : NMatrixInt,
      chainPair D DUAL_coord f.ldomain.dim = some (A, B) →
      chainPair D STD_REL_BDRY_coord f.rdomain.dim = some (A1, B1) →
      chainPair D MIX_coord (f.ldomain.dim + f.rdomain.dim - D.aDim) = some (A2, B2) →
      ∃ b c1, bilinearForm D f c = .ok (some b) c1 ∧ mapFind c1.bilinearForms f = some b) := by
  obtain ⟨hg, hsub⟩ := intersectionGuard_of D f hft hvl hvr hcof hl0 hr0 h1 h2
  refine ⟨fun ho hc => ?_, fun hc A B A1 B1 A2 B2 hpl hpr hpm => ?_⟩
  · cases hu : mapFind c.bilinearForms f with
    | none => exact bilinearFormFuel_intersection_none 1 D f c hu hg hl hr hc ho
    | some b =>
      exact absurd (bilinearFormFuel_cached 1 D f c b hu)
        (intersection_canonical_no_form 2 D f c c b hreach hg hl hr hc ho)
  · rw [← hl] at hpl
    rw [← hr] at hpr
    rw [← hsub] at hpm
    obtain ⟨c1, h, hfind⟩ := bilinearForm_intersection D f c A B A1 B1 A2 B2 hreach hg hl hr
      (fun h => h.1 hc) hpl hpr hpm
    exact ⟨_, c1, h, hfind⟩

/-- Witness for `intersectionForm_orientability`: on the non-orientable
demonstration data the canonical request (`DUAL`, `STD_REL_BDRY`) in dimensions
(2, 2) is answered with `NULL` for integer coefficients and resolved for
coefficients mod 2. -/
theorem intersectionForm_orientability_witness :
    bilinearForm (demoData false) (demoIntersection DUAL_coord STD_REL_BDRY_coord 0)
      Caches.empty = .ok none Caches.empty ∧
    ∃ b c1, bilinearForm (demoData false) (demoIntersection DUAL_coord STD_REL_BDRY_coord 2)
        Caches.empty = .ok (some b) c1 ∧
      mapFind c1.bilinearForms (demoIntersection DUAL_coord STD_REL_BDRY_coord 2) = some b :=
  ⟨(intersectionForm_orientability (demoData false)
      (demoIntersection DUAL_coord STD_REL_BDRY_coord 0) Caches.empty .fresh rfl rfl rfl rfl rfl
      rfl (by decide) (by decide) (by decide) (by decide)).1 rfl (by decide),
    (intersectionForm_orientability (demoData false)
      (demoIntersection DUAL_coord STD_REL_BDRY_coord 2) Caches.empty .fresh rfl rfl rfl rfl rfl
      rfl (by decide) (by decide) (by decide) (by decide)).2 rfl _ _ _ _ _ _ rfl rfl rfl⟩

/-- C15: on a non-orientable manifold, a request for the intersection product
in one of the convenience shapes (`DUAL` x `DUAL`, or `STD` x `STD_REL_BDRY`)
with coefficients other than 2 never returns, whatever the state of the
caches: the canonical form that the case asks for is `NULL`, and the case
dereferences it (`bilinearForm(prim)->rCompose(f)`) where the canonical case
itself checks the orientability and returns `NULL`. -/
theorem convenience_intersection_never_returns (D : NCellularData) (f : FormLocator)
    (c : Caches) (hreach : c.Reachable D) (ho : D.orientable = false)
    (hcof : f.ldomain.cof ≠ 2) (hg : intersectionGuard D f)
    (hshape : (f.ldomain.hcs = DUAL_coord ∧ f.rdomain.hcs = DUAL_coord) ∨
      (f.ldomain.hcs = STD_coord ∧ f.rdomain.hcs = STD_REL_BDRY_coord)) :
    ∀ r c1, bilinearForm D f c ≠ .ok r c1 := by
  have hconv : convenienceShape D f := by
    rcases hshape with h | h
    · exact Or.inl ⟨hg, h⟩
    · exact Or.inr (Or.inl ⟨hg, h⟩)
  have key : ∀ n c0 r c1, c0.Reachable D → mapFind c0.bilinearForms f = none →
      bilinearFormFuel (n + 1) D f c0 ≠ .ok r c1 := by
    intro n c0 r c1 hr0 hu0 h
    rcases bilinearFormFuel_inv n D f c0 c1 r hu0 h with ⟨_, _, hn⟩ | ⟨_, _, _, hn, _⟩ |
      ⟨_, bp, c2, c3, _, _, _, _, hr2, hrec, _⟩
    · exact hn hconv
    · exact hn hconv
    · exact intersection_canonical_no_form n D (primOf f) c2 c3 bp (hr2 hr0) hg rfl rfl hcof ho
        hrec
  intro r c1 h
  cases hu : mapFind c.bilinearForms f with
  | none => exact key 1 c r c1 hreach hu h
  | some b =>
    obtain ⟨n, c0, c2, hr0, hu0, h0⟩ := hreach.formSound f b hu
    exact key n c0 _ c2 hr0 hu0 h0

/-- Witness for `convenience_intersection_never_returns`: on the non-orientable
demonstration data and empty caches the request in `DUAL` x `DUAL` coordinates
and the request in `STD` x `STD_REL_BDRY` coordinates, with integer
coefficients, both end in the dereference of a null pointer. -/
theorem convenience_intersection_never_returns_witness :
    bilinearForm (demoData false) (demoIntersection DUAL_coord DUAL_coord 0) Caches.empty =
      .fault .nullDeref ∧
    bilinearForm (demoData false) (demoIntersection STD_coord STD_REL_BDRY_coord 0)
      Caches.empty = .fault .nullDeref ∧
    ∀ r c1, bilinearForm (demoData false) (demoIntersection DUAL_coord DUAL_coord 0)
      Caches.empty ≠ .ok r c1 :=
  ⟨rfl, rfl, convenience_intersection_never_returns (demoData false)
    (demoIntersection DUAL_coord DUAL_coord 0) Caches.empty .fresh rfl (by decide)
    (by decide) (Or.inl ⟨rfl, rfl⟩)⟩

/-- C16: in ambient dimension 3 a canonical request (`DUAL` x `STD_REL_BDRY`)
for the intersection product in the dimensions (1, 3) or (3, 1) passes the
guard of the case, and none of the three sub-cases (2, 2), (2, 1), (1, 2)
applies: on an orientable manifold or with coefficients mod 2 the resolver
returns a form whose tensor is empty and caches it under the locator, instead
of returning `NULL`. -/
theorem intersectionForm_dim3_empty_tensor (D : NCellularData) (f : FormLocator) (c : Caches)
    (A B A1 B1 A2 B2 : NMatrixInt) (hreach : c.Reachable D) (hD : D.aDim = 3)
    (hft : f.ft = intersectionForm)
    (hvl : f.ldomain.var = coVariant) (hvr : f.rdomain.var = coVariant)
    (hl : f.ldomain.hcs = DUAL_coord) (hr : f.rdomain.hcs = STD_REL_BDRY_coord)
    (hcof : f.ldomain.cof = f.rdomain.cof)
    (hgate : D.orientable = true ∨ f.ldomain.cof = 2)
    (hdims : (f.ldomain.dim = 1 ∧ f.rdomain.dim = 3) ∨ (f.ldomain.dim = 3 ∧ f.rdomain.dim = 1))
    (hpl : chainPair D DUAL_coord f.ldomain.dim = some (A, B))
    (hpr : chainPair D STD_REL_BDRY_coord f.rdomain.dim = some (A1, B1))
    (hpm : chainPair D MIX_coord 1 = some (A2, B2)) :
    ∃ lDom rDom rAng c1,
      bilinearForm D f c = .ok (some (.ofTensor lDom rDom rAng NSparseGridRing.empty)) c1 ∧
      mapFind c1.bilinearForms f = some (.ofTensor lDom rDom rAng NSparseGridRing.empty) := by
  have hsum : f.ldomain.dim + f.rdomain.dim = 4 := by
    rcases hdims with h | h <;> rw [h.1, h.2]
  obtain ⟨hg, hsub⟩ := intersectionGuard_of D f hft hvl hvr hcof
    (by rcases hdims with h | h <;> rw [h.1] <;> decide)
    (by rcases hdims with h | h <;> rw [h.2] <;> decide)
    (by rw [hD, hsum]; decide) (by rw [hD, hsum]; decide)
  have hone : f.ldomain.dim + f.rdomain.dim - D.aDim = 1 := by rw [hsum, hD]
  rw [← hl] at hpl
  rw [← hr] at hpr
  have hpm1 : chainPair D MIX_coord (usub (uadd f.ldomain.dim f.rdomain.dim) D.aDim) =
      some (A2, B2) := by
    rw [hsub, hone]
    exact hpm
  have hT : intersectionTensor D f.ldomain.dim f.rdomain.dim = NSparseGridRing.empty := by
    unfold intersectionTensor
    rcases hdims with h | h <;> simp [hD, h.1, h.2]
  obtain ⟨c1, h, hfind⟩ := bilinearForm_intersection D f c A B A1 B1 A2 B2 hreach hg hl hr
    (fun h => by
      rcases hgate with h1 | h1
      · rw [h.2] at h1
        cases h1
      · exact h.1 h1) hpl hpr hpm1
  rw [hT] at h hfind
  exact ⟨_, _, _, c1, h, hfind⟩

/-- Witness for `intersectionForm_dim3_empty_tensor`: on the orientable
demonstration data (ambient dimension 3) and empty caches the canonical request
in the dimensions (1, 3) returns a form with the empty tensor, which is the
one entry of the forms cache afterwards. -/
theorem intersectionForm_dim3_empty_tensor_witness :
    (∃ lDom rDom rAng c1,
      bilinearForm (demoData true)
        ⟨intersectionForm, ⟨1, coVariant, DUAL_coord, 0⟩, ⟨3, coVariant, STD_REL_BDRY_coord, 0⟩⟩
        Caches.empty = .ok (some (.ofTensor lDom rDom rAng NSparseGridRing.empty)) c1 ∧
      mapFind c1.bilinearForms
        ⟨intersectionForm, ⟨1, coVariant, DUAL_coord, 0⟩, ⟨3, coVariant, STD_REL_BDRY_coord, 0⟩⟩ =
        some (.ofTensor lDom rDom rAng NSparseGridRing.empty)) ∧
    (∃ b c1, bilinearForm (demoData true)
        ⟨intersectionForm, ⟨3, coVariant, DUAL_coord, 0⟩, ⟨1, coVariant, STD_REL_BDRY_coord, 0⟩⟩
        Caches.empty = .ok (some b) c1 ∧
      c1.bilinearForms =
        [(⟨intersectionForm, ⟨3, coVariant, DUAL_coord, 0⟩,
          ⟨1, coVariant, STD_REL_BDRY_coord, 0⟩⟩, b)]) :=
  ⟨intersectionForm_dim3_empty_tensor (demoData true)
    ⟨intersectionForm, ⟨1, coVariant, DUAL_coord, 0⟩, ⟨3, coVariant, STD_REL_BDRY_coord, 0⟩⟩
    Caches.empty _ _ _ _ _ _ .fresh rfl rfl rfl rfl rfl rfl rfl (Or.inl rfl)
    (Or.inl ⟨rfl, rfl⟩) rfl rfl rfl, _, _, rfl, rfl⟩

/-- C17: in every state that the caches can be in, a request for a cup product
is answered with `NULL` and the caches are left as they are. -/
theorem cupproductForm_not_found (D : NCellularData) (f : FormLocator) (c : Caches)
    (hreach : c.Reachable D) (hft : f.ft = cupproductForm) :
    bilinearForm D f c = .ok none c := by
  have he : ¬(f.ft = evaluationForm ∧ f.ldomain.dim = f.rdomain.dim ∧
      f.ldomain.var ≠ f.rdomain.var ∧ f.ldomain.cof = f.rdomain.cof ∧
      f.ldomain.hcs = f.rdomain.hcs) := fun h => by
    have e := h.1
    rw [hft] at e
    cases e
  have hi : ¬intersectionGuard D f := fun h => by
    have e := h.1
    rw [hft] at e
    cases e
  have hl : ¬linkingGuard D f := fun h => by
    have e := h.1
    rw [hft] at e
    cases e
  cases hu : mapFind c.bilinearForms f with
  | none => exact bilinearFormFuel_unmatched 1 D f c hu he hi hl
  | some b =>
    obtain ⟨n, c0, c1, _, hu0, h0⟩ := hreach.formSound f b hu
    rw [bilinearFormFuel_unmatched n D f c0 hu0 he hi hl] at h0
    simp only [Outcome.ok.injEq] at h0
    cases h0.1

/-- Witness for `cupproductForm_not_found`: a cup product request on the
demonstration data, after the evaluation pairing has been resolved. -/
theorem cupproductForm_not_found_witness :
    ∃ c, bilinearForm (demoData true) demoEvaluation Caches.empty =
        .ok (some (.ofTensor (builtMarked demoEvaluation.ldomain (NMatrixInt.fill 1 2 (fun _ _ => 0)) demoD2)
          (builtMarked demoEvaluation.rdomain (NMatrixInt.fill 1 2 (fun _ _ => 0)) demoD2)
          (.ofRank 1 0) (evaluationTensor 2))) c ∧
      bilinearForm (demoData true) demoCup c = .ok none c :=
  ⟨_, rfl, cupproductForm_not_found (demoData true) demoCup _
    (.bilinearForm demoEvaluation _ .fresh rfl) rfl⟩

/-- C18: whenever `bilinearForm(f)` returns a form, this form is the entry of
the locator `f` in the forms cache afterwards, and a second call returns the
same form and leaves the caches as they are.  If `f` was cached, the first
call changed nothing; if it was not, the forms cache is the old one with the
form inserted under `f`, after the canonical form inserted under its own
locator in the convenience shapes (and in these only), where a call on the
canonical locator finds it. -/
theorem bilinearForm_caches_under_locator (D : NCellularData) (f : FormLocator)
    (c c1 : Caches) (b : NBilinearForm) (hr : bilinearForm D f c = .ok (some b) c1) :
    mapFind c1.bilinearForms f = some b ∧
    bilinearForm D f c1 = .ok (some b) c1 ∧
    (∀ b0, mapFind c.bilinearForms f = some b0 → b = b0 ∧ c1 = c) ∧
    (mapFind c.bilinearForms f = none → ¬convenienceShape D f →
      c1.bilinearForms = mapInsert c.bilinearForms f b) ∧
    (mapFind c.bilinearForms f = none → convenienceShape D f →
      primOf f ≠ f ∧ ∃ bp, mapFind c1.bilinearForms (primOf f) = some bp ∧
        c1.bilinearForms = mapInsert (mapInsert c.bilinearForms (primOf f) bp) f b ∧
        bilinearForm D (primOf f) c1 = .ok (some bp) c1) := by
  have hfind := bilinearFormFuel_find 2 D f c c1 b hr
  refine ⟨hfind, bilinearFormFuel_cached 1 D f c1 b hfind, ?_, ?_, ?_⟩
  · intro b0 h0
    have h := bilinearFormFuel_cached 1 D f c b0 h0
    unfold bilinearForm at hr
    rw [h] at hr
    simp only [Outcome.ok.injEq, Option.some.injEq] at hr
    exact ⟨hr.1.symm, hr.2.symm⟩
  · intro hu hn
    rcases bilinearFormFuel_forms 1 D f c c1 b hu hr with ⟨_, h⟩ | ⟨h, _⟩
    · exact h
    · exact absurd h hn
  · intro hu hcv
    rcases bilinearFormFuel_forms 1 D f c c1 b hu hr with ⟨h, _⟩ |
      ⟨_, hne, bp, _, _, _, _, _, hp, h⟩
    · exact absurd hcv h
    · exact ⟨hne, bp, hp, h, bilinearFormFuel_cached 1 D (primOf f) c1 bp hp⟩

/-- Witness for `bilinearForm_caches_under_locator`: on the orientable
demonstration data and empty caches the convenience request in `DUAL` x `DUAL`
coordinates returns a form; the second call returns it again, and the forms
cache holds this form and the canonical one. -/
theorem bilinearForm_caches_under_locator_witness :
    ∃ b bp c1,
      bilinearForm (demoData true) (demoIntersection DUAL_coord DUAL_coord 0) Caches.empty =
        .ok (some b) c1 ∧
      bilinearForm (demoData true) (demoIntersection DUAL_coord DUAL_coord 0) c1 =
        .ok (some b) c1 ∧
      c1.bilinearForms = [(demoIntersection DUAL_coord DUAL_coord 0, b),
        (demoIntersection DUAL_coord STD_REL_BDRY_coord 0, bp)] :=
  ⟨_, _, _, rfl, (bilinearForm_caches_under_locator (demoData true)
    (demoIntersection DUAL_coord DUAL_coord 0) Caches.empty _ _ rfl).2.1, rfl⟩

/-- C19: in every state that the caches can be in, the canonical request for
the torsion linking form (both groups being at hand, the loops reading their
vectors within range) returns a form on the torsion subgroups of the two
groups whose range is the group of rank 1 with modulus `N`, where `N` is the
gcd of the last (largest) invariant factor of the left group and that of the
right group when both torsion subgroups are non-trivial, and `N = 1` when one
of them is trivial. -/
theorem linkingForm_range (D : NCellularData) (f : FormLocator) (c : Caches)
    (A B A1 B1 : NMatrixInt) (T : NSparseGridRing) (hreach : c.Reachable D)
    (hft : f.ft = torsionlinkingForm) (hvl : f.ldomain.var = coVariant)
    (hvr : f.rdomain.var = coVariant) (hl : f.ldomain.hcs = DUAL_coord)
    (hr : f.rdomain.hcs = STD_REL_BDRY_coord) (hcl : f.ldomain.cof = 0)
    (hcr : f.rdomain.cof = 0) (hl0 : 0 < f.ldomain.dim) (hr0 : 0 < f.rdomain.dim)
    (hdim : f.ldomain.dim + f.rdomain.dim + 1 = D.aDim)
    (hpl : chainPair D DUAL_coord f.ldomain.dim = some (A, B))
    (hpr : chainPair D STD_REL_BDRY_coord f.rdomain.dim = some (A1, B1))
    (hT : linkingTensor D (builtMarked f.ldomain A B) (builtMarked f.rdomain A1 B1)
      (linkingModulus D (builtMarked f.ldomain A B) (builtMarked f.rdomain A1 B1)
        (torsionSubgroup D (builtMarked f.ldomain A B))
        (torsionSubgroup D (builtMarked f.rdomain A1 B1))) f.ldomain.dim = some T) :
    ∃ ld rd cl cr N c1,
      markedGroup D f.ldomain c = .ok (some ld) cl ∧
      markedGroup D f.rdomain c = .ok (some rd) cr ∧
      bilinearForm D f c =
        .ok (some (.ofTensor (torsionSubgroup D ld) (torsionSubgroup D rd) (.ofRank 1 N) T)) c1 ∧
      (D.isTrivial (torsionSubgroup D ld) = false → D.isTrivial (torsionSubgroup D rd) = false →
        0 < D.getNumberOfInvariantFactors ld → D.getNumberOfInvariantFactors ld < ulongMod →
        0 < D.getNumberOfInvariantFactors rd → D.getNumberOfInvariantFactors rd < ulongMod →
        N = Int.gcd (D.getInvariantFactor ld (D.getNumberOfInvariantFactors ld - 1))
          (D.getInvariantFactor rd (D.getNumberOfInvariantFactors rd - 1))) ∧
      (D.isTrivial (torsionSubgroup D ld) = true ∨ D.isTrivial (torsionSubgroup D rd) = true →
        N = 1) := by
  have hg := linkingGuard_of D f hft hvl hvr hcl hcr hl0 hr0 hdim
  rw [← hl] at hpl
  rw [← hr] at hpr
  obtain ⟨cl, hml, _⟩ := markedGroup_reachable D f.ldomain c A B hreach hpl
  obtain ⟨cr, hmr, _⟩ := markedGroup_reachable D f.rdomain c A1 B1 hreach hpr
  have hret : ∃ c1, bilinearForm D f c =
      .ok (some (.ofTensor (torsionSubgroup D (builtMarked f.ldomain A B))
        (torsionSubgroup D (builtMarked f.rdomain A1 B1))
        (.ofRank 1 (linkingModulus D (builtMarked f.ldomain A B) (builtMarked f.rdomain A1 B1)
          (torsionSubgroup D (builtMarked f.ldomain A B))
          (torsionSubgroup D (builtMarked f.rdomain A1 B1)))) T)) c1 := by
    cases hu : mapFind c.bilinearForms f with
    | none => exact bilinearFormFuel_linking 1 D f c A B A1 B1 T hreach hu hg hl hr hpl hpr hT
    | some b =>
      obtain ⟨n, c0, c1, hr0, hu0, h0⟩ := hreach.formSound f b hu
      obtain ⟨c2, h⟩ := bilinearFormFuel_linking n D f c0 A B A1 B1 T hr0 hu0 hg hl hr hpl hpr hT
      rw [h] at h0
      simp only [Outcome.ok.injEq, Option.some.injEq] at h0
      have hb := bilinearFormFuel_cached 1 D f c b hu
      rw [← h0.1] at hb
      exact ⟨c, hb⟩
  obtain ⟨c1, h⟩ := hret
  refine ⟨_, _, cl, cr, _, c1, hml, hmr, h, ?_, ?_⟩
  · intro h1 h2 h3 h4 h5 h6
    unfold linkingModulus
    rw [if_pos ⟨h1, h2⟩, usub_one _ h3 h4, usub_one _ h5 h6]
  · intro h1
    unfold linkingModulus
    rw [if_neg]
    rintro ⟨h2, h3⟩
    rcases h1 with h1 | h1
    · rw [h2] at h1
      cases h1
    · rw [h3] at h1
      cases h1

/-- Witness for `linkingForm_range`: on the data with torsion, where both
groups have the largest invariant factor 5, the range of the torsion linking
form has the modulus 5. -/
theorem linkingForm_range_witness :
    ∃ lT rT T c1, bilinearForm linkData linkRequest Caches.empty =
      .ok (some (.ofTensor lT rT (.ofRank 1 5) T)) c1 := by
  obtain ⟨ld, rd, _, _, N, c1, _, _, h, hN, _⟩ := linkingForm_range linkData linkRequest
    Caches.empty _ _ _ _ _ .fresh rfl rfl rfl rfl rfl rfl rfl (by decide) (by decide) rfl
    rfl rfl rfl
  have e : N = 5 := (hN rfl rfl (by show 0 < 1; decide) (by show 1 < ulongMod; decide)
    (by show 0 < 1; decide) (by show 1 < ulongMod; decide)).trans
    (by show ((Int.gcd 5 5 : Nat) : Int) = 5; decide)
  rw [e] at h
  exact ⟨_, _, _, c1, h⟩

/-- C20: on the data with torsion (ambient dimension 3) the resolver places
the linking number 3 at the position (0, 0, 0) of the tensor, where the sum
over the cells `k` of `b[k] * a[k] * s(k)` with the sign `s(k)` of the `k`-th
cell gives 4: the loop over `k` reads the sign at the face `rIx[2][i]` of the
generator index `i`, the same for every cell `k`. -/
theorem linkingForm_sign_index :
    ∃ ld rd c2 c3 lT rT N T c1,
      markedGroup linkData linkRequest.ldomain Caches.empty = .ok (some ld) c2 ∧
      markedGroup linkData linkRequest.rdomain c2 = .ok (some rd) c3 ∧
      bilinearForm linkData linkRequest Caches.empty =
        .ok (some (.ofTensor lT rT (.ofRank 1 N) T)) c1 ∧
      mapFind T.grid [0, 0, 0] = some 3 ∧
      linkingNumber linkData ld rd N (linkData.faceSign 0) 0 0 = some 3 ∧
      linkingNumberSpec linkData ld rd N 0 0 = some 4 :=
  ⟨_, _, _, _, _, _, _, _, _, rfl, rfl, rfl, rfl, rfl, rfl⟩


/-- C21: `eulerChar()` is the signed alternating sum of the five counts of dual
cells whenever this sum is a value of `long int` (the differences of the
unsigned counts wrap around, the conversion to `long int` undoes it); and for
the chain complex `dCC` of the `DUAL` coordinates, with `numDualCells[i]` the
number of columns of `dCC[i]`, the maps `dCC[0]` and `dCC[aDim + 1]` of rank 0
and no cells above the ambient dimension, it is the alternating sum of the
ranks of the groups that `unmarkedGroup` returns for the integer homology in
`DUAL` coordinates in the dimensions `0..aDim`. -/
theorem eulerChar_alternating_sum (D : NCellularData) (rank : NMatrixInt → Nat) (c : Caches)
    (CC : Nat → NMatrixInt)
    (hlo : -(9223372036854775808 : Int) ≤ alternatingSum D)
    (hhi : alternatingSum D < 9223372036854775808) :
    eulerChar D = alternatingSum D ∧
    (c.Reachable D → (∀ i, i ≤ D.aDim + 1 → D.dCC[i]? = some (CC i)) →
      (∀ i, i ≤ D.aDim → (CC i).columns = D.numDualCells i) →
      (∀ i, D.aDim < i → i ≤ 4 → D.numDualCells i = 0) →
      rank (CC 0) = 0 → rank (CC (D.aDim + 1)) = 0 →
      (∀ i, i ≤ D.aDim → ∃ cu, unmarkedGroup D ⟨i, coVariant, DUAL_coord, 0⟩ c =
        .ok (some ⟨CC i, CC (i + 1), none⟩) cu) ∧
      eulerChar D = ∑ i in Finset.range (D.aDim + 1),
        (-1) ^ i * NAbelianGroup.getRank rank ⟨CC i, CC (i + 1), none⟩) := by
  have h1 := eulerChar_eq_alternatingSum D hlo hhi
  refine ⟨h1, fun hreach hCC hcol hzero hr0 hrn => ⟨fun i hi => ?_, ?_⟩⟩
  · have h4 : i ≤ 4 := by
      rcases D.aDim_eq with e | e <;> omega
    have hp : chainPair D DUAL_coord i = some (CC i, CC (i + 1)) := by
      apply chainPair_of_reads D ⟨i, coVariant, DUAL_coord, 0⟩ D.dCC _ _ rfl
      · exact hCC i (by omega)
      · show D.dCC[uadd i 1]? = _
        rw [uadd_small i 1 h4 (by decide)]
        exact hCC (i + 1) (by omega)
    obtain ⟨cu, h, _⟩ := unmarkedGroup_reachable D ⟨i, coVariant, DUAL_coord, 0⟩ c _ _ hreach hp
    exact ⟨cu, h⟩
  · rw [h1]
    unfold alternatingSum
    rcases D.aDim_eq with e | e
    · rw [e] at hcol hzero hrn ⊢
      have c0 := hcol 0 (by decide)
      have c1 := hcol 1 (by decide)
      have c2 := hcol 2 (by decide)
      have c3 := hcol 3 (by decide)
      have z4 := hzero 4 (by decide) (by decide)
      have rn : rank (CC 4) = 0 := hrn
      simp only [Finset.sum_range_succ, Finset.sum_range_zero, NAbelianGroup.getRank]
      norm_num
      omega
    · rw [e] at hcol hzero hrn ⊢
      have c0 := hcol 0 (by decide)
      have c1 := hcol 1 (by decide)
      have c2 := hcol 2 (by decide)
      have c3 := hcol 3 (by decide)
      have c4 := hcol 4 (by decide)
      have rn : rank (CC 5) = 0 := hrn
      simp only [Finset.sum_range_succ, Finset.sum_range_zero, NAbelianGroup.getRank]
      norm_num
      omega

/-- Witness for `eulerChar_alternating_sum`: the demonstration data, whose
chain complex has the homology ranks 1, 0, 0, 1 of a 3-sphere: the Euler
characteristic is 0. -/
theorem eulerChar_alternating_sum_witness :
    eulerChar (demoData true) = 0 ∧
    eulerChar (demoData true) = ∑ i in Finset.range 4,
      (-1) ^ i * NAbelianGroup.getRank (fun m => if m = demoD2 then 2 else 0)
        ⟨demoCC.getD i (NMatrixInt.zero 0 0), demoCC.getD (i + 1) (NMatrixInt.zero 0 0), none⟩ :=
  have h := eulerChar_alternating_sum (demoData true) (fun m => if m = demoD2 then 2 else 0)
    Caches.empty (fun i => demoCC.getD i (NMatrixInt.zero 0 0)) (by decide) (by decide)
  ⟨h.1.trans (by decide), (h.2 .fresh
    (fun i hi => by
      have hi4 : i ≤ 4 := hi
      interval_cases i <;> rfl)
    (fun i hi => by
      have hi3 : i ≤ 3 := hi
      interval_cases i <;> rfl)
    (fun i h1 h2 => by
      have h3 : 3 < i := h1
      have e : i = 4 := by omega
      subst e
      rfl)
    (by decide) (by decide)).2⟩

/-- C22: `cellCount(hcs, dimension)` returns 0 for every coordinate system
when the dimension exceeds the ambient dimension, returns 0 for the three
boundary coordinate systems when the dimension exceeds `aDim - 1`, returns 0
for an argument that is none of the nine coordinate systems, and otherwise
returns the entry at `dimension` of the array of cell counts of the coordinate
system; every entry that it reads has an index within `0..aDim`. -/
theorem cellCount_in_range (counts : CountArray → Nat → Nat) (D : NCellularData)
    (hcs : Option homology_coordinate_system) (dimension : Nat) :
    (dimension > D.aDim → cellCount counts D hcs dimension = 0) ∧
    (∀ h, hcs = some h → isBoundarySystem h = true → dimension > D.aDim - 1 →
      cellCount counts D hcs dimension = 0) ∧
    (hcs = none → cellCount counts D hcs dimension = 0) ∧
    (∀ h, hcs = some h → dimension ≤ D.aDim →
      (isBoundarySystem h = true → dimension ≤ D.aDim - 1) →
      cellCount counts D hcs dimension = counts (countArrayOf h) dimension) ∧
    (∀ a i, cellCountRead D hcs dimension = .entry a i → i = dimension ∧ i ≤ D.aDim) := by
  unfold cellCount cellCountRead NCellularData.aDim NCellularData.hasTri3 NCellularData.hasTri4
  cases D.tri <;> rcases hcs with _ | h
  · simp
  · cases h <;> simp [isBoundarySystem, countArrayOf] <;> (try split_ifs) <;> (try simp) <;>
      omega
  · simp
  · cases h <;> simp [isBoundarySystem, countArrayOf] <;> (try split_ifs) <;> (try simp) <;>
      omega

/-- Witness for `cellCount_in_range`: on the demonstration data of dimension
3, with the entry `i + 10` at the index `i` of every array, the count of the
boundary cells of dimension 3 is 0 and the count of the dual cells of dimension
3 is the entry 13. -/
theorem cellCount_in_range_witness :
    cellCount (fun _ i => i + 10) (demoData true) (some STD_BDRY_coord) 3 = 0 ∧
    cellCount (fun _ i => i + 10) (demoData true) (some DUAL_coord) 3 = 13 ∧
    cellCount (fun _ i => i + 10) (demoData true) none 2 = 0 :=
  ⟨(cellCount_in_range (fun _ i => i + 10) (demoData true) (some STD_BDRY_coord) 3).2.1
      STD_BDRY_coord rfl rfl (by decide),
    (cellCount_in_range (fun _ i => i + 10) (demoData true) (some DUAL_coord) 3).2.2.2.1
      DUAL_coord rfl (by decide) (fun h => by cases h),
    (cellCount_in_range (fun _ i => i + 10) (demoData true) none 2).2.2.1 rfl⟩

/-- C23: in every state that the caches can be in (the chain complex of the
`DUAL` coordinates being at hand in the dimensions `0..aDim`),
`poincarePolynomial()` returns the polynomial whose coefficient of `t^i` is
`getRank()` of the group that `unmarkedGroup` returns for the integer homology
`H_i` in `DUAL` coordinates, for every `i` from 0 to `aDim`, and whose other
coefficients are zero. -/
theorem poincarePolynomial_coefficients (D : NCellularData) (getRank : NAbelianGroup → Int)
    (c : Caches) (A B : Nat → NMatrixInt) (hreach : c.Reachable D)
    (hp : ∀ i, i ≤ D.aDim → chainPair D DUAL_coord i = some (A i, B i)) :
    ∃ p c1, poincarePolynomial D getRank c = .ok p c1 ∧
      (∀ i, i ≤ D.aDim →
        (∃ cu, unmarkedGroup D ⟨i, coVariant, DUAL_coord, 0⟩ c =
          .ok (some ⟨A i, B i, none⟩) cu) ∧
        p.coefficient i = getRank ⟨A i, B i, none⟩) ∧
      (∀ i, D.aDim < i → p.coefficient i = 0) := by
  obtain ⟨p, c1, h, _, hc⟩ := poincareLoop D getRank A B (List.range (D.aDim + 1))
    (fun i hi => hp i (Nat.lt_succ_iff.mp (List.mem_range.mp hi))) NSVPolynomialRing.zero c hreach
  refine ⟨p, c1, h, fun i hi => ⟨?_, ?_⟩, fun i hi => ?_⟩
  · obtain ⟨cu, hu, _⟩ := unmarkedGroup_reachable D ⟨i, coVariant, DUAL_coord, 0⟩ c (A i) (B i)
      hreach (hp i hi)
    exact ⟨cu, hu⟩
  · rw [hc i, List.count_eq_one_of_mem (List.nodup_range _)
      (List.mem_range.mpr (Nat.lt_succ_of_le hi))]
    simp [NSVPolynomialRing.coefficient, NSVPolynomialRing.zero, mapFind]
  · rw [hc i, List.count_eq_zero_of_not_mem (fun hm => by
      have := List.mem_range.mp hm
      omega)]
    simp [NSVPolynomialRing.coefficient, NSVPolynomialRing.zero, mapFind]

/-- Witness for `poincarePolynomial_coefficients`: on the demonstration data,
with the number of columns of the first matrix standing for the rank, the
polynomial is resolved on empty caches and its coefficient of `t` is 2. -/
theorem poincarePolynomial_coefficients_witness :
    ∃ p c1, poincarePolynomial (demoData true) (fun G => G.M.columns) Caches.empty = .ok p c1 ∧
      p.coefficient 1 = 2 ∧ p.coefficient 7 = 0 := by
  obtain ⟨p, c1, h, h1, h2⟩ := poincarePolynomial_coefficients (demoData true)
    (fun G => G.M.columns) Caches.empty
    (fun i => demoCC.getD i (NMatrixInt.zero 0 0))
    (fun i => demoCC.getD (i + 1) (NMatrixInt.zero 0 0)) .fresh
    (fun i hi => by
      have hi3 : i ≤ 3 := hi
      interval_cases i <;> rfl)
  exact ⟨p, c1, h, (h1 1 (by decide)).2.trans (by decide), h2 7 (by decide)⟩

/-- C24: `integerChainComplex` and `integerChainMap` return the cached matrix
on the first pass when the locator is in the cache; when it is not, no number
of passes through `reloop_loop` ends the call: the jump back to the label
follows a block that changes nothing, and the `return NULL` after it is never
reached. -/
theorem integerChain_lookup_loops :
    (∀ fuel cache c_desc, mapFind cache c_desc = none →
      integerChainComplexFuel fuel cache c_desc = none) ∧
    (∀ fuel cache m_desc, mapFind cache m_desc = none →
      integerChainMapFuel fuel cache m_desc = none) ∧
    (∀ fuel cache c_desc p, mapFind cache c_desc = some p →
      integerChainComplexFuel (fuel + 1) cache c_desc = some (some p)) ∧
    (∀ fuel cache m_desc p, mapFind cache m_desc = some p →
      integerChainMapFuel (fuel + 1) cache m_desc = some (some p)) := by
  refine ⟨?_, ?_, ?_, ?_⟩
  · intro fuel cache c_desc h
    induction fuel with
    | zero => rfl
    | succ n ih =>
      unfold integerChainComplexFuel
      simp only [h]
      exact ih
  · intro fuel cache m_desc h
    induction fuel with
    | zero => rfl
    | succ n ih =>
      unfold integerChainMapFuel
      simp only [h]
      exact ih
  · intro fuel cache c_desc p h
    unfold integerChainComplexFuel
    simp only [h]
  · intro fuel cache m_desc p h
    unfold integerChainMapFuel
    simp only [h]

/-- Witness for `integerChain_lookup_loops`: with the empty caches of a fresh
object a thousand passes do not end either call. -/
theorem integerChain_lookup_loops_witness :
    integerChainComplexFuel 1000 [] ⟨1, STD_coord⟩ = none ∧
    integerChainMapFuel 1000 [] ⟨⟨1, STD_coord⟩, ⟨1, MIX_coord⟩⟩ = none :=
  ⟨integerChain_lookup_loops.1 1000 [] ⟨1, STD_coord⟩ rfl,
    integerChain_lookup_loops.2.1 1000 [] ⟨⟨1, STD_coord⟩, ⟨1, MIX_coord⟩⟩ rfl⟩


/-- C25: `NSimplicialAutGrp::groupPresentation`, on a `fullMap` of size `n` that
is sorted by `isoStruct::operator<` and closed under composition, returns a
presentation with `n` generators and `n * n` relators, and the relator of the
pair `(i, j)` is `g_i g_j g_k^-1` for a position `k` at which `fullMap` holds
the composite: for every top cell `c`, with `c'` the `pen` of
`fullMap[j].germ[c]`, the entry `fullMap[k].germ[c]` has the `pen` of
`fullMap[i].germ[c']` and as `perm` the index of the product of the
permutations of `fullMap[i].germ[c']` and `fullMap[j].germ[c]`. -/
theorem groupPresentation_relators (mulIndex : Nat → Nat → Nat) (fullMap : List isoStruct)
    (hsorted : fullMap.Pairwise (fun a b => b.lt a = false))
    (hclosed : ∀ fi ∈ fullMap, ∀ fj ∈ fullMap, ∀ f0, fullMap[0]? = some f0 →
      ∃ comp ∈ fullMap, compositeGerm mulIndex fi fj f0.germ.length = some comp) :
    ∃ P, groupPresentation mulIndex fullMap = some P ∧
      P.nGenerators = fullMap.length ∧
      P.relations.length = fullMap.length * fullMap.length ∧
      ∀ i j, i < fullMap.length → j < fullMap.length →
        ∃ k fi fj fk, P.relations[i * fullMap.length + j]? = some (relator i j k) ∧
          fullMap[i]? = some fi ∧ fullMap[j]? = some fj ∧ fullMap[k]? = some fk ∧
          ∀ c, c < fk.germ.length → ∃ gj gi, fj.germ[c]? = some gj ∧
            fi.germ[gj.1]? = some gi ∧
            fk.germ[c]? = some (gi.1, mulIndex gi.2 gj.2) := by
  have hloop := presentation_loop mulIndex fullMap hsorted hclosed (List.range fullMap.length)
    [] (fun i hi => List.mem_range.mp hi)
  rw [List.nil_append] at hloop
  refine ⟨⟨fullMap.length, (List.range fullMap.length).flatMap fun i =>
      (List.range fullMap.length).map
        fun j => relator i j (productIndex mulIndex fullMap i j)⟩,
    by simp only [groupPresentation, hloop, Option.map_some'], rfl, ?_, ?_⟩
  · show ((List.range fullMap.length).flatMap fun i => (List.range fullMap.length).map
        fun j => relator i j (productIndex mulIndex fullMap i j)).length = _
    rw [flatMap_rows_length fullMap.length
      (fun i j => relator i j (productIndex mulIndex fullMap i j)), List.length_range]
  · intro i j hi hj
    obtain ⟨-, hk, fi, fj, f0, ei, ej, e0, hcomp⟩ :=
      presentationStep_eval mulIndex fullMap hsorted hclosed i j hi hj []
    have ek : fullMap[productIndex mulIndex fullMap i j]?
        = some fullMap[productIndex mulIndex fullMap i j] := List.getElem?_eq_getElem hk
    rw [ek] at hcomp
    have hent := compositeGerm_entry mulIndex fi fj _ f0.germ.length hcomp
    refine ⟨productIndex mulIndex fullMap i j, fi, fj, _, ?_, ei, ej, ek, ?_⟩
    · show ((List.range fullMap.length).flatMap fun i => (List.range fullMap.length).map
          fun j => relator i j (productIndex mulIndex fullMap i j))[i * fullMap.length + j]?
            = _
      rw [flatMap_rows_entry fullMap.length
        (fun i j => relator i j (productIndex mulIndex fullMap i j)) j hj]
      simp [List.getElem?_range hi]
    · intro c hc
      exact hent.2 c (by rw [← hent.1]; exact hc)

/-- C25 on the group of order 2 acting on one top cell. -/
theorem groupPresentation_relators_witness :
    demoFullMap.Pairwise (fun a b => b.lt a = false) ∧
    (∀ fi ∈ demoFullMap, ∀ fj ∈ demoFullMap, ∀ f0, demoFullMap[0]? = some f0 →
      ∃ comp ∈ demoFullMap, compositeGerm demoMulIndex fi fj f0.germ.length = some comp) ∧
    ∃ P, groupPresentation demoMulIndex demoFullMap = some P ∧
      P.nGenerators = demoFullMap.length ∧
      P.relations.length = demoFullMap.length * demoFullMap.length ∧
      ∀ i j, i < demoFullMap.length → j < demoFullMap.length →
        ∃ k fi fj fk, P.relations[i * demoFullMap.length + j]? = some (relator i j k) ∧
          demoFullMap[i]? = some fi ∧ demoFullMap[j]? = some fj ∧
          demoFullMap[k]? = some fk ∧
          ∀ c, c < fk.germ.length → ∃ gj gi, fj.germ[c]? = some gj ∧
            fi.germ[gj.1]? = some gi ∧
            fk.germ[c]? = some (gi.1, demoMulIndex gi.2 gj.2) := by
  have hs : demoFullMap.Pairwise (fun a b => b.lt a = false) := by decide
  have hc : ∀ fi ∈ demoFullMap, ∀ fj ∈ demoFullMap, ∀ f0, demoFullMap[0]? = some f0 →
      ∃ comp ∈ demoFullMap, compositeGerm demoMulIndex fi fj f0.germ.length = some comp := by
    intro fi hfi fj hfj f0 h0
    have e0 : f0 = ⟨[(0, 0)]⟩ := by
      simp only [demoFullMap, List.getElem?_cons_zero, Option.some.injEq] at h0
      exact h0.symm
    subst e0
    simp only [demoFullMap, List.mem_cons, List.mem_singleton, List.not_mem_nil, or_false]
      at hfi hfj
    rcases hfi with rfl | rfl <;> rcases hfj with rfl | rfl
    · exact ⟨⟨[(0, 0)]⟩, by decide, by decide⟩
    · exact ⟨⟨[(0, 1)]⟩, by decide, by decide⟩
    · exact ⟨⟨[(0, 1)]⟩, by decide, by decide⟩
    · exact ⟨⟨[(0, 0)]⟩, by decide, by decide⟩
  exact ⟨hs, hc, groupPresentation_relators demoMulIndex demoFullMap hs hc⟩

/-- C26: `isValid()` accepts a facet with an empty class: for `dim = 1`,
`sdim = 1` and the classes `{}` and `{0, 1}` it returns true, although the
classes are not a partition of the vertex set `{0, 1}` into non-empty classes;
no check of the routine looks at the size of a class. -/
theorem isValid_accepts_empty_class :
    linearFacet.isValid ⟨1, 1, 0, [⟨[]⟩, ⟨[0, 1]⟩]⟩ = true ∧
    ¬linearFacet.IsVertexPartition ⟨1, 1, 0, [⟨[]⟩, ⟨[0, 1]⟩]⟩ ∧
    centroid.lt ⟨[]⟩ ⟨[0, 1]⟩ = true := by
  decide


/-- C27: for a tetrahedron `domFac` that the automorphism maps to itself with
the vertex permutation `p` (the images `a, b, c, d` of the vertices 0..3), the
facet that `fixedPoints` inserts has `sdim = 3`, `sindx = domFac` and the
cycles of `p` as its classes; its `dim` is the number of cycles minus 1 for
every permutation but the identity, where the code sets `dim = 0` with the four
singleton classes: `linearFacet F( 0, 3, domFac )` where the whole tetrahedron
is fixed. -/
theorem tetrahedronFacet_cycles (a b c d domFac : Nat) (ha : a < 4) (hb : b < 4) (hc : c < 4)
    (hd : d < 4) (hp : [a, b, c, d].Nodup) :
    ∃ F, tetrahedronFacet domFac ⟨[a, b, c, d]⟩ = some F ∧ F.sdim = 3 ∧ F.sindx = domFac ∧
      F.vCentres = cyclesOf ⟨[a, b, c, d]⟩ ∧
      ([a, b, c, d] ≠ [0, 1, 2, 3] → F.dim + 1 = F.vCentres.length) ∧
      ([a, b, c, d] = [0, 1, 2, 3] → F.dim = 0 ∧ F.vCentres = [⟨[0]⟩, ⟨[1]⟩, ⟨[2]⟩, ⟨[3]⟩] ∧
        F.isValid = false) := by
  have h0 := tetrahedronFacet_zero_cases a (List.mem_range.mpr ha) b (List.mem_range.mpr hb) c
    (List.mem_range.mpr hc) d (List.mem_range.mpr hd) hp
  rw [tetrahedronFacet_sindx]
  cases hF : tetrahedronFacet 0 ⟨[a, b, c, d]⟩ with
  | none =>
    rw [hF] at h0
    cases h0
  | some F =>
    rw [hF] at h0
    simp only [Option.map_some', Option.some.injEq, Prod.mk.injEq] at h0
    obtain ⟨h1, h2, h3, h4⟩ := h0
    refine ⟨{ F with sindx := domFac }, rfl, h1, rfl, h3, fun hne => ?_, fun he => ?_⟩
    · rw [if_neg hne] at h4
      show F.dim + 1 = F.vCentres.length
      rw [h4, h3]
    · rw [if_pos he] at h4
      have hdim : F.dim = 0 := by omega
      have hv : F.vCentres = [⟨[0]⟩, ⟨[1]⟩, ⟨[2]⟩, ⟨[3]⟩] := by
        rw [h3, he]
        rfl
      refine ⟨hdim, hv, ?_⟩
      unfold linearFacet.isValid
      simp only [hdim, hv]
      rfl

/-- Witness for `tetrahedronFacet_cycles`: the identity on the tetrahedron 7
gives a facet of dimension 0 with four classes, and through the loop of
`fixedPoints` the identity automorphism of a triangulation with one
tetrahedron inserts this facet, which `isValid` rejects. -/
theorem tetrahedronFacet_cycles_witness :
    (∃ F, tetrahedronFacet 7 ⟨[0, 1, 2, 3]⟩ = some F ∧ F.dim = 0 ∧ F.vCentres.length = 4 ∧
      F.isValid = false) ∧
    fixedPointsTetrahedron id id (fun _ => ⟨[0, 1, 2, 3]⟩) [(0, 0)] 0 =
      some (some ⟨0, 3, 0, [⟨[0]⟩, ⟨[1]⟩, ⟨[2]⟩, ⟨[3]⟩]⟩) := by
  obtain ⟨F, h, _, _, _, _, h2⟩ := tetrahedronFacet_cycles 0 1 2 3 7 (by decide) (by decide)
    (by decide) (by decide) (by decide)
  obtain ⟨h3, h4, h5⟩ := h2 rfl
  exact ⟨⟨F, h, h3, by rw [h4]; rfl, h5⟩, rfl⟩


/-- C28: `NMatrixField<T>::diagonaliseRow` over a field, for every matrix: the
matrix `M` returned is square of size `rows()`, this matrix keeps its size, and
`M * old = D` entry by entry, where `old` is this matrix before the call and
`D` this matrix after the call. -/
theorem diagonaliseRow_product {T : Type} [Field T] [DecidableEq T] (old : NMatrixField T) :
    (diagonaliseRow old).ans.nRows = old.nRows ∧
    (diagonaliseRow old).ans.nCols = old.nRows ∧
    ((diagonaliseRow old).ans.mul old).nRows = (diagonaliseRow old).cur.nRows ∧
    ((diagonaliseRow old).ans.mul old).nCols = (diagonaliseRow old).cur.nCols ∧
    ∀ (i : Fin old.nRows) (j : Fin old.nCols),
      ((diagonaliseRow old).ans.mul old).data i j = (diagonaliseRow old).cur.data i j := by
  obtain ⟨h1, h2, h3, h4, h5⟩ := product_diagonaliseLoop old _ (product_identity old)
  refine ⟨h1, h2, ?_, ?_, ?_⟩
  · exact h1.trans h3.symm
  · exact h4.symm
  · intro i j
    show ∑ k in Finset.range (diagonaliseRow old).ans.nCols,
      (diagonaliseRow old).ans.data i k * old.data k j = _
    rw [show (diagonaliseRow old).ans.nCols = old.nRows from h2]
    exact h5 i j i.isLt j.isLt

/-- C29: `NMatrixField<T>::diagonaliseRow` returns for every matrix (the routine
is a total function), and afterwards the columns in which a pivot was chosen
increase strictly from one pivot to the next, the pivot number `k` lies in row
`k` and in a column of the matrix, its entry is one and every other entry of
its column is zero. -/
theorem diagonaliseRow_pivots {T : Type} [Field T] [DecidableEq T] (old : NMatrixField T) :
    (diagonaliseRow old).pivots.Pairwise (fun a b => a < b) ∧
    (diagonaliseRow old).pivots.length = (diagonaliseRow old).doneRow ∧
    ∀ (k : Fin (diagonaliseRow old).pivots.length),
      k.val < old.nRows ∧ (diagonaliseRow old).pivots.get k < old.nCols ∧
      (diagonaliseRow old).cur.data k ((diagonaliseRow old).pivots.get k) = 1 ∧
      ∀ (i : Fin old.nRows), i.val ≠ k.val →
        (diagonaliseRow old).cur.data i ((diagonaliseRow old).pivots.get k) = 0 := by
  obtain ⟨h1, _, h3, h4, h5, h6, h7, h8⟩ :=
    pivots_diagonaliseLoop old.nRows old.nCols _ (pivots_identity old)
  refine ⟨h7, h3, ?_⟩
  intro k
  have hk : (diagonaliseRow old).pivots[k.val]? = some ((diagonaliseRow old).pivots.get k) :=
    List.getElem?_eq_getElem k.isLt
  have hdone := h8 k.val _ hk
  refine ⟨?_, ?_, hdone.1, ?_⟩
  · have := k.isLt
    have h3b : (diagonaliseRow old).pivots.length = (diagonaliseRow old).doneRow := h3
    have h4b : (diagonaliseRow old).doneRow ≤ old.nRows := h4
    omega
  · have h5b : (diagonaliseRow old).doneCol ≤ old.nCols := h5
    exact lt_of_lt_of_le (h6 _ (List.get_mem _ _ _)) h5b
  · intro i hik
    exact hdone.2 i.val (lt_of_lt_of_eq i.isLt h1.symm) hik


/-- C30: `signature()` returns 0 for a 3-manifold and for a non-orientable
4-manifold, the caches being left as they are (no form is resolved); for an
orientable 4-manifold it returns `signature()` of the form that `bilinearForm`
returns for the locator of the intersection form on the second homology in
`DUAL` coordinates with integer coefficients, and this form is returned in
every state that the caches can be in (the chain complexes and chain maps
being at hand in the dimensions 2 and 0). -/
theorem signature_cases (D : NCellularData) (formSignature : NBilinearForm → Int)
    (c : Caches) :
    (∀ o, D.tri = .tri3 o → signature D formSignature c = .ok 0 c) ∧
    (D.tri = .tri4 false → signature D formSignature c = .ok 0 c) ∧
    (D.tri = .tri4 true → ∀ b c1, bilinearForm D signatureRequest c = .ok (some b) c1 →
      signature D formSignature c = .ok (formSignature b) c1) ∧
    (D.tri = .tri4 true → c.Reachable D →
      ∀ m1 m2 m3 A B A1 B1 A2 B2 A3 B3 A5 B5 : NMatrixInt,
      D.strCM[2]? = some m1 → D.smCM[2]? = some m2 → D.dmCM[2]? = some m3 →
      chainPair D STD_coord 2 = some (A, B) →
      chainPair D STD_REL_BDRY_coord 2 = some (A1, B1) →
      chainPair D MIX_coord 2 = some (A2, B2) →
      chainPair D DUAL_coord 2 = some (A3, B3) →
      chainPair D MIX_coord 0 = some (A5, B5) →
      ∃ b c1, bilinearForm D signatureRequest c = .ok (some b) c1 ∧
        signature D formSignature c = .ok (formSignature b) c1) := by
  have key : D.tri = .tri4 true → ∀ b c1, bilinearForm D signatureRequest c = .ok (some b) c1 →
      signature D formSignature c = .ok (formSignature b) c1 := by
    intro h b c1 hb
    unfold signature
    unfold signatureRequest at hb
    simp only [h, Bool.true_eq_false, if_false, Eval.bind_apply, hb, deref, Eval.pure_apply]
  refine ⟨?_, ?_, key, ?_⟩
  · intro o h
    unfold signature
    simp only [h]
  · intro h
    unfold signature
    simp only [h, if_true]
  · intro h hreach m1 m2 m3 A B A1 B1 A2 B2 A3 B3 A5 B5 hm1 hm2 hm3 hps hpb hpx hpd hpm
    have hD : D.aDim = 4 := by
      unfold NCellularData.aDim
      rw [h]
    have ho : D.orientable = true := by
      unfold NCellularData.orientable
      rw [h]
    obtain ⟨hg, hsub⟩ := intersectionGuard_of D signatureRequest rfl rfl rfl rfl
      (by decide) (by decide) (by rw [hD]; decide) (by rw [hD]; decide)
    obtain ⟨b, c1, hb⟩ := bilinearForm_dual_dual D signatureRequest c m1 m2 m3 A B A1 B1 A2 B2
      A3 B3 A3 B3 A5 B5 hreach hg rfl rfl
      (fun hn => by
        rw [ho] at hn
        cases hn.2)
      (by rw [hD]; decide) hm1 hm2 hm3 hps hpb hpx hpd hpd
      (by
        rw [hsub, hD]
        exact hpm)
    exact ⟨b, c1, hb, key h b c1 hb⟩

/-- Witness for `signature_cases`: on the demonstration data of dimension 3
and on the non-orientable data of dimension 4 the signature is 0 with empty
caches before and after; on the orientable data of dimension 4 the call
resolves the form and returns its signature. -/
theorem signature_cases_witness :
    signature (demoData true) (fun _ => 7) Caches.empty = .ok 0 Caches.empty ∧
    signature (demoData4 false) (fun _ => 7) Caches.empty = .ok 0 Caches.empty ∧
    ∃ b c1, bilinearForm (demoData4 true) signatureRequest Caches.empty = .ok (some b) c1 ∧
      signature (demoData4 true) (fun _ => 7) Caches.empty = .ok 7 c1 :=
  ⟨(signature_cases (demoData true) (fun _ => 7) Caches.empty).1 true rfl,
    (signature_cases (demoData4 false) (fun _ => 7) Caches.empty).2.1 rfl,
    (signature_cases (demoData4 true) (fun _ => 7) Caches.empty).2.2.2 rfl .fresh
      _ _ _ _ _ _ _ _ _ _ _ _ _ rfl rfl rfl rfl rfl rfl rfl rfl⟩


/-- C31: for a tetrahedron `domFac` of a 3-manifold triangulation that the
automorphism maps to itself with the vertex permutation `p` (the images
`a, b, c, d` of the vertices 0..3), `fixedPoints` inserts a facet, and
`isValid()` accepts this facet for every permutation but the identity: for the
identity the facet has `dim = 0` and four classes, and `isValid()` returns
false. -/
theorem fixedPoints_tetrahedron_valid (a b c d domFac : Nat) (ha : a < 4) (hb : b < 4)
    (hc : c < 4) (hd : d < 4) (hp : [a, b, c, d].Nodup) :
    ∃ F, tetrahedronFacet domFac ⟨[a, b, c, d]⟩ = some F ∧
      ([a, b, c, d] ≠ [0, 1, 2, 3] → F.isValid = true) ∧
      ([a, b, c, d] = [0, 1, 2, 3] → F.isValid = false ∧ F.dim = 0 ∧
        F.vCentres.length = 4) := by
  have h0 := tetrahedronFacet_zero_valid a (List.mem_range.mpr ha) b (List.mem_range.mpr hb) c
    (List.mem_range.mpr hc) d (List.mem_range.mpr hd) hp
  rw [tetrahedronFacet_sindx]
  cases hF : tetrahedronFacet 0 ⟨[a, b, c, d]⟩ with
  | none =>
    rw [hF] at h0
    cases h0
  | some F =>
    rw [hF] at h0
    simp only [Option.map_some', Option.some.injEq] at h0
    refine ⟨{ F with sindx := domFac }, rfl, fun hne => ?_, fun he => ?_⟩
    · rw [isValid_sindx, h0]
      exact decide_eq_true hne
    · have hv : F.isValid = false := by
        rw [h0]
        exact decide_eq_false (not_not.mpr he)
      simp only [List.cons.injEq, and_true] at he
      obtain ⟨rfl, rfl, rfl, rfl⟩ := he
      have e : F = ⟨0, 3, 0, [⟨[0]⟩, ⟨[1]⟩, ⟨[2]⟩, ⟨[3]⟩]⟩ := by
        have h1 : tetrahedronFacet 0 ⟨[0, 1, 2, 3]⟩
            = some ⟨0, 3, 0, [⟨[0]⟩, ⟨[1]⟩, ⟨[2]⟩, ⟨[3]⟩]⟩ := rfl
        rw [h1] at hF
        exact (Option.some.inj hF).symm
      subst e
      exact ⟨hv, rfl, rfl⟩

/-- Witness for `fixedPoints_tetrahedron_valid`: for the identity automorphism
of a triangulation with one tetrahedron the pass of the loop of `fixedPoints`
over this tetrahedron inserts a facet that `isValid` rejects. -/
theorem fixedPoints_tetrahedron_valid_witness :
    ∃ F, fixedPointsTetrahedron id id (fun _ => ⟨[0, 1, 2, 3]⟩) [(0, 0)] 0 = some (some F) ∧
      F.isValid = false ∧ F.dim = 0 ∧ F.vCentres.length = 4 := by
  obtain ⟨F, h, _, h2⟩ := fixedPoints_tetrahedron_valid 0 1 2 3 0 (by decide) (by decide)
    (by decide) (by decide) (by decide)
  exact ⟨F, by rw [← h]; rfl, h2 rfl⟩


/-- C32: in every state that the caches can be in, a variance-preserving
request for which `homGroup` returns a homomorphism is a subdivision request,
or relates equal dimensions, or is the connecting map of the pair with
`domain.dim = range.dim + 1` (covariant) or `domain.dim + 1 = range.dim`
(contravariant).  A subdivision request is resolved whatever `range.dim` is:
with the chain complexes of both ends at hand the request `STD(d) -> MIX(e)`
or `DUAL(d) -> MIX(e)` returns the homomorphism built from the matrix of
dimension `d`, also for `d != e`. -/
theorem homGroup_preserving_dims (D : NCellularData) (h : HomLocator) (c : Caches)
    (hreach : c.Reachable D) (hv : h.domain.var = h.range.var) :
    (∀ f c1, homGroup D h c = .ok (some f) c1 →
      (subdivisionSelect D h).isSome = true ∨ h.domain.dim = h.range.dim ∨
      (h.domain.var = coVariant ∧ h.domain.dim = h.range.dim + 1) ∨
      (h.domain.var = contraVariant ∧ h.domain.dim + 1 = h.range.dim)) ∧
    (∀ (v : List NMatrixInt) (i : Nat) (t : Bool) (m A B A1 B1 : NMatrixInt),
      h.domain.dim ≤ D.aDim ∧ h.range.dim ≤ D.aDim →
      h.range.cof = 0 ∨ h.domain.cof % h.range.cof = 0 →
      subdivisionSelect D h = some (v, i, t) → v[i]? = some m →
      chainPair D h.domain.hcs h.domain.dim = some (A, B) →
      chainPair D h.range.hcs h.range.dim = some (A1, B1) →
      ∃ dom ran c1, homGroup D h c = .ok (some (.ofMatrix dom ran (selectedMatrix m t))) c1) := by
  have key : ∀ CM c1, h.domain.dim ≤ D.aDim ∧ h.range.dim ≤ D.aDim →
      homGroup_chainMap D h c = .ok (some CM) c1 →
      (subdivisionSelect D h).isSome = true ∨ h.domain.dim = h.range.dim ∨
      (h.domain.var = coVariant ∧ h.domain.dim = h.range.dim + 1) ∨
      (h.domain.var = contraVariant ∧ h.domain.dim + 1 = h.range.dim) := by
    intro CM c1 hdim hCM
    have ha := D.aDim_eq
    have e1 : uadd h.range.dim 1 = h.range.dim + 1 := uadd_small _ _ (by omega) (by omega)
    have e2 : uadd h.domain.dim 1 = h.domain.dim + 1 := uadd_small _ _ (by omega) (by omega)
    rcases homGroup_chainMap_dims D h c c1 CM hv hCM with hs | hs | hs | hs
    · exact Or.inl hs
    · exact Or.inr (Or.inl hs)
    · exact Or.inr (Or.inr (Or.inl ⟨hs.1, by rw [← e1]; exact hs.2.2.2⟩))
    · exact Or.inr (Or.inr (Or.inr ⟨hs.1, by rw [← e2]; exact hs.2.2.2⟩))
  refine ⟨?_, ?_⟩
  · intro f c1 hr
    rcases homGroup_inv D h c c1 _ hr with ⟨f1, hf, _, _⟩ | ⟨_, hn, _⟩ | ⟨_, hn, _⟩ |
      ⟨_, hdim, _, CM, c2, _, _, _, _, hCM, _⟩
    · obtain ⟨hdim, _, dom, ran, CM, _, h1, _, h3⟩ := hreach.homSound h f1 hf
      exact key CM c hdim (h3 c h1)
    · cases hn
    · cases hn
    · exact key CM c2 hdim hCM
  · intro v i t m A B A1 B1 hdim hcof hs hm hd hr
    have hcm := homGroup_chainMap_subdivision D h c v i t m hs hm
    obtain ⟨dom, ran, _, _, c4, _, _, h3⟩ := homGroup_resolved D h c c _ A B A1 B1 hreach
      hdim hcof hcm hd hr
    exact ⟨dom, ran, c4, h3⟩

/-- Witness for `homGroup_preserving_dims`: on the demonstration data the
covariant request `STD(1) -> MIX(2)` returns a homomorphism, built from the
subdivision matrix `smCM[1]`. -/
theorem homGroup_preserving_dims_witness :
    ∃ dom ran c1, homGroup (demoData true)
        ⟨⟨1, coVariant, STD_coord, 0⟩, ⟨2, coVariant, MIX_coord, 0⟩⟩ Caches.empty =
        .ok (some (.ofMatrix dom ran demoSub)) c1 ∧
      (⟨1, coVariant, STD_coord, 0⟩ : GroupLocator).dim ≠
        (⟨2, coVariant, MIX_coord, 0⟩ : GroupLocator).dim := by
  obtain ⟨dom, ran, c1, h⟩ := (homGroup_preserving_dims (demoData true)
    ⟨⟨1, coVariant, STD_coord, 0⟩, ⟨2, coVariant, MIX_coord, 0⟩⟩ Caches.empty
    Caches.Reachable.fresh rfl).2 (demoData true).smCM 1 false demoSub _ _ _ _ (by decide)
    (Or.inl rfl) rfl rfl rfl rfl
  exact ⟨dom, ran, c1, h, by decide⟩


/-- C33: in every state that the caches can be in, the canonical request for
the torsion linking form (both groups being at hand, the loops reading their
vectors within range, the invariant factors that the library reports being
positive) returns a form with the modulus `N` whose tensor has every entry at
a position `(i, j, 0)` with `i` and `j` below the numbers of invariant factors
of the left and the right group, with a value `v` such that `0 < v < N`. -/
theorem linkingForm_entries (D : NCellularData) (f : FormLocator) (c : Caches)
    (A B A1 B1 : NMatrixInt) (T : NSparseGridRing) (hreach : c.Reachable D)
    (hft : f.ft = torsionlinkingForm) (hvl : f.ldomain.var = coVariant)
    (hvr : f.rdomain.var = coVariant) (hl : f.ldomain.hcs = DUAL_coord)
    (hr : f.rdomain.hcs = STD_REL_BDRY_coord) (hcl : f.ldomain.cof = 0)
    (hcr : f.rdomain.cof = 0) (hl0 : 0 < f.ldomain.dim) (hr0 : 0 < f.rdomain.dim)
    (hdim : f.ldomain.dim + f.rdomain.dim + 1 = D.aDim)
    (hpos : ∀ G i, 0 < D.getInvariantFactor G i)
    (hpl : chainPair D DUAL_coord f.ldomain.dim = some (A, B))
    (hpr : chainPair D STD_REL_BDRY_coord f.rdomain.dim = some (A1, B1))
    (hT : linkingTensor D (builtMarked f.ldomain A B) (builtMarked f.rdomain A1 B1)
      (linkingModulus D (builtMarked f.ldomain A B) (builtMarked f.rdomain A1 B1)
        (torsionSubgroup D (builtMarked f.ldomain A B))
        (torsionSubgroup D (builtMarked f.rdomain A1 B1))) f.ldomain.dim = some T) :
    ∃ ld rd cl cr lT rT N c1,
      markedGroup D f.ldomain c = .ok (some ld) cl ∧
      markedGroup D f.rdomain c = .ok (some rd) cr ∧
      bilinearForm D f c = .ok (some (.ofTensor lT rT (.ofRank 1 N) T)) c1 ∧
      0 < N ∧
      ∀ e ∈ T.grid, ∃ i j, e.1 = [i, j, 0] ∧ i < D.getNumberOfInvariantFactors ld ∧
        j < D.getNumberOfInvariantFactors rd ∧ 0 < e.2 ∧ e.2 < N := by
  have hg := linkingGuard_of D f hft hvl hvr hcl hcr hl0 hr0 hdim
  rw [← hl] at hpl
  rw [← hr] at hpr
  obtain ⟨cl, hml, _⟩ := markedGroup_reachable D f.ldomain c A B hreach hpl
  obtain ⟨cr, hmr, _⟩ := markedGroup_reachable D f.rdomain c A1 B1 hreach hpr
  obtain ⟨c1, h⟩ := bilinearForm_linking_any D f c A B A1 B1 T hreach hg hl hr hpl hpr hT
  have hN := linkingModulus_pos D (builtMarked f.ldomain A B) (builtMarked f.rdomain A1 B1)
    (torsionSubgroup D (builtMarked f.ldomain A B))
    (torsionSubgroup D (builtMarked f.rdomain A1 B1)) hpos
  exact ⟨_, _, cl, cr, _, _, _, c1, hml, hmr, h, hN, linkingTensor_entries D _ _ _ _ T hN hT⟩

/-- Witness for `linkingForm_entries`: on the data with torsion the tensor of
the torsion linking form has the one entry 3 at the position (0, 0, 0), and
the modulus is 5. -/
theorem linkingForm_entries_witness :
    ∃ lT rT N c1,
      bilinearForm linkData linkRequest Caches.empty =
        .ok (some (.ofTensor lT rT (.ofRank 1 N) ⟨[([0, 0, 0], 3)]⟩)) c1 ∧
      0 < N ∧
      ∀ e ∈ [(([0, 0, 0] : List Nat), (3 : Int))], ∃ i j, e.1 = [i, j, 0] ∧ i < 1 ∧ j < 1 ∧
        0 < e.2 ∧ e.2 < N := by
  obtain ⟨ld, rd, _, _, lT, rT, N, c1, _, _, h, hN, hT⟩ := linkingForm_entries linkData
    linkRequest Caches.empty _ _ _ _ ⟨[([0, 0, 0], 3)]⟩ .fresh rfl rfl rfl rfl rfl rfl rfl
    (by decide) (by decide) rfl (fun _ _ => by show (0 : Int) < 5; decide) rfl rfl rfl
  exact ⟨lT, rT, N, c1, h, hN, hT⟩


/-- C34: for a well formed face pairing (every face unmatched or matched in
both directions), `hasTripleEdge()` returns true if and only if there are
tetrahedra `t < u` such that at least three faces of `t` are paired with faces
of `u`. -/
theorem hasTripleEdge_iff (p : NFacePairing) (hwf : p.WellFormed) :
    p.hasTripleEdge = true ↔
      ∃ t u : Nat, t < u ∧ u < p.nTetrahedra ∧ 3 ≤ p.facesTo t u := by
  unfold NFacePairing.hasTripleEdge
  rw [List.any_eq_true]
  have key : ∀ t, t < p.nTetrahedra →
      (3 ≤ tripleEdgeCount p t ↔ ∃ u : Nat, t < u ∧ u < p.nTetrahedra ∧ 3 ≤ p.facesTo t u) := by
    intro t ht
    rw [tripleEdgeCount_eq]
    simp only [wellFormed_later p hwf t 0 ht (by decide),
      wellFormed_later p hwf t 1 ht (by decide), wellFormed_later p hwf t 2 ht (by decide)]
    rw [tripleEdge_pure]
    constructor
    · rintro ⟨u, h1, h2, h3⟩
      obtain ⟨k, rfl⟩ := Int.eq_ofNat_of_zero_le (by omega : 0 ≤ u)
      refine ⟨k, by omega, by omega, ?_⟩
      rw [facesTo_eq p t k h2]
      exact h3
    · rintro ⟨u, h1, h2, h3⟩
      refine ⟨u, by omega, by omega, ?_⟩
      rw [facesTo_eq p t u (by omega)] at h3
      exact h3
  constructor
  · rintro ⟨t, ht, h⟩
    have ht2 := List.mem_range.mp ht
    obtain ⟨u, h1, h2, h3⟩ := (key t ht2).mp (of_decide_eq_true h)
    exact ⟨t, u, h1, h2, h3⟩
  · rintro ⟨t, u, h1, h2, h3⟩
    have ht : t < p.nTetrahedra := by omega
    exact ⟨t, List.mem_range.mpr ht, decide_eq_true ((key t ht).mpr ⟨u, h1, h2, h3⟩)⟩

set_option maxRecDepth 100000 in
/-- Witness for `hasTripleEdge_iff`: a well formed pairing of two tetrahedra
along three faces has a triple edge, a well formed pairing along two faces has
none. -/
theorem hasTripleEdge_iff_witness :
    demoTriple.WellFormed ∧ demoTriple.hasTripleEdge = true ∧
    (∃ t u : Nat, t < u ∧ u < demoTriple.nTetrahedra ∧ 3 ≤ demoTriple.facesTo t u) ∧
    demoDouble.WellFormed ∧ demoDouble.hasTripleEdge = false ∧
    ¬∃ t u : Nat, t < u ∧ u < demoDouble.nTetrahedra ∧ 3 ≤ demoDouble.facesTo t u := by
  have w1 : demoTriple.WellFormed := by
    intro t ht f hf
    have ht2 : t < 2 := ht
    interval_cases t <;> interval_cases f <;> decide
  have w2 : demoDouble.WellFormed := by
    intro t ht f hf
    have ht2 : t < 2 := ht
    interval_cases t <;> interval_cases f <;> decide
  have h2 : demoDouble.hasTripleEdge = false := by decide
  refine ⟨w1, by decide, (hasTripleEdge_iff demoTriple w1).mp (by decide), w2, h2, ?_⟩
  intro h
  rw [← hasTripleEdge_iff demoDouble w2, h2] at h
  cases h


/-- C35: for every well formed face pairing `p` on `n >= 1` tetrahedra (every
face sent to the boundary marker `(n, 0)` or matched in both directions),
`fromTextRep(toTextRep(p))` returns a face pairing on `n` tetrahedra in which
every face has the destination that it has in `p`. -/
theorem fromTextRep_toTextRep (p : NFacePairing) (hn : 1 ≤ p.nTetrahedra)
    (hwf : p.WellFormed) :
    ∃ q, fromTextRep p.toTextRep = some q ∧ q.nTetrahedra = p.nTetrahedra ∧
      ∀ t, t < p.nTetrahedra → ∀ f, f < 4 → q.dest t f = p.dest t f := by
  have hr := wellFormed_ranges p hwf
  have htok : basicTokenise p.toTextRep = pairTokens p (4 * p.nTetrahedra) := by
    rw [toTextRep_eq]
    exact basicTokenise_joinTokens _
      (pairTokens_tokens p _ (fun i hi => ⟨(hr i hi).1, (hr i hi).2.2.1⟩))
  have hlen := pairTokens_length p (4 * p.nTetrahedra)
  have hdiv : 2 * (4 * p.nTetrahedra) / 8 = p.nTetrahedra := by omega
  have hread := readPairs_pairTokens p (4 * p.nTetrahedra) p.nTetrahedra hr
    (List.range (p.nTetrahedra * 4)) (fun i hi => by have := List.mem_range.mp hi; omega)
  have hq : ∀ i, i < 4 * p.nTetrahedra →
      (NFacePairing.ofList p.nTetrahedra ((List.range (p.nTetrahedra * 4)).map p.pairs)).pairs i
        = p.pairs i :=
    fun i hi => ofList_pairs _ _ _ i (by omega)
  have hbroken : (allFaces p.nTetrahedra).any
      (brokenAt (NFacePairing.ofList p.nTetrahedra
        ((List.range (p.nTetrahedra * 4)).map p.pairs)) p.nTetrahedra) = false := by
    rw [List.any_eq_false]
    intro f hf
    unfold allFaces at hf
    rw [List.mem_map] at hf
    obtain ⟨i, hi, rfl⟩ := hf
    have hi2 : i < 4 * p.nTetrahedra := List.mem_range.mp hi
    have e : p.dest (i / 4) (i % 4) = p.pairs i := by
      unfold NFacePairing.dest
      congr 1
      omega
    have hw := hwf (i / 4) (by omega) (i % 4) (Nat.mod_lt _ (by decide))
    rw [e] at hw
    unfold brokenAt
    simp only [destOf_face, hq i hi2]
    rcases hw with hw | hw
    · rw [hw]
      simp
    · have hidx : 4 * (p.pairs i).tet.toNat + (p.pairs i).face.toNat < 4 * p.nTetrahedra := by
        omega
      have hd : (NFacePairing.ofList p.nTetrahedra
          ((List.range (p.nTetrahedra * 4)).map p.pairs)).destOf (p.pairs i)
            = p.destOf (p.pairs i) := hq _ hidx
      rw [hd, hw.2.2.2.2]
      rw [if_neg (fun h => by omega)]
      simp
  refine ⟨NFacePairing.ofList p.nTetrahedra ((List.range (p.nTetrahedra * 4)).map p.pairs),
    ?_, rfl, ?_⟩
  · unfold fromTextRep
    simp only [htok, hlen, hdiv, hread]
    rw [if_neg (by omega), hbroken]
    rfl
  · intro t ht f hf
    exact hq (4 * t + f) (by omega)

/-- Witness for `fromTextRep_toTextRep`: the pairing of two tetrahedra along
three faces is read back from its text. -/
theorem fromTextRep_toTextRep_witness :
    1 ≤ demoTriple.nTetrahedra ∧ demoTriple.WellFormed ∧
    ∃ q, fromTextRep demoTriple.toTextRep = some q ∧ q.nTetrahedra = 2 ∧
      ∀ t, t < 2 → ∀ f, f < 4 → q.dest t f = demoTriple.dest t f := by
  have w1 : demoTriple.WellFormed := by
    intro t ht f hf
    have ht2 : t < 2 := ht
    interval_cases t <;> interval_cases f <;> decide
  exact ⟨by decide, w1, fromTextRep_toTextRep demoTriple (by decide) w1⟩


/-- C36: `a.joinTo(f, b, g)` under its asserted preconditions (face `f` of `a`
is unglued or glued to `b` by `g` already; the two tetrahedra are in one
triangulation once the one without a triangulation is added to that of the
other; face `g[f]` of `b` is unglued or glued to `a` by the inverse of `g`
already; `b` is not `a` with `g[f] = f`) returns, and afterwards face `f` of
`a` is glued to `b` with the permutation `g` and face `g[f]` of `b` is glued to
`a` with the inverse of `g`; `a.unjoin(f)` then returns `b` and leaves these
two faces unglued, while every other face of every tetrahedron has the
adjacent tetrahedron and the permutation that it had before `joinTo`. -/
theorem joinTo_unjoin (h : TetHeap) (a b f : Nat) (g : NPerm4)
    (h1 : (h a).tetrahedra f = none ∨
      ((h a).tetrahedra f = some b ∧ (h a).tetrahedronPerm f = g))
    (h2 : (h a).tri = (h b).tri ∨ (h a).tri = none ∨ (h b).tri = none)
    (h3 : (h b).tetrahedra (g.image f) = none ∨
      ((h b).tetrahedra (g.image f) = some a ∧ (h b).tetrahedronPerm (g.image f) = g.inverse))
    (h4 : ¬ (b = a ∧ g.image f = f)) :
    ∃ s, joinTo h a f b g = some s ∧
      (s a).tetrahedra f = some b ∧ (s a).tetrahedronPerm f = g ∧
      (s b).tetrahedra (g.image f) = some a ∧ (s b).tetrahedronPerm (g.image f) = g.inverse ∧
      ∃ s2, unjoin s a f = some (b, s2) ∧
        (s2 a).tetrahedra f = none ∧ (s2 b).tetrahedra (g.image f) = none ∧
        ∀ x k, ¬ (x = a ∧ k = f) → ¬ (x = b ∧ k = g.image f) →
          (s x).tetrahedra k = (h x).tetrahedra k ∧
          (s x).tetrahedronPerm k = (h x).tetrahedronPerm k ∧
          (s2 x).tetrahedra k = (h x).tetrahedra k ∧
          (s2 x).tetrahedronPerm k = (h x).tetrahedronPerm k := by
  obtain ⟨s0, hs0, htri, hsame⟩ := joinTo_triangulation h a b h2
  have rT : ∀ x k, (s0 x).tetrahedra k = (h x).tetrahedra k := fun x k => by rw [(hsame x).1]
  have rP : ∀ x k, (s0 x).tetrahedronPerm k = (h x).tetrahedronPerm k :=
    fun x k => by rw [(hsame x).2]
  have h3b : (((s0.setAdjacent a f (some b)).setPerm a f g) b).tetrahedra (g.image f) = none ∨
      ((((s0.setAdjacent a f (some b)).setPerm a f g) b).tetrahedra (g.image f) = some a ∧
        (((s0.setAdjacent a f (some b)).setPerm a f g) b).tetrahedronPerm (g.image f)
          = g.inverse) := by
    rw [setPerm_tetrahedra, setAdjacent_tetrahedra, setPerm_perm, setAdjacent_perm, rT, rP,
      if_neg h4, if_neg h4]
    exact h3
  have hjoin : joinTo h a f b g = some
      ((((s0.setAdjacent a f (some b)).setPerm a f g).setAdjacent b (g.image f)
        (some a)).setPerm b (g.image f) g.inverse) := by
    unfold joinTo
    rw [if_neg (not_not.mpr h1)]
    simp only [hs0]
    rw [if_neg (not_not.mpr htri), if_neg (not_not.mpr h3b), if_neg h4]
  have e1 : ∀ x k, (((((s0.setAdjacent a f (some b)).setPerm a f g).setAdjacent b (g.image f)
      (some a)).setPerm b (g.image f) g.inverse) x).tetrahedra k =
      if x = b ∧ k = g.image f then some a
      else if x = a ∧ k = f then some b else (h x).tetrahedra k := by
    intro x k
    rw [setPerm_tetrahedra, setAdjacent_tetrahedra, setPerm_tetrahedra, setAdjacent_tetrahedra,
      rT]
  have e2 : ∀ x k, (((((s0.setAdjacent a f (some b)).setPerm a f g).setAdjacent b (g.image f)
      (some a)).setPerm b (g.image f) g.inverse) x).tetrahedronPerm k =
      if x = b ∧ k = g.image f then g.inverse
      else if x = a ∧ k = f then g else (h x).tetrahedronPerm k := by
    intro x k
    rw [setPerm_perm, setAdjacent_perm, setPerm_perm, setAdjacent_perm, rP]
  have hab : ¬ (a = b ∧ f = g.image f) := fun e => h4 ⟨e.1.symm, e.2.symm⟩
  have ha1 := e1 a f
  rw [if_neg hab, if_pos ⟨rfl, rfl⟩] at ha1
  have ha2 := e2 a f
  rw [if_neg hab, if_pos ⟨rfl, rfl⟩] at ha2
  have hb1 := e1 b (g.image f)
  rw [if_pos ⟨rfl, rfl⟩] at hb1
  have hb2 := e2 b (g.image f)
  rw [if_pos ⟨rfl, rfl⟩] at hb2
  refine ⟨_, hjoin, ha1, ha2, hb1, hb2, ?_⟩
  · refine ⟨(((((s0.setAdjacent a f (some b)).setPerm a f g).setAdjacent b (g.image f)
        (some a)).setPerm b (g.image f) g.inverse).setAdjacent b (g.image f) none).setAdjacent
          a f none, ?_, ?_, ?_, ?_⟩
    · unfold unjoin
      simp only [ha1, ha2, hb1]
      rfl
    · rw [setAdjacent_tetrahedra, if_pos ⟨rfl, rfl⟩]
    · rw [setAdjacent_tetrahedra, if_neg h4, setAdjacent_tetrahedra, if_pos ⟨rfl, rfl⟩]
    · intro x k hx1 hx2
      refine ⟨?_, ?_, ?_, ?_⟩
      · rw [e1, if_neg hx2, if_neg hx1]
      · rw [e2, if_neg hx2, if_neg hx1]
      · rw [setAdjacent_tetrahedra, setAdjacent_tetrahedra, e1, if_neg hx1, if_neg hx2,
          if_neg hx2, if_neg hx1]
      · rw [setAdjacent_perm, setAdjacent_perm, e2, if_neg hx2, if_neg hx1]

/-- Witness for `joinTo_unjoin`: face 0 of the tetrahedron 0 is joined to the
tetrahedron 1 by the permutation that exchanges 0 and 1; face 1 of the
tetrahedron 1 is then glued to the tetrahedron 0, and `unjoin` returns the
tetrahedron 1. -/
theorem joinTo_unjoin_witness :
    ∃ s, joinTo demoHeap 0 0 1 ⟨[1, 0, 2, 3]⟩ = some s ∧
      (s 0).tetrahedra 0 = some 1 ∧ (s 1).tetrahedra 1 = some 0 ∧
      (s 1).tetrahedronPerm 1 = ⟨[1, 0, 2, 3]⟩ ∧
      ∃ s2, unjoin s 0 0 = some (1, s2) ∧ (s2 0).tetrahedra 0 = none ∧
        (s2 1).tetrahedra 1 = none := by
  obtain ⟨s, h1, h2, _, h4, h5, s2, h6, h7, h8, _⟩ := joinTo_unjoin demoHeap 0 1 0
    ⟨[1, 0, 2, 3]⟩ (Or.inl rfl) (Or.inl rfl) (Or.inl rfl) (by decide)
  exact ⟨s, h1, h2, h4, h5, s2, h6, h7, h8⟩

/-- C37: `isoStruct::operator<` is a strict total order: it is irreflexive and
transitive, and of `a < b`, `b < a` and `a = b` (the same length and the same
`(pen, perm)` at every index) exactly one holds; and on a vector sorted by it
the position that `lower_bound` gives splits the vector into the elements less
than the value and the elements not less than it, and is a position of the
value if the vector holds it. -/
theorem isoStruct_lt_strict_total :
    (∀ a : isoStruct, a.lt a = false) ∧
    (∀ a b c : isoStruct, a.lt b = true → b.lt c = true → a.lt c = true) ∧
    (∀ a b : isoStruct,
      (a.lt b = true ∧ b.lt a = false ∧ a ≠ b) ∨
      (a.lt b = false ∧ b.lt a = true ∧ a ≠ b) ∨
      (a.lt b = false ∧ b.lt a = false ∧ a = b)) ∧
    (∀ a b : isoStruct, a = b ↔
      a.germ.length = b.germ.length ∧ ∀ i : Nat, a.germ[i]? = b.germ[i]?) ∧
    (∀ (v : List isoStruct) (x : isoStruct), v.Pairwise (fun a b => b.lt a = false) →
      (∀ e ∈ v.take (lowerBound v x), e.lt x = true) ∧
      (∀ e ∈ v.drop (lowerBound v x), e.lt x = false) ∧
      (x ∈ v → v[lowerBound v x]? = some x)) := by
  refine ⟨isoStruct.lt_irrefl, isoStruct_lt_trans, ?_, ?_, ?_⟩
  · intro a b
    cases hab : a.lt b with
    | true =>
      refine Or.inl ⟨rfl, isoStruct_lt_asymm a b hab, fun e => ?_⟩
      rw [e, isoStruct.lt_irrefl] at hab
      cases hab
    | false =>
      cases hba : b.lt a with
      | true =>
        refine Or.inr (Or.inl ⟨rfl, rfl, fun e => ?_⟩)
        rw [e, isoStruct.lt_irrefl] at hba
        cases hba
      | false => exact Or.inr (Or.inr ⟨rfl, rfl, isoStruct.lt_trichotomy a b hab hba⟩)
  · intro a b
    constructor
    · rintro rfl
      exact ⟨rfl, fun _ => rfl⟩
    · rintro ⟨_, h⟩
      cases a
      cases b
      simp only [isoStruct.mk.injEq]
      exact List.ext_getElem? h
  · intro v x hs
    exact ⟨lowerBound_take v x, lowerBound_drop v x hs, fun hx => (lowerBound_mem v x hx hs).2⟩

/-- Witness for `isoStruct_lt_strict_total`: the two automorphisms of the
group of order 2 are in order, and in the sorted vector of the two
`lower_bound` finds the second at the position 1. -/
theorem isoStruct_lt_strict_total_witness :
    isoStruct.lt ⟨[(0, 0)]⟩ ⟨[(0, 1)]⟩ = true ∧ isoStruct.lt ⟨[(0, 1)]⟩ ⟨[(0, 0)]⟩ = false ∧
    demoFullMap.Pairwise (fun a b => b.lt a = false) ∧
    demoFullMap[lowerBound demoFullMap ⟨[(0, 1)]⟩]? = some ⟨[(0, 1)]⟩ := by
  have hs : demoFullMap.Pairwise (fun a b => b.lt a = false) := by decide
  obtain ⟨_, _, h3, _, h5⟩ := isoStruct_lt_strict_total
  refine ⟨by decide, ?_, hs, (h5 demoFullMap ⟨[(0, 1)]⟩ hs).2.2 (by decide)⟩
  rcases h3 ⟨[(0, 0)]⟩ ⟨[(0, 1)]⟩ with h | h | h
  · exact h.2.1
  · exact absurd h.1 (by decide)
  · exact absurd h.2.2 (by decide)


/-- C38: `linearFacet::operator<` is irreflexive and transitive, and of two
different facets with the same number of classes one is less than the other;
but of two facets with the same `dim`, `sdim` and `sindx` of which the classes
of one are the first classes of the other neither is less than the other: the
facets with the classes `{0}` and `{0}, {1, 2, 3}` are different, the operator
does not order them, and `insert` of a `std::set<linearFacet>` that holds one
of them drops the other. -/
theorem linearFacet_lt_initial_classes :
    (∀ a : linearFacet, a.lt a = false) ∧
    (∀ a b c : linearFacet, a.lt b = true → b.lt c = true → a.lt c = true) ∧
    (∀ a b : linearFacet, a.vCentres.length = b.vCentres.length → a ≠ b →
      a.lt b = true ∨ b.lt a = true) ∧
    (∀ (dim sdim sindx : Nat) (l r : List centroid),
      linearFacet.lt ⟨dim, sdim, sindx, l⟩ ⟨dim, sdim, sindx, l ++ r⟩ = false ∧
      linearFacet.lt ⟨dim, sdim, sindx, l ++ r⟩ ⟨dim, sdim, sindx, l⟩ = false) ∧
    ((⟨1, 3, 0, [⟨[0]⟩]⟩ : linearFacet) ≠ ⟨1, 3, 0, [⟨[0]⟩, ⟨[1, 2, 3]⟩]⟩ ∧
      linearFacet.isValid ⟨1, 3, 0, [⟨[0]⟩, ⟨[1, 2, 3]⟩]⟩ = true ∧
      linearFacet.lt ⟨1, 3, 0, [⟨[0]⟩]⟩ ⟨1, 3, 0, [⟨[0]⟩, ⟨[1, 2, 3]⟩]⟩ = false ∧
      linearFacet.lt ⟨1, 3, 0, [⟨[0]⟩, ⟨[1, 2, 3]⟩]⟩ ⟨1, 3, 0, [⟨[0]⟩]⟩ = false ∧
      insertFacet [⟨1, 3, 0, [⟨[0]⟩]⟩] ⟨1, 3, 0, [⟨[0]⟩, ⟨[1, 2, 3]⟩]⟩
        = [⟨1, 3, 0, [⟨[0]⟩]⟩]) := by
  refine ⟨linearFacet_lt_irrefl, linearFacet_lt_trans, ?_, ?_, by decide⟩
  · intro a b hl hne
    cases hab : a.lt b with
    | true => exact Or.inl rfl
    | false =>
      cases hba : b.lt a with
      | true => exact Or.inr rfl
      | false => exact absurd (linearFacet_lt_trichotomy a b hl hab hba) hne
  · intro dim sdim sindx l r
    have h := facetLtLoop_initial l r
    simp [linearFacet.lt, h.1, h.2]

/-- Witness for `linearFacet_lt_initial_classes`: the facets of the 4-cycle and
of the identity on one tetrahedron, as `fixedPoints` builds them, have one
class and four classes; the operator orders them, and two facets with one
class each that differ are ordered as well. -/
theorem linearFacet_lt_initial_classes_witness :
    linearFacet.lt ⟨0, 3, 0, [⟨[0]⟩, ⟨[1]⟩, ⟨[2]⟩, ⟨[3]⟩]⟩ ⟨0, 3, 0, [⟨[0, 1, 2, 3]⟩]⟩ = true ∧
    (linearFacet.lt ⟨0, 3, 0, [⟨[0, 1, 2, 3]⟩]⟩ ⟨0, 3, 0, [⟨[0]⟩]⟩ = true ∨
      linearFacet.lt ⟨0, 3, 0, [⟨[0]⟩]⟩ ⟨0, 3, 0, [⟨[0, 1, 2, 3]⟩]⟩ = true) ∧
    linearFacet.lt ⟨0, 3, 0, [⟨[0]⟩]⟩ ⟨0, 3, 0, [⟨[0]⟩, ⟨[1]⟩]⟩ = false :=
  ⟨by decide,
    linearFacet_lt_initial_classes.2.2.1 ⟨0, 3, 0, [⟨[0, 1, 2, 3]⟩]⟩ ⟨0, 3, 0, [⟨[0]⟩]⟩ rfl
      (by decide),
    (linearFacet_lt_initial_classes.2.2.2.1 0 3 0 [⟨[0]⟩] [⟨[1]⟩]).1⟩


end Regina
